import Mathlib

/-!
Shared-memory slab pool and expiring hash map.

A shallow embedding of `shm_pool.h` (`ShmPool::MemoryPool`), `shm_map.h`
(`ShmMap::ShmHashMap`) and `sin_map.h` (`SinMap::SinHashMap`), followed by the
properties proved about them.

Conventions of the embedding.

* The data area `_data` is a function from slot index to `MemoryNode`; slot `i`
  is the `Node` at byte offset `i * NodeSize`.  A `Node *` is represented by its
  slot index, an `Obj *` by its byte offset from `_data` (`none` is `NULL`).
* `NodeSize` is `sizeof(MemoryNode<Obj>)` and `dataOff` is the byte offset of the
  member `_data` inside a `MemoryNode<Obj>`; both are fixed by the C++ layout and
  are parameters here.
* The 64-bit ring indices are natural numbers (the source itself remarks that a
  wrap of the read index is out of reach); the 32-bit quantities `_node_size`,
  `_count`, `_expire`, `_invalid` wrap explicitly.
* An operation that does not return normally (a loop that never exits, a failed
  `assert`, a dereferenced `NULL`) yields `none`.
-/

namespace ShmPool

/-- The array store `a[i] = v` on an array given as a function of the index. -/
def setAt {α : Type} (a : Nat → α) (i : Nat) (v : α) : Nat → α :=
  fun j => if j = i then v else a j

/-- The macro `OFFSET_NULL`: the offset that stands for "no reference". -/
def OFFSET_NULL : Nat := 1

/-- The struct `MemoryNode<Obj>`: one slot of the data area. -/
structure MemoryNode (Obj : Type) where
  used : Bool
  data : Obj

/-- The state of a `MemoryPool<Obj>`: the slot count `_node_size`, the layout
constants, the data area, the free queue and the two indices of `MemoryMeta`. -/
structure MemoryPool (Obj : Type) where
  node_size : Nat
  NodeSize : Nat
  dataOff : Nat
  nodes : Nat → MemoryNode Obj
  free_queue : Nat → Nat
  read_index : Nat
  write_index : Nat

variable {Obj : Type}

/-- The constructor `MemoryPool::MemoryPool` on a fresh segment (the branch
`_meta->_data == 0`): two slots are added to the requested count (in `uint32_t`),
every slot is zeroed (`zero` is the all-zero object) and unused, and queue entry
`i` holds the offset of slot `i`. -/
def MemoryPool.construct (node_size NodeSize dataOff : Nat) (zero : Obj) : MemoryPool Obj :=
  { node_size := (node_size + 2) % 4294967296
    NodeSize := NodeSize
    dataOff := dataOff
    nodes := fun _ => { used := false, data := zero }
    free_queue := fun i => NodeSize * i
    read_index := 0
    write_index := 0 }

/-- `GetNodeByOffset`: the slot that contains byte `offset`. -/
def MemoryPool.GetNodeByOffset (p : MemoryPool Obj) (offset : Nat) : Nat :=
  (offset / p.NodeSize) * p.NodeSize / p.NodeSize

/-- `GetNodeByObj`: the slot that contains the object at byte offset `ptr`. -/
def MemoryPool.GetNodeByObj (p : MemoryPool Obj) (ptr : Nat) : Nat :=
  p.GetNodeByOffset ((ptr / p.NodeSize) * p.NodeSize)

/-- `GetOffsetByNode`: the byte offset of a slot. -/
def MemoryPool.GetOffsetByNode (p : MemoryPool Obj) (node : Nat) : Nat :=
  node * p.NodeSize

/-- The address `&node->_data` as a byte offset. -/
def MemoryPool.dataPtr (p : MemoryPool Obj) (node : Nat) : Nat :=
  node * p.NodeSize + p.dataOff

/-- `Allocate`: the read index always advances; the queue entry at the old index
is taken unless it is `OFFSET_NULL`. -/
def MemoryPool.Allocate (p : MemoryPool Obj) : Option Nat × MemoryPool Obj :=
  let index := p.read_index % p.node_size
  let p1 := { p with read_index := p.read_index + 1 }
  if p.free_queue index = OFFSET_NULL then (none, p1)
  else
    let node := p.GetNodeByOffset (p.free_queue index)
    (some (p.dataPtr node),
      { p1 with
        free_queue := setAt p.free_queue index OFFSET_NULL
        nodes := setAt p.nodes node { p.nodes node with used := true } })

/-- `Free`: nothing happens on an unused slot; otherwise the flag is cleared,
the write index advances, the assertion `write <= read` is checked and the
slot offset is stored at the old write position. -/
def MemoryPool.Free (p : MemoryPool Obj) (ptr : Nat) : Option (MemoryPool Obj) :=
  let node := p.GetNodeByObj ptr
  if (p.nodes node).used = false then some p
  else
    let nodes1 := setAt p.nodes node { p.nodes node with used := false }
    let node_offset := p.GetOffsetByNode node
    let index := p.write_index % p.node_size
    if p.write_index + 1 ≤ p.read_index then
      some { p with
        nodes := nodes1
        write_index := p.write_index + 1
        free_queue := setAt p.free_queue index node_offset }
    else none

/-- `GetObjByOffset`: `NULL` when the slot of `offset` is unused or `offset` is
`OFFSET_NULL`, else the object pointer `_data + offset`. -/
def MemoryPool.GetObjByOffset (p : MemoryPool Obj) (offset : Nat) : Option Nat :=
  if (p.nodes (p.GetNodeByOffset offset)).used = false ∨ offset = OFFSET_NULL then none
  else some offset

/-- `GetOffsetByObj`: pointer minus `_data`. -/
def MemoryPool.GetOffsetByObj (_p : MemoryPool Obj) (ptr : Nat) : Nat := ptr

/-- Reading through an `Obj *`: the object of the slot that contains byte `ptr`
(every object pointer handed out by the pool is `dataPtr` of its slot). -/
def MemoryPool.read (p : MemoryPool Obj) (ptr : Nat) : Obj :=
  (p.nodes (ptr / p.NodeSize)).data

/-- Writing through an `Obj *`: replaces the object of the slot that contains
byte `ptr`; the flag `_used` of the slot is untouched. -/
def MemoryPool.write (p : MemoryPool Obj) (ptr : Nat) (o : Obj) : MemoryPool Obj :=
  let node := ptr / p.NodeSize
  { p with nodes := setAt p.nodes node { p.nodes node with data := o } }

/-- Repeated `Allocate`: the pointers returned by `k` calls in a row, and the
final pool. -/
def MemoryPool.allocateMany : Nat → MemoryPool Obj → List (Option Nat) × MemoryPool Obj
  | 0, p => ([], p)
  | k + 1, p =>
    let r := p.Allocate
    let rs := MemoryPool.allocateMany k r.2
    (r.1 :: rs.1, rs.2)

/-- The pool obtained from a fresh pool of `n` slots by `k` allocations that
all succeeded (used to describe the run of `Allocate` on a fresh pool). -/
def MemoryPool.afterAllocs (n S D : Nat) (zero : Obj) (k : Nat) : MemoryPool Obj :=
  { node_size := n, NodeSize := S, dataOff := D,
    nodes := fun i => { used := decide (i < k), data := zero },
    free_queue := fun i => if i < k then OFFSET_NULL else S * i,
    read_index := k, write_index := 0 }

/-- One call on a pool: `Allocate()`, or `Free` of the object of slot `slot`. -/
inductive PoolOp where
  | allocate
  | free (slot : Nat)
  deriving DecidableEq, Repr

/-- The pool after one call; `Free` is only called on objects of the pool. -/
def MemoryPool.step (p : MemoryPool Obj) : PoolOp → Option (MemoryPool Obj)
  | PoolOp.allocate => some p.Allocate.2
  | PoolOp.free slot => if slot < p.node_size then p.Free (p.dataPtr slot) else none

/-- The pool after a sequence of calls. -/
def MemoryPool.run (p : MemoryPool Obj) (ops : List PoolOp) : Option (MemoryPool Obj) :=
  ops.foldlM MemoryPool.step p

/-- One call on a pool in a run in which no `Allocate` returns `NULL`. -/
def MemoryPool.stepNoFail (p : MemoryPool Obj) : PoolOp → Option (MemoryPool Obj)
  | PoolOp.allocate => if p.Allocate.1 = none then none else some p.Allocate.2
  | PoolOp.free slot => if slot < p.node_size then p.Free (p.dataPtr slot) else none

/-- The pool after a sequence of calls none of which is a failed `Allocate`. -/
def MemoryPool.runNoFail (p : MemoryPool Obj) (ops : List PoolOp) : Option (MemoryPool Obj) :=
  ops.foldlM MemoryPool.stepNoFail p

/-- The number of slots with `_used == true`. -/
def MemoryPool.usedCount (p : MemoryPool Obj) : Nat :=
  (List.range p.node_size).countP (fun i => (p.nodes i).used)

/-- Consistency of the free queue with the `_used` flags: the layout constants are
those of a C++ struct, every queue entry other than `OFFSET_NULL` lies in an
unused slot of the pool, no two entries lie in the same slot, and there are at
least as many consumed reads as used slots and writes together. -/
structure MemoryPool.RingInv (p : MemoryPool Obj) : Prop where
  size_ge : 2 ≤ p.NodeSize
  data_lt : p.dataOff < p.NodeSize
  slots_pos : 0 < p.node_size
  ring_free : ∀ j, j < p.node_size → p.free_queue j ≠ OFFSET_NULL →
    p.free_queue j / p.NodeSize < p.node_size ∧
      (p.nodes (p.free_queue j / p.NodeSize)).used = false
  ring_inj : ∀ j j', j < p.node_size → j' < p.node_size → p.free_queue j ≠ OFFSET_NULL →
    p.free_queue j' ≠ OFFSET_NULL →
    p.free_queue j / p.NodeSize = p.free_queue j' / p.NodeSize → j = j'
  count_le : p.usedCount + p.write_index ≤ p.read_index

/-- The shape of the queue while no `Allocate` has failed: the positions from the
write index up to the read index are consumed, the following ones up to one lap
after the write index are filled, and the used slots are exactly the reads not
yet matched by a write. -/
structure MemoryPool.NoFailInv (p : MemoryPool Obj) : Prop where
  ring : p.RingInv
  read_le : p.read_index ≤ p.write_index + p.node_size
  count_eq : p.usedCount + p.write_index = p.read_index
  consumed : ∀ j, p.write_index ≤ j → j < p.read_index →
    p.free_queue (j % p.node_size) = OFFSET_NULL
  filled : ∀ j, p.read_index ≤ j → j < p.write_index + p.node_size →
    p.free_queue (j % p.node_size) ≠ OFFSET_NULL

/-- Every queue entry other than `OFFSET_NULL` is the offset of a slot. -/
def MemoryPool.RingAligned (p : MemoryPool Obj) : Prop :=
  ∀ j, j < p.node_size → p.free_queue j ≠ OFFSET_NULL →
    p.free_queue j = p.GetOffsetByNode (p.free_queue j / p.NodeSize)

/-- Every unused slot has its offset stored at a queue position between the read
index and one lap after the write index. -/
def MemoryPool.UnusedInRing (p : MemoryPool Obj) : Prop :=
  ∀ s, s < p.node_size → (p.nodes s).used = false →
    ∃ j, p.read_index ≤ j ∧ j < p.write_index + p.node_size ∧
      p.free_queue (j % p.node_size) = p.GetOffsetByNode s

/-- The traversal loop of `shm_pool_test.cc`,
`while (current != NULL) { ...; current = region.GetObjByOffset(current->next); }`,
for an object type with the link field `next`: the objects visited, in order. -/
def MemoryPool.traverse (next : Obj → Nat) :
    Nat → MemoryPool Obj → Option Nat → Option (List Nat)
  | 0, _, _ => none
  | _ + 1, _, none => some []
  | fuel + 1, p, some current =>
    (MemoryPool.traverse next fuel p (p.GetObjByOffset (next (p.read current)))).map
      (fun l => current :: l)

/-- A list of allocated objects linked through their offsets: `l` lists objects of
used slots of the pool, `start` is the offset of the first, the field `next` of
each holds the offset of the following one and that of the last holds
`OFFSET_NULL`. -/
def MemoryPool.Linked (p : MemoryPool Obj) (next : Obj → Nat) : Nat → List Nat → Prop
  | start, [] => start = OFFSET_NULL
  | start, x :: l => start = p.GetOffsetByObj x ∧
      (∃ node, x = p.dataPtr node ∧ (p.nodes node).used = true) ∧
      MemoryPool.Linked p next (next (p.read x)) l

/-- The pool states that follow `p` by calls of `Allocate`, by stores through
object pointers and by calls of `Free` on objects outside slot `node`. -/
inductive MemoryPool.NotFreed (node : Nat) (p : MemoryPool Obj) : MemoryPool Obj → Prop where
  | refl : MemoryPool.NotFreed node p p
  | allocate (q : MemoryPool Obj) : MemoryPool.NotFreed node p q →
      MemoryPool.NotFreed node p q.Allocate.2
  | free (q q1 : MemoryPool Obj) (ptr : Nat) : MemoryPool.NotFreed node p q →
      q.GetNodeByObj ptr ≠ node → q.Free ptr = some q1 → MemoryPool.NotFreed node p q1
  | write (q : MemoryPool Obj) (ptr : Nat) (o : Obj) : MemoryPool.NotFreed node p q →
      MemoryPool.NotFreed node p (q.write ptr o)

/-- The first loop of `SyncMemory`: the slots collected into `free_set`, walking
the free queue from `index` while the entry is not `OFFSET_NULL` and fewer than
`_node_size` entries have been taken (`k` is the number of entries still allowed). -/
def MemoryPool.freeSetLoop (p : MemoryPool Obj) : Nat → Nat → List Nat
  | 0, _ => []
  | k + 1, index =>
    if p.free_queue (index % p.node_size) = OFFSET_NULL then []
    else p.GetNodeByOffset (p.free_queue (index % p.node_size)) ::
      MemoryPool.freeSetLoop p k (index + 1)

/-- The body of the `for` loop of `SyncMemory` for slot `i`. -/
def MemoryPool.syncSlot (obj_set free_set : List Nat) (q : MemoryPool Obj) (i : Nat) :
    Option (MemoryPool Obj) :=
  if (q.nodes i).used then
    if obj_set.contains (q.dataPtr i) then some q else q.Free (q.dataPtr i)
  else
    if free_set.contains i then some q else q.Free (q.dataPtr i)

/-- `SyncMemory`; `obj_set` lists the object pointers of the caller's set. -/
def MemoryPool.SyncMemory (p : MemoryPool Obj) (obj_set : List Nat) : Option (MemoryPool Obj) :=
  let free_set := p.freeSetLoop p.node_size p.read_index
  (List.range p.node_size).foldlM (MemoryPool.syncSlot obj_set free_set) p

/-- The pool states reachable from `p0` by calls of `Allocate`, of `Free` on the
object of a slot of the pool and of `SyncMemory` that return. -/
inductive MemoryPool.Reachable (p0 : MemoryPool Obj) : MemoryPool Obj → Prop where
  | init : MemoryPool.Reachable p0 p0
  | allocate (p : MemoryPool Obj) : MemoryPool.Reachable p0 p →
      MemoryPool.Reachable p0 p.Allocate.2
  | free (p p1 : MemoryPool Obj) (slot : Nat) : MemoryPool.Reachable p0 p →
      slot < p.node_size → p.Free (p.dataPtr slot) = some p1 → MemoryPool.Reachable p0 p1
  | sync (p p1 : MemoryPool Obj) (obj_set : List Nat) : MemoryPool.Reachable p0 p →
      p.SyncMemory obj_set = some p1 → MemoryPool.Reachable p0 p1

end ShmPool

namespace ShmMap

open ShmPool

/-- The constant `DEBFAULT_BUCKET_SIZE`. -/
def DEBFAULT_BUCKET_SIZE : Nat := 1024

/-- The struct `ItemNode<Key, Value>`; `expire` and `invalid` are C `int`s. -/
structure ItemNode (K V : Type) where
  next : Nat
  key : K
  value : V
  expire : Int
  invalid : Int
  del_next : Nat

/-- The struct `BucketItem`. -/
structure BucketItem where
  count : Nat
  head : Nat
  tail : Nat

/-- The enum `SinHashRet` of `shm_map.h`. -/
inductive SinHashRet where
  | RET_OK
  | RET_NOT_FOUND
  | RET_NO_MEMORY
  deriving DecidableEq, Repr

/-- Enum `ItemStatus`, value `VALID`. -/
def VALID : Int := 0
/-- Enum `ItemStatus`, value `COLLECTING`. -/
def COLLECTING : Int := 1
/-- Enum `ItemStatus`, value `WAITING_DELETE`. -/
def WAITING_DELETE : Int := 2
/-- Enum `ItemStatus`, value `WRITING`. -/
def WRITING : Int := 3

/-- Conversion of an integer to the 32-bit `int` that stores it. -/
def wrapInt32 (x : Int) : Int := (x + 2147483648) % 4294967296 - 2147483648

/-- The state of a `ShmHashMap<Key, Value>` together with the pool it points to
and its virtual `HashCode`. -/
structure ShmHashMap (K V : Type) where
  bucket_size : Nat
  gc_timestamp : Nat
  pool : MemoryPool (ItemNode K V)
  garbage_list_head_offset : Nat
  garbage_list_tail_offset : Nat
  buckets : Nat → BucketItem
  HashCode : K → Nat

variable {K V : Type}

/-- The constructor `ShmHashMap::ShmHashMap` on a fresh segment; `gc_timestamp`
is the (uninitialised) content of `_gc_timestamp`. -/
def ShmHashMap.construct (HashCode : K → Nat) (pool : MemoryPool (ItemNode K V))
    (bucket_size gc_timestamp : Nat) : ShmHashMap K V :=
  { bucket_size := if bucket_size = 0 then DEBFAULT_BUCKET_SIZE else bucket_size
    gc_timestamp := gc_timestamp
    pool := pool
    garbage_list_head_offset := OFFSET_NULL
    garbage_list_tail_offset := OFFSET_NULL
    buckets := fun _ => { count := 0, head := OFFSET_NULL, tail := OFFSET_NULL }
    HashCode := HashCode }

/-- `OffsetToNode`. -/
def ShmHashMap.OffsetToNode (m : ShmHashMap K V) (offset : Nat) : Option Nat :=
  m.pool.GetObjByOffset offset

/-- `NodeToOffset`. -/
def ShmHashMap.NodeToOffset (m : ShmHashMap K V) (node : Nat) : Nat :=
  m.pool.GetOffsetByObj node

/-- The item an `Item *` points to. -/
def ShmHashMap.item (m : ShmHashMap K V) (ptr : Nat) : ItemNode K V :=
  m.pool.read ptr

/-- Assignment through an `Item *`. -/
def ShmHashMap.setItem (m : ShmHashMap K V) (ptr : Nat) (it : ItemNode K V) : ShmHashMap K V :=
  { m with pool := m.pool.write ptr it }

/-- Assignment to one bucket. -/
def ShmHashMap.setBucket (m : ShmHashMap K V) (index : Nat) (b : BucketItem) : ShmHashMap K V :=
  { m with buckets := setAt m.buckets index b }

/-- The test `p->_expire != 0 && p->_expire < time(NULL)`. -/
def isExpired (it : ItemNode K V) (now : Int) : Bool :=
  decide (it.expire ≠ 0) && decide (it.expire < now)

/-- The stored value of `expire != 0 ? time(NULL) + expire : 0`. -/
def expireAt (expire now : Int) : Int :=
  if expire ≠ 0 then wrapInt32 (now + expire) else 0

/-- The loop of `GetNode`; the cursor `p` is an `Item *`. -/
def ShmHashMap.GetNodeLoop [DecidableEq K] (m : ShmHashMap K V) (key : K) :
    Nat → Option Nat → Option (Option Nat)
  | 0, _ => none
  | _ + 1, none => some none
  | fuel + 1, some p =>
    if (m.item p).key = key then some (some p)
    else ShmHashMap.GetNodeLoop m key fuel (m.OffsetToNode (m.item p).next)

/-- `GetNode`. -/
def ShmHashMap.GetNode [DecidableEq K] (fuel : Nat) (m : ShmHashMap K V) (index : Nat)
    (key : K) : Option (Option Nat) :=
  m.GetNodeLoop key fuel (m.OffsetToNode (m.buckets index).head)

/-- `AddNodeItem`. -/
def ShmHashMap.AddNodeItem (m : ShmHashMap K V) (index : Nat) (key : K) (value : V)
    (expire now : Int) : SinHashRet × ShmHashMap K V :=
  match m.pool.Allocate with
  | (none, pool1) => (SinHashRet.RET_NO_MEMORY, { m with pool := pool1 })
  | (some new_node, pool1) =>
    let m1 : ShmHashMap K V := { m with pool := pool1 }
    let m2 := m1.setItem new_node
      { invalid := 0, key := key, value := value, next := OFFSET_NULL,
        expire := expireAt expire now, del_next := OFFSET_NULL }
    let bucket := m2.buckets index
    let old_offset := bucket.tail
    let m3 := m2.setBucket index { bucket with tail := m2.NodeToOffset new_node }
    let m4 :=
      match m3.OffsetToNode old_offset with
      | none => m3.setBucket index { m3.buckets index with head := m3.NodeToOffset new_node }
      | some old_node =>
        m3.setItem old_node { m3.item old_node with next := m3.NodeToOffset new_node }
    (SinHashRet.RET_OK,
      m4.setBucket index
        { m4.buckets index with count := ((m4.buckets index).count + 1) % 4294967296 })

/-- The `while` loop of `Insert` and the three stores after it; `invalid` is the
local variable that `compare_exchange_strong` reloads on failure. -/
def ShmHashMap.InsertLoop (index : Nat) (key : K) (value : V) (expire now : Int) (item : Nat) :
    Nat → Int → ShmHashMap K V → Option (SinHashRet × ShmHashMap K V)
  | 0, _, _ => none
  | fuel + 1, invalid, m =>
    if (m.item item).invalid = invalid then
      let m1 := m.setItem item { m.item item with invalid := WRITING }
      let m2 := m1.setItem item { m1.item item with value := value }
      let m3 := m2.setItem item { m2.item item with expire := expireAt expire now }
      some (SinHashRet.RET_OK, m3.setItem item { m3.item item with invalid := VALID })
    else if (m.item item).invalid = WRITING then
      ShmHashMap.InsertLoop index key value expire now item fuel VALID m
    else
      match m.AddNodeItem index key value expire now with
      | (SinHashRet.RET_NO_MEMORY, m1) => some (SinHashRet.RET_NO_MEMORY, m1)
      | (_, m1) =>
        ShmHashMap.InsertLoop index key value expire now item fuel (m.item item).invalid m1

/-- `Insert` at time `now`. -/
def ShmHashMap.Insert [DecidableEq K] (fuel : Nat) (m : ShmHashMap K V) (key : K) (value : V)
    (expire now : Int) : Option (SinHashRet × ShmHashMap K V) :=
  let index := m.HashCode key % m.bucket_size
  match m.GetNode fuel index key with
  | none => none
  | some none => some (m.AddNodeItem index key value expire now)
  | some (some item) =>
    if isExpired (m.item item) now then some (m.AddNodeItem index key value expire now)
    else ShmHashMap.InsertLoop index key value expire now item fuel VALID m

/-- `Get` at time `now`: the return code and the value written to the out
parameter, if any. -/
def ShmHashMap.Get [DecidableEq K] (fuel : Nat) (m : ShmHashMap K V) (key : K) (now : Int) :
    Option (SinHashRet × Option V) :=
  let index := m.HashCode key % m.bucket_size
  match m.GetNode fuel index key with
  | none => none
  | some none => some (SinHashRet.RET_NOT_FOUND, none)
  | some (some item) =>
    if isExpired (m.item item) now then some (SinHashRet.RET_NOT_FOUND, none)
    else some (SinHashRet.RET_OK, some (m.item item).value)

/-- `AddGarbageList`; dereferencing a `NULL` garbage tail does not return. -/
def ShmHashMap.AddGarbageList (m : ShmHashMap K V) (node : Nat) : Option (ShmHashMap K V) :=
  if m.garbage_list_head_offset = OFFSET_NULL then
    some { m with
      garbage_list_head_offset := m.NodeToOffset node
      garbage_list_tail_offset := m.NodeToOffset node }
  else
    match m.OffsetToNode m.garbage_list_tail_offset with
    | none => none
    | some t =>
      let m1 := m.setItem t { m.item t with del_next := m.NodeToOffset node }
      some { m1 with garbage_list_tail_offset := m1.NodeToOffset node }

/-- `RemoveExpireNode` on the bucket with the given index: enlist the node, then
`fetch_sub` on the 32-bit counter. -/
def ShmHashMap.RemoveExpireNode (m : ShmHashMap K V) (p : Nat) (index : Nat) :
    Option (ShmHashMap K V) :=
  match m.AddGarbageList p with
  | none => none
  | some m1 =>
    some (m1.setBucket index
      { m1.buckets index with count := ((m1.buckets index).count + 4294967295) % 4294967296 })

/-- The loop of `CheckDoubleFree`. -/
def ShmHashMap.CheckDoubleFreeLoop (m : ShmHashMap K V) (node : Nat) :
    Nat → Option Nat → Option Bool
  | 0, _ => none
  | _ + 1, none => some false
  | fuel + 1, some p1 =>
    if p1 = node then some true
    else ShmHashMap.CheckDoubleFreeLoop m node fuel (m.OffsetToNode (m.item p1).del_next)

/-- `CheckDoubleFree`. -/
def ShmHashMap.CheckDoubleFree (fuel : Nat) (m : ShmHashMap K V) (node : Nat) : Option Bool :=
  match m.OffsetToNode m.garbage_list_head_offset with
  | none => some false
  | some p0 =>
    if p0 = node then some true
    else m.CheckDoubleFreeLoop node fuel (m.OffsetToNode (m.item p0).del_next)

/-- Unlinking in `Scan`: `p0->_next = p1->_next`. -/
def ShmHashMap.unlinkNext (m : ShmHashMap K V) (p0 p1 : Nat) : ShmHashMap K V :=
  m.setItem p0 { m.item p0 with next := (m.item p1).next }

/-- The interior `while` loop of `Scan` on bucket `index`, with the cursors `p0`
and `p1`. -/
def ShmHashMap.ScanLoop (index : Nat) (now : Int) :
    Nat → ShmHashMap K V → Nat → Option Nat → Option (ShmHashMap K V)
  | 0, _, _, _ => none
  | _ + 1, m, _, none => some m
  | fuel + 1, m, p0, some p1 =>
    if (m.item p1).next = OFFSET_NULL then some m
    else if isExpired (m.item p1) now then
      if (m.item p1).invalid = VALID then
        match (m.setItem p1 { m.item p1 with invalid := COLLECTING }).RemoveExpireNode p1 index with
        | none => none
        | some m1 =>
          let m2 := m1.unlinkNext p0 p1
          ShmHashMap.ScanLoop index now fuel m2 p0 (m2.OffsetToNode (m2.item p0).next)
      else if (m.item p1).invalid = COLLECTING ∧ (m.item p1).expire < now - 10 then
        match m.CheckDoubleFree fuel p1 with
        | none => none
        | some dbl =>
          match (if dbl then some m else m.RemoveExpireNode p1 index) with
          | none => none
          | some m1 =>
            let m2 := m1.unlinkNext p0 p1
            ShmHashMap.ScanLoop index now fuel m2 p0 (m2.OffsetToNode (m2.item p0).next)
      else ShmHashMap.ScanLoop index now fuel m p0 (some p1)
    else ShmHashMap.ScanLoop index now fuel m p1 (m.OffsetToNode (m.item p1).next)

/-- The head check that ends the body of the `for` loop of `Scan`. -/
def ShmHashMap.ScanHead (index : Nat) (now : Int) (m : ShmHashMap K V) :
    Option (ShmHashMap K V) :=
  match m.OffsetToNode (m.buckets index).head with
  | none => none
  | some p0 =>
    if isExpired (m.item p0) now ∧ (m.item p0).invalid = VALID then
      match (m.setItem p0 { m.item p0 with invalid := COLLECTING }).RemoveExpireNode p0 index with
      | none => none
      | some m1 =>
        let bucket := m1.buckets index
        if bucket.head = bucket.tail then
          some (m1.setBucket index { bucket with tail := OFFSET_NULL, head := OFFSET_NULL })
        else
          some (m1.setBucket index { bucket with head := (m1.item p0).next })
    else some m

/-- The body of the `for` loop of `Scan` for one bucket. -/
def ShmHashMap.ScanBucket (fuel : Nat) (now : Int) (m : ShmHashMap K V) (index : Nat) :
    Option (ShmHashMap K V) :=
  match m.OffsetToNode (m.buckets index).head with
  | none => some m
  | some p0 =>
    match ShmHashMap.ScanLoop index now fuel m p0 (m.OffsetToNode (m.item p0).next) with
    | none => none
    | some m1 => ShmHashMap.ScanHead index now m1

/-- `Scan` at time `now`. -/
def ShmHashMap.Scan (fuel : Nat) (now : Int) (m : ShmHashMap K V) : Option (ShmHashMap K V) :=
  (List.range m.bucket_size).foldlM (ShmHashMap.ScanBucket fuel now) m

/-- The loop of `SafeFree` with the cursors `p0` and `p1`, and the store to the
garbage tail that follows it. -/
def ShmHashMap.SafeFreeLoop :
    Nat → ShmHashMap K V → Nat → Option Nat → Option (ShmHashMap K V)
  | 0, _, _, _ => none
  | _ + 1, m, p0, none => some { m with garbage_list_tail_offset := m.NodeToOffset p0 }
  | fuel + 1, m, p0, some p1 =>
    let old := (m.item p1).invalid
    let m1 := m.setItem p1 { m.item p1 with invalid := wrapInt32 (old + 1) }
    if old = 2 then
      let m2 := m1.setItem p0 { m1.item p0 with del_next := (m1.item p1).del_next }
      match m2.pool.Free p1 with
      | none => none
      | some pool1 =>
        let m3 : ShmHashMap K V := { m2 with pool := pool1 }
        ShmHashMap.SafeFreeLoop fuel m3 p0 (m3.OffsetToNode (m3.item p0).del_next)
    else ShmHashMap.SafeFreeLoop fuel m1 p1 (m1.OffsetToNode (m1.item p1).del_next)

/-- `SafeFree`. -/
def ShmHashMap.SafeFree (fuel : Nat) (m : ShmHashMap K V) : Option (ShmHashMap K V) :=
  match m.OffsetToNode m.garbage_list_head_offset with
  | none => some m
  | some p0 => ShmHashMap.SafeFreeLoop fuel m p0 (m.OffsetToNode (m.item p0).del_next)

/-- `GC` at time `now`; the weak compare-exchange on `_gc_timestamp` meets no
contention and succeeds. -/
def ShmHashMap.GC (fuel : Nat) (m : ShmHashMap K V) (now : Int) : Option (ShmHashMap K V) :=
  let last_timestamp := m.gc_timestamp
  let now32 := (now % 4294967296).toNat
  if (((last_timestamp + 2) % 4294967296 : Nat) : Int) < now then
    match ShmHashMap.Scan fuel now { m with gc_timestamp := now32 } with
    | none => none
    | some m1 => ShmHashMap.SafeFree fuel m1
  else some m

/-- `GetCount`: the sum of the bucket counters, accumulated in an `int`. -/
def ShmHashMap.GetCount (m : ShmHashMap K V) : Int :=
  wrapInt32 (((List.range m.bucket_size).map (fun i => (m.buckets i).count)).sum)

/-- The slot that holds the item at byte offset `x`. -/
def ShmHashMap.slot (m : ShmHashMap K V) (x : Nat) : Nat := x / m.pool.NodeSize

/-- A chain of items: `l` lists the item pointers visited from the offset `start`
by following the link field `link` until `OFFSET_NULL`; each of them is an
offset that `OffsetToNode` resolves. -/
def ShmHashMap.Chain (m : ShmHashMap K V) (link : ItemNode K V → Nat) :
    Nat → List Nat → Prop
  | start, [] => start = OFFSET_NULL
  | start, x :: l => start = x ∧ m.OffsetToNode x = some x ∧
      ShmHashMap.Chain m link (link (m.item x)) l

/-- The walk of `GetNode`, `GetAllKeys` and `Scan` from the offset `start`: `l`
lists the item pointers visited by following `_next` until `OffsetToNode` returns
`NULL` (on `OFFSET_NULL` or on an offset in an unused slot). -/
def ShmHashMap.IsWalk (m : ShmHashMap K V) : Nat → List Nat → Prop
  | start, [] => m.OffsetToNode start = none
  | start, x :: l => m.OffsetToNode start = some x ∧ ShmHashMap.IsWalk m (m.item x).next l

/-- Bucket `b` is well formed with chain `l`: the chain from the head is `l` and
ends at the tail, the counter is its length, its items lie in pairwise different
slots of the pool, are `VALID`, are not linked into the garbage list and carry
keys of this bucket. -/
structure ShmHashMap.BucketWF (m : ShmHashMap K V) (b : Nat) (l : List Nat) : Prop where
  chain : m.Chain (fun it => it.next) (m.buckets b).head l
  tail_nil : l = [] → (m.buckets b).tail = OFFSET_NULL
  tail_last : ∀ t, l.getLast? = some t → (m.buckets b).tail = t
  count : (m.buckets b).count = l.length
  nodup : (l.map m.slot).Nodup
  nodes : ∀ x, x ∈ l → m.slot x < m.pool.node_size ∧ (m.item x).invalid = VALID ∧
    (m.item x).del_next = OFFSET_NULL ∧ m.HashCode (m.item x).key % m.bucket_size = b

/-- The garbage list is well formed with content `g`: the `_del_next` chain from
the garbage head is `g` and ends at the garbage tail, its items lie in pairwise
different slots of the pool and are `COLLECTING` or `WAITING_DELETE`. -/
structure ShmHashMap.GarbageWF (m : ShmHashMap K V) (g : List Nat) : Prop where
  chain : m.Chain (fun it => it.del_next) m.garbage_list_head_offset g
  tail_last : ∀ t, g.getLast? = some t → m.garbage_list_tail_offset = t
  nodup : (g.map m.slot).Nodup
  nodes : ∀ x, x ∈ g → m.slot x < m.pool.node_size ∧
    ((m.item x).invalid = COLLECTING ∨ (m.item x).invalid = WAITING_DELETE)

/-- Well-formedness of a map state: the pool is consistent, item offsets differ
from `OFFSET_NULL`, every bucket and the garbage list are well formed. -/
structure ShmHashMap.WF (m : ShmHashMap K V) : Prop where
  pool : m.pool.RingInv
  data_gt : 1 < m.pool.dataOff
  slots_lt : m.pool.node_size < 4294967296
  bucket_pos : 0 < m.bucket_size
  buckets : ∀ b, b < m.bucket_size → ∃ l, m.BucketWF b l
  garbage : ∃ g, m.GarbageWF g

/-- The effect of a successful `AddNodeItem` on bucket `index` with chain `l`:
`m1` differs from `m` by the slot of the new item at `a` (taken from the free
queue, holding `it`), by the `_next` field of the last item of `l`, by the bucket
`index` and by the read position of the pool. -/
structure ShmHashMap.AppendedTo (m m1 : ShmHashMap K V) (index : Nat) (l : List Nat)
    (a : Nat) (it : ItemNode K V) : Prop where
  new_slot_lt : m.slot a < m.pool.node_size
  new_unused : (m.pool.nodes (m.slot a)).used = false
  new_ne : a ≠ OFFSET_NULL
  bucket_size_eq : m1.bucket_size = m.bucket_size
  hash_eq : m1.HashCode = m.HashCode
  gc_eq : m1.gc_timestamp = m.gc_timestamp
  ghead_eq : m1.garbage_list_head_offset = m.garbage_list_head_offset
  gtail_eq : m1.garbage_list_tail_offset = m.garbage_list_tail_offset
  NodeSize_eq : m1.pool.NodeSize = m.pool.NodeSize
  node_size_eq : m1.pool.node_size = m.pool.node_size
  dataOff_eq : m1.pool.dataOff = m.pool.dataOff
  read_eq : m1.pool.read_index = m.pool.read_index + 1
  write_eq : m1.pool.write_index = m.pool.write_index
  queue_eq : m1.pool.free_queue
    = setAt m.pool.free_queue (m.pool.read_index % m.pool.node_size) OFFSET_NULL
  pool_inv : m1.pool.RingInv
  new_node : m1.pool.nodes (m.slot a) = { used := true, data := it }
  last_node : ∀ t, l.getLast? = some t →
    m1.pool.nodes (m.slot t) = { used := true, data := { m.item t with next := a } }
  other_nodes : ∀ s, s ≠ m.slot a → (∀ t, l.getLast? = some t → s ≠ m.slot t) →
    m1.pool.nodes s = m.pool.nodes s
  bucket : m1.buckets index =
    { count := ((m.buckets index).count + 1) % 4294967296
      head := if l = [] then a else (m.buckets index).head
      tail := a }
  other_buckets : ∀ b, b ≠ index → m1.buckets b = m.buckets b

/-- Assignment to the two anchors of the garbage list. -/
def ShmHashMap.setGarbage (m : ShmHashMap K V) (head tail : Nat) : ShmHashMap K V :=
  { m with garbage_list_head_offset := head, garbage_list_tail_offset := tail }

/-- The effect of unlinking the item `x` from the chain `l1 ++ x :: l2` of bucket
`index` during `Scan`, with garbage list `g` before: `m1` differs from `m` by the
state of `x`, by the garbage link of the last item of `g`, by the `_next` field
of the last item of `l1`, by the bucket `index` and by the garbage anchors. -/
structure ShmHashMap.RemovedFrom (m m1 : ShmHashMap K V) (index : Nat) (l1 : List Nat)
    (x : Nat) (l2 g : List Nat) : Prop where
  bucket_size_eq : m1.bucket_size = m.bucket_size
  hash_eq : m1.HashCode = m.HashCode
  gc_eq : m1.gc_timestamp = m.gc_timestamp
  NodeSize_eq : m1.pool.NodeSize = m.pool.NodeSize
  node_size_eq : m1.pool.node_size = m.pool.node_size
  dataOff_eq : m1.pool.dataOff = m.pool.dataOff
  pool_inv : m1.pool.RingInv
  used_eq : ∀ s, (m1.pool.nodes s).used = (m.pool.nodes s).used
  ghead_eq : m1.garbage_list_head_offset = if g = [] then x else m.garbage_list_head_offset
  gtail_eq : m1.garbage_list_tail_offset = x
  item_x : m1.item x = { m.item x with invalid := COLLECTING }
  item_gt : ∀ t, g.getLast? = some t → m1.item t = { m.item t with del_next := x }
  item_p0 : ∀ p, l1.getLast? = some p → m1.item p = { m.item p with next := (m.item x).next }
  item_other : ∀ y, m.slot y ≠ m.slot x → (∀ t, g.getLast? = some t → m.slot y ≠ m.slot t) →
    (∀ p, l1.getLast? = some p → m.slot y ≠ m.slot p) → m1.item y = m.item y
  bucket : m1.buckets index =
    { count := ((m.buckets index).count + 4294967295) % 4294967296
      head := if l1 = [] then (if l2 = [] then OFFSET_NULL else (m.item x).next)
        else (m.buckets index).head
      tail := if l1 = [] ∧ l2 = [] then OFFSET_NULL else (m.buckets index).tail }
  other_buckets : ∀ b, b ≠ index → m1.buckets b = m.buckets b

/-- The effect of the first two steps of unlinking the item `x` of bucket `index`
during `Scan` (the exchange of its state and `RemoveExpireNode`), with garbage
list `g` before. -/
structure ShmHashMap.EnlistedFrom (m m1 : ShmHashMap K V) (index : Nat) (x : Nat)
    (g : List Nat) : Prop where
  bucket_size_eq : m1.bucket_size = m.bucket_size
  hash_eq : m1.HashCode = m.HashCode
  gc_eq : m1.gc_timestamp = m.gc_timestamp
  NodeSize_eq : m1.pool.NodeSize = m.pool.NodeSize
  node_size_eq : m1.pool.node_size = m.pool.node_size
  dataOff_eq : m1.pool.dataOff = m.pool.dataOff
  pool_inv : m1.pool.RingInv
  used_eq : ∀ s, (m1.pool.nodes s).used = (m.pool.nodes s).used
  ghead_eq : m1.garbage_list_head_offset = if g = [] then x else m.garbage_list_head_offset
  gtail_eq : m1.garbage_list_tail_offset = x
  item_x : m1.item x = { m.item x with invalid := COLLECTING }
  item_gt : ∀ t, g.getLast? = some t → m1.item t = { m.item t with del_next := x }
  item_other : ∀ y, m.slot y ≠ m.slot x → (∀ t, g.getLast? = some t → m.slot y ≠ m.slot t) →
    m1.item y = m.item y
  bucket : m1.buckets index =
    { m.buckets index with count := ((m.buckets index).count + 4294967295) % 4294967296 }
  other_buckets : ∀ b, b ≠ index → m1.buckets b = m.buckets b

/-- The invariant of the loop of `SafeFree` over the garbage list `g`:
well-formedness of the state except for the garbage tail, which the loop stores
when it ends. -/
structure ShmHashMap.SweepInv (m : ShmHashMap K V) (g : List Nat) : Prop where
  pool : m.pool.RingInv
  data_gt : 1 < m.pool.dataOff
  slots_lt : m.pool.node_size < 4294967296
  bucket_pos : 0 < m.bucket_size
  buckets : ∀ b, b < m.bucket_size → ∃ l, m.BucketWF b l
  chain : m.Chain (fun it => it.del_next) m.garbage_list_head_offset g
  nodup : (g.map m.slot).Nodup
  nodes : ∀ x, x ∈ g → m.slot x < m.pool.node_size ∧
    ((m.item x).invalid = COLLECTING ∨ (m.item x).invalid = WAITING_DELETE)

/-- What `Scan` and `SafeFree` leave unchanged: the constants of the map and of
the pool, the read index, and the key, value and expiry of the item of every
slot; no slot becomes used. -/
structure ShmHashMap.Frame (m m1 : ShmHashMap K V) : Prop where
  bucket_size_eq : m1.bucket_size = m.bucket_size
  hash_eq : m1.HashCode = m.HashCode
  gc_eq : m1.gc_timestamp = m.gc_timestamp
  NodeSize_eq : m1.pool.NodeSize = m.pool.NodeSize
  node_size_eq : m1.pool.node_size = m.pool.node_size
  dataOff_eq : m1.pool.dataOff = m.pool.dataOff
  read_eq : m1.pool.read_index = m.pool.read_index
  used_le : ∀ s, (m1.pool.nodes s).used = true → (m.pool.nodes s).used = true
  key_eq : ∀ s, (m1.pool.nodes s).data.key = (m.pool.nodes s).data.key
  value_eq : ∀ s, (m1.pool.nodes s).data.value = (m.pool.nodes s).data.value
  expire_eq : ∀ s, (m1.pool.nodes s).data.expire = (m.pool.nodes s).data.expire

/-- What `Scan` leaves unchanged besides: the `_used` flags, the free queue and
the write index; and the only change it makes to the state of an item is from
`VALID` to `COLLECTING`. -/
structure ShmHashMap.ScanKeeps (m m1 : ShmHashMap K V) : Prop where
  used_eq : ∀ s, (m1.pool.nodes s).used = (m.pool.nodes s).used
  queue_eq : m1.pool.free_queue = m.pool.free_queue
  write_eq : m1.pool.write_index = m.pool.write_index
  invalid_step : ∀ s, (m1.pool.nodes s).data.invalid = (m.pool.nodes s).data.invalid ∨
    ((m.pool.nodes s).data.invalid = VALID ∧ (m1.pool.nodes s).data.invalid = COLLECTING)

/-- What `SafeFree` leaves unchanged besides: the buckets, the garbage head and
the `_next` field of the item of every slot. -/
structure ShmHashMap.SweepKeeps (m m1 : ShmHashMap K V) : Prop where
  buckets_eq : m1.buckets = m.buckets
  ghead_eq : m1.garbage_list_head_offset = m.garbage_list_head_offset
  next_eq : ∀ s, (m1.pool.nodes s).data.next = (m.pool.nodes s).data.next

/-- The expiry test of `Scan` at time `now` on the item at `x`. -/
def ShmHashMap.expired (m : ShmHashMap K V) (now : Int) (x : Nat) : Bool :=
  isExpired (m.item x) now

/-- The test of `SafeFree` on the item at `x`: its state is `WAITING_DELETE`, so
`fetch_add` returns `2`. -/
def ShmHashMap.waiting (m : ShmHashMap K V) (x : Nat) : Bool :=
  decide ((m.item x).invalid = WAITING_DELETE)

/-- The garbage list that `SafeFree` leaves of the garbage list `g`, for the test
`w`: the head is never examined, every other item that passes the test is
unlinked. -/
def sweepKeep (w : Nat → Bool) : List Nat → List Nat
  | [] => []
  | h :: t => h :: t.filter (fun y => !(w y))

/-- The result of a computation that is given fuel: with more than `bound` units
of fuel `f` returns `r`, and with any fuel it returns nothing else. -/
def Computes {α : Type} (f : Nat → Option α) (bound : Nat) (r : α) : Prop :=
  ∀ fuel, (bound < fuel → f fuel = some r) ∧ (∀ r1, f fuel = some r1 → r1 = r)

/-- The items that the interior loop of `Scan` leaves on the part of a chain
behind the head, for the expiry test `e`: every item but the last is examined and
an expired one is unlinked. -/
def interiorKeep (e : Nat → Bool) : List Nat → List Nat
  | [] => []
  | [t] => [t]
  | x :: y :: r => if e x then interiorKeep e (y :: r) else x :: interiorKeep e (y :: r)

/-- The items that the interior loop of `Scan` unlinks, in the order of their
unlinking. -/
def interiorDrop (e : Nat → Bool) : List Nat → List Nat
  | [] => []
  | [_] => []
  | x :: y :: r => if e x then x :: interiorDrop e (y :: r) else interiorDrop e (y :: r)

/-- The chain that `Scan` leaves of the chain `l` of a bucket: the interior loop
runs behind the head, then the head is checked. -/
def scanKeep (e : Nat → Bool) : List Nat → List Nat
  | [] => []
  | h :: rest => if e h then interiorKeep e rest else h :: interiorKeep e rest

/-- The items that `Scan` unlinks from the chain `l` of a bucket, in the order in
which they enter the garbage list. -/
def scanDrop (e : Nat → Bool) : List Nat → List Nat
  | [] => []
  | h :: rest => interiorDrop e rest ++ (if e h then [h] else [])

/-- The chain that the specification describes after `Scan` on the chain `l`, for
the expiry test `e`: nothing when `l` is a single expired item, and otherwise the
items of `l`, in order, that are the last item of `l` or are not expired. -/
def keptByScan (e : Nat → Bool) (l : List Nat) : List Nat :=
  match l with
  | [h] => if e h then [] else [h]
  | _ => l.filter (fun y => decide (l.getLast? = some y) || !(e y))

/-- A sequence of `GC` calls at the given times. -/
def ShmHashMap.sweeps (fuel : Nat) (m : ShmHashMap K V) (times : List Int) :
    Option (ShmHashMap K V) :=
  times.foldlM (fun q now => q.GC fuel now) m

/-- The map states reachable from `m0` by sequential calls of `Insert`, `Get` and
`GC` that return. -/
inductive ShmHashMap.Reachable [DecidableEq K] (m0 : ShmHashMap K V) : ShmHashMap K V → Prop where
  | init : ShmHashMap.Reachable m0 m0
  | insert (m m1 : ShmHashMap K V) (fuel : Nat) (key : K) (value : V) (expire now : Int)
      (r : SinHashRet) : ShmHashMap.Reachable m0 m →
      m.Insert fuel key value expire now = some (r, m1) → ShmHashMap.Reachable m0 m1
  | get (m : ShmHashMap K V) (fuel : Nat) (key : K) (now : Int) (r : SinHashRet × Option V) :
      ShmHashMap.Reachable m0 m → m.Get fuel key now = some r → ShmHashMap.Reachable m0 m
  | gc (m m1 : ShmHashMap K V) (fuel : Nat) (now : Int) : ShmHashMap.Reachable m0 m →
      m.GC fuel now = some m1 → ShmHashMap.Reachable m0 m1

/-- A sequence of `Insert` calls `(key, value, ttl, now)` that all return
`RET_OK`, and the state after them. -/
def ShmHashMap.insertAll [DecidableEq K] (fuel : Nat) :
    ShmHashMap K V → List (K × V × Int × Int) → Option (ShmHashMap K V)
  | m, [] => some m
  | m, op :: ops =>
    match m.Insert fuel op.1 op.2.1 op.2.2.1 op.2.2.2 with
    | some (SinHashRet.RET_OK, m1) => ShmHashMap.insertAll fuel m1 ops
    | _ => none

/-- The value of the most recent call with the key in a sequence of `Insert`
calls `(key, value, ttl, now)`. -/
def lastInsert [DecidableEq K] (ops : List (K × V × Int × Int)) (key : K) : Option V :=
  (ops.reverse.find? (fun op => decide (op.1 = key))).map (fun op => op.2.1)

/-- The relation between a map state and the `Insert` calls `ops` made with
`ttl = 0`: in every bucket no item expires, and the first item with a key in the
chain of its bucket holds the value of the most recent call with that key. -/
def ShmHashMap.LastWriteInv [DecidableEq K] (m : ShmHashMap K V)
    (ops : List (K × V × Int × Int)) : Prop :=
  ∀ b, b < m.bucket_size → ∃ l, m.BucketWF b l ∧ (∀ x, x ∈ l → (m.item x).expire = 0) ∧
    ∀ key, m.HashCode key % m.bucket_size = b →
      (l.find? (fun x => decide ((m.item x).key = key))).map (fun x => (m.item x).value)
        = lastInsert ops key

/-- The state of a map on which only `Insert` calls with the pairwise different
keys `ks` have been made, each of them successful: no allocation has failed,
nothing has been freed, one slot has been taken per key, and every chained item
carries one of the keys. -/
def ShmHashMap.FillInv (m : ShmHashMap K V) (ks : List K) : Prop :=
  m.pool.NoFailInv ∧ m.pool.write_index = 0 ∧ m.pool.read_index = ks.length ∧
  ∀ b, b < m.bucket_size → ∃ l, m.BucketWF b l ∧ ∀ x, x ∈ l → (m.item x).key ∈ ks

/-- The map of the concrete scenarios of the specification: `B = 4`, `N = 16`,
`hash(k) = k`, keys and values `uint32_t` (so `sizeof(MemoryNode<Item>)` is `40`
and the item starts at byte `8` of its slot), on a fresh segment. -/
def scenarioMap : ShmHashMap Nat Nat :=
  ShmHashMap.construct (fun k => k)
    (MemoryPool.construct 16 40 8
      { next := 0, key := 0, value := 0, expire := 0, invalid := 0, del_next := 0 }) 4 0

end ShmMap

namespace ShmMap

open ShmPool

variable {K V : Type}

/-- Runs of sequential `Insert`, `Get` and `GC` calls from the state `m0`, with the
list of the pairs `(key, value)` of the `Insert` calls that returned `RET_OK`, and
the state reached. -/
inductive ShmHashMap.Run [DecidableEq K] (m0 : ShmHashMap K V) :
    List (K × V) → ShmHashMap K V → Prop where
  | init : ShmHashMap.Run m0 [] m0
  | insert (log : List (K × V)) (m m1 : ShmHashMap K V) (fuel : Nat) (key : K) (value : V)
      (expire now : Int) : ShmHashMap.Run m0 log m →
      m.Insert fuel key value expire now = some (SinHashRet.RET_OK, m1) →
      ShmHashMap.Run m0 ((key, value) :: log) m1
  | insert_failed (log : List (K × V)) (m m1 : ShmHashMap K V) (fuel : Nat) (key : K)
      (value : V) (expire now : Int) (r : SinHashRet) : ShmHashMap.Run m0 log m →
      m.Insert fuel key value expire now = some (r, m1) → r ≠ SinHashRet.RET_OK →
      ShmHashMap.Run m0 log m1
  | get (log : List (K × V)) (m : ShmHashMap K V) (fuel : Nat) (key : K) (now : Int)
      (r : SinHashRet × Option V) : ShmHashMap.Run m0 log m → m.Get fuel key now = some r →
      ShmHashMap.Run m0 log m
  | gc (log : List (K × V)) (m m1 : ShmHashMap K V) (fuel : Nat) (now : Int) :
      ShmHashMap.Run m0 log m → m.GC fuel now = some m1 → ShmHashMap.Run m0 log m1

/-- Every slot in use holds a key and value of the list `log`. -/
def ShmHashMap.Logged (m : ShmHashMap K V) (log : List (K × V)) : Prop :=
  ∀ s, (m.pool.nodes s).used = true →
    ((m.pool.nodes s).data.key, (m.pool.nodes s).data.value) ∈ log

/-- The statements of `Insert` that a writer executes on the node `n` returned by
`GetNode`: the expiry test, the `AddNodeItem` of the first branch, the
`compare_exchange_strong` of the loop, the `load` of the loop body, the
`AddNodeItem` of its else branch, and the three stores behind the loop. -/
inductive WriterPc where
  | test
  | add_first
  | cas
  | load
  | add
  | value
  | expire
  | store
  | done
  deriving DecidableEq, Repr

/-- The statements of one iteration of the interior loop of `Scan` with `p1 = n`:
the expiry test, the `compare_exchange_strong`, the test of the `else if`,
`RemoveExpireNode`, and the unlinking `p0->_next = p1->_next`. -/
inductive ReclaimerPc where
  | test
  | cas
  | check
  | enlist
  | unlink
  | done
  deriving DecidableEq, Repr

/-- The two threads of a race on one node. -/
inductive Thread where
  | writer
  | reclaimer
  deriving DecidableEq, Repr

/-- The state of a race of one writer and one reclaimer on a node `n` that is
neither the head nor the tail of its chain: the fields `_invalid`, `_value` and
`_expire` of `n`, the local `invalid` of the writer, the next statement of each
thread, the number of slots left in the pool, of nodes appended by the writer and
of times `n` was put on the garbage list, and whether `n` is off its chain. -/
structure RaceState where
  invalid : Int
  value : Nat
  expire : Int
  expected : Int
  wpc : WriterPc
  rpc : ReclaimerPc
  free : Nat
  appended : Nat
  enlisted : Nat
  unlinked : Bool
  deriving DecidableEq, Repr

/-- Both threads before their expiry test of a `VALID` node. -/
def raceInit (value : Nat) (expire : Int) (free : Nat) : RaceState :=
  { invalid := VALID, value := value, expire := expire, expected := VALID,
    wpc := WriterPc.test, rpc := ReclaimerPc.test, free := free, appended := 0,
    enlisted := 0, unlinked := false }

/-- One statement of `ShmHashMap::Insert(key, value, expire)` at time `now` on the
found node. -/
def writerStep (value : Nat) (expire now : Int) (s : RaceState) : RaceState :=
  match s.wpc with
  | WriterPc.test =>
    if decide (s.expire ≠ 0) && decide (s.expire < now) then { s with wpc := WriterPc.add_first }
    else { s with expected := VALID, wpc := WriterPc.cas }
  | WriterPc.add_first =>
    if s.free = 0 then { s with wpc := WriterPc.done }
    else { s with free := s.free - 1, appended := s.appended + 1, wpc := WriterPc.done }
  | WriterPc.cas =>
    if s.invalid = s.expected then { s with invalid := WRITING, wpc := WriterPc.value }
    else { s with expected := s.invalid, wpc := WriterPc.load }
  | WriterPc.load =>
    if s.invalid = WRITING then { s with expected := VALID, wpc := WriterPc.cas }
    else { s with wpc := WriterPc.add }
  | WriterPc.add =>
    if s.free = 0 then { s with wpc := WriterPc.done }
    else { s with free := s.free - 1, appended := s.appended + 1, wpc := WriterPc.cas }
  | WriterPc.value => { s with value := value, wpc := WriterPc.expire }
  | WriterPc.expire => { s with expire := expireAt expire now, wpc := WriterPc.store }
  | WriterPc.store => { s with invalid := VALID, wpc := WriterPc.done }
  | WriterPc.done => s

/-- One statement of the iteration of the interior loop of `ShmHashMap::Scan` on
the node, at time `now`; `CheckDoubleFree` finds the node when it was put on the
garbage list. -/
def reclaimerStep (now : Int) (s : RaceState) : RaceState :=
  match s.rpc with
  | ReclaimerPc.test =>
    if decide (s.expire ≠ 0) && decide (s.expire < now) then { s with rpc := ReclaimerPc.cas }
    else { s with rpc := ReclaimerPc.done }
  | ReclaimerPc.cas =>
    if s.invalid = VALID then { s with invalid := COLLECTING, rpc := ReclaimerPc.enlist }
    else { s with rpc := ReclaimerPc.check }
  | ReclaimerPc.check =>
    if s.invalid = COLLECTING ∧ s.expire < now - 10 then
      if s.enlisted = 0 then { s with rpc := ReclaimerPc.enlist }
      else { s with rpc := ReclaimerPc.unlink }
    else { s with rpc := ReclaimerPc.test }
  | ReclaimerPc.enlist => { s with enlisted := s.enlisted + 1, rpc := ReclaimerPc.unlink }
  | ReclaimerPc.unlink => { s with unlinked := true, rpc := ReclaimerPc.done }
  | ReclaimerPc.done => s

/-- The race under a schedule: the writer runs `Insert(key, value, expire)` at time
`now_w`, the reclaimer runs `Scan` at time `now_r`, and each entry of the schedule
lets one thread execute its next statement. -/
def race (value : Nat) (expire now_w now_r : Int) (sched : List Thread) (s : RaceState) :
    RaceState :=
  sched.foldl (fun st t =>
    match t with
    | Thread.writer => writerStep value expire now_w st
    | Thread.reclaimer => reclaimerStep now_r st) s

end ShmMap

/-!
The heap-allocated map of `sin_map.h` (`SinMap::SinHashMap`).

An `Item *` is an address, `0` is `NULL`; the heap maps an address to the item
that lives there, if any.  The pure virtual `Allocate` is an input of the
operations that call it: `fresh` is the pointer it returns.  A dereferenced
pointer that is `NULL` or points to no live item, and an `Allocate` that returns
`NULL` or storage in use, yield `none`.
-/

namespace SinMap

open ShmPool

/-- The struct `ItemNode<Key, Value>` of `sin_map.h`. -/
structure ItemNode (K V : Type) where
  next : Nat
  key : K
  value : V
  expire : Int
  invalid : Int
  del_next : Nat

/-- The struct `BucketItem` of `sin_map.h`; `count` is an `int`. -/
structure BucketItem where
  count : Int
  head : Nat
  tail : Nat

/-- The enum `SinHashRet` of `sin_map.h`. -/
inductive SinHashRet where
  | RET_OK
  | RET_NOT_FOUND
  deriving DecidableEq, Repr

/-- Enum `ItemStatus`, value `VALID`. -/
def VALID : Int := 0
/-- Enum `ItemStatus`, value `COLLECTING`. -/
def COLLECTING : Int := 1
/-- Enum `ItemStatus`, value `WAITING_DELETE`. -/
def WAITING_DELETE : Int := 2
/-- Enum `ItemStatus`, value `WRITING`. -/
def WRITING : Int := 3
/-- Enum `ItemStatus`, value `READING`. -/
def READING : Int := 4

/-- The state of a `SinHashMap<Key, Value>` with the items it allocated and its
virtual `HashCode`. -/
structure SinHashMap (K V : Type) where
  bucket_size : Nat
  gc_timestamp : Nat
  garbage_list_head : Nat
  garbage_list_tail : Nat
  buckets : Nat → BucketItem
  heap : Nat → Option (ItemNode K V)
  HashCode : K → Nat

variable {K V : Type}

/-- The constructor `SinHashMap::SinHashMap`; `gc_timestamp` is the
(uninitialised) content of `_gc_timestamp`. -/
def SinHashMap.construct (HashCode : K → Nat) (bucket_size : Int) (gc_timestamp : Nat) :
    SinHashMap K V :=
  { bucket_size := if bucket_size ≤ 0 then 1024 else bucket_size.toNat
    gc_timestamp := gc_timestamp
    garbage_list_head := 0
    garbage_list_tail := 0
    buckets := fun _ => { count := 0, head := 0, tail := 0 }
    heap := fun _ => none
    HashCode := HashCode }

/-- Reading through an `Item *`. -/
def SinHashMap.load (m : SinHashMap K V) (p : Nat) : Option (ItemNode K V) :=
  if p = 0 then none else m.heap p

/-- Assignment to fields of the item an `Item *` points to. -/
def SinHashMap.store (m : SinHashMap K V) (p : Nat) (f : ItemNode K V → ItemNode K V) :
    Option (SinHashMap K V) :=
  match m.load p with
  | none => none
  | some it => some { m with heap := setAt m.heap p (some (f it)) }

/-- The virtual `Free` on an item. -/
def SinHashMap.free (m : SinHashMap K V) (p : Nat) : SinHashMap K V :=
  { m with heap := setAt m.heap p none }

/-- Assignment to one bucket. -/
def SinHashMap.setBucket (m : SinHashMap K V) (index : Nat) (b : BucketItem) : SinHashMap K V :=
  { m with buckets := setAt m.buckets index b }

/-- The test `p->_expire != 0 && p->_expire < time(NULL)`. -/
def isExpired (it : ItemNode K V) (now : Int) : Bool :=
  decide (it.expire ≠ 0) && decide (it.expire < now)

/-- The loop of `GetNode` with the cursor `p`. -/
def SinHashMap.GetNodeLoop [DecidableEq K] (m : SinHashMap K V) (key : K) :
    Nat → Nat → Option Nat
  | 0, _ => none
  | fuel + 1, p =>
    if p = 0 then some 0
    else
      match m.load p with
      | none => none
      | some it =>
        if it.key = key then some p else SinHashMap.GetNodeLoop m key fuel it.next

/-- `GetNode`; the result `0` is `NULL`. -/
def SinHashMap.GetNode [DecidableEq K] (fuel : Nat) (m : SinHashMap K V) (index : Nat)
    (key : K) : Option Nat :=
  m.GetNodeLoop key fuel (m.buckets index).head

/-- `AddNodeItem`, where `Allocate` returns `fresh`. -/
def SinHashMap.AddNodeItem (m : SinHashMap K V) (fresh : Nat) (index : Nat) (key : K)
    (value : V) (expire now : Int) : Option (SinHashMap K V) :=
  if fresh = 0 ∨ (m.heap fresh).isSome = true then none
  else
    let m1 : SinHashMap K V := { m with
      heap := setAt m.heap fresh
        (some { invalid := 0, key := key, value := value, next := 0,
                expire := ShmMap.expireAt expire now, del_next := 0 }) }
    let old_node := (m1.buckets index).tail
    let m2 := m1.setBucket index { m1.buckets index with tail := fresh }
    let m3 :=
      if old_node = 0 then some (m2.setBucket index { m2.buckets index with head := fresh })
      else m2.store old_node (fun o => { o with next := fresh })
    m3.map (fun m4 => m4.setBucket index
      { m4.buckets index with count := ShmMap.wrapInt32 ((m4.buckets index).count + 1) })

/-- The `while` loop of `Insert` and the three stores after it; the expected
value of the compare-exchange is `VALID` at every iteration. -/
def SinHashMap.InsertLoop (m : SinHashMap K V) (fresh : Nat) (index : Nat) (key : K)
    (value : V) (expire now : Int) (item : Nat) : Nat → Option (SinHashMap K V)
  | 0 => none
  | fuel + 1 =>
    match m.load item with
    | none => none
    | some it =>
      if it.invalid = VALID then
        (m.store item (fun i => { i with invalid := WRITING })).bind (fun m1 =>
        (m1.store item (fun i => { i with value := value })).bind (fun m2 =>
        (m2.store item (fun i => { i with expire := ShmMap.expireAt expire now })).bind
          (fun m3 => m3.store item (fun i => { i with invalid := VALID }))))
      else if it.invalid = WRITING then
        SinHashMap.InsertLoop m fresh index key value expire now item fuel
      else m.AddNodeItem fresh index key value expire now

/-- `Insert` at time `now`, where `Allocate` returns `fresh` when it is called. -/
def SinHashMap.Insert [DecidableEq K] (fuel : Nat) (m : SinHashMap K V) (fresh : Nat)
    (key : K) (value : V) (expire now : Int) : Option (SinHashMap K V) :=
  let index := m.HashCode key % m.bucket_size
  match m.GetNode fuel index key with
  | none => none
  | some item =>
    if item = 0 then m.AddNodeItem fresh index key value expire now
    else
      match m.load item with
      | none => none
      | some it =>
        if isExpired it now then m.AddNodeItem fresh index key value expire now
        else m.InsertLoop fresh index key value expire now item fuel

/-- The `while` loop of `Get`; `invalid` is the local variable that
`compare_exchange_strong` reloads on failure. -/
def SinHashMap.GetLoop (m : SinHashMap K V) (item : Nat) :
    Nat → Int → Option (SinHashMap K V)
  | 0, _ => none
  | fuel + 1, invalid =>
    match m.load item with
    | none => none
    | some it =>
      if it.invalid = invalid then m.store item (fun i => { i with invalid := READING })
      else SinHashMap.GetLoop m item fuel it.invalid

/-- `Get` at time `now`: the return code, the value written to the out parameter,
if any, and the state after the call. -/
def SinHashMap.Get [DecidableEq K] (fuel : Nat) (m : SinHashMap K V) (key : K) (now : Int) :
    Option (SinHashRet × Option V × SinHashMap K V) :=
  let index := m.HashCode key % m.bucket_size
  match m.GetNode fuel index key with
  | none => none
  | some item =>
    if item = 0 then some (SinHashRet.RET_NOT_FOUND, none, m)
    else
      match m.load item with
      | none => none
      | some it =>
        if isExpired it now then some (SinHashRet.RET_NOT_FOUND, none, m)
        else
          match m.GetLoop item fuel VALID with
          | none => none
          | some m1 =>
            match m1.load item with
            | none => none
            | some it1 =>
              (m1.store item (fun i => { i with invalid := VALID })).map
                (fun m2 => (SinHashRet.RET_OK, some it1.value, m2))

/-- `AddGarbageList`. -/
def SinHashMap.AddGarbageList (m : SinHashMap K V) (node : Nat) : Option (SinHashMap K V) :=
  if m.garbage_list_head = 0 then
    some { m with garbage_list_head := node, garbage_list_tail := node }
  else
    (m.store m.garbage_list_tail (fun t => { t with del_next := node })).map
      (fun m1 => { m1 with garbage_list_tail := node })

/-- `RemoveExpireNode` on the bucket with the given index. -/
def SinHashMap.RemoveExpireNode (m : SinHashMap K V) (p : Nat) (index : Nat) :
    Option (SinHashMap K V) :=
  (m.AddGarbageList p).map (fun m1 => m1.setBucket index
    { m1.buckets index with count := ShmMap.wrapInt32 ((m1.buckets index).count - 1) })

/-- The interior loop of `Scan` on one bucket with the cursors `p0` and `p1`. -/
def SinHashMap.ScanLoop (now : Int) (index : Nat) :
    Nat → Nat → Nat → SinHashMap K V → Option (SinHashMap K V)
  | 0, _, _, _ => none
  | fuel + 1, p0, p1, m =>
    if p1 = 0 then some m
    else
      match m.load p1 with
      | none => none
      | some it1 =>
        if it1.next = 0 then some m
        else if isExpired it1 now then
          if it1.invalid = VALID then
            (m.store p1 (fun i => { i with invalid := COLLECTING })).bind (fun m1 =>
            (m1.RemoveExpireNode p1 index).bind (fun m2 =>
            match m2.load p1 with
            | none => none
            | some it2 =>
              (m2.store p0 (fun i => { i with next := it2.next })).bind (fun m3 =>
              SinHashMap.ScanLoop now index fuel p0 it2.next m3)))
          else SinHashMap.ScanLoop now index fuel p0 p1 m
        else SinHashMap.ScanLoop now index fuel p1 it1.next m

/-- The check of the head of a bucket that follows the interior loop. -/
def SinHashMap.ScanHead (now : Int) (index : Nat) (m : SinHashMap K V) :
    Option (SinHashMap K V) :=
  let p0 := (m.buckets index).head
  match m.load p0 with
  | none => none
  | some it0 =>
    if isExpired it0 now then
      if it0.invalid = VALID then
        (m.store p0 (fun i => { i with invalid := COLLECTING })).bind (fun m1 =>
        (m1.RemoveExpireNode p0 index).bind (fun m2 =>
        if p0 = (m2.buckets index).tail then
          some (m2.setBucket index { m2.buckets index with tail := 0, head := 0 })
        else
          match m2.load p0 with
          | none => none
          | some it => some (m2.setBucket index { m2.buckets index with head := it.next })))
      else some m
    else some m

/-- One iteration of the `for` loop of `Scan`. -/
def SinHashMap.ScanBucket (fuel : Nat) (now : Int) (m : SinHashMap K V) (index : Nat) :
    Option (SinHashMap K V) :=
  let p0 := (m.buckets index).head
  if p0 = 0 then some m
  else
    match m.load p0 with
    | none => none
    | some it0 =>
      (SinHashMap.ScanLoop now index fuel p0 it0.next m).bind (SinHashMap.ScanHead now index)

/-- `Scan` at time `now`. -/
def SinHashMap.Scan (fuel : Nat) (now : Int) (m : SinHashMap K V) : Option (SinHashMap K V) :=
  (List.range m.bucket_size).foldlM (SinHashMap.ScanBucket fuel now) m

/-- The loop of `SafeFree` with the cursors `p0` and `p1`, and the store to the
garbage tail that follows it. -/
def SinHashMap.SafeFreeLoop : Nat → Nat → Nat → SinHashMap K V → Option (SinHashMap K V)
  | 0, _, _, _ => none
  | fuel + 1, p0, p1, m =>
    if p1 = 0 then some { m with garbage_list_tail := p0 }
    else
      match m.load p1 with
      | none => none
      | some it1 =>
        (m.store p1 (fun i => { i with invalid := ShmMap.wrapInt32 (i.invalid + 1) })).bind
          (fun m1 =>
          if it1.invalid = 2 then
            (m1.store p0 (fun i => { i with del_next := it1.del_next })).bind (fun m2 =>
            SinHashMap.SafeFreeLoop fuel p0 it1.del_next (m2.free p1))
          else SinHashMap.SafeFreeLoop fuel p1 it1.del_next m1)

/-- `SafeFree`. -/
def SinHashMap.SafeFree (fuel : Nat) (m : SinHashMap K V) : Option (SinHashMap K V) :=
  if m.garbage_list_head = 0 then some m
  else
    match m.load m.garbage_list_head with
    | none => none
    | some it0 => SinHashMap.SafeFreeLoop fuel m.garbage_list_head it0.del_next m

/-- `GC` at time `now`; the weak compare-exchange on `_gc_timestamp` meets no
contention and succeeds. -/
def SinHashMap.GC (fuel : Nat) (m : SinHashMap K V) (now : Int) : Option (SinHashMap K V) :=
  if (((m.gc_timestamp + 2) % 4294967296 : Nat) : Int) < now then
    (SinHashMap.Scan fuel now { m with gc_timestamp := (now % 4294967296).toNat }).bind
      (SinHashMap.SafeFree fuel)
  else some m

/-- Runs of sequential `Insert`, `Get` and `GC` calls from the state `m0`, with the
list of the pairs `(key, value)` of the `Insert` calls that returned, and the state
reached. -/
inductive SinHashMap.Run [DecidableEq K] (m0 : SinHashMap K V) :
    List (K × V) → SinHashMap K V → Prop where
  | init : SinHashMap.Run m0 [] m0
  | insert (log : List (K × V)) (m m1 : SinHashMap K V) (fuel fresh : Nat) (key : K)
      (value : V) (expire now : Int) : SinHashMap.Run m0 log m →
      m.Insert fuel fresh key value expire now = some m1 →
      SinHashMap.Run m0 ((key, value) :: log) m1
  | get (log : List (K × V)) (m m1 : SinHashMap K V) (fuel : Nat) (key : K) (now : Int)
      (r : SinHashRet) (v : Option V) : SinHashMap.Run m0 log m →
      m.Get fuel key now = some (r, v, m1) → SinHashMap.Run m0 log m1
  | gc (log : List (K × V)) (m m1 : SinHashMap K V) (fuel : Nat) (now : Int) :
      SinHashMap.Run m0 log m → m.GC fuel now = some m1 → SinHashMap.Run m0 log m1

/-- Every live item holds a key and value of the list `log`. -/
def SinHashMap.Logged (m : SinHashMap K V) (log : List (K × V)) : Prop :=
  ∀ p it, m.heap p = some it → (it.key, it.value) ∈ log

/-- One statement of `SinHashMap::Insert(key, value, expire)` at time `now` on the
found node: the else branch of the loop returns after `AddNodeItem`. -/
def writerStep (value : Nat) (expire now : Int) (s : ShmMap.RaceState) : ShmMap.RaceState :=
  match s.wpc with
  | ShmMap.WriterPc.test =>
    if decide (s.expire ≠ 0) && decide (s.expire < now) then
      { s with wpc := ShmMap.WriterPc.add_first }
    else { s with expected := VALID, wpc := ShmMap.WriterPc.cas }
  | ShmMap.WriterPc.add_first =>
    { s with appended := s.appended + 1, wpc := ShmMap.WriterPc.done }
  | ShmMap.WriterPc.cas =>
    if s.invalid = s.expected then { s with invalid := WRITING, wpc := ShmMap.WriterPc.value }
    else { s with expected := s.invalid, wpc := ShmMap.WriterPc.load }
  | ShmMap.WriterPc.load =>
    if s.invalid = WRITING then { s with expected := VALID, wpc := ShmMap.WriterPc.cas }
    else { s with wpc := ShmMap.WriterPc.add }
  | ShmMap.WriterPc.add =>
    { s with appended := s.appended + 1, wpc := ShmMap.WriterPc.done }
  | ShmMap.WriterPc.value => { s with value := value, wpc := ShmMap.WriterPc.expire }
  | ShmMap.WriterPc.expire =>
    { s with expire := ShmMap.expireAt expire now, wpc := ShmMap.WriterPc.store }
  | ShmMap.WriterPc.store => { s with invalid := VALID, wpc := ShmMap.WriterPc.done }
  | ShmMap.WriterPc.done => s

/-- One statement of the iteration of the interior loop of `SinHashMap::Scan` on
the node, at time `now`: a failed exchange leads back to the test of the loop. -/
def reclaimerStep (now : Int) (s : ShmMap.RaceState) : ShmMap.RaceState :=
  match s.rpc with
  | ShmMap.ReclaimerPc.test =>
    if decide (s.expire ≠ 0) && decide (s.expire < now) then
      { s with rpc := ShmMap.ReclaimerPc.cas }
    else { s with rpc := ShmMap.ReclaimerPc.done }
  | ShmMap.ReclaimerPc.cas =>
    if s.invalid = VALID then { s with invalid := COLLECTING, rpc := ShmMap.ReclaimerPc.enlist }
    else { s with rpc := ShmMap.ReclaimerPc.test }
  | ShmMap.ReclaimerPc.check => { s with rpc := ShmMap.ReclaimerPc.test }
  | ShmMap.ReclaimerPc.enlist =>
    { s with enlisted := s.enlisted + 1, rpc := ShmMap.ReclaimerPc.unlink }
  | ShmMap.ReclaimerPc.unlink => { s with unlinked := true, rpc := ShmMap.ReclaimerPc.done }
  | ShmMap.ReclaimerPc.done => s

/-- The race of `ShmMap.race` with the statements of `sin_map.h`. -/
def race (value : Nat) (expire now_w now_r : Int) (sched : List ShmMap.Thread)
    (s : ShmMap.RaceState) : ShmMap.RaceState :=
  sched.foldl (fun st t =>
    match t with
    | ShmMap.Thread.writer => writerStep value expire now_w st
    | ShmMap.Thread.reclaimer => reclaimerStep now_r st) s

end SinMap

namespace SinMap

variable {K V : Type}

/-- `GetCount` of `sin_map.h`: the sum of the bucket counters, accumulated in an
`int`. -/
def SinHashMap.GetCount (m : SinHashMap K V) : Int :=
  ShmMap.wrapInt32 (((List.range m.bucket_size).map (fun i => (m.buckets i).count)).sum)

/-- The integer value of a return code of `sin_map.h`. -/
def retCode : SinHashRet → Nat
  | SinHashRet.RET_OK => 0
  | SinHashRet.RET_NOT_FOUND => 1

end SinMap

namespace ShmMap

open ShmPool

variable {K V : Type}

/-- The integer value of a return code of `shm_map.h`. -/
def retCode : SinHashRet → Nat
  | SinHashRet.RET_OK => 0
  | SinHashRet.RET_NOT_FOUND => 1
  | SinHashRet.RET_NO_MEMORY => 2

/-- The pointer of `sin_map.h` that stands for an offset of `shm_map.h` when the
item at offset `x` of the one map is the item at address `φ x` of the other:
`NULL` for `OFFSET_NULL`. -/
def ptrOf (φ : Nat → Nat) (offset : Nat) : Nat :=
  if offset = OFFSET_NULL then 0 else φ offset

/-- The item of `sin_map.h` that stands for an item of `shm_map.h`: the same key,
value, expiry and state, and the pointers that stand for its two offsets. -/
def itemOf (φ : Nat → Nat) (it : ItemNode K V) : SinMap.ItemNode K V :=
  { next := ptrOf φ it.next, key := it.key, value := it.value, expire := it.expire,
    invalid := it.invalid, del_next := ptrOf φ it.del_next }

/-- The offset `x` is on the chain `chains b` of a bucket or on the garbage list
`g`. -/
def Listed (bucket_size : Nat) (chains : Nat → List Nat) (g : List Nat) (x : Nat) : Prop :=
  (∃ b, b < bucket_size ∧ x ∈ chains b) ∨ x ∈ g

/-- The state `s` of a `SinHashMap` stands for the state `m` of a `ShmHashMap`
whose buckets hold the chains `chains` and whose garbage list is `g`: the two maps
have the same constants and time stamp; the item at offset `x` of `m` is the item
at address `φ x` of `s`, with the same key, value, expiry and state, for every `x`
on a chain or on the garbage list, and different offsets have different addresses;
the counters agree, and the anchors of the buckets and of the garbage list, the
`_next` fields of the chained items and the `_del_next` fields of all these items
are the pointers that stand for the offsets. -/
structure Related (φ : Nat → Nat) (chains : Nat → List Nat) (g : List Nat)
    (m : ShmHashMap K V) (s : SinMap.SinHashMap K V) : Prop where
  bucket_size_eq : s.bucket_size = m.bucket_size
  hash_eq : s.HashCode = m.HashCode
  gc_eq : s.gc_timestamp = m.gc_timestamp
  bucket : ∀ b, b < m.bucket_size → s.buckets b =
    { count := wrapInt32 (m.buckets b).count, head := ptrOf φ (m.buckets b).head,
      tail := ptrOf φ (m.buckets b).tail }
  ghead : s.garbage_list_head = ptrOf φ m.garbage_list_head_offset
  gtail : g ≠ [] → s.garbage_list_tail = ptrOf φ m.garbage_list_tail_offset
  chain_item : ∀ b, b < m.bucket_size → ∀ x, x ∈ chains b →
    s.heap (φ x) = some (itemOf φ (m.item x))
  garbage_item : ∀ x, x ∈ g →
    ∃ nx, s.heap (φ x) = some { itemOf φ (m.item x) with next := nx }
  ne_null : ∀ x, Listed m.bucket_size chains g x → x ≠ OFFSET_NULL
  nonzero : ∀ x, Listed m.bucket_size chains g x → φ x ≠ 0
  inj : ∀ x y, Listed m.bucket_size chains g x → Listed m.bucket_size chains g y →
    φ x = φ y → x = y
  slot_inj : ∀ x y, Listed m.bucket_size chains g x → Listed m.bucket_size chains g y →
    m.slot x = m.slot y → x = y

/-- The pairs of states that the two maps reach when the same calls of `Insert`,
`Get` and `GC` are made on both at the same times and every call returns, no
`Insert` on the `ShmHashMap` with `RET_NO_MEMORY`; `fresh` is the storage that the
allocator of the `SinHashMap` hands out in a call of `Insert`. -/
inductive PairRun [DecidableEq K] (m0 : ShmHashMap K V) (s0 : SinMap.SinHashMap K V) :
    ShmHashMap K V → SinMap.SinHashMap K V → Prop where
  | init : PairRun m0 s0 m0 s0
  | insert (m m1 : ShmHashMap K V) (s s1 : SinMap.SinHashMap K V) (fuel fuel1 fresh : Nat)
      (key : K) (value : V) (expire now : Int) : PairRun m0 s0 m s →
      m.Insert fuel key value expire now = some (SinHashRet.RET_OK, m1) →
      s.Insert fuel1 fresh key value expire now = some s1 → PairRun m0 s0 m1 s1
  | get (m : ShmHashMap K V) (s s1 : SinMap.SinHashMap K V) (fuel fuel1 : Nat) (key : K)
      (now : Int) (r : SinHashRet × Option V) (r1 : SinMap.SinHashRet) (v1 : Option V) :
      PairRun m0 s0 m s → m.Get fuel key now = some r →
      s.Get fuel1 key now = some (r1, v1, s1) → PairRun m0 s0 m s1
  | gc (m m1 : ShmHashMap K V) (s s1 : SinMap.SinHashMap K V) (fuel fuel1 : Nat) (now : Int) :
      PairRun m0 s0 m s → m.GC fuel now = some m1 → s.GC fuel1 now = some s1 →
      PairRun m0 s0 m1 s1

end ShmMap

namespace ShmMap

variable {K V : Type}

/-- The invariant of the two maps run side by side: the `ShmHashMap` is well
formed with the chains `chains` and the garbage list `g`, and the `SinHashMap`
stands in the relation `Related` to it. -/
structure Sim (φ : Nat → Nat) (chains : Nat → List Nat) (g : List Nat)
    (m : ShmHashMap K V) (s : SinMap.SinHashMap K V) : Prop where
  wf : m.WF
  buckets : ∀ b, b < m.bucket_size → m.BucketWF b (chains b)
  garbage : m.GarbageWF g
  related : Related φ chains g m s

end ShmMap

namespace ShmPool

variable {Obj : Type}

@[simp] theorem setAt_same {α : Type} (a : Nat → α) (i : Nat) (v : α) : setAt a i v i = v := by
  simp [setAt]

@[simp] theorem setAt_ne {α : Type} (a : Nat → α) {i j : Nat} (v : α) (h : j ≠ i) :
    setAt a i v j = a j := by
  simp [setAt, h]

theorem setAt_apply {α : Type} (a : Nat → α) (i j : Nat) (v : α) :
    setAt a i v j = if j = i then v else a j := rfl

theorem GetNodeByOffset_eq (p : MemoryPool Obj) (offset : Nat) :
    p.GetNodeByOffset offset = offset / p.NodeSize := by
  unfold MemoryPool.GetNodeByOffset
  rcases Nat.eq_zero_or_pos p.NodeSize with h | h
  · simp [h]
  · rw [Nat.mul_div_cancel _ h]

theorem GetNodeByObj_eq (p : MemoryPool Obj) (ptr : Nat) :
    p.GetNodeByObj ptr = ptr / p.NodeSize := by
  unfold MemoryPool.GetNodeByObj
  rw [GetNodeByOffset_eq]
  rcases Nat.eq_zero_or_pos p.NodeSize with h | h
  · simp [h]
  · rw [Nat.mul_div_cancel _ h]

theorem dataPtr_div (p : MemoryPool Obj) (h : p.dataOff < p.NodeSize) (i : Nat) :
    p.dataPtr i / p.NodeSize = i := by
  unfold MemoryPool.dataPtr
  have hS : 0 < p.NodeSize := by omega
  rw [Nat.add_comm, Nat.add_mul_div_right _ _ hS, Nat.div_eq_of_lt h]
  simp

theorem mul_ne_OFFSET_NULL (S k : Nat) (hS : 2 ≤ S) : S * k ≠ OFFSET_NULL := by
  unfold OFFSET_NULL
  intro h
  have h1 : S ∣ 1 := ⟨k, h.symm⟩
  have := Nat.le_of_dvd (by norm_num) h1
  omega

theorem construct_eq_afterAllocs (N S D : Nat) (zero : Obj) :
    MemoryPool.construct N S D zero
      = MemoryPool.afterAllocs ((N + 2) % 4294967296) S D zero 0 := by
  simp [MemoryPool.construct, MemoryPool.afterAllocs]

theorem afterAllocs_Allocate (n S D k : Nat) (zero : Obj) (hS : 2 ≤ S) (hk : k < n) :
    (MemoryPool.afterAllocs n S D zero k).Allocate
      = (some (k * S + D), MemoryPool.afterAllocs n S D zero (k + 1)) := by
  have hne := mul_ne_OFFSET_NULL S k hS
  have hdiv : S * k / S = k := Nat.mul_div_cancel_left k (by omega)
  simp only [MemoryPool.afterAllocs, MemoryPool.Allocate, GetNodeByOffset_eq,
    Nat.mod_eq_of_lt hk, lt_irrefl, if_false, hne, MemoryPool.dataPtr, hdiv]
  congr 2
  · funext i
    by_cases h : i = k
    · subst h; simp
    · rw [setAt_ne _ _ h]
      have : (i < k + 1) = (i < k) := by
        apply propext; omega
      simp [this]
  · funext i
    by_cases h : i = k
    · subst h; simp
    · rw [setAt_ne _ _ h]
      have : (i < k + 1) ↔ (i < k) := by omega
      simp [this]

theorem afterAllocs_Allocate_full (n S D : Nat) (zero : Obj) (hn : 0 < n) :
    ((MemoryPool.afterAllocs n S D zero n).Allocate).1 = none := by
  simp [MemoryPool.afterAllocs, MemoryPool.Allocate, hn]

theorem afterAllocs_allocateMany (n S D : Nat) (zero : Obj) (hS : 2 ≤ S) (j : Nat) :
    ∀ k, k + j ≤ n →
      (MemoryPool.afterAllocs n S D zero k).allocateMany j
        = ((List.range' k j).map (fun i => some (i * S + D)),
            MemoryPool.afterAllocs n S D zero (k + j)) := by
  induction j with
  | zero => intro k _; simp [MemoryPool.allocateMany]
  | succ j ih =>
    intro k hk
    simp only [MemoryPool.allocateMany]
    rw [afterAllocs_Allocate n S D k zero hS (by omega)]
    simp only
    rw [ih (k + 1) (by omega)]
    simp [List.range'_succ, Nat.add_assoc, Nat.add_comm 1 j]

theorem allocateMany_append (j1 j2 : Nat) (p : MemoryPool Obj) :
    p.allocateMany (j1 + j2)
      = ((p.allocateMany j1).1 ++ ((p.allocateMany j1).2.allocateMany j2).1,
          ((p.allocateMany j1).2.allocateMany j2).2) := by
  induction j1 generalizing p with
  | zero => simp [MemoryPool.allocateMany]
  | succ j ih =>
    rw [Nat.add_right_comm]
    simp only [MemoryPool.allocateMany]
    rw [ih]
    simp

/-- C9: a pool constructed for `N` entries has `N + 2` slots, slot `i` unused with
queue entry `i` equal to its offset `i * NodeSize`, both indices `0`; the first
`N + 2` calls of `Allocate` return the objects of the slots `0, 1, ..., N + 1` in
that order, pairwise distinct, and the call after them returns `NULL`. -/
theorem construct_then_allocate (N S D : Nat) (zero : Obj)
    (hN : N + 2 < 4294967296) (hS : 2 ≤ S) :
    (MemoryPool.construct N S D zero).node_size = N + 2 ∧
    (∀ i, ((MemoryPool.construct N S D zero).nodes i).used = false ∧
      (MemoryPool.construct N S D zero).free_queue i
        = (MemoryPool.construct N S D zero).GetOffsetByNode i) ∧
    (MemoryPool.construct N S D zero).read_index = 0 ∧
    (MemoryPool.construct N S D zero).write_index = 0 ∧
    ((MemoryPool.construct N S D zero).allocateMany (N + 3)).1
      = (List.range (N + 2)).map
          (fun i => some ((MemoryPool.construct N S D zero).dataPtr i)) ++ [none] ∧
    ((List.range (N + 2)).map
      (fun i => (MemoryPool.construct N S D zero).dataPtr i)).Nodup := by
  have hmod : (N + 2) % 4294967296 = N + 2 := Nat.mod_eq_of_lt hN
  refine ⟨by simp [MemoryPool.construct, hmod], ?_, rfl, rfl, ?_, ?_⟩
  · intro i
    simp [MemoryPool.construct, MemoryPool.GetOffsetByNode, Nat.mul_comm]
  · rw [show N + 3 = (N + 2) + 1 from rfl, allocateMany_append, construct_eq_afterAllocs, hmod,
      afterAllocs_allocateMany (N + 2) S D zero hS (N + 2) 0 (by omega)]
    simp only [Nat.zero_add, MemoryPool.allocateMany]
    rw [afterAllocs_Allocate_full _ _ _ _ (by omega)]
    simp [MemoryPool.afterAllocs, MemoryPool.dataPtr, List.range_eq_range']
  · apply List.Nodup.map_on _ (List.nodup_range _)
    intro x _ y _ h
    simp only [MemoryPool.construct, MemoryPool.dataPtr] at h
    have hS0 : 0 < S := by omega
    exact Nat.eq_of_mul_eq_mul_right hS0 (by omega)

theorem construct_then_allocate_witness :
    (MemoryPool.construct 2 16 8 ()).node_size = 2 + 2 ∧
    ((MemoryPool.construct 2 16 8 ()).allocateMany (2 + 3)).1
      = [some 8, some 24, some 40, some 56, none] := by
  have h := construct_then_allocate 2 16 8 () (by norm_num) (by norm_num)
  refine ⟨h.1, ?_⟩
  rw [h.2.2.2.2.1]
  decide

end ShmPool

namespace ShmPool

variable {Obj : Type}

theorem mod_ne_of_lt_of_lt {a b n : Nat} (h1 : a < b) (h2 : b < a + n) : a % n ≠ b % n := by
  intro h
  have h3 : (b - a) % n = 0 := Nat.sub_mod_eq_zero_of_mod_eq h.symm
  have h4 : n ∣ b - a := Nat.dvd_of_mod_eq_zero h3
  have := Nat.le_of_dvd (by omega) h4
  omega

theorem countP_range_point (f g : Nat → Bool) (s : Nat) (hfg : ∀ i, i ≠ s → g i = f i) :
    ∀ n, s < n →
      (List.range n).countP g + (if f s then 1 else 0)
        = (List.range n).countP f + (if g s then 1 else 0) := by
  intro n
  induction n with
  | zero => intro h; omega
  | succ n ih =>
    intro hs
    rw [List.range_succ, List.countP_append, List.countP_append]
    by_cases hsn : s = n
    · subst hsn
      have hc : (List.range s).countP g = (List.range s).countP f := by
        apply List.countP_congr
        intro x hx
        have : x ≠ s := by
          have := List.mem_range.mp hx
          omega
        rw [hfg x this]
      rw [hc]
      simp only [List.countP_cons, List.countP_nil]
      omega
    · have := ih (by omega)
      have hn : g n = f n := hfg n (fun h => hsn h.symm)
      simp only [List.countP_cons, List.countP_nil, hn]
      omega

theorem usedCount_setAt (p q : MemoryPool Obj) (s : Nat) (v : MemoryNode Obj)
    (hs : s < p.node_size) (hn : q.node_size = p.node_size) (hq : q.nodes = setAt p.nodes s v) :
    q.usedCount + (if (p.nodes s).used then 1 else 0)
      = p.usedCount + (if v.used then 1 else 0) := by
  unfold MemoryPool.usedCount
  rw [hn, hq]
  have := countP_range_point (fun i => (p.nodes i).used) (fun i => (setAt p.nodes s v i).used) s
    (fun i hi => by simp [setAt_ne _ _ hi]) p.node_size hs
  simpa using this

theorem usedCount_le (p : MemoryPool Obj) : p.usedCount ≤ p.node_size := by
  unfold MemoryPool.usedCount
  have := List.countP_le_length (fun i => (p.nodes i).used) (l := List.range p.node_size)
  simpa using this

theorem used_of_usedCount_eq (p : MemoryPool Obj) (h : p.usedCount = p.node_size) :
    ∀ i, i < p.node_size → (p.nodes i).used = true := by
  intro i hi
  unfold MemoryPool.usedCount at h
  have h1 : (List.range p.node_size).countP (fun i => (p.nodes i).used)
      = (List.range p.node_size).length := by simpa using h
  rw [List.countP_eq_length] at h1
  exact h1 i (List.mem_range.mpr hi)

theorem Allocate_none_iff (p : MemoryPool Obj) :
    p.Allocate.1 = none ↔ p.free_queue (p.read_index % p.node_size) = OFFSET_NULL := by
  unfold MemoryPool.Allocate
  by_cases h : p.free_queue (p.read_index % p.node_size) = OFFSET_NULL <;> simp [h]

theorem Allocate_fail (p : MemoryPool Obj)
    (h : p.free_queue (p.read_index % p.node_size) = OFFSET_NULL) :
    p.Allocate = (none, { p with read_index := p.read_index + 1 }) := by
  simp [MemoryPool.Allocate, h]

theorem Allocate_success (p : MemoryPool Obj)
    (h : p.free_queue (p.read_index % p.node_size) ≠ OFFSET_NULL) :
    p.Allocate =
      (some (p.dataPtr (p.free_queue (p.read_index % p.node_size) / p.NodeSize)),
        { p with
          read_index := p.read_index + 1
          free_queue := setAt p.free_queue (p.read_index % p.node_size) OFFSET_NULL
          nodes := setAt p.nodes (p.free_queue (p.read_index % p.node_size) / p.NodeSize)
            { p.nodes (p.free_queue (p.read_index % p.node_size) / p.NodeSize) with
              used := true } }) := by
  simp [MemoryPool.Allocate, h, GetNodeByOffset_eq]

theorem Free_unused (p : MemoryPool Obj) (ptr : Nat)
    (h : (p.nodes (ptr / p.NodeSize)).used = false) : p.Free ptr = some p := by
  simp [MemoryPool.Free, GetNodeByObj_eq, h]

theorem Free_used (p : MemoryPool Obj) (ptr : Nat)
    (h : (p.nodes (ptr / p.NodeSize)).used = true) :
    p.Free ptr =
      if p.write_index + 1 ≤ p.read_index then
        some { p with
          nodes := setAt p.nodes (ptr / p.NodeSize)
            { p.nodes (ptr / p.NodeSize) with used := false }
          write_index := p.write_index + 1
          free_queue := setAt p.free_queue (p.write_index % p.node_size)
            (ptr / p.NodeSize * p.NodeSize) }
      else none := by
  simp [MemoryPool.Free, GetNodeByObj_eq, h, MemoryPool.GetOffsetByNode]

theorem RingInv_construct (N S D : Nat) (zero : Obj) (hN : N + 2 < 4294967296) (hS : 2 ≤ S)
    (hD : D < S) : (MemoryPool.construct N S D zero).RingInv := by
  have hmod : (N + 2) % 4294967296 = N + 2 := Nat.mod_eq_of_lt hN
  have hS0 : 0 < S := by omega
  refine ⟨hS, hD, by simp [MemoryPool.construct, hmod], ?_, ?_, ?_⟩
  · intro j hj _
    simp only [MemoryPool.construct, hmod] at hj ⊢
    rw [Nat.mul_div_cancel_left j hS0]
    exact ⟨hj, trivial⟩
  · intro j j' _ _ _ _ h
    simp only [MemoryPool.construct] at h
    rwa [Nat.mul_div_cancel_left j hS0, Nat.mul_div_cancel_left j' hS0] at h
  · simp [MemoryPool.construct, MemoryPool.usedCount]

theorem RingInv_Allocate (p : MemoryPool Obj) (hp : p.RingInv) : p.Allocate.2.RingInv := by
  have hidx : p.read_index % p.node_size < p.node_size := Nat.mod_lt _ hp.slots_pos
  by_cases h : p.free_queue (p.read_index % p.node_size) = OFFSET_NULL
  · rw [Allocate_fail p h]
    refine ⟨hp.size_ge, hp.data_lt, hp.slots_pos, hp.ring_free, hp.ring_inj, ?_⟩
    have := hp.count_le
    show MemoryPool.usedCount _ + _ ≤ _
    simp only [MemoryPool.usedCount] at this ⊢
    omega
  · rw [Allocate_success p h]
    obtain ⟨hslot, hunused⟩ := hp.ring_free _ hidx h
    refine ⟨hp.size_ge, hp.data_lt, hp.slots_pos, ?_, ?_, ?_⟩
    · intro j hj hne
      simp only at hj hne ⊢
      by_cases hji : j = p.read_index % p.node_size
      · subst hji; simp at hne
      · rw [setAt_ne _ _ hji] at hne ⊢
        obtain ⟨h1, h2⟩ := hp.ring_free j hj hne
        refine ⟨h1, ?_⟩
        have hne2 : p.free_queue j / p.NodeSize
            ≠ p.free_queue (p.read_index % p.node_size) / p.NodeSize := by
          intro he
          exact hji (hp.ring_inj _ _ hj hidx hne h he)
        rw [setAt_ne _ _ hne2]
        exact h2
    · intro j j' hj hj' hne hne' he
      simp only at hj hj' hne hne' he
      by_cases hji : j = p.read_index % p.node_size
      · subst hji; simp at hne
      by_cases hji' : j' = p.read_index % p.node_size
      · subst hji'; simp at hne'
      rw [setAt_ne _ _ hji] at hne he
      rw [setAt_ne _ _ hji'] at hne' he
      exact hp.ring_inj _ _ hj hj' hne hne' he
    · have hc := usedCount_setAt p
        { p with
          read_index := p.read_index + 1
          free_queue := setAt p.free_queue (p.read_index % p.node_size) OFFSET_NULL
          nodes := setAt p.nodes (p.free_queue (p.read_index % p.node_size) / p.NodeSize)
            { p.nodes (p.free_queue (p.read_index % p.node_size) / p.NodeSize) with
              used := true } }
        _ _ hslot rfl rfl
      rw [hunused] at hc
      simp only [Bool.false_eq_true, if_false, if_true, Nat.add_zero] at hc
      have := hp.count_le
      simp only [hc]
      omega

theorem RingInv_Free (p p1 : MemoryPool Obj) (ptr : Nat) (hp : p.RingInv)
    (hptr : ptr / p.NodeSize < p.node_size) (h : p.Free ptr = some p1) : p1.RingInv := by
  have hidx : p.write_index % p.node_size < p.node_size := Nat.mod_lt _ hp.slots_pos
  by_cases hu : (p.nodes (ptr / p.NodeSize)).used = false
  · rw [Free_unused p ptr hu] at h
    cases h
    exact hp
  · have hu1 : (p.nodes (ptr / p.NodeSize)).used = true := by simpa using hu
    rw [Free_used p ptr hu1] at h
    by_cases ha : p.write_index + 1 ≤ p.read_index
    · simp only [ha, if_true, Option.some.injEq] at h
      subst h
      have hS0 : 0 < p.NodeSize := by have := hp.size_ge; omega
      have hval : ptr / p.NodeSize * p.NodeSize / p.NodeSize = ptr / p.NodeSize :=
        Nat.mul_div_cancel _ hS0
      have hvne : ptr / p.NodeSize * p.NodeSize ≠ OFFSET_NULL := by
        rw [Nat.mul_comm]
        exact mul_ne_OFFSET_NULL _ _ hp.size_ge
      refine ⟨hp.size_ge, hp.data_lt, hp.slots_pos, ?_, ?_, ?_⟩
      · intro j hj hne
        simp only at hj hne ⊢
        by_cases hji : j = p.write_index % p.node_size
        · subst hji
          simp only [setAt_same, hval]
          exact ⟨hptr, trivial⟩
        · rw [setAt_ne _ _ hji] at hne ⊢
          obtain ⟨h1, h2⟩ := hp.ring_free j hj hne
          refine ⟨h1, ?_⟩
          by_cases he : p.free_queue j / p.NodeSize = ptr / p.NodeSize
          · rw [he]; simp
          · rw [setAt_ne _ _ he]; exact h2
      · intro j j' hj hj' hne hne' he
        simp only at hj hj' hne hne' he
        by_cases hji : j = p.write_index % p.node_size
        · by_cases hji' : j' = p.write_index % p.node_size
          · rw [hji, hji']
          · exfalso
            rw [hji, setAt_same, hval, setAt_ne _ _ hji'] at he
            rw [setAt_ne _ _ hji'] at hne'
            have := (hp.ring_free j' hj' hne').2
            rw [← he, hu1] at this
            cases this
        · by_cases hji' : j' = p.write_index % p.node_size
          · exfalso
            rw [hji', setAt_same, hval, setAt_ne _ _ hji] at he
            rw [setAt_ne _ _ hji] at hne
            have := (hp.ring_free j hj hne).2
            rw [he, hu1] at this
            cases this
          · rw [setAt_ne _ _ hji] at hne he
            rw [setAt_ne _ _ hji'] at hne' he
            exact hp.ring_inj _ _ hj hj' hne hne' he
      · have hc := usedCount_setAt p
          { p with
            nodes := setAt p.nodes (ptr / p.NodeSize)
              { p.nodes (ptr / p.NodeSize) with used := false }
            write_index := p.write_index + 1
            free_queue := setAt p.free_queue (p.write_index % p.node_size)
              (ptr / p.NodeSize * p.NodeSize) }
          _ _ hptr rfl rfl
        rw [hu1] at hc
        simp only [Bool.false_eq_true, if_false, if_true, Nat.add_zero] at hc
        have := hp.count_le
        simp only
        omega
    · simp [ha] at h

theorem write_used (p : MemoryPool Obj) (x : Nat) (o : Obj) (s : Nat) :
    ((p.write x o).nodes s).used = (p.nodes s).used := by
  simp only [MemoryPool.write, setAt_apply]
  split
  · rename_i h; rw [h]
  · rfl

theorem usedCount_write (p : MemoryPool Obj) (x : Nat) (o : Obj) :
    (p.write x o).usedCount = p.usedCount := by
  unfold MemoryPool.usedCount
  apply List.countP_congr
  intro i _
  rw [write_used]

theorem RingInv_write (p : MemoryPool Obj) (x : Nat) (o : Obj) (hp : p.RingInv) :
    (p.write x o).RingInv := by
  refine ⟨hp.size_ge, hp.data_lt, hp.slots_pos, ?_, hp.ring_inj, ?_⟩
  · intro j hj hne
    obtain ⟨h1, h2⟩ := hp.ring_free j hj hne
    exact ⟨h1, by rw [write_used]; exact h2⟩
  · rw [usedCount_write]
    exact hp.count_le

end ShmPool

namespace ShmPool

variable {Obj : Type}

theorem NoFailInv_construct (N S D : Nat) (zero : Obj) (hN : N + 2 < 4294967296) (hS : 2 ≤ S)
    (hD : D < S) : (MemoryPool.construct N S D zero).NoFailInv := by
  refine ⟨RingInv_construct N S D zero hN hS hD, ?_, ?_, ?_, ?_⟩
  · simp [MemoryPool.construct]
  · simp [MemoryPool.construct, MemoryPool.usedCount]
  · intro j h1 h2
    simp only [MemoryPool.construct] at h1 h2
    omega
  · intro j _ _
    simp only [MemoryPool.construct]
    exact mul_ne_OFFSET_NULL _ _ hS

theorem NoFailInv_Allocate (p : MemoryPool Obj) (hp : p.NoFailInv)
    (h : p.Allocate.1 ≠ none) : p.Allocate.2.NoFailInv := by
  have hring := RingInv_Allocate p hp.ring
  have hn := hp.ring.slots_pos
  have hne : p.free_queue (p.read_index % p.node_size) ≠ OFFSET_NULL := by
    intro he
    exact h ((Allocate_none_iff p).mpr he)
  have hlt : p.read_index < p.write_index + p.node_size := by
    by_contra hge
    have hr : p.read_index = p.write_index + p.node_size := by
      have := hp.read_le
      omega
    apply hne
    have := hp.consumed p.write_index (le_refl _) (by omega)
    rw [hr, Nat.add_mod_right]
    exact this
  obtain ⟨hslot, hunused⟩ := hp.ring.ring_free _ (Nat.mod_lt _ hn) hne
  have hc := usedCount_setAt p
    { p with
      read_index := p.read_index + 1
      free_queue := setAt p.free_queue (p.read_index % p.node_size) OFFSET_NULL
      nodes := setAt p.nodes (p.free_queue (p.read_index % p.node_size) / p.NodeSize)
        { p.nodes (p.free_queue (p.read_index % p.node_size) / p.NodeSize) with
          used := true } }
    _ _ hslot rfl rfl
  rw [hunused] at hc
  simp only [Bool.false_eq_true, if_false, if_true, Nat.add_zero] at hc
  have hceq := hp.count_eq
  rw [Allocate_success p hne] at hring ⊢
  refine ⟨hring, ?_, ?_, ?_, ?_⟩
  · simp only; omega
  · simp only [hc]; omega
  · intro j h1 h2
    simp only at h1 h2 ⊢
    by_cases hj : j % p.node_size = p.read_index % p.node_size
    · rw [hj]; simp
    · rw [setAt_ne _ _ hj]
      apply hp.consumed j h1
      by_contra hge
      have : j = p.read_index := by omega
      exact hj (by rw [this])
  · intro j h1 h2
    simp only at h1 h2 ⊢
    have hj : j % p.node_size ≠ p.read_index % p.node_size :=
      fun e => mod_ne_of_lt_of_lt (show p.read_index < j by omega) (by omega) e.symm
    rw [setAt_ne _ _ hj]
    exact hp.filled j (by omega) h2

theorem NoFailInv_Free (p p1 : MemoryPool Obj) (ptr : Nat) (hp : p.NoFailInv)
    (hptr : ptr / p.NodeSize < p.node_size) (h : p.Free ptr = some p1) : p1.NoFailInv := by
  have hring := RingInv_Free p p1 ptr hp.ring hptr h
  have hn := hp.ring.slots_pos
  by_cases hu : (p.nodes (ptr / p.NodeSize)).used = false
  · rw [Free_unused p ptr hu] at h
    cases h
    exact hp
  · have hu1 : (p.nodes (ptr / p.NodeSize)).used = true := by simpa using hu
    rw [Free_used p ptr hu1] at h
    by_cases ha : p.write_index + 1 ≤ p.read_index
    · simp only [ha, if_true, Option.some.injEq] at h
      have hc := usedCount_setAt p p1 (ptr / p.NodeSize)
        { p.nodes (ptr / p.NodeSize) with used := false } hptr (by rw [← h]) (by rw [← h])
      rw [hu1] at hc
      simp only [Bool.false_eq_true, if_false, if_true, Nat.add_zero] at hc
      have hceq := hp.count_eq
      have hrl := hp.read_le
      have hvne : ptr / p.NodeSize * p.NodeSize ≠ OFFSET_NULL := by
        rw [Nat.mul_comm]
        exact mul_ne_OFFSET_NULL _ _ hp.ring.size_ge
      refine ⟨hring, ?_, ?_, ?_, ?_⟩
      · rw [← h]; simp only; omega
      · rw [← h] at hc ⊢; simp only at hc ⊢; omega
      · intro j h1 h2
        rw [← h] at h1 h2 ⊢
        simp only at h1 h2 ⊢
        have hj : j % p.node_size ≠ p.write_index % p.node_size :=
          fun e => mod_ne_of_lt_of_lt (show p.write_index < j by omega) (by omega) e.symm
        rw [setAt_ne _ _ hj]
        exact hp.consumed j (by omega) h2
      · intro j h1 h2
        rw [← h] at h1 h2 ⊢
        simp only at h1 h2 ⊢
        by_cases hj : j % p.node_size = p.write_index % p.node_size
        · rw [hj, setAt_same]; exact hvne
        · rw [setAt_ne _ _ hj]
          apply hp.filled j h1
          by_contra hge
          have : j = p.write_index + p.node_size := by omega
          exact hj (by rw [this, Nat.add_mod_right])
    · simp [ha] at h

theorem NoFailInv_stepNoFail (p p1 : MemoryPool Obj) (op : PoolOp) (hp : p.NoFailInv)
    (h : p.stepNoFail op = some p1) : p1.NoFailInv := by
  cases op with
  | allocate =>
    simp only [MemoryPool.stepNoFail] at h
    split at h
    · cases h
    · cases h
      exact NoFailInv_Allocate p hp (by assumption)
  | free slot =>
    simp only [MemoryPool.stepNoFail] at h
    split at h
    · rename_i hs
      apply NoFailInv_Free p p1 _ hp _ h
      rw [dataPtr_div p hp.ring.data_lt]
      exact hs
    · cases h

theorem NoFailInv_runNoFail (ops : List PoolOp) :
    ∀ (p p1 : MemoryPool Obj), p.NoFailInv → p.runNoFail ops = some p1 → p1.NoFailInv := by
  induction ops with
  | nil =>
    intro p p1 hp h
    simp only [MemoryPool.runNoFail, List.foldlM_nil, pure, Option.some.injEq] at h
    subst h; exact hp
  | cons op ops ih =>
    intro p p1 hp h
    simp only [MemoryPool.runNoFail, List.foldlM_cons] at h
    cases hs : p.stepNoFail op with
    | none => rw [hs] at h; cases h
    | some q =>
      rw [hs] at h
      exact ih q p1 (NoFailInv_stepNoFail p q op hp hs) h

theorem NoFailInv_exhausted (p : MemoryPool Obj) (hp : p.NoFailInv)
    (h : p.Allocate.1 = none) : ∀ i, i < p.node_size → (p.nodes i).used = true := by
  have he := (Allocate_none_iff p).mp h
  have hr : p.read_index = p.write_index + p.node_size := by
    by_contra hne
    have hrl := hp.read_le
    exact hp.filled p.read_index (le_refl _) (by omega) he
  apply used_of_usedCount_eq
  have := hp.count_eq
  omega

/-- C8, the claim refuted: from a fresh pool of two slots, after two successful
allocations, one failed allocation and the release of slot `0`, `Allocate` returns
`NULL` although slot `0` is unused. -/
theorem allocate_null_not_exhausted :
    ¬ (∀ (ops : List PoolOp) (p : MemoryPool Unit),
        (MemoryPool.construct 0 16 8 ()).run ops = some p →
        p.Allocate.1 = none → ∀ i, i < p.node_size → (p.nodes i).used = true) := by
  intro h
  have hrun : ((MemoryPool.construct 0 16 8 ()).run
      [PoolOp.allocate, PoolOp.allocate, PoolOp.allocate, PoolOp.free 0]).isSome = true := by
    decide
  obtain ⟨p, hp⟩ := Option.isSome_iff_exists.mp hrun
  have h1 : p.Allocate.1 = none ∧ p.node_size = 2 ∧ (p.nodes 0).used = false := by
    have : (((MemoryPool.construct 0 16 8 ()).run
        [PoolOp.allocate, PoolOp.allocate, PoolOp.allocate, PoolOp.free 0]).map
        (fun q => (q.Allocate.1, q.node_size, (q.nodes 0).used))) = some (none, 2, false) := by
      decide
    rw [hp] at this
    simp only [Option.map_some', Option.some.injEq, Prod.mk.injEq] at this
    exact this
  have := h _ p hp h1.1 0 (by omega)
  rw [h1.2.2] at this
  cases this

/-- C8 as amended: `Allocate` returns `NULL` exactly when the queue entry at the
read position is `OFFSET_NULL`; in a pool reached from a fresh pool by `Allocate`
and `Free` calls among which no `Allocate` returned `NULL`, this happens only when
every slot is used. -/
theorem allocate_null_spec :
    (∀ p : MemoryPool Obj,
      p.Allocate.1 = none ↔ p.free_queue (p.read_index % p.node_size) = OFFSET_NULL) ∧
    (∀ (N S D : Nat) (zero : Obj) (ops : List PoolOp) (p : MemoryPool Obj),
      N + 2 < 4294967296 → 2 ≤ S → D < S →
      (MemoryPool.construct N S D zero).runNoFail ops = some p →
      p.Allocate.1 = none → ∀ i, i < p.node_size → (p.nodes i).used = true) := by
  refine ⟨Allocate_none_iff, ?_⟩
  intro N S D zero ops p hN hS hD hrun hnone
  exact NoFailInv_exhausted p
    (NoFailInv_runNoFail ops _ p (NoFailInv_construct N S D zero hN hS hD) hrun) hnone

theorem allocate_null_spec_witness :
    ∃ p : MemoryPool Unit,
      (MemoryPool.construct 0 16 8 ()).runNoFail [PoolOp.allocate, PoolOp.allocate] = some p ∧
      p.Allocate.1 = none ∧ ∀ i, i < p.node_size → (p.nodes i).used = true := by
  have hrun : ((MemoryPool.construct 0 16 8 ()).runNoFail
      [PoolOp.allocate, PoolOp.allocate]).isSome = true := by decide
  obtain ⟨p, hp⟩ := Option.isSome_iff_exists.mp hrun
  have h1 : p.Allocate.1 = none := by
    have : (((MemoryPool.construct 0 16 8 ()).runNoFail
        [PoolOp.allocate, PoolOp.allocate]).map (fun q => q.Allocate.1)) = some none := by
      decide
    rw [hp] at this
    simpa using this
  exact ⟨p, hp, h1, (@allocate_null_spec Unit).2 0 16 8 () _ p (by norm_num) (by norm_num)
    (by norm_num) hp h1⟩

end ShmPool

namespace ShmMap

open ShmPool

variable {K V : Type}

@[simp] theorem setItem_NodeSize (m : ShmHashMap K V) (x : Nat) (it : ItemNode K V) :
    (m.setItem x it).pool.NodeSize = m.pool.NodeSize := rfl

@[simp] theorem setItem_node_size (m : ShmHashMap K V) (x : Nat) (it : ItemNode K V) :
    (m.setItem x it).pool.node_size = m.pool.node_size := rfl

@[simp] theorem setItem_dataOff (m : ShmHashMap K V) (x : Nat) (it : ItemNode K V) :
    (m.setItem x it).pool.dataOff = m.pool.dataOff := rfl

@[simp] theorem setItem_free_queue (m : ShmHashMap K V) (x : Nat) (it : ItemNode K V) :
    (m.setItem x it).pool.free_queue = m.pool.free_queue := rfl

@[simp] theorem setItem_read_index (m : ShmHashMap K V) (x : Nat) (it : ItemNode K V) :
    (m.setItem x it).pool.read_index = m.pool.read_index := rfl

@[simp] theorem setItem_write_index (m : ShmHashMap K V) (x : Nat) (it : ItemNode K V) :
    (m.setItem x it).pool.write_index = m.pool.write_index := rfl

@[simp] theorem setItem_buckets (m : ShmHashMap K V) (x : Nat) (it : ItemNode K V) :
    (m.setItem x it).buckets = m.buckets := rfl

@[simp] theorem setItem_bucket_size (m : ShmHashMap K V) (x : Nat) (it : ItemNode K V) :
    (m.setItem x it).bucket_size = m.bucket_size := rfl

@[simp] theorem setItem_HashCode (m : ShmHashMap K V) (x : Nat) (it : ItemNode K V) :
    (m.setItem x it).HashCode = m.HashCode := rfl

@[simp] theorem setItem_gc_timestamp (m : ShmHashMap K V) (x : Nat) (it : ItemNode K V) :
    (m.setItem x it).gc_timestamp = m.gc_timestamp := rfl

@[simp] theorem setItem_garbage_head (m : ShmHashMap K V) (x : Nat) (it : ItemNode K V) :
    (m.setItem x it).garbage_list_head_offset = m.garbage_list_head_offset := rfl

@[simp] theorem setItem_garbage_tail (m : ShmHashMap K V) (x : Nat) (it : ItemNode K V) :
    (m.setItem x it).garbage_list_tail_offset = m.garbage_list_tail_offset := rfl

@[simp] theorem setItem_slot (m : ShmHashMap K V) (x : Nat) (it : ItemNode K V) (y : Nat) :
    (m.setItem x it).slot y = m.slot y := rfl

theorem setItem_used (m : ShmHashMap K V) (x : Nat) (it : ItemNode K V) (s : Nat) :
    ((m.setItem x it).pool.nodes s).used = (m.pool.nodes s).used := by
  simp only [ShmHashMap.setItem, MemoryPool.write, setAt_apply]
  split
  · rename_i h; rw [h]
  · rfl

theorem setItem_nodes_ne (m : ShmHashMap K V) (x : Nat) (it : ItemNode K V) (s : Nat)
    (h : s ≠ m.slot x) : (m.setItem x it).pool.nodes s = m.pool.nodes s := by
  simp only [ShmHashMap.setItem, MemoryPool.write]
  exact setAt_ne _ _ h

theorem item_setItem (m : ShmHashMap K V) (x : Nat) (it : ItemNode K V) (y : Nat) :
    (m.setItem x it).item y = if m.slot y = m.slot x then it else m.item y := by
  simp only [ShmHashMap.setItem, ShmHashMap.item, MemoryPool.read, MemoryPool.write,
    setAt_apply, ShmHashMap.slot]
  split <;> rfl

@[simp] theorem item_setItem_same (m : ShmHashMap K V) (x : Nat) (it : ItemNode K V) :
    (m.setItem x it).item x = it := by
  rw [item_setItem]; simp

theorem item_setItem_ne (m : ShmHashMap K V) (x : Nat) (it : ItemNode K V) (y : Nat)
    (h : m.slot y ≠ m.slot x) : (m.setItem x it).item y = m.item y := by
  rw [item_setItem]; simp [h]

theorem OffsetToNode_eq (m : ShmHashMap K V) (x : Nat) :
    m.OffsetToNode x
      = if (m.pool.nodes (m.slot x)).used = false ∨ x = OFFSET_NULL then none else some x := by
  simp only [ShmHashMap.OffsetToNode, MemoryPool.GetObjByOffset, GetNodeByOffset_eq,
    ShmHashMap.slot]

theorem OffsetToNode_NULL (m : ShmHashMap K V) : m.OffsetToNode OFFSET_NULL = none := by
  simp [OffsetToNode_eq]

theorem OffsetToNode_some_iff (m : ShmHashMap K V) (x y : Nat) :
    m.OffsetToNode x = some y ↔
      (y = x ∧ (m.pool.nodes (m.slot x)).used = true ∧ x ≠ OFFSET_NULL) := by
  rw [OffsetToNode_eq]
  cases h1 : (m.pool.nodes (m.slot x)).used
  · simp
  · by_cases h2 : x = OFFSET_NULL
    · simp [h2]
    · simp only [h2, or_self, if_false, Option.some.injEq, Bool.true_eq_false]
      constructor
      · intro h; exact ⟨h.symm, trivial, fun h => h2 h⟩
      · intro h; exact h.1.symm

theorem OffsetToNode_none_iff (m : ShmHashMap K V) (x : Nat) :
    m.OffsetToNode x = none ↔ ((m.pool.nodes (m.slot x)).used = false ∨ x = OFFSET_NULL) := by
  rw [OffsetToNode_eq]
  by_cases h : (m.pool.nodes (m.slot x)).used = false ∨ x = OFFSET_NULL <;> simp [h]

@[simp] theorem OffsetToNode_setItem (m : ShmHashMap K V) (x : Nat) (it : ItemNode K V)
    (y : Nat) : (m.setItem x it).OffsetToNode y = m.OffsetToNode y := by
  rw [OffsetToNode_eq, OffsetToNode_eq, setItem_used]
  rfl

@[simp] theorem setBucket_pool (m : ShmHashMap K V) (i : Nat) (b : BucketItem) :
    (m.setBucket i b).pool = m.pool := rfl

@[simp] theorem setBucket_bucket_size (m : ShmHashMap K V) (i : Nat) (b : BucketItem) :
    (m.setBucket i b).bucket_size = m.bucket_size := rfl

@[simp] theorem setBucket_HashCode (m : ShmHashMap K V) (i : Nat) (b : BucketItem) :
    (m.setBucket i b).HashCode = m.HashCode := rfl

@[simp] theorem setBucket_gc_timestamp (m : ShmHashMap K V) (i : Nat) (b : BucketItem) :
    (m.setBucket i b).gc_timestamp = m.gc_timestamp := rfl

@[simp] theorem setBucket_garbage_head (m : ShmHashMap K V) (i : Nat) (b : BucketItem) :
    (m.setBucket i b).garbage_list_head_offset = m.garbage_list_head_offset := rfl

@[simp] theorem setBucket_garbage_tail (m : ShmHashMap K V) (i : Nat) (b : BucketItem) :
    (m.setBucket i b).garbage_list_tail_offset = m.garbage_list_tail_offset := rfl

@[simp] theorem setBucket_item (m : ShmHashMap K V) (i : Nat) (b : BucketItem) (x : Nat) :
    (m.setBucket i b).item x = m.item x := rfl

@[simp] theorem setBucket_slot (m : ShmHashMap K V) (i : Nat) (b : BucketItem) (x : Nat) :
    (m.setBucket i b).slot x = m.slot x := rfl

@[simp] theorem setBucket_OffsetToNode (m : ShmHashMap K V) (i : Nat) (b : BucketItem)
    (x : Nat) : (m.setBucket i b).OffsetToNode x = m.OffsetToNode x := rfl

@[simp] theorem setBucket_NodeToOffset (m : ShmHashMap K V) (x : Nat) :
    m.NodeToOffset x = x := rfl

@[simp] theorem setBucket_buckets_same (m : ShmHashMap K V) (i : Nat) (b : BucketItem) :
    (m.setBucket i b).buckets i = b := by
  simp [ShmHashMap.setBucket]

theorem setBucket_buckets_ne (m : ShmHashMap K V) (i j : Nat) (b : BucketItem) (h : j ≠ i) :
    (m.setBucket i b).buckets j = m.buckets j := by
  simp [ShmHashMap.setBucket, h]

/-- Two states that resolve the offsets of `l` alike and agree on their links
have the same chains `l`. -/
theorem Chain_congr (m m1 : ShmHashMap K V) (link : ItemNode K V → Nat) (l : List Nat)
    (h : ∀ x, x ∈ l → m1.OffsetToNode x = m.OffsetToNode x ∧ link (m1.item x) = link (m.item x)) :
    ∀ s, m.Chain link s l → m1.Chain link s l := by
  induction l with
  | nil => intro s hs; exact hs
  | cons x l ih =>
    intro s hs
    obtain ⟨h1, h2, h3⟩ := hs
    have hx := h x (List.mem_cons_self _ _)
    refine ⟨h1, by rw [hx.1]; exact h2, ?_⟩
    rw [hx.2]
    exact ih (fun y hy => h y (List.mem_cons_of_mem _ hy)) _ h3

theorem Chain_mem_live (m : ShmHashMap K V) (link : ItemNode K V → Nat) (l : List Nat) :
    ∀ s, m.Chain link s l → ∀ x, x ∈ l → m.OffsetToNode x = some x := by
  induction l with
  | nil => intro s _ x hx; cases hx
  | cons y l ih =>
    intro s hs x hx
    obtain ⟨_, h2, h3⟩ := hs
    rcases List.mem_cons.mp hx with h | h
    · subst h; exact h2
    · exact ih _ h3 x h

theorem Chain_mem_used (m : ShmHashMap K V) (link : ItemNode K V → Nat) (l : List Nat)
    (s : Nat) (h : m.Chain link s l) (x : Nat) (hx : x ∈ l) :
    (m.pool.nodes (m.slot x)).used = true ∧ x ≠ OFFSET_NULL :=
  ((OffsetToNode_some_iff m x x).mp (Chain_mem_live m link l s h x hx)).2

theorem Chain_IsWalk (m : ShmHashMap K V) (l : List Nat) :
    ∀ s, m.Chain (fun it => it.next) s l → m.IsWalk s l := by
  induction l with
  | nil => intro s hs; simp only [ShmHashMap.Chain] at hs; subst hs; exact OffsetToNode_NULL m
  | cons x l ih =>
    intro s hs
    obtain ⟨h1, h2, h3⟩ := hs
    subst h1
    exact ⟨h2, ih _ h3⟩

variable [DecidableEq K]

/-- On a walk `l`, whenever the loop of `GetNode` returns it returns the first
item of `l` with the key. -/
theorem GetNodeLoop_walk_some (m : ShmHashMap K V) (key : K) (l : List Nat) :
    ∀ s fuel r, m.IsWalk s l → m.GetNodeLoop key fuel (m.OffsetToNode s) = some r →
      r = l.find? (fun x => decide ((m.item x).key = key)) := by
  induction l with
  | nil =>
    intro s fuel r hs h
    simp only [ShmHashMap.IsWalk] at hs
    rw [hs] at h
    cases fuel with
    | zero => simp [ShmHashMap.GetNodeLoop] at h
    | succ f => simp only [ShmHashMap.GetNodeLoop, Option.some.injEq] at h; simp [← h]
  | cons x l ih =>
    intro s fuel r hs h
    obtain ⟨h1, h2⟩ := hs
    rw [h1] at h
    cases fuel with
    | zero => simp [ShmHashMap.GetNodeLoop] at h
    | succ f =>
      simp only [ShmHashMap.GetNodeLoop] at h
      by_cases hk : (m.item x).key = key
      · simp only [hk, if_true, Option.some.injEq] at h
        simp [← h, hk]
      · simp only [hk, if_false] at h
        rw [List.find?_cons_of_neg _ (by simpa using hk)]
        exact ih _ f r h2 h

/-- On a walk `l`, the loop of `GetNode` returns once it has more fuel than the
walk is long. -/
theorem GetNodeLoop_walk (m : ShmHashMap K V) (key : K) (l : List Nat) :
    ∀ s fuel, m.IsWalk s l → l.length < fuel →
      m.GetNodeLoop key fuel (m.OffsetToNode s)
        = some (l.find? (fun x => decide ((m.item x).key = key))) := by
  induction l with
  | nil =>
    intro s fuel hs hf
    simp only [ShmHashMap.IsWalk] at hs
    rw [hs]
    cases fuel with
    | zero => simp at hf
    | succ f => simp [ShmHashMap.GetNodeLoop]
  | cons x l ih =>
    intro s fuel hs hf
    obtain ⟨h1, h2⟩ := hs
    rw [h1]
    cases fuel with
    | zero => simp at hf
    | succ f =>
      simp only [ShmHashMap.GetNodeLoop]
      by_cases hk : (m.item x).key = key
      · simp [hk]
      · simp only [hk, if_false]
        rw [List.find?_cons_of_neg _ (by simpa using hk)]
        exact ih _ f h2 (by simpa using hf)

end ShmMap

namespace ShmMap

open ShmPool

variable {K V : Type}

/-- The item that `AddNodeItem` constructs. -/
theorem newItem_fields (key : K) (value : V) (expire now : Int) :
    let it : ItemNode K V :=
      { invalid := 0, key := key, value := value, next := OFFSET_NULL,
        expire := expireAt expire now, del_next := OFFSET_NULL }
    it.next = OFFSET_NULL ∧ it.del_next = OFFSET_NULL ∧ it.invalid = VALID ∧ it.key = key ∧
      it.value = value ∧ it.expire = expireAt expire now := by
  simp [VALID]

theorem AddNodeItem_fail (m : ShmHashMap K V) (index : Nat) (key : K) (value : V)
    (expire now : Int)
    (h : m.pool.free_queue (m.pool.read_index % m.pool.node_size) = OFFSET_NULL) :
    m.AddNodeItem index key value expire now
      = (SinHashRet.RET_NO_MEMORY,
          { m with pool := { m.pool with read_index := m.pool.read_index + 1 } }) := by
  simp only [ShmHashMap.AddNodeItem, Allocate_fail m.pool h]

/-- The state after the allocation and construction steps of `AddNodeItem`. -/
theorem AddNodeItem_success (m : ShmHashMap K V) (index : Nat) (key : K) (value : V)
    (expire now : Int)
    (h : m.pool.free_queue (m.pool.read_index % m.pool.node_size) ≠ OFFSET_NULL) :
    m.AddNodeItem index key value expire now
      = (SinHashRet.RET_OK,
          let new_node := m.pool.dataPtr
            (m.pool.free_queue (m.pool.read_index % m.pool.node_size) / m.pool.NodeSize)
          let m2 := ({ m with pool := m.pool.Allocate.2 } : ShmHashMap K V).setItem new_node
            { invalid := 0, key := key, value := value, next := OFFSET_NULL,
              expire := expireAt expire now, del_next := OFFSET_NULL }
          let m3 := m2.setBucket index { m2.buckets index with tail := new_node }
          let m4 :=
            match m3.OffsetToNode (m.buckets index).tail with
            | none => m3.setBucket index { m3.buckets index with head := new_node }
            | some old_node => m3.setItem old_node { m3.item old_node with next := new_node }
          m4.setBucket index
            { m4.buckets index with count := ((m4.buckets index).count + 1) % 4294967296 }) := by
  simp only [ShmHashMap.AddNodeItem, Allocate_success m.pool h]
  rfl

end ShmMap

namespace ShmMap

open ShmPool

variable {K V : Type}

theorem dataPtr_ne_NULL (p : MemoryPool (ItemNode K V)) (h : 1 < p.dataOff) (j : Nat) :
    p.dataPtr j ≠ OFFSET_NULL := by
  unfold MemoryPool.dataPtr OFFSET_NULL
  omega

theorem getLast?_mem {α : Type} (l : List α) (t : α) (h : l.getLast? = some t) : t ∈ l :=
  List.mem_of_getLast?_eq_some h

theorem nodes_setItem (m : ShmHashMap K V) (x : Nat) (it : ItemNode K V) (s : Nat) :
    (m.setItem x it).pool.nodes s
      = if s = m.slot x then { m.pool.nodes (m.slot x) with data := it } else m.pool.nodes s := by
  simp only [ShmHashMap.setItem, MemoryPool.write, setAt_apply, ShmHashMap.slot]

theorem Allocate_success_fields (p : MemoryPool (ItemNode K V))
    (h : p.free_queue (p.read_index % p.node_size) ≠ OFFSET_NULL) :
    p.Allocate.2.node_size = p.node_size ∧ p.Allocate.2.NodeSize = p.NodeSize ∧
    p.Allocate.2.dataOff = p.dataOff ∧
    p.Allocate.2.read_index = p.read_index + 1 ∧
    p.Allocate.2.write_index = p.write_index ∧
    p.Allocate.2.free_queue = setAt p.free_queue (p.read_index % p.node_size) OFFSET_NULL ∧
    p.Allocate.2.nodes = setAt p.nodes (p.free_queue (p.read_index % p.node_size) / p.NodeSize)
      { used := true,
        data := (p.nodes (p.free_queue (p.read_index % p.node_size) / p.NodeSize)).data } := by
  rw [Allocate_success p h]
  exact ⟨rfl, rfl, rfl, rfl, rfl, rfl, rfl⟩

/-- `AddNodeItem` on a well-formed bucket of a consistent pool with a filled read
position: it returns `RET_OK` and changes the state as `AppendedTo` says. -/
theorem AddNodeItem_appended (m : ShmHashMap K V) (index : Nat) (key : K) (value : V)
    (expire now : Int) (l : List Nat) (hp : m.pool.RingInv) (hD : 1 < m.pool.dataOff)
    (hb : m.BucketWF index l)
    (hq : m.pool.free_queue (m.pool.read_index % m.pool.node_size) ≠ OFFSET_NULL) :
    ∃ m1, m.AddNodeItem index key value expire now = (SinHashRet.RET_OK, m1) ∧
      m.AppendedTo m1 index l
        (m.pool.dataPtr
          (m.pool.free_queue (m.pool.read_index % m.pool.node_size) / m.pool.NodeSize))
        { invalid := 0, key := key, value := value, next := OFFSET_NULL,
          expire := expireAt expire now, del_next := OFFSET_NULL } := by
  have hidx : m.pool.read_index % m.pool.node_size < m.pool.node_size :=
    Nat.mod_lt _ hp.slots_pos
  obtain ⟨hj, hju⟩ := hp.ring_free _ hidx hq
  have hinv := RingInv_Allocate m.pool hp
  obtain ⟨f1, f2, f3, f4, f5, f6, f7⟩ := Allocate_success_fields m.pool hq
  rw [AddNodeItem_success m index key value expire now hq]
  have ha : m.slot (m.pool.dataPtr
      (m.pool.free_queue (m.pool.read_index % m.pool.node_size) / m.pool.NodeSize))
      = m.pool.free_queue (m.pool.read_index % m.pool.node_size) / m.pool.NodeSize :=
    dataPtr_div m.pool hp.data_lt _
  have hane := dataPtr_ne_NULL m.pool hD
    (m.pool.free_queue (m.pool.read_index % m.pool.node_size) / m.pool.NodeSize)
  generalize m.pool.dataPtr
    (m.pool.free_queue (m.pool.read_index % m.pool.node_size) / m.pool.NodeSize) = a at *
  generalize
    m.pool.free_queue (m.pool.read_index % m.pool.node_size) / m.pool.NodeSize = j at *
  obtain ⟨it, hit⟩ : ∃ it : ItemNode K V, it =
      { invalid := 0, key := key, value := value, next := OFFSET_NULL,
        expire := expireAt expire now, del_next := OFFSET_NULL } := ⟨_, rfl⟩
  rw [← hit]
  generalize m.pool.Allocate.2 = P1 at *
  -- the state after construction of the new item
  have hslot : ∀ x, ShmHashMap.slot ({ m with pool := P1 } : ShmHashMap K V) x = m.slot x := by
    intro x; simp only [ShmHashMap.slot, f2]
  refine ⟨_, rfl, ?_⟩
  rcases List.eq_nil_or_concat l with hl | ⟨l0, t, hl⟩
  all_goals try rw [List.concat_eq_append] at hl
  · -- empty chain: the tail is `OFFSET_NULL`
    subst hl
    have ht := hb.tail_nil rfl
    simp only [ht, OffsetToNode_NULL]
    refine ⟨by rw [ha]; exact hj, by rw [ha]; exact hju, hane, rfl, rfl, rfl, rfl, rfl,
      f2, f1, f3, f4, f5, f6, RingInv_write _ _ _ hinv, ?_, ?_, ?_, ?_, ?_⟩
    · simp only [setBucket_pool, nodes_setItem, hslot, if_true, f7, ha, setAt_same]
    · intro t h; simp at h
    · intro s hs _
      simp only [setBucket_pool, nodes_setItem, hslot, hs, if_false, f7]
      rw [ha] at hs
      exact setAt_ne _ _ hs
    · simp
    · intro b hb
      simp [setBucket_buckets_ne _ _ _ _ hb]
  · -- the tail is the last item `t` of the chain
    subst hl
    have hlast : (l0 ++ [t]).getLast? = some t := by simp
    have ht := hb.tail_last t hlast
    have htl := Chain_mem_used m _ _ _ hb.chain t (by simp)
    have htj : m.slot t ≠ j := by
      intro h
      rw [h, hju] at htl
      exact absurd htl.1 (by simp)
    have hto : ∀ b, (((({ m with pool := P1 } : ShmHashMap K V).setItem a it).setBucket
        index b).OffsetToNode t) = some t := by
      intro b
      rw [OffsetToNode_some_iff]
      refine ⟨rfl, ?_, htl.2⟩
      simp only [setBucket_pool, setBucket_slot, setItem_slot, setItem_used, hslot, f7]
      rw [setAt_ne _ _ htj]
      exact htl.1
    simp only [ht, hto]
    refine ⟨by rw [ha]; exact hj, by rw [ha]; exact hju, hane, rfl, rfl, rfl, rfl, rfl,
      f2, f1, f3, f4, f5, f6, RingInv_write _ _ _ (RingInv_write _ _ _ hinv), ?_, ?_, ?_, ?_, ?_⟩
    · have hne : j ≠ m.slot t := fun h => htj h.symm
      simp only [setBucket_pool, nodes_setItem, setItem_slot, setBucket_slot, hslot, hne,
        if_false, if_true, f7, ha, setAt_same]
    · intro t1 h
      rw [hlast] at h
      cases h
      simp only [setBucket_pool, nodes_setItem, setItem_slot, setBucket_slot, hslot,
        if_true, f7, setBucket_item, item_setItem, ha, htj, if_false, setAt_ne _ _ htj]
      have e : ShmHashMap.item ({ m with pool := P1 } : ShmHashMap K V) t = m.item t := by
        simp only [ShmHashMap.item, MemoryPool.read, f2, f7]
        have : t / m.pool.NodeSize ≠ j := htj
        rw [setAt_ne _ _ this]
      rw [e, htl.1]
    · intro s hs hst
      have hst1 := hst t hlast
      simp only [setBucket_pool, nodes_setItem, setItem_slot, setBucket_slot, hslot, hs, hst1,
        if_false, f7]
      rw [ha] at hs
      exact setAt_ne _ _ hs
    · simp
    · intro b hb
      simp [setBucket_buckets_ne _ _ _ _ hb]

end ShmMap

namespace ShmMap

open ShmPool

variable {K V : Type}

theorem slot_eq_of_NodeSize (m m1 : ShmHashMap K V) (h : m1.pool.NodeSize = m.pool.NodeSize)
    (x : Nat) : m1.slot x = m.slot x := by
  simp only [ShmHashMap.slot, h]

theorem OffsetToNode_congr (m m1 : ShmHashMap K V) (hS : m1.pool.NodeSize = m.pool.NodeSize)
    (x : Nat) (hu : (m1.pool.nodes (m.slot x)).used = (m.pool.nodes (m.slot x)).used) :
    m1.OffsetToNode x = m.OffsetToNode x := by
  rw [OffsetToNode_eq, OffsetToNode_eq, slot_eq_of_NodeSize m m1 hS, hu]

theorem item_eq_nodes (m : ShmHashMap K V) (x : Nat) :
    m.item x = (m.pool.nodes (m.slot x)).data := rfl

theorem item_congr (m m1 : ShmHashMap K V) (hS : m1.pool.NodeSize = m.pool.NodeSize)
    (x : Nat) (h : m1.pool.nodes (m.slot x) = m.pool.nodes (m.slot x)) :
    m1.item x = m.item x := by
  rw [item_eq_nodes, item_eq_nodes, slot_eq_of_NodeSize m m1 hS, h]

/-- A bucket stays well formed when the state changes outside the flags, links,
keys and states of its items. -/
theorem BucketWF_congr (m m1 : ShmHashMap K V) (b : Nat) (l : List Nat)
    (hS : m1.pool.NodeSize = m.pool.NodeSize) (hn : m1.pool.node_size = m.pool.node_size)
    (hB : m1.bucket_size = m.bucket_size) (hH : m1.HashCode = m.HashCode)
    (hbk : m1.buckets b = m.buckets b)
    (hx : ∀ x, x ∈ l →
      (m1.pool.nodes (m.slot x)).used = (m.pool.nodes (m.slot x)).used ∧
      (m1.item x).next = (m.item x).next ∧ (m1.item x).key = (m.item x).key ∧
      (m1.item x).invalid = (m.item x).invalid ∧ (m1.item x).del_next = (m.item x).del_next)
    (h : m.BucketWF b l) : m1.BucketWF b l := by
  have hslot : m1.slot = m.slot := funext (slot_eq_of_NodeSize m m1 hS)
  refine ⟨?_, ?_, ?_, ?_, ?_, ?_⟩
  · rw [hbk]
    exact Chain_congr m m1 _ l
      (fun x hxl => ⟨OffsetToNode_congr m m1 hS x (hx x hxl).1, (hx x hxl).2.1⟩) _ h.chain
  · rw [hbk]; exact h.tail_nil
  · rw [hbk]; exact h.tail_last
  · rw [hbk]; exact h.count
  · rw [hslot]; exact h.nodup
  · intro x hxl
    obtain ⟨h1, h2, h3, h4⟩ := h.nodes x hxl
    obtain ⟨_, _, k1, k2, k3⟩ := hx x hxl
    rw [hslot, hn, k1, k2, k3, hB, hH]
    exact ⟨h1, h2, h3, h4⟩

/-- The garbage list stays well formed when the state changes outside the flags,
garbage links and states of its items. -/
theorem GarbageWF_congr (m m1 : ShmHashMap K V) (g : List Nat)
    (hS : m1.pool.NodeSize = m.pool.NodeSize) (hn : m1.pool.node_size = m.pool.node_size)
    (hgh : m1.garbage_list_head_offset = m.garbage_list_head_offset)
    (hgt : m1.garbage_list_tail_offset = m.garbage_list_tail_offset)
    (hx : ∀ x, x ∈ g →
      (m1.pool.nodes (m.slot x)).used = (m.pool.nodes (m.slot x)).used ∧
      (m1.item x).invalid = (m.item x).invalid ∧ (m1.item x).del_next = (m.item x).del_next)
    (h : m.GarbageWF g) : m1.GarbageWF g := by
  have hslot : m1.slot = m.slot := funext (slot_eq_of_NodeSize m m1 hS)
  refine ⟨?_, ?_, ?_, ?_⟩
  · rw [hgh]
    exact Chain_congr m m1 _ g
      (fun x hxl => ⟨OffsetToNode_congr m m1 hS x (hx x hxl).1, (hx x hxl).2.2⟩) _ h.chain
  · rw [hgt]; exact h.tail_last
  · rw [hslot]; exact h.nodup
  · intro x hxl
    obtain ⟨h1, h2⟩ := h.nodes x hxl
    obtain ⟨_, k1, _⟩ := hx x hxl
    rw [hslot, hn, k1]
    exact ⟨h1, h2⟩

/-- Items of the chains of two different buckets lie in different slots. -/
theorem BucketWF_slot_ne (m : ShmHashMap K V) (b b1 : Nat) (l l1 : List Nat)
    (h : m.BucketWF b l) (h1 : m.BucketWF b1 l1) (hne : b ≠ b1) (x y : Nat) (hx : x ∈ l)
    (hy : y ∈ l1) : m.slot x ≠ m.slot y := by
  intro he
  have e : m.item x = m.item y := by rw [item_eq_nodes, item_eq_nodes, he]
  have k1 := (h.nodes x hx).2.2.2
  have k2 := (h1.nodes y hy).2.2.2
  rw [e] at k1
  exact hne (k1.symm.trans k2)

/-- Items of a bucket chain and items of the garbage list lie in different slots. -/
theorem BucketWF_GarbageWF_slot_ne (m : ShmHashMap K V) (b : Nat) (l g : List Nat)
    (h : m.BucketWF b l) (hg : m.GarbageWF g) (x y : Nat) (hx : x ∈ l) (hy : y ∈ g) :
    m.slot x ≠ m.slot y := by
  intro he
  have e : m.item x = m.item y := by rw [item_eq_nodes, item_eq_nodes, he]
  have k1 := (h.nodes x hx).2.1
  have k2 := (hg.nodes y hy).2
  rw [e] at k1
  rw [k1] at k2
  simp [VALID, COLLECTING, WAITING_DELETE] at k2

theorem length_le_of_nodup_lt (l : List Nat) (n : Nat) (hd : l.Nodup) (hlt : ∀ x, x ∈ l → x < n) :
    l.length ≤ n := by
  have h1 : l.toFinset ⊆ Finset.range n := by
    intro x hx
    exact Finset.mem_range.mpr (hlt x (List.mem_toFinset.mp hx))
  have h2 := Finset.card_le_card h1
  rw [List.toFinset_card_of_nodup hd, Finset.card_range] at h2
  exact h2

/-- Extending a chain at its end: the states agree on how the offsets of `l`
resolve and on the links of all items but the last, whose link now leads to the
new item `a`. -/
theorem Chain_snoc (m m1 : ShmHashMap K V) (link : ItemNode K V → Nat) (a : Nat)
    (hnew : m1.OffsetToNode a = some a) (hnl : link (m1.item a) = OFFSET_NULL) (l : List Nat) :
    ∀ s, m.Chain link s l →
      (∀ x, x ∈ l → m1.OffsetToNode x = m.OffsetToNode x) →
      (∀ t, l.getLast? = some t → link (m1.item t) = a) →
      (∀ x, x ∈ l → (∀ t, l.getLast? = some t → m.slot x ≠ m.slot t) →
        link (m1.item x) = link (m.item x)) →
      (l.map m.slot).Nodup →
      m1.Chain link (if l = [] then a else s) (l ++ [a]) := by
  induction l with
  | nil =>
    intro s _ _ _ _ _
    simp only [if_true, List.nil_append]
    exact ⟨rfl, hnew, hnl⟩
  | cons x l ih =>
    intro s hs hlive hlast hother hnd
    obtain ⟨h1, h2, h3⟩ := hs
    simp only [List.cons_ne_nil, if_false, List.cons_append]
    refine ⟨h1, by rw [hlive x (List.mem_cons_self _ _)]; exact h2, ?_⟩
    rw [List.map_cons, List.nodup_cons] at hnd
    by_cases hl : l = []
    · subst hl
      have := hlast x (by simp)
      rw [this]
      exact ⟨rfl, hnew, hnl⟩
    · have hgl : (x :: l).getLast? = l.getLast? := by
        cases l with
        | nil => exact absurd rfl hl
        | cons y l => simp [List.getLast?_cons_cons]
      have hxo : link (m1.item x) = link (m.item x) := by
        apply hother x (List.mem_cons_self _ _)
        intro t ht he
        rw [hgl] at ht
        exact hnd.1 (by rw [he]; exact List.mem_map_of_mem _ (getLast?_mem l t ht))
      rw [hxo]
      have := ih _ h3 (fun y hy => hlive y (List.mem_cons_of_mem _ hy))
        (fun t ht => hlast t (by rw [hgl]; exact ht))
        (fun y hy hyt => hother y (List.mem_cons_of_mem _ hy)
          (fun t ht => hyt t (by rw [hgl] at ht; exact ht)))
        hnd.2
      simpa [hl] using this

end ShmMap

namespace ShmMap

open ShmPool

variable {K V : Type}

theorem AppendedTo_slot (m m1 : ShmHashMap K V) (index : Nat) (l : List Nat) (a : Nat)
    (it : ItemNode K V) (hA : m.AppendedTo m1 index l a it) : m1.slot = m.slot :=
  funext (slot_eq_of_NodeSize m m1 hA.NodeSize_eq)

theorem AppendedTo_item_new (m m1 : ShmHashMap K V) (index : Nat) (l : List Nat) (a : Nat)
    (it : ItemNode K V) (hA : m.AppendedTo m1 index l a it) : m1.item a = it := by
  rw [item_eq_nodes, AppendedTo_slot m m1 index l a it hA, hA.new_node]

theorem AppendedTo_item_last (m m1 : ShmHashMap K V) (index : Nat) (l : List Nat) (a : Nat)
    (it : ItemNode K V) (hA : m.AppendedTo m1 index l a it) (t : Nat)
    (ht : l.getLast? = some t) : m1.item t = { m.item t with next := a } := by
  rw [item_eq_nodes, AppendedTo_slot m m1 index l a it hA, hA.last_node t ht]

theorem AppendedTo_item_other (m m1 : ShmHashMap K V) (index : Nat) (l : List Nat) (a : Nat)
    (it : ItemNode K V) (hA : m.AppendedTo m1 index l a it) (x : Nat)
    (h1 : m.slot x ≠ m.slot a) (h2 : ∀ t, l.getLast? = some t → m.slot x ≠ m.slot t) :
    m1.item x = m.item x :=
  item_congr m m1 hA.NodeSize_eq x (hA.other_nodes _ h1 h2)

theorem AppendedTo_used (m m1 : ShmHashMap K V) (index : Nat) (l : List Nat) (a : Nat)
    (it : ItemNode K V) (hA : m.AppendedTo m1 index l a it) (hb : m.BucketWF index l) (s : Nat)
    (h1 : s ≠ m.slot a) : (m1.pool.nodes s).used = (m.pool.nodes s).used := by
  by_cases h2 : ∀ t, l.getLast? = some t → s ≠ m.slot t
  · rw [hA.other_nodes s h1 h2]
  · push_neg at h2
    obtain ⟨t, ht, hst⟩ := h2
    subst hst
    rw [hA.last_node t ht]
    exact (Chain_mem_used m _ _ _ hb.chain t (getLast?_mem l t ht)).1.symm

theorem AppendedTo_OffsetToNode_new (m m1 : ShmHashMap K V) (index : Nat) (l : List Nat)
    (a : Nat) (it : ItemNode K V) (hA : m.AppendedTo m1 index l a it) :
    m1.OffsetToNode a = some a := by
  rw [OffsetToNode_some_iff, AppendedTo_slot m m1 index l a it hA, hA.new_node]
  exact ⟨rfl, rfl, hA.new_ne⟩

/-- Items that are used before the call keep their flag, links, key and state,
unless they are the last item of the extended chain. -/
theorem AppendedTo_frame (m m1 : ShmHashMap K V) (index : Nat) (l : List Nat) (a : Nat)
    (it : ItemNode K V) (hA : m.AppendedTo m1 index l a it) (hb : m.BucketWF index l) (x : Nat)
    (hu : (m.pool.nodes (m.slot x)).used = true) :
    (m1.pool.nodes (m.slot x)).used = (m.pool.nodes (m.slot x)).used ∧
    (m1.item x).key = (m.item x).key ∧ (m1.item x).value = (m.item x).value ∧
    (m1.item x).expire = (m.item x).expire ∧
    (m1.item x).invalid = (m.item x).invalid ∧ (m1.item x).del_next = (m.item x).del_next ∧
    ((∀ t, l.getLast? = some t → m.slot x ≠ m.slot t) → (m1.item x).next = (m.item x).next) := by
  have h1 : m.slot x ≠ m.slot a := by
    intro h
    rw [h, hA.new_unused] at hu
    cases hu
  refine ⟨AppendedTo_used m m1 index l a it hA hb _ h1, ?_⟩
  by_cases h2 : ∀ t, l.getLast? = some t → m.slot x ≠ m.slot t
  · rw [AppendedTo_item_other m m1 index l a it hA x h1 h2]
    exact ⟨rfl, rfl, rfl, rfl, rfl, fun _ => rfl⟩
  · have h2copy := h2
    push_neg at h2
    obtain ⟨t, ht, hst⟩ := h2
    have e : m1.item x = m1.item t := by
      rw [item_eq_nodes, item_eq_nodes, AppendedTo_slot m m1 index l a it hA, hst]
    have e1 : m.item x = m.item t := by rw [item_eq_nodes, item_eq_nodes, hst]
    rw [e, e1, AppendedTo_item_last m m1 index l a it hA t ht]
    exact ⟨rfl, rfl, rfl, rfl, rfl, fun h => absurd h h2copy⟩

theorem AppendedTo_BucketWF_index (m m1 : ShmHashMap K V) (index : Nat) (l : List Nat)
    (a : Nat) (it : ItemNode K V) (hA : m.AppendedTo m1 index l a it) (hb : m.BucketWF index l)
    (hn : m.pool.node_size < 4294967296) (h1 : it.next = OFFSET_NULL) (h2 : it.invalid = VALID)
    (h3 : it.del_next = OFFSET_NULL) (h4 : m.HashCode it.key % m.bucket_size = index) :
    m1.BucketWF index (l ++ [a]) := by
  have hslot := AppendedTo_slot m m1 index l a it hA
  have hused : ∀ x, x ∈ l → (m.pool.nodes (m.slot x)).used = true :=
    fun x hx => (Chain_mem_used m _ _ _ hb.chain x hx).1
  have hnotin : m.slot a ∉ l.map m.slot := by
    intro h
    obtain ⟨x, hx, he⟩ := List.mem_map.mp h
    have := hused x hx
    rw [he, hA.new_unused] at this
    cases this
  have hnd : ((l ++ [a]).map m.slot).Nodup := by
    rw [List.map_append, List.nodup_append]
    refine ⟨hb.nodup, by simp, ?_⟩
    intro s hs1 hs2
    simp only [List.map_cons, List.map_nil, List.mem_singleton] at hs2
    subst hs2
    exact hnotin hs1
  have hlen : l.length + 1 ≤ m.pool.node_size := by
    have := length_le_of_nodup_lt _ m.pool.node_size hnd (by
      intro s hs
      obtain ⟨x, hx, he⟩ := List.mem_map.mp hs
      subst he
      rcases List.mem_append.mp hx with h | h
      · exact (hb.nodes x h).1
      · simp only [List.mem_singleton] at h
        subst h
        exact hA.new_slot_lt)
    simpa using this
  have hnewit := AppendedTo_item_new m m1 index l a it hA
  refine ⟨?_, ?_, ?_, ?_, ?_, ?_⟩
  · rw [hA.bucket]
    simp only
    apply Chain_snoc m m1 _ a (AppendedTo_OffsetToNode_new m m1 index l a it hA)
      (by rw [hnewit]; exact h1) l _ hb.chain
    · intro x hx
      exact OffsetToNode_congr m m1 hA.NodeSize_eq x
        (AppendedTo_frame m m1 index l a it hA hb x (hused x hx)).1
    · intro t ht
      rw [AppendedTo_item_last m m1 index l a it hA t ht]
    · intro x hx hxt
      exact (AppendedTo_frame m m1 index l a it hA hb x (hused x hx)).2.2.2.2.2.2 hxt
    · exact hb.nodup
  · intro h; simp at h
  · intro t ht
    rw [hA.bucket]
    simp at ht
    exact ht
  · rw [hA.bucket, hb.count]
    simp only [List.length_append, List.length_singleton]
    exact Nat.mod_eq_of_lt (by omega)
  · rw [hslot]; exact hnd
  · intro x hx
    rw [hslot, hA.node_size_eq, hA.bucket_size_eq, hA.hash_eq]
    rcases List.mem_append.mp hx with h | h
    · obtain ⟨k1, k2, k3, k4⟩ := hb.nodes x h
      obtain ⟨_, f1, _, _, f2, f3, _⟩ := AppendedTo_frame m m1 index l a it hA hb x (hused x h)
      rw [f1, f2, f3]
      exact ⟨k1, k2, k3, k4⟩
    · simp only [List.mem_singleton] at h
      subst h
      rw [hnewit]
      exact ⟨hA.new_slot_lt, h2, h3, h4⟩

theorem AppendedTo_BucketWF_other (m m1 : ShmHashMap K V) (index : Nat) (l : List Nat)
    (a : Nat) (it : ItemNode K V) (hA : m.AppendedTo m1 index l a it) (hb : m.BucketWF index l)
    (b : Nat) (l1 : List Nat) (hne : b ≠ index) (hb1 : m.BucketWF b l1) : m1.BucketWF b l1 := by
  apply BucketWF_congr m m1 b l1 hA.NodeSize_eq hA.node_size_eq hA.bucket_size_eq hA.hash_eq
    (hA.other_buckets b hne) _ hb1
  intro x hx
  have hu := (Chain_mem_used m _ _ _ hb1.chain x hx).1
  obtain ⟨f0, f1, _, _, f2, f3, f4⟩ := AppendedTo_frame m m1 index l a it hA hb x hu
  refine ⟨f0, f4 ?_, f1, f2, f3⟩
  intro t ht
  exact BucketWF_slot_ne m b index l1 l hb1 hb hne x t hx (getLast?_mem l t ht)

theorem AppendedTo_GarbageWF (m m1 : ShmHashMap K V) (index : Nat) (l : List Nat)
    (a : Nat) (it : ItemNode K V) (hA : m.AppendedTo m1 index l a it) (hb : m.BucketWF index l)
    (g : List Nat) (hg : m.GarbageWF g) : m1.GarbageWF g := by
  apply GarbageWF_congr m m1 g hA.NodeSize_eq hA.node_size_eq hA.ghead_eq hA.gtail_eq _ hg
  intro x hx
  have hu := (Chain_mem_used m _ _ _ hg.chain x hx).1
  obtain ⟨f0, _, _, _, f2, f3, _⟩ := AppendedTo_frame m m1 index l a it hA hb x hu
  exact ⟨f0, f2, f3⟩

theorem AppendedTo_WF (m m1 : ShmHashMap K V) (index : Nat) (l : List Nat)
    (a : Nat) (it : ItemNode K V) (hA : m.AppendedTo m1 index l a it) (hb : m.BucketWF index l)
    (hm : m.WF) (hi : index < m.bucket_size) (h1 : it.next = OFFSET_NULL)
    (h2 : it.invalid = VALID) (h3 : it.del_next = OFFSET_NULL)
    (h4 : m.HashCode it.key % m.bucket_size = index) : m1.WF := by
  refine ⟨hA.pool_inv, by rw [hA.dataOff_eq]; exact hm.data_gt,
    by rw [hA.node_size_eq]; exact hm.slots_lt, by rw [hA.bucket_size_eq]; exact hm.bucket_pos,
    ?_, ?_⟩
  · intro b hbB
    rw [hA.bucket_size_eq] at hbB
    by_cases hbi : b = index
    · subst hbi
      exact ⟨_, AppendedTo_BucketWF_index m m1 b l a it hA hb hm.slots_lt h1 h2 h3 h4⟩
    · obtain ⟨l1, hl1⟩ := hm.buckets b hbB
      exact ⟨l1, AppendedTo_BucketWF_other m m1 index l a it hA hb b l1 hbi hl1⟩
  · obtain ⟨g, hg⟩ := hm.garbage
    exact ⟨g, AppendedTo_GarbageWF m m1 index l a it hA hb g hg⟩

/-- A step that only moves the read position of the pool keeps the state well
formed. -/
theorem WF_read_advance (m : ShmHashMap K V) (hm : m.WF)
    (hq : m.pool.free_queue (m.pool.read_index % m.pool.node_size) = OFFSET_NULL) :
    ShmHashMap.WF
      ({ m with pool := { m.pool with read_index := m.pool.read_index + 1 } } :
        ShmHashMap K V) := by
  have hinv := RingInv_Allocate m.pool hm.pool
  rw [Allocate_fail m.pool hq] at hinv
  refine ⟨hinv, hm.data_gt, hm.slots_lt, hm.bucket_pos, ?_, ?_⟩
  · intro b hb
    obtain ⟨l, hl⟩ := hm.buckets b hb
    exact ⟨l, BucketWF_congr m _ b l rfl rfl rfl rfl rfl
      (fun x _ => ⟨rfl, rfl, rfl, rfl, rfl⟩) hl⟩
  · obtain ⟨g, hg⟩ := hm.garbage
    exact ⟨g, GarbageWF_congr m _ g rfl rfl rfl rfl (fun x _ => ⟨rfl, rfl, rfl⟩) hg⟩

/-- `AddNodeItem` keeps the state well formed, whatever it returns. -/
theorem WF_AddNodeItem (m : ShmHashMap K V) (key : K) (value : V) (expire now : Int)
    (hm : m.WF) :
    (m.AddNodeItem (m.HashCode key % m.bucket_size) key value expire now).2.WF := by
  by_cases hq : m.pool.free_queue (m.pool.read_index % m.pool.node_size) = OFFSET_NULL
  · rw [AddNodeItem_fail m _ key value expire now hq]
    exact WF_read_advance m hm hq
  · have hi : m.HashCode key % m.bucket_size < m.bucket_size := Nat.mod_lt _ hm.bucket_pos
    obtain ⟨l, hl⟩ := hm.buckets _ hi
    obtain ⟨m1, e, hA⟩ := AddNodeItem_appended m _ key value expire now l hm.pool hm.data_gt hl hq
    rw [e]
    exact AppendedTo_WF m m1 _ l _ _ hA hl hm hi rfl rfl rfl rfl

theorem BucketWF_length_le (m : ShmHashMap K V) (b : Nat) (l : List Nat) (h : m.BucketWF b l) :
    l.length ≤ m.pool.node_size := by
  have := length_le_of_nodup_lt _ m.pool.node_size h.nodup (by
    intro s hs
    obtain ⟨x, hx, he⟩ := List.mem_map.mp hs
    subst he
    exact (h.nodes x hx).1)
  simpa using this

end ShmMap

namespace ShmMap

open ShmPool

variable {K V : Type}

theorem setAt_setAt {α : Type} (f : Nat → α) (i : Nat) (a b : α) :
    setAt (setAt f i a) i b = setAt f i b := by
  funext j
  simp only [setAt_apply]
  split <;> rfl

theorem setItem_setItem (m : ShmHashMap K V) (x : Nat) (a b : ItemNode K V) :
    (m.setItem x a).setItem x b = m.setItem x b := by
  simp only [ShmHashMap.setItem, MemoryPool.write, setAt_setAt, setAt_same]

/-- The loop of `Insert` on an item that is `VALID`: the exchange succeeds at
once and the three stores follow. -/
theorem InsertLoop_valid (m : ShmHashMap K V) (index : Nat) (key : K) (value : V)
    (expire now : Int) (item fuel : Nat) (h : (m.item item).invalid = VALID) :
    ShmHashMap.InsertLoop index key value expire now item (fuel + 1) VALID m
      = some (SinHashRet.RET_OK,
          m.setItem item
            { m.item item with
              value := value, expire := expireAt expire now, invalid := VALID }) := by
  simp only [ShmHashMap.InsertLoop, h, if_true, setItem_setItem, item_setItem_same]

/-- An in-place store that keeps flags, links, key and state keeps the state well
formed. -/
theorem WF_setItem (m : ShmHashMap K V) (x : Nat) (it : ItemNode K V) (hm : m.WF)
    (h1 : it.next = (m.item x).next) (h2 : it.key = (m.item x).key)
    (h3 : it.invalid = (m.item x).invalid) (h4 : it.del_next = (m.item x).del_next) :
    (m.setItem x it).WF := by
  have hfr : ∀ y, ((m.setItem x it).pool.nodes (m.slot y)).used = (m.pool.nodes (m.slot y)).used ∧
      ((m.setItem x it).item y).next = (m.item y).next ∧
      ((m.setItem x it).item y).key = (m.item y).key ∧
      ((m.setItem x it).item y).invalid = (m.item y).invalid ∧
      ((m.setItem x it).item y).del_next = (m.item y).del_next := by
    intro y
    refine ⟨setItem_used m x it _, ?_⟩
    rw [item_setItem]
    by_cases hs : m.slot y = m.slot x
    · have e : m.item y = m.item x := by rw [item_eq_nodes, item_eq_nodes, hs]
      simp only [hs, if_true, e]
      exact ⟨h1, h2, h3, h4⟩
    · simp [hs]
  refine ⟨RingInv_write _ _ _ hm.pool, hm.data_gt, hm.slots_lt, hm.bucket_pos, ?_, ?_⟩
  · intro b hb
    obtain ⟨l, hl⟩ := hm.buckets b hb
    exact ⟨l, BucketWF_congr m _ b l rfl rfl rfl rfl rfl (fun y _ => hfr y) hl⟩
  · obtain ⟨g, hg⟩ := hm.garbage
    exact ⟨g, GarbageWF_congr m _ g rfl rfl rfl rfl
      (fun y _ => ⟨(hfr y).1, (hfr y).2.2.2.1, (hfr y).2.2.2.2⟩) hg⟩

theorem BucketWF_construct (HashCode : K → Nat) (pool : MemoryPool (ItemNode K V))
    (bucket_size gc_timestamp b : Nat) :
    (ShmHashMap.construct HashCode pool bucket_size gc_timestamp).BucketWF b [] := by
  refine ⟨rfl, fun _ => rfl, ?_, rfl, by simp, ?_⟩
  · intro t h; simp at h
  · intro x h; cases h

theorem GarbageWF_construct (HashCode : K → Nat) (pool : MemoryPool (ItemNode K V))
    (bucket_size gc_timestamp : Nat) :
    (ShmHashMap.construct HashCode pool bucket_size gc_timestamp).GarbageWF [] := by
  refine ⟨rfl, ?_, by simp, ?_⟩
  · intro t h; simp at h
  · intro x h; cases h

/-- A map constructed over a fresh pool is well formed. -/
theorem WF_construct (HashCode : K → Nat) (N S D : Nat) (zero : ItemNode K V)
    (bucket_size gc_timestamp : Nat) (hN : N + 2 < 4294967296) (hD1 : 1 < D) (hD2 : D < S) :
    (ShmHashMap.construct HashCode (MemoryPool.construct N S D zero) bucket_size
      gc_timestamp).WF := by
  refine ⟨RingInv_construct N S D zero hN (by omega) hD2, hD1, ?_, ?_, ?_, ?_⟩
  · show (N + 2) % 4294967296 < 4294967296
    exact Nat.mod_lt _ (by norm_num)
  · show 0 < (if bucket_size = 0 then DEBFAULT_BUCKET_SIZE else bucket_size)
    split
    · decide
    · omega
  · intro b _
    exact ⟨[], BucketWF_construct _ _ _ _ b⟩
  · exact ⟨[], GarbageWF_construct _ _ _ _⟩

theorem WF_scenarioMap : scenarioMap.WF :=
  WF_construct _ 16 40 8 _ 4 0 (by norm_num) (by norm_num) (by norm_num)

variable [DecidableEq K]

theorem find?_mem_key (m : ShmHashMap K V) (key : K) (l : List Nat) (x : Nat)
    (h : l.find? (fun x => decide ((m.item x).key = key)) = some x) :
    x ∈ l ∧ (m.item x).key = key := by
  refine ⟨List.mem_of_find?_eq_some h, ?_⟩
  have := List.find?_some h
  simpa using this

/-- What `GetNode` returns on a well-formed bucket. -/
theorem GetNode_bucket (m : ShmHashMap K V) (index : Nat) (key : K) (l : List Nat)
    (hb : m.BucketWF index l) (fuel : Nat) :
    (∀ r, m.GetNode fuel index key = some r →
      r = l.find? (fun x => decide ((m.item x).key = key))) ∧
    (l.length < fuel →
      m.GetNode fuel index key = some (l.find? (fun x => decide ((m.item x).key = key)))) :=
  ⟨fun r h => GetNodeLoop_walk_some m key l _ fuel r (Chain_IsWalk m l _ hb.chain) h,
    fun h => GetNodeLoop_walk m key l _ fuel (Chain_IsWalk m l _ hb.chain) h⟩

theorem GetNode_zero (m : ShmHashMap K V) (index : Nat) (key : K) :
    m.GetNode 0 index key = none := by
  simp [ShmHashMap.GetNode, ShmHashMap.GetNodeLoop]

/-- `Insert` on a well-formed state, by the case that applies: the key is absent
from its chain or its first item is expired (then `Insert` is `AddNodeItem`), or
the first item is live (then it is updated in place). -/
theorem Insert_cases (m : ShmHashMap K V) (key : K) (value : V) (expire now : Int)
    (l : List Nat) (hb : m.BucketWF (m.HashCode key % m.bucket_size) l) (fuel : Nat)
    (hf : m.GetNode fuel (m.HashCode key % m.bucket_size) key ≠ none) :
    (l.find? (fun x => decide ((m.item x).key = key)) = none →
      m.Insert fuel key value expire now
        = some (m.AddNodeItem (m.HashCode key % m.bucket_size) key value expire now)) ∧
    (∀ x, l.find? (fun x => decide ((m.item x).key = key)) = some x →
      isExpired (m.item x) now = true →
      m.Insert fuel key value expire now
        = some (m.AddNodeItem (m.HashCode key % m.bucket_size) key value expire now)) ∧
    (∀ x, l.find? (fun x => decide ((m.item x).key = key)) = some x →
      isExpired (m.item x) now = false →
      m.Insert fuel key value expire now
        = some (SinHashRet.RET_OK,
            m.setItem x
              { m.item x with
                value := value, expire := expireAt expire now, invalid := VALID })) := by
  obtain ⟨r, hr⟩ := Option.ne_none_iff_exists'.mp hf
  have hr2 := (GetNode_bucket m _ key l hb fuel).1 r hr
  have hfuel : fuel ≠ 0 := by
    intro h0
    rw [h0, GetNode_zero] at hr
    cases hr
  obtain ⟨f, hf1⟩ := Nat.exists_eq_succ_of_ne_zero hfuel
  refine ⟨?_, ?_, ?_⟩
  · intro h
    rw [h] at hr2
    simp only [ShmHashMap.Insert, hr, hr2]
  · intro x h hexp
    rw [h] at hr2
    simp only [ShmHashMap.Insert, hr, hr2, hexp, if_true]
  · intro x h hexp
    rw [h] at hr2
    have hv := (hb.nodes x (find?_mem_key m key l x h).1).2.1
    simp only [ShmHashMap.Insert, hr, hr2, hexp, Bool.false_eq_true, if_false]
    rw [hf1]
    exact InsertLoop_valid m _ key value expire now x f hv

/-- `Insert` keeps the state well formed. -/
theorem WF_Insert (m m1 : ShmHashMap K V) (key : K) (value : V) (expire now : Int)
    (fuel : Nat) (r : SinHashRet) (hm : m.WF)
    (h : m.Insert fuel key value expire now = some (r, m1)) : m1.WF := by
  have hi : m.HashCode key % m.bucket_size < m.bucket_size := Nat.mod_lt _ hm.bucket_pos
  obtain ⟨l, hl⟩ := hm.buckets _ hi
  have hf : m.GetNode fuel (m.HashCode key % m.bucket_size) key ≠ none := by
    intro h0
    simp [ShmHashMap.Insert, h0] at h
  obtain ⟨c1, c2, c3⟩ := Insert_cases m key value expire now l hl fuel hf
  have hadd := WF_AddNodeItem m key value expire now hm
  cases hfind : l.find? (fun x => decide ((m.item x).key = key)) with
  | none =>
    rw [c1 hfind] at h
    rw [Option.some.inj h] at hadd
    exact hadd
  | some x =>
    cases hexp : isExpired (m.item x) now with
    | true =>
      rw [c2 x hfind hexp] at h
      rw [Option.some.inj h] at hadd
      exact hadd
    | false =>
      rw [c3 x hfind hexp] at h
      cases h
      have hv := (hl.nodes x (find?_mem_key m key l x hfind).1).2.1
      exact WF_setItem m x _ hm rfl rfl hv.symm rfl

end ShmMap

namespace ShmMap

open ShmPool

variable {K V : Type}

theorem wrapInt32_eq (x : Int) (h1 : -2147483648 ≤ x) (h2 : x < 2147483648) :
    wrapInt32 x = x := by
  unfold wrapInt32
  omega

theorem expireAt_eq (expire now : Int) (h1 : -2147483648 ≤ now + expire)
    (h2 : now + expire < 2147483648) :
    expireAt expire now = if expire = 0 then 0 else now + expire := by
  unfold expireAt
  by_cases h : expire = 0
  · simp [h]
  · simp [h, wrapInt32_eq _ h1 h2]

theorem isExpired_iff (it : ItemNode K V) (now : Int) :
    isExpired it now = true ↔ (it.expire ≠ 0 ∧ it.expire < now) := by
  simp [isExpired]

theorem isExpired_false_iff (it : ItemNode K V) (now : Int) :
    isExpired it now = false ↔ (it.expire = 0 ∨ now ≤ it.expire) := by
  rw [← Bool.not_eq_true, isExpired_iff]
  constructor
  · intro h
    by_cases h0 : it.expire = 0
    · exact Or.inl h0
    · right
      by_contra hlt
      exact h ⟨h0, by omega⟩
  · rintro (h | h) ⟨h1, h2⟩
    · exact h1 h
    · omega

theorem find?_congr_mem {α : Type} (p q : α → Bool) (l : List α)
    (h : ∀ x, x ∈ l → p x = q x) : l.find? p = l.find? q := by
  induction l with
  | nil => rfl
  | cons x l ih =>
    simp only [List.find?_cons, h x (List.mem_cons_self _ _)]
    rw [ih (fun y hy => h y (List.mem_cons_of_mem _ hy))]

variable [DecidableEq K]

/-- What `Get` returns when the walk from the bucket head is `l`. -/
theorem Get_walk (m : ShmHashMap K V) (key : K) (now : Int) (l : List Nat) (fuel : Nat)
    (hw : m.IsWalk (m.buckets (m.HashCode key % m.bucket_size)).head l)
    (hf : l.length < fuel) :
    m.Get fuel key now = some
      (match l.find? (fun x => decide ((m.item x).key = key)) with
        | none => (SinHashRet.RET_NOT_FOUND, none)
        | some x =>
          if (m.item x).expire ≠ 0 ∧ (m.item x).expire < now then
            (SinHashRet.RET_NOT_FOUND, none)
          else (SinHashRet.RET_OK, some (m.item x).value)) := by
  have h := GetNodeLoop_walk m key l _ fuel hw hf
  simp only [ShmHashMap.Get, ShmHashMap.GetNode, h]
  cases l.find? (fun x => decide ((m.item x).key = key)) with
  | none => rfl
  | some x =>
    simp only
    by_cases he : (m.item x).expire ≠ 0 ∧ (m.item x).expire < now
    · rw [(isExpired_iff _ _).mpr he]; simp [he]
    · have : isExpired (m.item x) now = false := by
        rw [← Bool.not_eq_true, isExpired_iff]; exact he
      rw [this]; simp [he]

/-- The first item with a key in the chain extended by `AddNodeItem`. -/
theorem AppendedTo_find? (m m1 : ShmHashMap K V) (index : Nat) (l : List Nat) (a : Nat)
    (it : ItemNode K V) (hA : m.AppendedTo m1 index l a it) (hb : m.BucketWF index l)
    (key : K) :
    (l ++ [a]).find? (fun x => decide ((m1.item x).key = key))
      = ((l.find? (fun x => decide ((m.item x).key = key))).or
          (if it.key = key then some a else none)) := by
  rw [List.find?_append]
  congr 1
  · apply find?_congr_mem
    intro x hx
    rw [(AppendedTo_frame m m1 index l a it hA hb x
      (Chain_mem_used m _ _ _ hb.chain x hx).1).2.1]
  · simp only [List.find?_cons, List.find?_nil, AppendedTo_item_new m m1 index l a it hA]
    by_cases h : it.key = key <;> simp [h]

/-- C3 as stated fails when `T + ttl` does not fit the `int` that stores `_expire`:
on the map of the scenarios, `Insert(7, 7, ttl = 1)` at time `2147483647` returns
`RET_OK` and stores the expiry `-2147483648`, so `Get(7)` at the same time, which is
before `T + ttl`, returns `RET_NOT_FOUND`; and when the sum is `0`, as for
`ttl = 5` at time `-5`, the stored `0` marks an entry without expiry and `Get(7)` at
time `1 = T + ttl + 1` returns `RET_OK`. -/
theorem Get_after_wrapped_expiry :
    (scenarioMap.Insert 5 7 7 1 2147483647).map (fun p => p.1) = some SinHashRet.RET_OK ∧
    (scenarioMap.Insert 5 7 7 1 2147483647).bind (fun p => p.2.Get 5 7 2147483647)
      = some (SinHashRet.RET_NOT_FOUND, none) ∧
    (scenarioMap.Insert 5 7 7 5 (-5)).bind (fun p => p.2.Get 5 7 1)
      = some (SinHashRet.RET_OK, some 7) := by
  refine ⟨?_, ?_, ?_⟩ <;> decide

/-- C3 (amended): `Get` returns `RET_NOT_FOUND` exactly when the walk from the
bucket head meets no item with the key or the first such item has a non-zero
`_expire` below the current time, and otherwise `RET_OK` with the value of that
item.  After an `Insert` at time `T` that returns `RET_OK` on a well-formed map
whose chain has no item for the key, `Get` at time `now` compares `now` with the
stored expiry, which is `T + ttl` reduced to the 32-bit `int` (`0` for `ttl = 0`).
Hence, for `ttl > 0` with `T + ttl` within the range of that `int`, the entry is
returned at every time up to `T + ttl`, and, when `T + ttl` is not `0`, it is
`RET_NOT_FOUND` from `T + ttl + 1` on. -/
theorem Get_spec :
    (∀ (m : ShmHashMap K V) (key : K) (now : Int) (l : List Nat) (fuel : Nat),
      m.IsWalk (m.buckets (m.HashCode key % m.bucket_size)).head l → l.length < fuel →
      m.Get fuel key now = some
        (match l.find? (fun x => decide ((m.item x).key = key)) with
          | none => (SinHashRet.RET_NOT_FOUND, none)
          | some x =>
            if (m.item x).expire ≠ 0 ∧ (m.item x).expire < now then
              (SinHashRet.RET_NOT_FOUND, none)
            else (SinHashRet.RET_OK, some (m.item x).value))) ∧
    (∀ (m m1 : ShmHashMap K V) (key : K) (value : V) (ttl T : Int) (l : List Nat)
      (fuel : Nat),
      m.WF → m.BucketWF (m.HashCode key % m.bucket_size) l →
      (∀ x, x ∈ l → (m.item x).key ≠ key) →
      m.Insert fuel key value ttl T = some (SinHashRet.RET_OK, m1) →
      ∀ (now : Int) (fuel1 : Nat), l.length + 1 < fuel1 →
        m1.Get fuel1 key now = some
          (if expireAt ttl T ≠ 0 ∧ expireAt ttl T < now then (SinHashRet.RET_NOT_FOUND, none)
            else (SinHashRet.RET_OK, some value)) ∧
        (0 < ttl → -2147483648 ≤ T + ttl → T + ttl < 2147483648 →
          (now ≤ T + ttl → m1.Get fuel1 key now = some (SinHashRet.RET_OK, some value)) ∧
          (T + ttl ≠ 0 → T + ttl + 1 ≤ now →
            m1.Get fuel1 key now = some (SinHashRet.RET_NOT_FOUND, none)))) := by
  refine ⟨Get_walk, ?_⟩
  intro m m1 key value ttl T l fuel hm hb hno hins now fuel1 hf1
  have hf : m.GetNode fuel (m.HashCode key % m.bucket_size) key ≠ none := by
    intro h0
    simp [ShmHashMap.Insert, h0] at hins
  have hfind : l.find? (fun x => decide ((m.item x).key = key)) = none := by
    rw [List.find?_eq_none]
    intro x hx
    simpa using hno x hx
  rw [(Insert_cases m key value ttl T l hb fuel hf).1 hfind] at hins
  have hins := Option.some.inj hins
  have hq : m.pool.free_queue (m.pool.read_index % m.pool.node_size) ≠ OFFSET_NULL := by
    intro hq
    rw [AddNodeItem_fail m _ key value ttl T hq] at hins
    cases hins
  obtain ⟨m2, e, hA⟩ := AddNodeItem_appended m _ key value ttl T l hm.pool hm.data_gt hb hq
  rw [e] at hins
  have : m2 = m1 := by cases hins; rfl
  subst this
  have hb1 := AppendedTo_BucketWF_index m m2 _ l _ _ hA hb hm.slots_lt rfl rfl rfl rfl
  have hidx : m2.HashCode key % m2.bucket_size = m.HashCode key % m.bucket_size := by
    rw [hA.hash_eq, hA.bucket_size_eq]
  have hget := Get_walk m2 key now (l ++ [_]) fuel1
    (by rw [hidx]; exact Chain_IsWalk m2 _ _ hb1.chain) (by simpa using hf1)
  rw [AppendedTo_find? m m2 _ l _ _ hA hb key, hfind] at hget
  simp only [if_true, Option.none_or] at hget
  rw [AppendedTo_item_new m m2 _ l _ _ hA] at hget
  simp only at hget
  refine ⟨hget, ?_⟩
  intro httl hlo hrange
  rw [expireAt_eq ttl T hlo hrange] at hget
  have h0 : ttl ≠ 0 := by omega
  simp only [h0, if_false] at hget
  constructor
  · intro hnow
    rw [hget]
    have : ¬ (T + ttl ≠ 0 ∧ T + ttl < now) := by
      rintro ⟨_, h⟩; omega
    simp [this]
  · intro hne hnow
    rw [hget]
    have : (T + ttl ≠ 0 ∧ T + ttl < now) := ⟨hne, by omega⟩
    simp [this]

theorem Get_spec_witness :
    ∃ m1, scenarioMap.Insert 5 7 7 2 0 = some (SinHashRet.RET_OK, m1) ∧
      m1.Get 5 7 1 = some (SinHashRet.RET_OK, some 7) ∧
      m1.Get 5 7 2 = some (SinHashRet.RET_OK, some 7) ∧
      m1.Get 5 7 3 = some (SinHashRet.RET_NOT_FOUND, none) := by
  have h1 : (scenarioMap.Insert 5 7 7 2 0).map Prod.fst = some SinHashRet.RET_OK := by decide
  cases h2 : scenarioMap.Insert 5 7 7 2 0 with
  | none => rw [h2] at h1; cases h1
  | some p =>
    obtain ⟨r, m1⟩ := p
    rw [h2] at h1
    simp only [Option.map_some', Option.some.injEq] at h1
    subst h1
    have h := (Get_spec (K := Nat) (V := Nat)).2 scenarioMap m1 7 7 2 0 [] 5 WF_scenarioMap
      (BucketWF_construct _ _ _ _ _) (by simp) h2
    exact ⟨m1, rfl,
      ((h 1 5 (by simp)).2 (by norm_num) (by norm_num) (by norm_num)).1 (by norm_num),
      ((h 2 5 (by simp)).2 (by norm_num) (by norm_num) (by norm_num)).1 (by norm_num),
      ((h 3 5 (by simp)).2 (by norm_num) (by norm_num) (by norm_num)).2 (by norm_num)
        (by norm_num)⟩

end ShmMap

namespace ShmMap

open ShmPool

variable {K V : Type}

theorem AddNodeItem_ret (m : ShmHashMap K V) (index : Nat) (key : K) (value : V)
    (expire now : Int) :
    ((m.AddNodeItem index key value expire now).1 = SinHashRet.RET_NO_MEMORY ↔
      m.pool.Allocate.1 = none) ∧
    ((m.AddNodeItem index key value expire now).1 ≠ SinHashRet.RET_NO_MEMORY →
      (m.AddNodeItem index key value expire now).1 = SinHashRet.RET_OK) := by
  by_cases hq : m.pool.free_queue (m.pool.read_index % m.pool.node_size) = OFFSET_NULL
  · rw [AddNodeItem_fail m index key value expire now hq]
    simp [(Allocate_none_iff m.pool).mpr hq]
  · rw [AddNodeItem_success m index key value expire now hq]
    have : m.pool.Allocate.1 ≠ none := fun h => hq ((Allocate_none_iff m.pool).mp h)
    simp [this]

/-- A successful `AddNodeItem` on a consistent pool leaves the state field of
every item in a used slot as it was. -/
theorem AddNodeItem_invalid (m : ShmHashMap K V) (index : Nat) (key : K) (value : V)
    (expire now : Int) (hp : m.pool.RingInv) (x : Nat)
    (hu : (m.pool.nodes (m.slot x)).used = true) :
    ((m.AddNodeItem index key value expire now).2.item x).invalid = (m.item x).invalid := by
  by_cases hq : m.pool.free_queue (m.pool.read_index % m.pool.node_size) = OFFSET_NULL
  · rw [AddNodeItem_fail m index key value expire now hq]
    rfl
  · have hidx : m.pool.read_index % m.pool.node_size < m.pool.node_size :=
      Nat.mod_lt _ hp.slots_pos
    obtain ⟨_, hju⟩ := hp.ring_free _ hidx hq
    obtain ⟨f1, f2, f3, f4, f5, f6, f7⟩ := Allocate_success_fields m.pool hq
    rw [AddNodeItem_success m index key value expire now hq]
    have ha : m.slot (m.pool.dataPtr
        (m.pool.free_queue (m.pool.read_index % m.pool.node_size) / m.pool.NodeSize))
        = m.pool.free_queue (m.pool.read_index % m.pool.node_size) / m.pool.NodeSize :=
      dataPtr_div m.pool hp.data_lt _
    generalize m.pool.dataPtr
      (m.pool.free_queue (m.pool.read_index % m.pool.node_size) / m.pool.NodeSize) = a at *
    generalize
      m.pool.free_queue (m.pool.read_index % m.pool.node_size) / m.pool.NodeSize = j at *
    generalize m.pool.Allocate.2 = P1 at *
    have hslot : ∀ y, ShmHashMap.slot ({ m with pool := P1 } : ShmHashMap K V) y = m.slot y := by
      intro y; simp only [ShmHashMap.slot, f2]
    have hxj : m.slot x ≠ j := by
      intro h
      rw [h, hju] at hu
      cases hu
    have hbase : (({ m with pool := P1 } : ShmHashMap K V).setItem a
        { invalid := 0, key := key, value := value, next := OFFSET_NULL,
          expire := expireAt expire now, del_next := OFFSET_NULL }).item x = m.item x := by
      rw [item_setItem, hslot, hslot, ha]
      simp only [hxj, if_false]
      simp only [ShmHashMap.item, MemoryPool.read, f2, f7]
      have : x / m.pool.NodeSize ≠ j := hxj
      rw [setAt_ne _ _ this]
    have hslot2 : ∀ y, (({ m with pool := P1 } : ShmHashMap K V).setItem a
        { invalid := 0, key := key, value := value, next := OFFSET_NULL,
          expire := expireAt expire now, del_next := OFFSET_NULL }).slot y = m.slot y := by
      intro y; rw [setItem_slot, hslot]
    simp only [setBucket_OffsetToNode]
    generalize (({ m with pool := P1 } : ShmHashMap K V).setItem a
        { invalid := 0, key := key, value := value, next := OFFSET_NULL,
          expire := expireAt expire now, del_next := OFFSET_NULL }) = M2 at *
    cases M2.OffsetToNode (m.buckets index).tail with
    | none => simp only [setBucket_item, hbase]
    | some old =>
      simp only [setBucket_item, item_setItem, setBucket_slot, hslot2]
      by_cases hs : m.slot x = m.slot old
      · have e : M2.item old = M2.item x := by
          rw [item_eq_nodes, item_eq_nodes, hslot2, hslot2, hs]
        simp only [hs, if_true, e, hbase]
      · simp only [hs, if_false, hbase]

/-- The loop of `Insert` never exits on an item that stays `WRITING`. -/
theorem InsertLoop_writing (m : ShmHashMap K V) (index : Nat) (key : K) (value : V)
    (expire now : Int) (item : Nat) (h : (m.item item).invalid = WRITING) (fuel : Nat) :
    ShmHashMap.InsertLoop index key value expire now item fuel VALID m = none := by
  induction fuel with
  | zero => rfl
  | succ f ih =>
    have hne : (m.item item).invalid ≠ VALID := by
      rw [h]; simp [WRITING, VALID]
    simp only [ShmHashMap.InsertLoop, hne, if_false, h, if_true]
    exact ih

/-- The loop of `Insert` on an item whose state is neither `VALID` nor `WRITING`:
one `AddNodeItem`, then, unless it failed, the store into the item found. -/
theorem InsertLoop_claimed (m : ShmHashMap K V) (index : Nat) (key : K) (value : V)
    (expire now : Int) (item : Nat) (hp : m.pool.RingInv)
    (hu : (m.pool.nodes (m.slot item)).used = true)
    (h1 : (m.item item).invalid ≠ VALID) (h2 : (m.item item).invalid ≠ WRITING) (fuel : Nat) :
    ShmHashMap.InsertLoop index key value expire now item (fuel + 2) VALID m
      = if m.pool.Allocate.1 = none then
          some (SinHashRet.RET_NO_MEMORY,
            { m with pool := { m.pool with read_index := m.pool.read_index + 1 } })
        else
          some (SinHashRet.RET_OK,
            (m.AddNodeItem index key value expire now).2.setItem item
              { (m.AddNodeItem index key value expire now).2.item item with
                value := value, expire := expireAt expire now, invalid := VALID }) := by
  have hinv := AddNodeItem_invalid m index key value expire now hp item hu
  rw [ShmHashMap.InsertLoop]
  simp only [h1, h2, if_false]
  by_cases hq : m.pool.free_queue (m.pool.read_index % m.pool.node_size) = OFFSET_NULL
  · rw [AddNodeItem_fail m index key value expire now hq]
    simp [(Allocate_none_iff m.pool).mpr hq]
  · have hne : m.pool.Allocate.1 ≠ none := fun h => hq ((Allocate_none_iff m.pool).mp h)
    have hok := AddNodeItem_success m index key value expire now hq
    rw [hok] at hinv ⊢
    simp only [hne, if_false]
    rw [ShmHashMap.InsertLoop]
    simp only [hinv, if_true, setItem_setItem, item_setItem_same]

theorem IsWalk_mem_used (m : ShmHashMap K V) (l : List Nat) :
    ∀ s, m.IsWalk s l → ∀ x, x ∈ l → (m.pool.nodes (m.slot x)).used = true := by
  induction l with
  | nil => intro s _ x hx; cases hx
  | cons y l ih =>
    intro s hs x hx
    obtain ⟨h2, h3⟩ := hs
    rcases List.mem_cons.mp hx with h | h
    · subst h
      have := (OffsetToNode_some_iff m s x).mp h2
      rw [← this.1] at this
      exact this.2.1
    · exact ih _ h3 x h

variable [DecidableEq K]

/-- `Insert` when the walk from the bucket head is `l`. -/
theorem Insert_walk (m : ShmHashMap K V) (key : K) (value : V) (expire now : Int)
    (l : List Nat) (fuel : Nat)
    (hw : m.IsWalk (m.buckets (m.HashCode key % m.bucket_size)).head l)
    (hf : l.length < fuel) :
    m.Insert fuel key value expire now =
      match l.find? (fun x => decide ((m.item x).key = key)) with
      | none => some (m.AddNodeItem (m.HashCode key % m.bucket_size) key value expire now)
      | some item =>
        if isExpired (m.item item) now then
          some (m.AddNodeItem (m.HashCode key % m.bucket_size) key value expire now)
        else
          ShmHashMap.InsertLoop (m.HashCode key % m.bucket_size) key value expire now item
            fuel VALID m := by
  have h := GetNodeLoop_walk m key l _ fuel hw hf
  simp only [ShmHashMap.Insert, ShmHashMap.GetNode, h]
  cases l.find? (fun x => decide ((m.item x).key = key)) <;> rfl

end ShmMap

namespace ShmMap

open ShmPool

variable {K V : Type}

theorem AddNodeItem_result (m : ShmHashMap K V) (index : Nat) (key : K) (value : V)
    (expire now : Int) :
    ∃ r m1, m.AddNodeItem index key value expire now = (r, m1) ∧
      (r = SinHashRet.RET_NO_MEMORY ↔ m.pool.Allocate.1 = none) ∧
      (r = SinHashRet.RET_NO_MEMORY →
        m1 = { m with pool := { m.pool with read_index := m.pool.read_index + 1 } }) ∧
      (r ≠ SinHashRet.RET_NO_MEMORY → r = SinHashRet.RET_OK) := by
  refine ⟨(m.AddNodeItem index key value expire now).1,
    (m.AddNodeItem index key value expire now).2, rfl,
    (AddNodeItem_ret m index key value expire now).1, ?_,
    (AddNodeItem_ret m index key value expire now).2⟩
  intro h
  have hq := (Allocate_none_iff m.pool).mp
    ((AddNodeItem_ret m index key value expire now).1.mp h)
  rw [AddNodeItem_fail m index key value expire now hq]

variable [DecidableEq K]

/-- C6: on a consistent pool `Insert` returns `RET_NO_MEMORY` if and only if it
takes an append path (no item with the key, or the first one expired, or the first
one live but neither `VALID` nor `WRITING`) and `Allocate` returns `NULL`; then
the state is unchanged except for the read index of the pool.  It does not return
when the first item with the key is live and `WRITING`; in every other case it
returns, and with `RET_OK` unless `RET_NO_MEMORY`. -/
theorem Insert_no_memory (m : ShmHashMap K V) (key : K) (value : V) (expire now : Int)
    (l : List Nat) (fuel : Nat) (hp : m.pool.RingInv)
    (hw : m.IsWalk (m.buckets (m.HashCode key % m.bucket_size)).head l)
    (hf : l.length + 1 < fuel) :
    ((∃ x, l.find? (fun x => decide ((m.item x).key = key)) = some x ∧
        isExpired (m.item x) now = false ∧ (m.item x).invalid = WRITING) →
      m.Insert fuel key value expire now = none) ∧
    (¬ (∃ x, l.find? (fun x => decide ((m.item x).key = key)) = some x ∧
        isExpired (m.item x) now = false ∧ (m.item x).invalid = WRITING) →
      ∃ r m1, m.Insert fuel key value expire now = some (r, m1) ∧
        (r = SinHashRet.RET_NO_MEMORY ↔
          ((l.find? (fun x => decide ((m.item x).key = key)) = none ∨
            ∃ x, l.find? (fun x => decide ((m.item x).key = key)) = some x ∧
              (isExpired (m.item x) now = true ∨
                ((m.item x).invalid ≠ VALID ∧ (m.item x).invalid ≠ WRITING))) ∧
            m.pool.Allocate.1 = none)) ∧
        (r = SinHashRet.RET_NO_MEMORY →
          m1 = { m with pool := { m.pool with read_index := m.pool.read_index + 1 } }) ∧
        (r ≠ SinHashRet.RET_NO_MEMORY → r = SinHashRet.RET_OK)) := by
  rw [Insert_walk m key value expire now l fuel hw (by omega)]
  obtain ⟨f, hfuel⟩ : ∃ f, fuel = f + 2 := ⟨fuel - 2, by omega⟩
  cases hfind : l.find? (fun x => decide ((m.item x).key = key)) with
  | none =>
    refine ⟨fun ⟨x, h, _⟩ => (by cases h), fun _ => ?_⟩
    obtain ⟨r, m1, e, h1, h2, h3⟩ := AddNodeItem_result m (m.HashCode key % m.bucket_size)
      key value expire now
    refine ⟨r, m1, by simp only [e], ?_, h2, h3⟩
    rw [h1]
    simp
  | some x =>
    simp only
    have hxu := IsWalk_mem_used m l _ hw x (List.mem_of_find?_eq_some hfind)
    cases hexp : isExpired (m.item x) now with
    | true =>
      refine ⟨fun ⟨y, h, h', _⟩ => ?_, fun _ => ?_⟩
      · cases h
        rw [hexp] at h'
        cases h'
      · obtain ⟨r, m1, e, h1, h2, h3⟩ := AddNodeItem_result m (m.HashCode key % m.bucket_size)
          key value expire now
        refine ⟨r, m1, by simp only [e, hexp, if_true], ?_, h2, h3⟩
        rw [h1]
        constructor
        · intro h; exact ⟨Or.inr ⟨x, rfl, Or.inl hexp⟩, h⟩
        · intro h; exact h.2
    | false =>
      simp only [hexp, Bool.false_eq_true, if_false]
      by_cases hv : (m.item x).invalid = VALID
      · refine ⟨fun ⟨y, h, _, h'⟩ => ?_, fun _ => ?_⟩
        · cases h
          rw [hv] at h'
          simp [VALID, WRITING] at h'
        · rw [hfuel, InsertLoop_valid m _ key value expire now x (f + 1) hv]
          refine ⟨_, _, rfl, ?_, fun h => (by cases h), fun _ => rfl⟩
          constructor
          · intro h; cases h
          · rintro ⟨h | ⟨y, h, h' | h'⟩, _⟩
            · cases h
            · cases h; rw [hexp] at h'; cases h'
            · cases h; exact absurd hv h'.1
      · by_cases hwr : (m.item x).invalid = WRITING
        · refine ⟨fun _ => InsertLoop_writing m _ key value expire now x hwr fuel, fun h => ?_⟩
          exact absurd ⟨x, rfl, hexp, hwr⟩ h
        · refine ⟨fun ⟨y, h, _, h'⟩ => ?_, fun _ => ?_⟩
          · cases h
            exact absurd h' hwr
          · rw [hfuel, InsertLoop_claimed m _ key value expire now x hp hxu hv hwr f]
            by_cases ha : m.pool.Allocate.1 = none
            · simp only [ha, if_true]
              refine ⟨_, _, rfl, ?_, fun _ => rfl, fun h => absurd rfl h⟩
              simp only [true_iff, and_true]
              exact Or.inr ⟨x, rfl, Or.inr ⟨hv, hwr⟩⟩
            · simp only [ha, if_false]
              refine ⟨_, _, rfl, ?_, fun h => (by cases h), fun _ => rfl⟩
              constructor
              · intro h; cases h
              · intro h; exact h.2.elim

theorem Insert_no_memory_witness :
    ∃ m1, scenarioMap.Insert 2 7 7 0 0 = some (SinHashRet.RET_OK, m1) := by
  obtain ⟨r, m1, h1, h2, _, h4⟩ := (Insert_no_memory scenarioMap 7 7 0 0 [] 2
    (WF_scenarioMap).pool (Chain_IsWalk _ _ _ (BucketWF_construct _ _ _ _ _).chain)
    (by decide)).2 (by rintro ⟨x, h, _⟩; cases h)
  have hr : r ≠ SinHashRet.RET_NO_MEMORY := by
    rw [Ne, h2]
    rintro ⟨_, h⟩
    revert h
    decide
  rw [h4 hr] at h1
  exact ⟨m1, h1⟩

end ShmMap

namespace ShmMap

open ShmPool

variable {K V : Type} [DecidableEq K]

/-- C5 as stated fails when `now + ttl` does not fit the `int` that stores
`_expire`: on the map of the scenarios, `Insert(1, 100, ttl = 1)` at time
`2147483647` appends the item at offset `8` with the expiry `-2147483648`, not
`now + ttl = 2147483648`. -/
theorem Insert_append_wraps_expiry :
    (scenarioMap.Insert 1 1 100 1 2147483647).map
      (fun q => (q.1, (q.2.buckets 1).count, (q.2.buckets 1).tail, (q.2.item 8).key,
        (q.2.item 8).value, (q.2.item 8).expire))
      = some (SinHashRet.RET_OK, 1, 8, 1, 100, -2147483648) := by
  decide

/-- C5 (amended): when `Insert` takes the append path on a well-formed map (no item
with the key in the chain `l` of its bucket, or the first one expired) and
`Allocate` succeeds, it returns `RET_OK`; the chain of the bucket becomes `l`
followed by the one new item `a`, which holds the key and value, `OFFSET_NULL`
links, state `VALID` and the expiry `now + ttl` reduced to the 32-bit `int` (`0` for
`ttl = 0`), which is `ttl = 0 ? 0 : now + ttl` whenever `now + ttl` is in the range
of that `int`; the tail is `a`, the head is `a` iff `l` was empty, the counter grows
by one, the other buckets and the other fields of the old items are unchanged. -/
theorem Insert_append (m : ShmHashMap K V) (key : K) (value : V) (ttl now : Int)
    (l : List Nat) (fuel : Nat) (hm : m.WF)
    (hb : m.BucketWF (m.HashCode key % m.bucket_size) l)
    (hpath : l.find? (fun x => decide ((m.item x).key = key)) = none ∨
      ∃ x, l.find? (fun x => decide ((m.item x).key = key)) = some x ∧
        isExpired (m.item x) now = true)
    (halloc : m.pool.Allocate.1 ≠ none) (hf : l.length < fuel) :
    ∃ m1 a, m.Insert fuel key value ttl now = some (SinHashRet.RET_OK, m1) ∧
      m.pool.Allocate.1 = some a ∧ a ∉ l ∧
      m1.BucketWF (m.HashCode key % m.bucket_size) (l ++ [a]) ∧
      m1.item a = { next := OFFSET_NULL, key := key, value := value,
                    expire := expireAt ttl now, invalid := VALID, del_next := OFFSET_NULL } ∧
      (-2147483648 ≤ now + ttl → now + ttl < 2147483648 →
        (m1.item a).expire = if ttl = 0 then 0 else now + ttl) ∧
      (m1.buckets (m.HashCode key % m.bucket_size)).tail = a ∧
      ((m1.buckets (m.HashCode key % m.bucket_size)).head = a ↔ l = []) ∧
      (l ≠ [] → (m1.buckets (m.HashCode key % m.bucket_size)).head
        = (m.buckets (m.HashCode key % m.bucket_size)).head) ∧
      (m1.buckets (m.HashCode key % m.bucket_size)).count
        = (m.buckets (m.HashCode key % m.bucket_size)).count + 1 ∧
      (∀ b, b ≠ m.HashCode key % m.bucket_size → m1.buckets b = m.buckets b) ∧
      (∀ x, x ∈ l → (m1.item x).key = (m.item x).key ∧ (m1.item x).value = (m.item x).value ∧
        (m1.item x).expire = (m.item x).expire ∧ (m1.item x).invalid = (m.item x).invalid ∧
        (m1.item x).del_next = (m.item x).del_next) := by
  have hq : m.pool.free_queue (m.pool.read_index % m.pool.node_size) ≠ OFFSET_NULL :=
    fun h => halloc ((Allocate_none_iff m.pool).mpr h)
  have hgn : m.GetNode fuel (m.HashCode key % m.bucket_size) key ≠ none := by
    rw [(GetNode_bucket m _ key l hb fuel).2 hf]
    simp
  obtain ⟨c1, c2, _⟩ := Insert_cases m key value ttl now l hb fuel hgn
  have hins : m.Insert fuel key value ttl now
      = some (m.AddNodeItem (m.HashCode key % m.bucket_size) key value ttl now) := by
    rcases hpath with h | ⟨x, h, hx⟩
    · exact c1 h
    · exact c2 x h hx
  obtain ⟨m1, e, hA⟩ := AddNodeItem_appended m _ key value ttl now l hm.pool hm.data_gt hb hq
  have hb1 := AppendedTo_BucketWF_index m m1 _ l _ _ hA hb hm.slots_lt rfl rfl rfl rfl
  have hnew := AppendedTo_item_new m m1 _ l _ _ hA
  have hnotin : m.pool.dataPtr
      (m.pool.free_queue (m.pool.read_index % m.pool.node_size) / m.pool.NodeSize) ∉ l := by
    intro h
    have := (Chain_mem_used m _ _ _ hb.chain _ h).1
    rw [hA.new_unused] at this
    cases this
  have hcount : (m.buckets (m.HashCode key % m.bucket_size)).count + 1 < 4294967296 := by
    have h1 := hb1.count
    rw [hA.bucket] at h1
    simp only [List.length_append, List.length_singleton] at h1
    have h2 := hb.count
    have h3 : l.length + 1 ≤ m.pool.node_size := by
      have := length_le_of_nodup_lt _ m1.pool.node_size hb1.nodup (by
        intro s hs
        obtain ⟨x, hx, he⟩ := List.mem_map.mp hs
        subst he
        exact (hb1.nodes x hx).1)
      rw [hA.node_size_eq] at this
      simpa using this
    have := hm.slots_lt
    omega
  refine ⟨m1, _, by rw [hins, e], by rw [Allocate_success m.pool hq], hnotin, hb1, ?_, ?_, ?_,
    ?_, ?_, ?_, hA.other_buckets, ?_⟩
  · rw [hnew]; rfl
  · intro h1 h2
    rw [hnew]
    exact expireAt_eq ttl now h1 h2
  · rw [hA.bucket]
  · rw [hA.bucket]
    simp only
    by_cases hl : l = []
    · simp [hl]
    · simp only [hl, if_false, iff_false]
      intro h
      cases l with
      | nil => exact hl rfl
      | cons y l =>
        have := hb.chain.1
        rw [h] at this
        exact hnotin (by rw [this]; exact List.mem_cons_self _ _)
  · intro hl
    rw [hA.bucket]
    simp [hl]
  · rw [hA.bucket]
    exact Nat.mod_eq_of_lt hcount
  · intro x hx
    obtain ⟨_, f1, f2, f3, f4, f5, _⟩ := AppendedTo_frame m m1 _ l _ _ hA hb x
      (Chain_mem_used m _ _ _ hb.chain x hx).1
    exact ⟨f1, f2, f3, f4, f5⟩

theorem Insert_append_witness :
    ∃ m1 m2 a b, scenarioMap.Insert 1 1 100 0 0 = some (SinHashRet.RET_OK, m1) ∧
      m1.Insert 2 5 500 0 0 = some (SinHashRet.RET_OK, m2) ∧
      m1.BucketWF 1 [a] ∧ m2.BucketWF 1 [a, b] ∧ (m2.item b).value = 500 ∧
      (m2.buckets 1).count = 2 ∧ (m2.buckets 1).head = a ∧ (m2.buckets 1).tail = b := by
  obtain ⟨m1, a, h1, _, _, h2, h3, _, _, _, _, _, _⟩ :=
    Insert_append scenarioMap 1 100 0 0 [] 1 WF_scenarioMap (BucketWF_construct _ _ _ _ _)
      (Or.inl rfl) (by decide) (by decide)
  have hm1 : m1.WF := WF_Insert scenarioMap m1 1 100 0 0 1 _ WF_scenarioMap h1
  have hidx : (scenarioMap.Insert 1 1 100 0 0).map
      (fun q => q.2.HashCode 5 % q.2.bucket_size) = some 1 := by decide
  have hall : (scenarioMap.Insert 1 1 100 0 0).map
      (fun q => decide (q.2.pool.Allocate.1 ≠ none)) = some true := by decide
  have hcnt : (scenarioMap.Insert 1 1 100 0 0).map
      (fun q => (q.2.buckets 1).count) = some 1 := by decide
  rw [h1] at hidx hall hcnt
  simp only [Option.map_some', Option.some.injEq, decide_eq_true_eq] at hidx hall hcnt
  have hb1 : m1.BucketWF 1 [a] := h2
  have hk : (m1.item a).key ≠ 5 := by
    rw [h3]
    decide
  obtain ⟨m2, b, k1, _, _, k2, k3, _, k4, _, k5, k6, _⟩ :=
    Insert_append m1 5 500 0 0 [a] 2 hm1 (by rw [hidx]; exact hb1)
      (Or.inl (by simp [List.find?_cons, hk])) hall (by simp)
  rw [hidx] at k2 k4 k5 k6
  refine ⟨m1, m2, a, b, h1, k1, hb1, k2, by rw [k3], by rw [k6, hcnt], ?_, k4⟩
  rw [k5 (by simp)]
  exact hb1.chain.1

end ShmMap

namespace ShmMap

open ShmPool

variable {K V : Type} [DecidableEq K]

/-- The in-place path of `Insert`: the first item `x` of the walk with the key is
live and `VALID`. -/
theorem Insert_live (m : ShmHashMap K V) (key : K) (value : V) (ttl now : Int)
    (l : List Nat) (x fuel : Nat)
    (hw : m.IsWalk (m.buckets (m.HashCode key % m.bucket_size)).head l)
    (hx : l.find? (fun y => decide ((m.item y).key = key)) = some x)
    (hlive : isExpired (m.item x) now = false) (hv : (m.item x).invalid = VALID)
    (hf : l.length < fuel) :
    m.Insert fuel key value ttl now
      = some (SinHashRet.RET_OK,
          m.setItem x
            { m.item x with value := value, expire := expireAt ttl now, invalid := VALID }) := by
  rw [Insert_walk m key value ttl now l fuel hw hf, hx]
  simp only [hlive, Bool.false_eq_true, if_false]
  obtain ⟨f, rfl⟩ : ∃ f, fuel = f + 1 := ⟨fuel - 1, by omega⟩
  exact InsertLoop_valid m _ key value ttl now x f hv

/-- The state of a bucket after a successful `Insert` of a key whose first item,
if any, is live: the chain `l1` of the bucket holds a live `VALID` first item `x`
for the key with the inserted value, and `l1` is `l`, or `l` followed by `x` when
`l` had no item for the key. -/
theorem Insert_then_found (m m1 : ShmHashMap K V) (key : K) (value : V) (ttl now : Int)
    (l : List Nat) (fuel : Nat) (hm : m.WF)
    (hb : m.BucketWF (m.HashCode key % m.bucket_size) l)
    (hlive : ∀ x, l.find? (fun y => decide ((m.item y).key = key)) = some x →
      isExpired (m.item x) now = false)
    (hins : m.Insert fuel key value ttl now = some (SinHashRet.RET_OK, m1)) :
    m1.HashCode = m.HashCode ∧ m1.bucket_size = m.bucket_size ∧
    ∃ l1 x, m1.BucketWF (m.HashCode key % m.bucket_size) l1 ∧
      l1.find? (fun y => decide ((m1.item y).key = key)) = some x ∧
      (m1.item x).value = value ∧ (m1.item x).expire = expireAt ttl now ∧
      (m1.item x).invalid = VALID ∧
      ((l1 = l ∧ l.find? (fun y => decide ((m.item y).key = key)) = some x) ∨
        (l1 = l ++ [x] ∧ l.find? (fun y => decide ((m.item y).key = key)) = none)) ∧
      (∀ y, y ∈ l → (m1.item y).key = (m.item y).key) := by
  have hgn : m.GetNode fuel (m.HashCode key % m.bucket_size) key ≠ none := by
    intro h0
    simp [ShmHashMap.Insert, h0] at hins
  obtain ⟨c1, _, c3⟩ := Insert_cases m key value ttl now l hb fuel hgn
  cases hfind : l.find? (fun y => decide ((m.item y).key = key)) with
  | none =>
    rw [c1 hfind] at hins
    have hins := Option.some.inj hins
    have hq : m.pool.free_queue (m.pool.read_index % m.pool.node_size) ≠ OFFSET_NULL := by
      intro hq
      rw [AddNodeItem_fail m _ key value ttl now hq] at hins
      cases hins
    obtain ⟨m2, e, hA⟩ := AddNodeItem_appended m _ key value ttl now l hm.pool hm.data_gt hb hq
    rw [e] at hins
    have : m2 = m1 := by cases hins; rfl
    subst this
    have hb1 := AppendedTo_BucketWF_index m m2 _ l _ _ hA hb hm.slots_lt rfl rfl rfl rfl
    have hnew := AppendedTo_item_new m m2 _ l _ _ hA
    refine ⟨hA.hash_eq, hA.bucket_size_eq, _, _, hb1, ?_, by rw [hnew], by rw [hnew],
      by rw [hnew]; rfl, Or.inr ⟨rfl, rfl⟩, ?_⟩
    · rw [AppendedTo_find? m m2 _ l _ _ hA hb key, hfind]
      simp
    · intro y hy
      exact (AppendedTo_frame m m2 _ l _ _ hA hb y (Chain_mem_used m _ _ _ hb.chain y hy).1).2.1
  | some x =>
    rw [c3 x hfind (hlive x hfind)] at hins
    have hins := Option.some.inj hins
    have : m.setItem x { m.item x with
        value := value, expire := expireAt ttl now, invalid := VALID } = m1 := by
      cases hins; rfl
    subst this
    obtain ⟨hxl, hxk⟩ := find?_mem_key m key l x hfind
    have hvx := (hb.nodes x hxl).2.1
    have hkeys : ∀ y, ((m.setItem x { m.item x with
        value := value, expire := expireAt ttl now, invalid := VALID }).item y).key
        = (m.item y).key := by
      intro y
      rw [item_setItem]
      by_cases hs : m.slot y = m.slot x
      · have e : m.item y = m.item x := by rw [item_eq_nodes, item_eq_nodes, hs]
        simp [hs, e]
      · simp [hs]
    refine ⟨rfl, rfl, l, x, ?_, ?_, by simp, by simp, by simp, Or.inl ⟨rfl, rfl⟩,
      fun y _ => hkeys y⟩
    · refine BucketWF_congr m (m.setItem x _) _ l rfl rfl rfl rfl rfl ?_ hb
      intro y _
      refine ⟨setItem_used m x _ _, ?_⟩
      rw [item_setItem]
      by_cases hs : m.slot y = m.slot x
      · have e : m.item y = m.item x := by rw [item_eq_nodes, item_eq_nodes, hs]
        simp [hs, e, hvx]
      · simp [hs]
    · rw [← hfind]
      apply find?_congr_mem
      intro y _
      rw [hkeys y]

/-- C4 as stated fails when `now + ttl` does not fit the `int` that stores
`_expire`: on the map of the scenarios after `Insert(1, 100)`, the call
`Insert(1, 200, ttl = 1)` at time `2147483647` updates the item at offset `8` in
place and stores the expiry `-2147483648`, not `now + ttl = 2147483648`; and after
`Insert(1, 100, ttl = 1)` at time `2147483647` the item counts as expired, so
`Insert(1, 200)` at the same time appends a second item at offset `48`: the counter
is `2` and the first item still holds `100`.  The second `Insert` appends in the
same way when the item of the first has expired without any wrap: after
`Insert(1, 100, ttl = 1)` at time `0`, `Insert(1, 200)` at time `5` leaves two items
and the counter `2`. -/
theorem Insert_in_place_wraps_expiry :
    ((scenarioMap.Insert 3 1 100 0 0).bind (fun p => p.2.Insert 3 1 200 1 2147483647)).map
      (fun q => (q.1, (q.2.buckets 1).count, (q.2.buckets 1).head, (q.2.buckets 1).tail,
        (q.2.item 8).value, (q.2.item 8).expire))
      = some (SinHashRet.RET_OK, 1, 8, 8, 200, -2147483648) ∧
    ((scenarioMap.Insert 3 1 100 1 2147483647).bind
        (fun p => p.2.Insert 3 1 200 0 2147483647)).map
      (fun q => (q.1, (q.2.buckets 1).count, (q.2.buckets 1).head, (q.2.buckets 1).tail,
        (q.2.item 8).value, (q.2.item 48).value))
      = some (SinHashRet.RET_OK, 2, 8, 48, 100, 200) ∧
    ((scenarioMap.Insert 3 1 100 1 0).bind (fun p => p.2.Insert 3 1 200 0 5)).map
      (fun q => (q.1, (q.2.buckets 1).count, (q.2.buckets 1).head, (q.2.buckets 1).tail,
        (q.2.item 8).value, (q.2.item 48).value))
      = some (SinHashRet.RET_OK, 2, 8, 48, 100, 200) := by
  refine ⟨?_, ?_, ?_⟩ <;> decide

/-- C4 (amended): when the first item `x` with the key on the walk from the bucket
head is live and `VALID`, `Insert` returns `RET_OK`, leaves the pool indices, the
free queue, the `_used` flags, every bucket, the garbage anchors and every `_next`
link unchanged, and changes only the slot of `x`: its value becomes the new
value, its `_expire` becomes `now + ttl` reduced to the 32-bit `int` (`0` for
`ttl = 0`), which is `ttl = 0 ? 0 : now + ttl` whenever `now + ttl` is in the range
of that `int`, and its state is `VALID`.  So after a successful `Insert` of a key
(whose first item, if any, was live) on a well-formed map, a second `Insert` of the
key at a time at which the expiry stored by the first is `0` or not below the time
returns `RET_OK`, keeps the chain and the buckets of the first, and leaves the
first item of the chain with the key holding the second value; when the key was
absent before, that item is the only one with the key. -/
theorem Insert_in_place :
    (∀ (m : ShmHashMap K V) (key : K) (value : V) (ttl now : Int) (l : List Nat)
      (x fuel : Nat),
      m.IsWalk (m.buckets (m.HashCode key % m.bucket_size)).head l →
      l.find? (fun y => decide ((m.item y).key = key)) = some x →
      isExpired (m.item x) now = false → (m.item x).invalid = VALID → l.length < fuel →
      ∃ m1, m.Insert fuel key value ttl now = some (SinHashRet.RET_OK, m1) ∧
        m1.pool.read_index = m.pool.read_index ∧ m1.pool.write_index = m.pool.write_index ∧
        m1.pool.free_queue = m.pool.free_queue ∧
        (∀ s, (m1.pool.nodes s).used = (m.pool.nodes s).used) ∧
        m1.buckets = m.buckets ∧
        m1.garbage_list_head_offset = m.garbage_list_head_offset ∧
        m1.garbage_list_tail_offset = m.garbage_list_tail_offset ∧
        (∀ y, (m1.item y).next = (m.item y).next) ∧
        (∀ s, s ≠ m.slot x → m1.pool.nodes s = m.pool.nodes s) ∧
        m1.item x = { m.item x with
          value := value, expire := expireAt ttl now, invalid := VALID } ∧
        (-2147483648 ≤ now + ttl → now + ttl < 2147483648 →
          (m1.item x).expire = if ttl = 0 then 0 else now + ttl)) ∧
    (∀ (m m1 : ShmHashMap K V) (key : K) (v1 v2 : V) (ttl1 t1 ttl2 t2 : Int) (l : List Nat)
      (fuel fuel2 : Nat),
      m.WF → m.BucketWF (m.HashCode key % m.bucket_size) l →
      (∀ x, l.find? (fun y => decide ((m.item y).key = key)) = some x →
        isExpired (m.item x) t1 = false) →
      m.Insert fuel key v1 ttl1 t1 = some (SinHashRet.RET_OK, m1) →
      (expireAt ttl1 t1 = 0 ∨ t2 ≤ expireAt ttl1 t1) →
      l.length + 1 < fuel2 →
      ∃ m2 l1 x, m1.Insert fuel2 key v2 ttl2 t2 = some (SinHashRet.RET_OK, m2) ∧
        m1.BucketWF (m.HashCode key % m.bucket_size) l1 ∧
        m2.BucketWF (m.HashCode key % m.bucket_size) l1 ∧
        m2.buckets = m1.buckets ∧ m2.pool.read_index = m1.pool.read_index ∧
        l1.find? (fun y => decide ((m2.item y).key = key)) = some x ∧
        (m2.item x).value = v2 ∧
        (l.find? (fun y => decide ((m.item y).key = key)) = none →
          l1.filter (fun y => decide ((m2.item y).key = key)) = [x])) := by
  constructor
  · intro m key value ttl now l x fuel hw hx hlive hv hf
    refine ⟨_, Insert_live m key value ttl now l x fuel hw hx hlive hv hf, rfl, rfl, rfl,
      fun s => setItem_used m x _ s, rfl, rfl, rfl, ?_, ?_, by simp, ?_⟩
    · intro y
      rw [item_setItem]
      by_cases hs : m.slot y = m.slot x
      · have e : m.item y = m.item x := by rw [item_eq_nodes, item_eq_nodes, hs]
        simp [hs, e]
      · simp [hs]
    · intro s hs
      exact setItem_nodes_ne m x _ s hs
    · intro h1 h2
      simp only [item_setItem_same]
      exact expireAt_eq ttl now h1 h2
  · intro m m1 key v1 v2 ttl1 t1 ttl2 t2 l fuel fuel2 hm hb hlive hins hexp hf2
    obtain ⟨hH, hB, l1, x, hb1, hfind1, _, hex, hvx, hshape, hkeys⟩ :=
      Insert_then_found m m1 key v1 ttl1 t1 l fuel hm hb hlive hins
    have hidx : m1.HashCode key % m1.bucket_size = m.HashCode key % m.bucket_size := by
      rw [hH, hB]
    have hlen : l1.length < fuel2 := by
      rcases hshape with ⟨h, _⟩ | ⟨h, _⟩
      · rw [h]; omega
      · rw [h]; simp only [List.length_append, List.length_singleton]; omega
    have hlive1 : isExpired (m1.item x) t2 = false := by
      rw [isExpired_false_iff, hex]
      exact hexp
    have hins2 := Insert_live m1 key v2 ttl2 t2 l1 x fuel2
      (by rw [hidx]; exact Chain_IsWalk m1 _ _ hb1.chain) hfind1 hlive1 hvx hlen
    have hkeys2 : ∀ y, ((m1.setItem x { m1.item x with
        value := v2, expire := expireAt ttl2 t2, invalid := VALID }).item y).key
        = (m1.item y).key := by
      intro y
      rw [item_setItem]
      by_cases hs : m1.slot y = m1.slot x
      · have e : m1.item y = m1.item x := by rw [item_eq_nodes, item_eq_nodes, hs]
        simp [hs, e]
      · simp [hs]
    have hfind2 : l1.find? (fun y => decide (((m1.setItem x { m1.item x with
        value := v2, expire := expireAt ttl2 t2, invalid := VALID }).item y).key = key))
        = some x := by
      rw [← hfind1]
      apply find?_congr_mem
      intro y _
      rw [hkeys2 y]
    refine ⟨_, l1, x, hins2, hb1, ?_, rfl, rfl, hfind2, by simp, ?_⟩
    · refine BucketWF_congr m1 (m1.setItem x _) _ l1 rfl rfl rfl rfl rfl ?_ hb1
      intro y _
      refine ⟨setItem_used m1 x _ _, ?_⟩
      rw [item_setItem]
      by_cases hs : m1.slot y = m1.slot x
      · have e : m1.item y = m1.item x := by rw [item_eq_nodes, item_eq_nodes, hs]
        simp [hs, e, hvx]
      · simp [hs]
    · intro hnone
      rcases hshape with ⟨_, h⟩ | ⟨h, _⟩
      · rw [hnone] at h; cases h
      · rw [h, List.filter_append]
        have h1 : l.filter (fun y => decide (((m1.setItem x { m1.item x with
            value := v2, expire := expireAt ttl2 t2, invalid := VALID }).item y).key = key))
            = [] := by
          rw [List.filter_eq_nil_iff]
          intro y hy
          rw [hkeys2 y, hkeys y hy]
          have := List.find?_eq_none.mp hnone y hy
          exact this
        have hxk := (find?_mem_key m1 key l1 x hfind1).2
        rw [h1]
        have hd : decide (((m1.setItem x { m1.item x with
            value := v2, expire := expireAt ttl2 t2, invalid := VALID }).item x).key = key)
            = true := by
          rw [hkeys2 x, hxk]; simp
        simp only [List.nil_append, List.filter_cons, List.filter_nil, hd, if_true]

theorem Insert_in_place_witness :
    ∃ m1 m2 x, scenarioMap.Insert 3 1 100 0 0 = some (SinHashRet.RET_OK, m1) ∧
      m1.Insert 3 1 200 0 0 = some (SinHashRet.RET_OK, m2) ∧
      m2.BucketWF 1 [x] ∧ (m2.item x).value = 200 ∧ m2.buckets = m1.buckets := by
  have h1 : (scenarioMap.Insert 3 1 100 0 0).map Prod.fst = some SinHashRet.RET_OK := by decide
  cases h2 : scenarioMap.Insert 3 1 100 0 0 with
  | none => rw [h2] at h1; cases h1
  | some p =>
    obtain ⟨r, m1⟩ := p
    rw [h2] at h1
    simp only [Option.map_some', Option.some.injEq] at h1
    subst h1
    obtain ⟨m2, l1, x, k1, k2, k3, k4, _, k5, k6, k7⟩ :=
      (Insert_in_place (K := Nat) (V := Nat)).2 scenarioMap m1 1 100 200 0 0 0 0 [] 3 3
        WF_scenarioMap (BucketWF_construct _ _ _ _ _) (by simp) h2
        (Or.inl (by decide)) (by simp)
    have hl := k7 rfl
    have hsub : l1 = [x] := by
      have h3 := k3.chain
      have hx := List.mem_of_find?_eq_some k5
      have hlen : l1.length ≤ 1 := by
        have hc := k2.count
        have : (m1.buckets 1).count = 1 := by
          have : (scenarioMap.Insert 3 1 100 0 0).map (fun q => (q.2.buckets 1).count)
              = some 1 := by decide
          rw [h2] at this
          simpa using this
        have hc' : (m1.buckets (scenarioMap.HashCode 1 % scenarioMap.bucket_size)).count
            = l1.length := hc
        have e : scenarioMap.HashCode 1 % scenarioMap.bucket_size = 1 := by decide
        rw [e, this] at hc'
        omega
      match l1, hx, hlen with
      | [y], hx, _ =>
        simp only [List.mem_singleton] at hx
        rw [hx]
    rw [hsub] at k3
    exact ⟨m1, m2, x, rfl, k1, k3, k6, k4⟩

end ShmMap

namespace ShmMap

open ShmPool

variable {K V : Type}

theorem NoFailInv_write (p : MemoryPool (ItemNode K V)) (x : Nat) (o : ItemNode K V)
    (hp : p.NoFailInv) : (p.write x o).NoFailInv := by
  refine ⟨RingInv_write p x o hp.ring, hp.read_le, ?_, hp.consumed, hp.filled⟩
  rw [usedCount_write]
  exact hp.count_eq

/-- The pool after a successful `AddNodeItem`, up to the stores into items. -/
theorem AddNodeItem_pool (m : ShmHashMap K V) (index : Nat) (key : K) (value : V)
    (expire now : Int)
    (hq : m.pool.free_queue (m.pool.read_index % m.pool.node_size) ≠ OFFSET_NULL) :
    (∃ a it, (m.AddNodeItem index key value expire now).2.pool = m.pool.Allocate.2.write a it) ∨
    (∃ a it b it1, (m.AddNodeItem index key value expire now).2.pool
      = (m.pool.Allocate.2.write a it).write b it1) := by
  rw [AddNodeItem_success m index key value expire now hq]
  simp only [setBucket_OffsetToNode, setBucket_pool]
  split
  · left; exact ⟨_, _, rfl⟩
  · right; exact ⟨_, _, _, _, rfl⟩

theorem AddNodeItem_NoFailInv (m : ShmHashMap K V) (index : Nat) (key : K) (value : V)
    (expire now : Int) (hp : m.pool.NoFailInv)
    (hq : m.pool.free_queue (m.pool.read_index % m.pool.node_size) ≠ OFFSET_NULL) :
    (m.AddNodeItem index key value expire now).2.pool.NoFailInv := by
  have h1 := NoFailInv_Allocate m.pool hp (fun h => hq ((Allocate_none_iff m.pool).mp h))
  rcases AddNodeItem_pool m index key value expire now hq with ⟨a, it, e⟩ | ⟨a, it, b, it1, e⟩
  · rw [e]; exact NoFailInv_write _ _ _ h1
  · rw [e]; exact NoFailInv_write _ _ _ (NoFailInv_write _ _ _ h1)

variable [DecidableEq K]

/-- The two ways in which `Insert` returns `RET_OK` on a well-formed state: the
first live item with the key is updated in place, or a new item is appended to the
chain of the bucket. -/
theorem Insert_effect (m m1 : ShmHashMap K V) (key : K) (value : V) (ttl now : Int)
    (l : List Nat) (fuel : Nat) (hm : m.WF)
    (hb : m.BucketWF (m.HashCode key % m.bucket_size) l)
    (hins : m.Insert fuel key value ttl now = some (SinHashRet.RET_OK, m1)) :
    (∃ x, l.find? (fun y => decide ((m.item y).key = key)) = some x ∧
      isExpired (m.item x) now = false ∧
      m1 = m.setItem x
        { m.item x with value := value, expire := expireAt ttl now, invalid := VALID }) ∨
    ((l.find? (fun y => decide ((m.item y).key = key)) = none ∨
        ∃ x, l.find? (fun y => decide ((m.item y).key = key)) = some x ∧
          isExpired (m.item x) now = true) ∧
      m.pool.free_queue (m.pool.read_index % m.pool.node_size) ≠ OFFSET_NULL ∧
      m1 = (m.AddNodeItem (m.HashCode key % m.bucket_size) key value ttl now).2 ∧
      m.AppendedTo m1 (m.HashCode key % m.bucket_size) l
        (m.pool.dataPtr
          (m.pool.free_queue (m.pool.read_index % m.pool.node_size) / m.pool.NodeSize))
        { invalid := 0, key := key, value := value, next := OFFSET_NULL,
          expire := expireAt ttl now, del_next := OFFSET_NULL }) := by
  have hgn : m.GetNode fuel (m.HashCode key % m.bucket_size) key ≠ none := by
    intro h0
    simp [ShmHashMap.Insert, h0] at hins
  obtain ⟨c1, c2, c3⟩ := Insert_cases m key value ttl now l hb fuel hgn
  have happ : m.Insert fuel key value ttl now
      = some (m.AddNodeItem (m.HashCode key % m.bucket_size) key value ttl now) →
      m.pool.free_queue (m.pool.read_index % m.pool.node_size) ≠ OFFSET_NULL ∧
      m1 = (m.AddNodeItem (m.HashCode key % m.bucket_size) key value ttl now).2 ∧
      m.AppendedTo m1 (m.HashCode key % m.bucket_size) l
        (m.pool.dataPtr
          (m.pool.free_queue (m.pool.read_index % m.pool.node_size) / m.pool.NodeSize))
        { invalid := 0, key := key, value := value, next := OFFSET_NULL,
          expire := expireAt ttl now, del_next := OFFSET_NULL } := by
    intro h
    rw [h] at hins
    have hins := Option.some.inj hins
    have hq : m.pool.free_queue (m.pool.read_index % m.pool.node_size) ≠ OFFSET_NULL := by
      intro hq
      rw [AddNodeItem_fail m _ key value ttl now hq] at hins
      cases hins
    obtain ⟨m2, e, hA⟩ := AddNodeItem_appended m _ key value ttl now l hm.pool hm.data_gt hb hq
    have e2 : m2 = m1 := by
      rw [e] at hins
      cases hins; rfl
    subst e2
    exact ⟨hq, by rw [e], hA⟩
  cases hfind : l.find? (fun y => decide ((m.item y).key = key)) with
  | none => exact Or.inr ⟨Or.inl rfl, happ (c1 hfind)⟩
  | some x =>
    cases hexp : isExpired (m.item x) now with
    | true => exact Or.inr ⟨Or.inr ⟨x, rfl, hexp⟩, happ (c2 x hfind hexp)⟩
    | false =>
      left
      rw [c3 x hfind hexp] at hins
      have hins := Option.some.inj hins
      exact ⟨x, rfl, hexp, by cases hins; rfl⟩

theorem lastInsert_snoc (ops : List (K × V × Int × Int)) (op : K × V × Int × Int) (key : K) :
    lastInsert (ops ++ [op]) key = if op.1 = key then some op.2.1 else lastInsert ops key := by
  unfold lastInsert
  rw [List.reverse_append]
  simp only [List.reverse_cons, List.reverse_nil, List.nil_append, List.singleton_append,
    List.find?_cons]
  by_cases h : op.1 = key
  · simp [h]
  · simp [h]

theorem insertAll_cons (fuel : Nat) (m m2 : ShmHashMap K V) (op : K × V × Int × Int)
    (ops : List (K × V × Int × Int)) (h : m.insertAll fuel (op :: ops) = some m2) :
    ∃ m1, m.Insert fuel op.1 op.2.1 op.2.2.1 op.2.2.2 = some (SinHashRet.RET_OK, m1) ∧
      m1.insertAll fuel ops = some m2 := by
  simp only [ShmHashMap.insertAll] at h
  split at h
  · rename_i m1 heq
    exact ⟨m1, heq, h⟩
  · cases h

end ShmMap

namespace ShmMap

open ShmPool

variable {K V : Type}

theorem expireAt_zero (now : Int) : expireAt 0 now = 0 := by
  simp [expireAt]

theorem isExpired_of_expire_zero (it : ItemNode K V) (now : Int) (h : it.expire = 0) :
    isExpired it now = false := by
  rw [isExpired_false_iff]; exact Or.inl h

variable [DecidableEq K]

/-- An in-place store of a value with expiry `0` into the first item with the key
keeps the last-write relation. -/
theorem LastWriteInv_setItem (m : ShmHashMap K V) (done : List (K × V × Int × Int))
    (key : K) (value : V) (now : Int) (l : List Nat) (x : Nat) (it : ItemNode K V)
    (hinv : m.LastWriteInv done)
    (hl : m.BucketWF (m.HashCode key % m.bucket_size) l)
    (hl0 : ∀ x, x ∈ l → (m.item x).expire = 0)
    (hlv : ∀ key1, m.HashCode key1 % m.bucket_size = m.HashCode key % m.bucket_size →
      (l.find? (fun x => decide ((m.item x).key = key1))).map (fun x => (m.item x).value)
        = lastInsert done key1)
    (hfind : l.find? (fun y => decide ((m.item y).key = key)) = some x)
    (h1 : it.next = (m.item x).next) (h2 : it.key = (m.item x).key)
    (h3 : it.invalid = (m.item x).invalid) (h4 : it.del_next = (m.item x).del_next)
    (h5 : it.expire = 0) (h6 : it.value = value) :
    (m.setItem x it).LastWriteInv (done ++ [(key, value, 0, now)]) := by
  obtain ⟨hxl, hxk⟩ := find?_mem_key m key l x hfind
  have hitem : ∀ y, (m.setItem x it).item y = if m.slot y = m.slot x then it else m.item y :=
    fun y => item_setItem m x _ y
  have hsame : ∀ y, m.slot y = m.slot x → m.item y = m.item x := by
    intro y hs; rw [item_eq_nodes, item_eq_nodes, hs]
  have hfr : ∀ y, ((m.setItem x it).pool.nodes (m.slot y)).used = (m.pool.nodes (m.slot y)).used ∧
      ((m.setItem x it).item y).next = (m.item y).next ∧
      ((m.setItem x it).item y).key = (m.item y).key ∧
      ((m.setItem x it).item y).invalid = (m.item y).invalid ∧
      ((m.setItem x it).item y).del_next = (m.item y).del_next := by
    intro y
    refine ⟨setItem_used m x it _, ?_⟩
    rw [hitem]
    by_cases hs : m.slot y = m.slot x
    · simp only [hs, if_true, hsame y hs]
      exact ⟨h1, h2, h3, h4⟩
    · simp [hs]
  have hfindc : ∀ (lb : List Nat) key1,
      lb.find? (fun y => decide (((m.setItem x it).item y).key = key1))
        = lb.find? (fun y => decide ((m.item y).key = key1)) :=
    fun lb key1 => find?_congr_mem _ _ lb (fun y _ => by rw [(hfr y).2.2.1])
  intro b hb
  by_cases hbi : b = m.HashCode key % m.bucket_size
  · subst hbi
    refine ⟨l, BucketWF_congr m (m.setItem x it) _ l rfl rfl rfl rfl rfl (fun y _ => hfr y) hl,
      ?_, ?_⟩
    · intro y hy
      rw [hitem]
      by_cases hs : m.slot y = m.slot x
      · simp [hs, h5]
      · simp only [hs, if_false]; exact hl0 y hy
    · intro key1 hk1
      have hk1b : m.HashCode key1 % m.bucket_size = m.HashCode key % m.bucket_size := hk1
      rw [lastInsert_snoc, ← hlv key1 hk1b, hfindc]
      by_cases hkk : key = key1
      · subst hkk
        rw [hfind]
        simp [h6]
      · simp only [hkk, if_false]
        cases hf1 : l.find? (fun y => decide ((m.item y).key = key1)) with
        | none => rfl
        | some y =>
          obtain ⟨_, hyk⟩ := find?_mem_key m key1 l y hf1
          have hs : m.slot y ≠ m.slot x := by
            intro hs
            apply hkk
            rw [← hxk, ← hyk, hsame y hs]
          simp [hitem, hs]
  · obtain ⟨lb, hlb, hlb0, hlbv⟩ := hinv b hb
    have hne : ∀ y, y ∈ lb → m.slot y ≠ m.slot x := fun y hy =>
      BucketWF_slot_ne m b _ lb l hlb hl hbi y x hy hxl
    refine ⟨lb, BucketWF_congr m (m.setItem x it) _ lb rfl rfl rfl rfl rfl (fun y _ => hfr y) hlb,
      ?_, ?_⟩
    · intro y hy
      rw [hitem]
      simp only [hne y hy, if_false]
      exact hlb0 y hy
    · intro key1 hk1
      have hk1b : m.HashCode key1 % m.bucket_size = b := hk1
      have hkk : key ≠ key1 := by
        intro hkk; subst hkk; exact hbi hk1b.symm
      rw [lastInsert_snoc, ← hlbv key1 hk1b, hfindc]
      simp only [hkk, if_false]
      cases hf1 : lb.find? (fun y => decide ((m.item y).key = key1)) with
      | none => rfl
      | some y =>
        simp [hitem, hne y (List.mem_of_find?_eq_some hf1)]

/-- One `Insert` with `ttl = 0` keeps the last-write relation. -/
theorem LastWriteInv_Insert (m m1 : ShmHashMap K V) (done : List (K × V × Int × Int))
    (key : K) (value : V) (now : Int) (fuel : Nat) (hm : m.WF) (hinv : m.LastWriteInv done)
    (hins : m.Insert fuel key value 0 now = some (SinHashRet.RET_OK, m1)) :
    m1.LastWriteInv (done ++ [(key, value, 0, now)]) ∧ m1.HashCode = m.HashCode ∧
      m1.bucket_size = m.bucket_size ∧ m1.pool.node_size = m.pool.node_size := by
  have hi : m.HashCode key % m.bucket_size < m.bucket_size := Nat.mod_lt _ hm.bucket_pos
  obtain ⟨l, hl, hl0, hlv⟩ := hinv _ hi
  rcases Insert_effect m m1 key value 0 now l fuel hm hl hins with
    ⟨x, hfind, _, e⟩ | ⟨hpath, hq, _, hA⟩
  · -- update in place
    subst e
    exact ⟨LastWriteInv_setItem m done key value now l x _ hinv hl hl0 hlv hfind rfl rfl
      ((hl.nodes x (List.mem_of_find?_eq_some hfind)).2.1).symm rfl (expireAt_zero now) rfl,
      rfl, rfl, rfl⟩
  · -- append
    have hfind : l.find? (fun y => decide ((m.item y).key = key)) = none := by
      rcases hpath with h | ⟨x, h, hx⟩
      · exact h
      · have := hl0 x (List.mem_of_find?_eq_some h)
        rw [isExpired_of_expire_zero _ _ this] at hx
        cases hx
    have hnew := AppendedTo_item_new m m1 _ l _ _ hA
    refine ⟨?_, hA.hash_eq, hA.bucket_size_eq, hA.node_size_eq⟩
    intro b hb
    rw [hA.bucket_size_eq] at hb
    rw [hA.hash_eq, hA.bucket_size_eq]
    by_cases hbi : b = m.HashCode key % m.bucket_size
    · subst hbi
      refine ⟨_, AppendedTo_BucketWF_index m m1 _ l _ _ hA hl hm.slots_lt rfl rfl rfl rfl, ?_, ?_⟩
      · intro y hy
        rcases List.mem_append.mp hy with h | h
        · obtain ⟨_, _, _, f3, _⟩ := AppendedTo_frame m m1 _ l _ _ hA hl y
            (Chain_mem_used m _ _ _ hl.chain y h).1
          rw [f3]; exact hl0 y h
        · simp only [List.mem_singleton] at h
          subst h
          rw [hnew]
          exact expireAt_zero now
      · intro key1 hk1
        rw [lastInsert_snoc, ← hlv key1 hk1, AppendedTo_find? m m1 _ l _ _ hA hl key1]
        cases hf1 : l.find? (fun y => decide ((m.item y).key = key1)) with
        | none =>
          by_cases hkk : key = key1
          · simp [hkk, hnew]
          · simp [hkk]
        | some y =>
          have hkk : key ≠ key1 := by
            intro hkk; subst hkk; rw [hfind] at hf1; cases hf1
          obtain ⟨_, _, f2, _⟩ := AppendedTo_frame m m1 _ l _ _ hA hl y
            (Chain_mem_used m _ _ _ hl.chain y (List.mem_of_find?_eq_some hf1)).1
          simp [hkk, f2]
    · obtain ⟨lb, hlb, hlb0, hlbv⟩ := hinv b hb
      have hfr := fun y (hy : y ∈ lb) => AppendedTo_frame m m1 _ l _ _ hA hl y
        (Chain_mem_used m _ _ _ hlb.chain y hy).1
      refine ⟨lb, AppendedTo_BucketWF_other m m1 _ l _ _ hA hl b lb hbi hlb, ?_, ?_⟩
      · intro y hy
        rw [(hfr y hy).2.2.2.1]; exact hlb0 y hy
      · intro key1 hk1
        have hkk : key ≠ key1 := by
          intro hkk; subst hkk; exact hbi hk1.symm
        rw [lastInsert_snoc, ← hlbv key1 hk1]
        rw [find?_congr_mem (fun y => decide ((m1.item y).key = key1))
          (fun y => decide ((m.item y).key = key1)) lb
          (fun y hy => by simp only [(hfr y hy).2.1])]
        cases hf1 : lb.find? (fun y => decide ((m.item y).key = key1)) with
        | none => simp [hkk]
        | some y =>
          simp [hkk, (hfr y (List.mem_of_find?_eq_some hf1)).2.2.1]

theorem LastWriteInv_insertAll (fuel : Nat) (ops : List (K × V × Int × Int)) :
    ∀ (done : List (K × V × Int × Int)) (m m2 : ShmHashMap K V), m.WF → m.LastWriteInv done →
      (∀ op, op ∈ ops → op.2.2.1 = 0) → m.insertAll fuel ops = some m2 →
      m2.WF ∧ m2.LastWriteInv (done ++ ops) ∧ m2.HashCode = m.HashCode ∧
        m2.bucket_size = m.bucket_size ∧ m2.pool.node_size = m.pool.node_size := by
  induction ops with
  | nil =>
    intro done m m2 hm hinv _ h
    simp only [ShmHashMap.insertAll, Option.some.injEq] at h
    subst h
    simpa using ⟨hm, hinv⟩
  | cons op ops ih =>
    intro done m m2 hm hinv httl h
    obtain ⟨m1, h1, h2⟩ := insertAll_cons fuel m m2 op ops h
    have h0 : op.2.2.1 = 0 := httl op (List.mem_cons_self _ _)
    have hop : op = (op.1, op.2.1, 0, op.2.2.2) := by
      rw [← h0]
    rw [h0] at h1
    obtain ⟨k1, k2, k3, k4⟩ := LastWriteInv_Insert m m1 done op.1 op.2.1 op.2.2.2 fuel hm hinv h1
    rw [← hop] at k1
    obtain ⟨r1, r2, r3, r4, r5⟩ := ih (done ++ [op]) m1 m2 (WF_Insert m m1 _ _ _ _ fuel _ hm h1)
      k1 (fun o ho => httl o (List.mem_cons_of_mem _ ho)) h2
    refine ⟨r1, ?_, r3.trans k2, r4.trans k3, r5.trans k4⟩
    simpa using r2

theorem LastWriteInv_construct (HashCode : K → Nat) (pool : MemoryPool (ItemNode K V))
    (bucket_size gc_timestamp : Nat) :
    (ShmHashMap.construct HashCode pool bucket_size gc_timestamp).LastWriteInv [] := by
  intro b _
  refine ⟨[], BucketWF_construct _ _ _ _ b, fun x h => (by cases h), ?_⟩
  intro key _
  simp [lastInsert]

/-- C1: for every bucket count, every hash function and every sequence of `Insert`
calls with `ttl = 0` on a freshly constructed map that all return `RET_OK`, `Get`
of a key returns `RET_OK` with the value of the most recent call with that key,
and `RET_NOT_FOUND` when no call had that key. -/
theorem insert_get_last_write (HashCode : K → Nat) (N S D : Nat) (zero : ItemNode K V)
    (bucket_size gc_timestamp : Nat) (hN : N + 2 < 4294967296) (hD1 : 1 < D) (hD2 : D < S)
    (ops : List (K × V × Int × Int)) (hops : ∀ op, op ∈ ops → op.2.2.1 = 0)
    (fuel : Nat) (m : ShmHashMap K V)
    (hrun : (ShmHashMap.construct HashCode (MemoryPool.construct N S D zero) bucket_size
      gc_timestamp).insertAll fuel ops = some m)
    (key : K) (now : Int) (fuel1 : Nat) (hf : N + 2 < fuel1) :
    m.Get fuel1 key now = some
      (match lastInsert ops key with
        | some v => (SinHashRet.RET_OK, some v)
        | none => (SinHashRet.RET_NOT_FOUND, none)) := by
  obtain ⟨hm, hinv, _, _, hn⟩ := LastWriteInv_insertAll fuel ops [] _ m
    (WF_construct HashCode N S D zero bucket_size gc_timestamp hN hD1 hD2)
    (LastWriteInv_construct _ _ _ _) hops hrun
  have hi : m.HashCode key % m.bucket_size < m.bucket_size := Nat.mod_lt _ hm.bucket_pos
  obtain ⟨l, hl, hl0, hlv⟩ := hinv _ hi
  have hns : m.pool.node_size = N + 2 := by
    rw [hn]
    show (N + 2) % 4294967296 = N + 2
    exact Nat.mod_eq_of_lt hN
  have hlen := BucketWF_length_le m _ l hl
  rw [Get_walk m key now l fuel1 (Chain_IsWalk m l _ hl.chain) (by omega)]
  have := hlv key rfl
  simp only [List.nil_append] at this
  rw [← this]
  cases hfind : l.find? (fun x => decide ((m.item x).key = key)) with
  | none => rfl
  | some x =>
    have h0 := hl0 x (List.mem_of_find?_eq_some hfind)
    simp [h0]

theorem insert_get_last_write_witness :
    ∃ m, scenarioMap.insertAll 3 [(1, 100, 0, 0), (5, 500, 0, 0), (1, 101, 0, 1)] = some m ∧
      m.Get 19 1 2 = some (SinHashRet.RET_OK, some 101) ∧
      m.Get 19 5 2 = some (SinHashRet.RET_OK, some 500) ∧
      m.Get 19 2 2 = some (SinHashRet.RET_NOT_FOUND, none) := by
  have hrun : (scenarioMap.insertAll 3
      [(1, 100, 0, 0), (5, 500, 0, 0), (1, 101, 0, 1)]).isSome = true := by decide
  obtain ⟨m, hm⟩ := Option.isSome_iff_exists.mp hrun
  have h := fun key => insert_get_last_write (fun k : Nat => k) 16 40 8
    { next := 0, key := 0, value := 0, expire := 0, invalid := 0, del_next := 0 } 4 0
    (by norm_num) (by norm_num) (by norm_num)
    [(1, 100, 0, 0), (5, 500, 0, 0), (1, 101, 0, 1)] (by decide) 3 m hm key 2 19 (by norm_num)
  exact ⟨m, hm, h 1, h 5, h 2⟩

end ShmMap

namespace ShmMap

open ShmPool

variable {K V : Type} [DecidableEq K]

/-- One successful `Insert` of a key not inserted before takes one slot. -/
theorem FillInv_Insert (m m1 : ShmHashMap K V) (ks : List K) (key : K) (value : V)
    (ttl now : Int) (fuel : Nat) (hm : m.WF) (hinv : m.FillInv ks) (hnew : key ∉ ks)
    (hins : m.Insert fuel key value ttl now = some (SinHashRet.RET_OK, m1)) :
    m1.FillInv (ks ++ [key]) ∧ m1.HashCode = m.HashCode ∧
      m1.bucket_size = m.bucket_size ∧ m1.pool.node_size = m.pool.node_size := by
  have hi : m.HashCode key % m.bucket_size < m.bucket_size := Nat.mod_lt _ hm.bucket_pos
  obtain ⟨hnf, hw, hr, hbk⟩ := hinv
  obtain ⟨l, hl, hlk⟩ := hbk _ hi
  rcases Insert_effect m m1 key value ttl now l fuel hm hl hins with
    ⟨x, hfind, _, _⟩ | ⟨_, hq, e, hA⟩
  · exfalso
    obtain ⟨hxl, hxk⟩ := find?_mem_key m key l x hfind
    exact hnew (hxk ▸ hlk x hxl)
  · have hnew1 := AppendedTo_item_new m m1 _ l _ _ hA
    refine ⟨⟨?_, by rw [hA.write_eq, hw], by rw [hA.read_eq, hr]; simp, ?_⟩,
      hA.hash_eq, hA.bucket_size_eq, hA.node_size_eq⟩
    · rw [e]
      exact AddNodeItem_NoFailInv m _ key value ttl now hnf hq
    · intro b hb
      rw [hA.bucket_size_eq] at hb
      by_cases hbi : b = m.HashCode key % m.bucket_size
      · subst hbi
        refine ⟨_, AppendedTo_BucketWF_index m m1 _ l _ _ hA hl hm.slots_lt rfl rfl rfl rfl, ?_⟩
        intro y hy
        rcases List.mem_append.mp hy with h | h
        · rw [(AppendedTo_frame m m1 _ l _ _ hA hl y
            (Chain_mem_used m _ _ _ hl.chain y h).1).2.1]
          exact List.mem_append_left _ (hlk y h)
        · simp only [List.mem_singleton] at h
          subst h
          rw [hnew1]
          simp
      · obtain ⟨lb, hlb, hlbk⟩ := hbk b hb
        refine ⟨lb, AppendedTo_BucketWF_other m m1 _ l _ _ hA hl b lb hbi hlb, ?_⟩
        intro y hy
        rw [(AppendedTo_frame m m1 _ l _ _ hA hl y
          (Chain_mem_used m _ _ _ hlb.chain y hy).1).2.1]
        exact List.mem_append_left _ (hlbk y hy)

theorem FillInv_insertAll (fuel : Nat) (ops : List (K × V × Int × Int)) :
    ∀ (ks : List K) (m m2 : ShmHashMap K V), m.WF → m.FillInv ks →
      (ks ++ ops.map (fun op => op.1)).Nodup → m.insertAll fuel ops = some m2 →
      m2.WF ∧ m2.FillInv (ks ++ ops.map (fun op => op.1)) ∧ m2.HashCode = m.HashCode ∧
        m2.bucket_size = m.bucket_size ∧ m2.pool.node_size = m.pool.node_size := by
  induction ops with
  | nil =>
    intro ks m m2 hm hinv _ h
    simp only [ShmHashMap.insertAll, Option.some.injEq] at h
    subst h
    simpa using ⟨hm, hinv⟩
  | cons op ops ih =>
    intro ks m m2 hm hinv hnd h
    obtain ⟨m1, h1, h2⟩ := insertAll_cons fuel m m2 op ops h
    have hnd1 : ((ks ++ [op.1]) ++ ops.map (fun op => op.1)).Nodup := by
      simpa using hnd
    have hnew : op.1 ∉ ks := by
      intro hin
      rw [List.map_cons, List.nodup_append] at hnd
      exact hnd.2.2 hin (List.mem_cons_self _ _)
    obtain ⟨k1, k2, k3, k4⟩ := FillInv_Insert m m1 ks op.1 op.2.1 op.2.2.1 op.2.2.2 fuel hm hinv
      hnew h1
    obtain ⟨r1, r2, r3, r4, r5⟩ := ih (ks ++ [op.1]) m1 m2
      (WF_Insert m m1 _ _ _ _ fuel _ hm h1) k1 hnd1 h2
    refine ⟨r1, ?_, r3.trans k2, r4.trans k3, r5.trans k4⟩
    simpa using r2

theorem FillInv_construct (HashCode : K → Nat) (N S D : Nat) (zero : ItemNode K V)
    (bucket_size gc_timestamp : Nat) (hN : N + 2 < 4294967296) (hD1 : 1 < D) (hD2 : D < S) :
    (ShmHashMap.construct HashCode (MemoryPool.construct N S D zero) bucket_size
      gc_timestamp).FillInv [] := by
  refine ⟨NoFailInv_construct N S D zero hN (by omega) hD2, rfl, rfl, ?_⟩
  intro b _
  exact ⟨[], BucketWF_construct _ _ _ _ b, fun x h => (by cases h)⟩

/-- C7, the claim refuted: on a map over a fresh pool constructed with capacity
`N = 2`, the third `Insert` of three different keys returns `RET_OK`. -/
theorem third_insert_ok :
    ((ShmHashMap.construct (fun k : Nat => k)
        (MemoryPool.construct 2 40 8
          ({ next := 0, key := 0, value := 0, expire := 0, invalid := 0, del_next := 0 } :
            ItemNode Nat Nat)) 4 0).insertAll 5 [(1, 1, 0, 0), (2, 2, 0, 0)]).bind
      (fun m => (m.Insert 5 3 3 0 0).map Prod.fst) = some SinHashRet.RET_OK := by
  decide

/-- C7 as amended: on a map over a fresh pool constructed with capacity `N`, once
`N + 2` calls of `Insert` with pairwise different keys have returned `RET_OK`, the
next `Insert` of a further key returns `RET_NO_MEMORY`. -/
theorem insert_no_memory_after_fill (HashCode : K → Nat) (N S D : Nat) (zero : ItemNode K V)
    (bucket_size gc_timestamp : Nat) (hN : N + 2 < 4294967296) (hD1 : 1 < D) (hD2 : D < S)
    (ops : List (K × V × Int × Int)) (hk : (ops.map (fun op => op.1)).Nodup)
    (hlen : ops.length = N + 2) (fuel : Nat) (m : ShmHashMap K V)
    (hrun : (ShmHashMap.construct HashCode (MemoryPool.construct N S D zero) bucket_size
      gc_timestamp).insertAll fuel ops = some m)
    (key : K) (value : V) (ttl now : Int) (hnew : key ∉ ops.map (fun op => op.1))
    (fuel1 : Nat) (hf : N + 2 < fuel1) :
    ∃ m1, m.Insert fuel1 key value ttl now = some (SinHashRet.RET_NO_MEMORY, m1) := by
  obtain ⟨hm, hinv, _, _, hn⟩ := FillInv_insertAll fuel ops [] _ m
    (WF_construct HashCode N S D zero bucket_size gc_timestamp hN hD1 hD2)
    (FillInv_construct HashCode N S D zero bucket_size gc_timestamp hN hD1 hD2)
    (by simpa using hk) hrun
  simp only [List.nil_append] at hinv
  obtain ⟨hnf, hw, hr, hbk⟩ := hinv
  have hi : m.HashCode key % m.bucket_size < m.bucket_size := Nat.mod_lt _ hm.bucket_pos
  obtain ⟨l, hl, hlk⟩ := hbk _ hi
  have hns : m.pool.node_size = N + 2 := by
    rw [hn]
    show (N + 2) % 4294967296 = N + 2
    exact Nat.mod_eq_of_lt hN
  have hfind : l.find? (fun y => decide ((m.item y).key = key)) = none := by
    rw [List.find?_eq_none]
    intro y hy
    have := hlk y hy
    simp only [decide_eq_true_eq]
    intro he
    exact hnew (he ▸ this)
  have hlen1 := BucketWF_length_le m _ l hl
  have hgn : m.GetNode fuel1 (m.HashCode key % m.bucket_size) key ≠ none := by
    rw [(GetNode_bucket m _ key l hl fuel1).2 (by omega)]
    simp
  rw [(Insert_cases m key value ttl now l hl fuel1 hgn).1 hfind]
  have hq : m.pool.free_queue (m.pool.read_index % m.pool.node_size) = OFFSET_NULL := by
    have := hnf.consumed 0 (by omega) (by rw [hr]; simp [hlen])
    rw [hr, List.length_map, hlen, hns, Nat.mod_self]
    rw [hns] at this
    simpa using this
  rw [AddNodeItem_fail m _ key value ttl now hq]
  exact ⟨_, rfl⟩

theorem insert_no_memory_after_fill_witness :
    ∃ m m1,
      (ShmHashMap.construct (fun k : Nat => k)
        (MemoryPool.construct 2 40 8
          ({ next := 0, key := 0, value := 0, expire := 0, invalid := 0, del_next := 0 } :
            ItemNode Nat Nat)) 4 0).insertAll 5
        [(1, 1, 0, 0), (2, 2, 0, 0), (3, 3, 0, 0), (4, 4, 0, 0)] = some m ∧
      m.Insert 5 5 5 0 0 = some (SinHashRet.RET_NO_MEMORY, m1) := by
  have hrun : ((ShmHashMap.construct (fun k : Nat => k)
        (MemoryPool.construct 2 40 8
          ({ next := 0, key := 0, value := 0, expire := 0, invalid := 0, del_next := 0 } :
            ItemNode Nat Nat)) 4 0).insertAll 5
        [(1, 1, 0, 0), (2, 2, 0, 0), (3, 3, 0, 0), (4, 4, 0, 0)]).isSome = true := by decide
  obtain ⟨m, hm⟩ := Option.isSome_iff_exists.mp hrun
  obtain ⟨m1, h1⟩ := insert_no_memory_after_fill (fun k : Nat => k) 2 40 8
    ({ next := 0, key := 0, value := 0, expire := 0, invalid := 0, del_next := 0 } :
      ItemNode Nat Nat) 4 0 (by norm_num) (by norm_num) (by norm_num)
    [(1, 1, 0, 0), (2, 2, 0, 0), (3, 3, 0, 0), (4, 4, 0, 0)] (by decide) rfl 5 m hm 5 5 0 0
    (by decide) 5 (by norm_num)
  exact ⟨m, m1, hm, h1⟩

end ShmMap

namespace ShmMap

open ShmPool

variable {K V : Type}

theorem slot_inj_of_nodup (m : ShmHashMap K V) (l : List Nat) (h : (l.map m.slot).Nodup)
    (x y : Nat) (hx : x ∈ l) (hy : y ∈ l) (he : m.slot x = m.slot y) : x = y :=
  List.inj_on_of_nodup_map h hx hy he

theorem getLast?_append_cons {α : Type} (l1 : List α) (x : α) (l2 : List α) :
    (l1 ++ x :: l2).getLast? = (x :: l2).getLast? := by
  rw [List.getLast?_append]
  cases h : (x :: l2).getLast? with
  | none => simp at h
  | some t => simp

theorem getLast?_cons_ne_nil {α : Type} (x : α) (l : List α) (h : l ≠ []) :
    (x :: l).getLast? = l.getLast? := by
  cases l with
  | nil => exact absurd rfl h
  | cons y l => simp [List.getLast?_cons_cons]

theorem sub_one_mod (c : Nat) (h1 : 1 ≤ c) (h2 : c < 4294967296) :
    (c + 4294967295) % 4294967296 = c - 1 := by
  omega

/-- Removing the item after `p0` from a chain. -/
theorem Chain_remove (m m1 : ShmHashMap K V) (link : ItemNode K V → Nat) (p0 x : Nat)
    (l2 : List Nat) (hl2 : m1.Chain link (link (m.item x)) l2)
    (hp0 : link (m1.item p0) = link (m.item x)) :
    ∀ (l1 : List Nat) (s : Nat), m.Chain link s (l1 ++ p0 :: x :: l2) →
      (∀ y, y ∈ l1 ++ [p0] → m1.OffsetToNode y = m.OffsetToNode y) →
      (∀ y, y ∈ l1 → link (m1.item y) = link (m.item y)) →
      m1.Chain link s (l1 ++ p0 :: l2) := by
  intro l1
  induction l1 with
  | nil =>
    intro s hs hlive _
    obtain ⟨h1, h2, h3⟩ := hs
    refine ⟨h1, by rw [hlive p0 (by simp)]; exact h2, ?_⟩
    rw [hp0]
    exact hl2
  | cons y l1 ih =>
    intro s hs hlive hlink
    obtain ⟨h1, h2, h3⟩ := hs
    refine ⟨h1, by rw [hlive y (by simp)]; exact h2, ?_⟩
    rw [hlink y (List.mem_cons_self _ _)]
    exact ih _ h3 (fun z hz => hlive z (by
      rcases List.mem_append.mp hz with h | h
      · exact List.mem_append_left _ (List.mem_cons_of_mem _ h)
      · exact List.mem_append_right _ h))
      (fun z hz => hlink z (List.mem_cons_of_mem _ hz))

theorem Chain_suffix (m : ShmHashMap K V) (link : ItemNode K V → Nat) (x : Nat)
    (l2 : List Nat) : ∀ (l1 : List Nat) (s : Nat), m.Chain link s (l1 ++ x :: l2) →
      m.Chain link (link (m.item x)) l2 := by
  intro l1
  induction l1 with
  | nil => intro s hs; exact hs.2.2
  | cons y l1 ih => intro s hs; exact ih _ hs.2.2

theorem Chain_last_link (m : ShmHashMap K V) (link : ItemNode K V → Nat) (l : List Nat) :
    ∀ (s t : Nat), m.Chain link s l → l.getLast? = some t → link (m.item t) = OFFSET_NULL := by
  induction l with
  | nil => intro s t _ h; simp at h
  | cons y l ih =>
    intro s t hs ht
    by_cases hl : l = []
    · subst hl
      simp only [List.getLast?_singleton, Option.some.injEq] at ht
      subst ht
      exact hs.2.2
    · rw [getLast?_cons_ne_nil y l hl] at ht
      exact ih _ t hs.2.2 ht

theorem Chain_head_ne (m : ShmHashMap K V) (link : ItemNode K V → Nat) (l : List Nat) (s : Nat)
    (h : m.Chain link s l) (hl : l ≠ []) : s ≠ OFFSET_NULL := by
  cases l with
  | nil => exact absurd rfl hl
  | cons y l =>
    obtain ⟨h1, h2, _⟩ := h
    rw [h1]
    exact ((OffsetToNode_some_iff m y y).mp h2).2.2

end ShmMap

namespace ShmMap

open ShmPool

variable {K V : Type}

theorem RemovedFrom_slot (m m1 : ShmHashMap K V) (index : Nat) (l1 : List Nat) (x : Nat)
    (l2 g : List Nat) (hR : m.RemovedFrom m1 index l1 x l2 g) : m1.slot = m.slot :=
  funext (slot_eq_of_NodeSize m m1 hR.NodeSize_eq)

theorem item_eq_of_slot_eq (m : ShmHashMap K V) (x y : Nat) (h : m.slot x = m.slot y) :
    m.item x = m.item y := by
  rw [item_eq_nodes, item_eq_nodes, h]

/-- What an unlinking step leaves unchanged in an item other than the unlinked
one. -/
theorem RemovedFrom_frame (m m1 : ShmHashMap K V) (index : Nat) (l1 : List Nat) (x : Nat)
    (l2 g : List Nat) (hR : m.RemovedFrom m1 index l1 x l2 g) (y : Nat)
    (hy : m.slot y ≠ m.slot x) :
    (m1.item y).key = (m.item y).key ∧ (m1.item y).value = (m.item y).value ∧
    (m1.item y).expire = (m.item y).expire ∧ (m1.item y).invalid = (m.item y).invalid ∧
    ((∀ t, g.getLast? = some t → m.slot y ≠ m.slot t) →
      (m1.item y).del_next = (m.item y).del_next) ∧
    ((∀ p, l1.getLast? = some p → m.slot y ≠ m.slot p) →
      (m1.item y).next = (m.item y).next) := by
  have hslot := RemovedFrom_slot m m1 index l1 x l2 g hR
  by_cases ht : ∀ t, g.getLast? = some t → m.slot y ≠ m.slot t
  · by_cases hp : ∀ p, l1.getLast? = some p → m.slot y ≠ m.slot p
    · rw [hR.item_other y hy ht hp]
      exact ⟨rfl, rfl, rfl, rfl, fun _ => rfl, fun _ => rfl⟩
    · have hp' := hp
      push_neg at hp
      obtain ⟨p, hpl, hps⟩ := hp
      have e1 : m1.item y = m1.item p := item_eq_of_slot_eq m1 y p (by rw [hslot]; exact hps)
      have e2 : m.item y = m.item p := item_eq_of_slot_eq m y p hps
      rw [e1, e2, hR.item_p0 p hpl]
      exact ⟨rfl, rfl, rfl, rfl, fun _ => rfl, fun h => absurd h hp'⟩
  · have ht' := ht
    push_neg at ht
    obtain ⟨t, htl, hts⟩ := ht
    have e1 : m1.item y = m1.item t := item_eq_of_slot_eq m1 y t (by rw [hslot]; exact hts)
    have e2 : m.item y = m.item t := item_eq_of_slot_eq m y t hts
    rw [e1, e2, hR.item_gt t htl]
    exact ⟨rfl, rfl, rfl, rfl, fun h => absurd h ht', fun _ => rfl⟩

theorem RemovedFrom_OffsetToNode (m m1 : ShmHashMap K V) (index : Nat) (l1 : List Nat)
    (x : Nat) (l2 g : List Nat) (hR : m.RemovedFrom m1 index l1 x l2 g) (y : Nat) :
    m1.OffsetToNode y = m.OffsetToNode y :=
  OffsetToNode_congr m m1 hR.NodeSize_eq y (hR.used_eq _)

/-- The garbage list after an unlinking step. -/
theorem RemovedFrom_GarbageWF (m m1 : ShmHashMap K V) (index : Nat) (l1 : List Nat)
    (x : Nat) (l2 g : List Nat) (hR : m.RemovedFrom m1 index l1 x l2 g)
    (hb : m.BucketWF index (l1 ++ x :: l2)) (hg : m.GarbageWF g) :
    m1.GarbageWF (g ++ [x]) := by
  have hslot := RemovedFrom_slot m m1 index l1 x l2 g hR
  have hxin : x ∈ l1 ++ x :: l2 := by simp
  obtain ⟨hxn, _, hxd, _⟩ := hb.nodes x hxin
  have hxg : ∀ y, y ∈ g → m.slot y ≠ m.slot x := fun y hy => fun h =>
    BucketWF_GarbageWF_slot_ne m index _ g hb hg x y hxin hy h.symm
  have hpg : ∀ y, y ∈ g → ∀ p, l1.getLast? = some p → m.slot y ≠ m.slot p := by
    intro y hy p hp h
    exact BucketWF_GarbageWF_slot_ne m index _ g hb hg p y
      (List.mem_append_left _ (getLast?_mem l1 p hp)) hy h.symm
  refine ⟨?_, ?_, ?_, ?_⟩
  · rw [hR.ghead_eq]
    apply Chain_snoc m m1 _ x _ _ g _ hg.chain
    · intro y _
      exact RemovedFrom_OffsetToNode m m1 index l1 x l2 g hR y
    · intro t ht
      rw [hR.item_gt t ht]
    · intro y hy hyt
      exact (RemovedFrom_frame m m1 index l1 x l2 g hR y (hxg y hy)).2.2.2.2.1 hyt
    · exact hg.nodup
    · rw [RemovedFrom_OffsetToNode m m1 index l1 x l2 g hR]
      exact Chain_mem_live m _ _ _ hb.chain x hxin
    · rw [hR.item_x]
      exact hxd
  · intro t ht
    simp at ht
    rw [hR.gtail_eq, ht]
  · rw [hslot, List.map_append, List.nodup_append]
    refine ⟨hg.nodup, by simp, ?_⟩
    intro s hs1 hs2
    simp only [List.map_cons, List.map_nil, List.mem_singleton] at hs2
    obtain ⟨y, hy, he⟩ := List.mem_map.mp hs1
    exact hxg y hy (he.trans hs2)
  · intro y hy
    rw [hslot, hR.node_size_eq]
    rcases List.mem_append.mp hy with h | h
    · rw [(RemovedFrom_frame m m1 index l1 x l2 g hR y (hxg y h)).2.2.2.1]
      exact hg.nodes y h
    · simp only [List.mem_singleton] at h
      subst h
      rw [hR.item_x]
      exact ⟨hxn, Or.inl rfl⟩

/-- Another bucket after an unlinking step. -/
theorem RemovedFrom_BucketWF_other (m m1 : ShmHashMap K V) (index : Nat) (l1 : List Nat)
    (x : Nat) (l2 g : List Nat) (hR : m.RemovedFrom m1 index l1 x l2 g)
    (hb : m.BucketWF index (l1 ++ x :: l2)) (hg : m.GarbageWF g) (b : Nat) (lb : List Nat)
    (hne : b ≠ index) (hlb : m.BucketWF b lb) : m1.BucketWF b lb := by
  apply BucketWF_congr m m1 b lb hR.NodeSize_eq hR.node_size_eq hR.bucket_size_eq hR.hash_eq
    (hR.other_buckets b hne) _ hlb
  intro y hy
  have h1 : m.slot y ≠ m.slot x :=
    BucketWF_slot_ne m b index lb _ hlb hb hne y x hy (by simp)
  obtain ⟨f1, _, _, f4, f5, f6⟩ := RemovedFrom_frame m m1 index l1 x l2 g hR y h1
  refine ⟨hR.used_eq _, f6 ?_, f1, f4, f5 ?_⟩
  · intro p hp
    exact BucketWF_slot_ne m b index lb _ hlb hb hne y p hy
      (List.mem_append_left _ (getLast?_mem l1 p hp))
  · intro t ht
    exact BucketWF_GarbageWF_slot_ne m b lb g hlb hg y t hy (getLast?_mem g t ht)

/-- The bucket itself after an unlinking step. -/
theorem RemovedFrom_BucketWF_index (m m1 : ShmHashMap K V) (index : Nat) (l1 : List Nat)
    (x : Nat) (l2 g : List Nat) (hR : m.RemovedFrom m1 index l1 x l2 g)
    (hb : m.BucketWF index (l1 ++ x :: l2)) (hg : m.GarbageWF g)
    (hn : m.pool.node_size < 4294967296) (hshape : l2 = [] → l1 = []) :
    m1.BucketWF index (l1 ++ l2) := by
  have hslot := RemovedFrom_slot m m1 index l1 x l2 g hR
  have hnd := hb.nodup
  rw [List.map_append, List.map_cons] at hnd
  have hndx : m.slot x ∉ l1.map m.slot ∧ m.slot x ∉ l2.map m.slot := by
    rw [List.nodup_append] at hnd
    refine ⟨fun h => hnd.2.2 h (List.mem_cons_self _ _), (List.nodup_cons.mp hnd.2.1).1⟩
  have hyx : ∀ y, y ∈ l1 ++ l2 → m.slot y ≠ m.slot x := by
    intro y hy h
    rcases List.mem_append.mp hy with h1 | h1
    · exact hndx.1 (h ▸ List.mem_map_of_mem _ h1)
    · exact hndx.2 (h ▸ List.mem_map_of_mem _ h1)
  have hyg : ∀ y, y ∈ l1 ++ l2 → ∀ t, g.getLast? = some t → m.slot y ≠ m.slot t := by
    intro y hy t ht
    refine BucketWF_GarbageWF_slot_ne m index _ g hb hg y t ?_ (getLast?_mem g t ht)
    rcases List.mem_append.mp hy with h1 | h1
    · exact List.mem_append_left _ h1
    · exact List.mem_append_right _ (List.mem_cons_of_mem _ h1)
  have hin : ∀ y, y ∈ l1 ++ l2 → y ∈ l1 ++ x :: l2 := by
    intro y hy
    rcases List.mem_append.mp hy with h1 | h1
    · exact List.mem_append_left _ h1
    · exact List.mem_append_right _ (List.mem_cons_of_mem _ h1)
  have hnd2 : ((l1 ++ l2).map m.slot).Nodup := by
    rw [List.map_append]
    rw [List.nodup_append] at hnd ⊢
    exact ⟨hnd.1, (List.nodup_cons.mp hnd.2.1).2,
      fun s h1 h2 => hnd.2.2 h1 (List.mem_cons_of_mem _ h2)⟩
  have hlen := BucketWF_length_le m index _ hb
  simp only [List.length_append, List.length_cons] at hlen
  refine ⟨?_, ?_, ?_, ?_, by rw [hslot]; exact hnd2, ?_⟩
  · -- the chain
    rw [hR.bucket]
    simp only
    rcases List.eq_nil_or_concat l1 with hl1 | ⟨l0, p0, hl1⟩
    · subst hl1
      simp only [if_true, List.nil_append]
      by_cases hl2 : l2 = []
      · subst hl2; simp only [if_true]; rfl
      · simp only [hl2, if_false]
        have hc : m.Chain (fun it => it.next) (m.item x).next l2 := hb.chain.2.2
        apply Chain_congr m m1 _ l2 _ _ hc
        intro y hy
        refine ⟨RemovedFrom_OffsetToNode m m1 index [] x l2 g hR y, ?_⟩
        exact (RemovedFrom_frame m m1 index [] x l2 g hR y
          (hyx y (by simpa using hy))).2.2.2.2.2 (by intro p hp; simp at hp)
    · rw [List.concat_eq_append] at hl1
      subst hl1
      have hne : l0 ++ [p0] ≠ [] := by simp
      simp only [hne, if_false]
      have hlast : (l0 ++ [p0]).getLast? = some p0 := by simp
      have hc := hb.chain
      rw [List.append_assoc, List.singleton_append] at hc
      have hp0slot : ∀ y, y ∈ l0 ++ l2 → m.slot y ≠ m.slot p0 := by
        intro y hy h
        have h3 := hnd2
        rw [List.append_assoc, List.map_append, List.nodup_append] at h3
        simp only [List.singleton_append, List.map_cons, List.nodup_cons] at h3
        rcases List.mem_append.mp hy with h1 | h1
        · exact h3.2.2 (List.mem_map_of_mem _ h1) (h ▸ List.mem_cons_self _ _)
        · exact h3.2.1.1 (h ▸ List.mem_map_of_mem _ h1)
      rw [List.append_assoc, List.singleton_append]
      apply Chain_remove m m1 _ p0 x l2 _ _ l0 _ hc
      · intro y _
        exact RemovedFrom_OffsetToNode m m1 index _ x l2 g hR y
      · intro y hy
        refine (RemovedFrom_frame m m1 index _ x l2 g hR y
          (hyx y (by simp [hy]))).2.2.2.2.2 ?_
        intro p hp
        rw [hlast] at hp
        cases hp
        exact hp0slot y (List.mem_append_left _ hy)
      · have hc2 := Chain_suffix m (fun it => it.next) x l2 (l0 ++ [p0]) _ hb.chain
        apply Chain_congr m m1 _ l2 _ _ hc2
        intro y hy
        refine ⟨RemovedFrom_OffsetToNode m m1 index _ x l2 g hR y, ?_⟩
        refine (RemovedFrom_frame m m1 index _ x l2 g hR y
          (hyx y (by simp [hy]))).2.2.2.2.2 ?_
        intro p hp
        rw [hlast] at hp
        cases hp
        exact hp0slot y (List.mem_append_right _ hy)
      · rw [hR.item_p0 p0 hlast]
  · intro h
    rw [hR.bucket]
    have h1 : l1 = [] := List.append_eq_nil.mp h |>.1
    have h2 : l2 = [] := List.append_eq_nil.mp h |>.2
    simp [h1, h2]
  · intro t ht
    rw [hR.bucket]
    by_cases hl2 : l2 = []
    · have hl1 := hshape hl2
      subst hl1; subst hl2
      simp at ht
    · simp only [hl2, and_false, if_false]
      apply hb.tail_last
      rw [getLast?_append_cons, getLast?_cons_ne_nil x l2 hl2]
      rw [List.getLast?_append] at ht
      cases h : l2.getLast? with
      | none =>
        cases l2 with
        | nil => exact absurd rfl hl2
        | cons z l2 => simp at h
      | some t2 =>
        rw [h] at ht
        simpa using ht
  · rw [hR.bucket, hb.count]
    simp only [List.length_append, List.length_cons]
    rw [sub_one_mod _ (by omega) (by omega)]
    omega
  · intro y hy
    obtain ⟨k1, k2, k3, k4⟩ := hb.nodes y (hin y hy)
    obtain ⟨f1, _, _, f4, f5, _⟩ := RemovedFrom_frame m m1 index l1 x l2 g hR y (hyx y hy)
    rw [hslot, hR.node_size_eq, hR.bucket_size_eq, hR.hash_eq, f1, f4, f5 (hyg y hy)]
    exact ⟨k1, k2, k3, k4⟩

/-- An unlinking step keeps the state well formed. -/
theorem RemovedFrom_WF (m m1 : ShmHashMap K V) (index : Nat) (l1 : List Nat)
    (x : Nat) (l2 g : List Nat) (hR : m.RemovedFrom m1 index l1 x l2 g) (hm : m.WF)
    (hb : m.BucketWF index (l1 ++ x :: l2)) (hg : m.GarbageWF g)
    (hshape : l2 = [] → l1 = []) : m1.WF := by
  refine ⟨hR.pool_inv, by rw [hR.dataOff_eq]; exact hm.data_gt,
    by rw [hR.node_size_eq]; exact hm.slots_lt, by rw [hR.bucket_size_eq]; exact hm.bucket_pos,
    ?_, ⟨_, RemovedFrom_GarbageWF m m1 index l1 x l2 g hR hb hg⟩⟩
  intro b hbB
  rw [hR.bucket_size_eq] at hbB
  by_cases hbi : b = index
  · subst hbi
    exact ⟨_, RemovedFrom_BucketWF_index m m1 b l1 x l2 g hR hb hg hm.slots_lt hshape⟩
  · obtain ⟨lb, hlb⟩ := hm.buckets b hbB
    exact ⟨lb, RemovedFrom_BucketWF_other m m1 index l1 x l2 g hR hb hg b lb hbi hlb⟩

end ShmMap

namespace ShmMap

open ShmPool

variable {K V : Type}

@[simp] theorem setGarbage_pool (m : ShmHashMap K V) (a b : Nat) :
    (m.setGarbage a b).pool = m.pool := rfl

@[simp] theorem setGarbage_buckets (m : ShmHashMap K V) (a b : Nat) :
    (m.setGarbage a b).buckets = m.buckets := rfl

@[simp] theorem setGarbage_item (m : ShmHashMap K V) (a b : Nat) (x : Nat) :
    (m.setGarbage a b).item x = m.item x := rfl

@[simp] theorem setGarbage_slot (m : ShmHashMap K V) (a b : Nat) (x : Nat) :
    (m.setGarbage a b).slot x = m.slot x := rfl

@[simp] theorem setGarbage_OffsetToNode (m : ShmHashMap K V) (a b : Nat) (x : Nat) :
    (m.setGarbage a b).OffsetToNode x = m.OffsetToNode x := rfl

@[simp] theorem setGarbage_head (m : ShmHashMap K V) (a b : Nat) :
    (m.setGarbage a b).garbage_list_head_offset = a := rfl

@[simp] theorem setGarbage_tail (m : ShmHashMap K V) (a b : Nat) :
    (m.setGarbage a b).garbage_list_tail_offset = b := rfl

@[simp] theorem setGarbage_bucket_size (m : ShmHashMap K V) (a b : Nat) :
    (m.setGarbage a b).bucket_size = m.bucket_size := rfl

@[simp] theorem setGarbage_HashCode (m : ShmHashMap K V) (a b : Nat) :
    (m.setGarbage a b).HashCode = m.HashCode := rfl

@[simp] theorem setGarbage_gc_timestamp (m : ShmHashMap K V) (a b : Nat) :
    (m.setGarbage a b).gc_timestamp = m.gc_timestamp := rfl

theorem AddGarbageList_eq (m : ShmHashMap K V) (node : Nat) :
    m.AddGarbageList node =
      if m.garbage_list_head_offset = OFFSET_NULL then some (m.setGarbage node node)
      else
        match m.OffsetToNode m.garbage_list_tail_offset with
        | none => none
        | some t =>
          some ((m.setItem t { m.item t with del_next := node }).setGarbage
            m.garbage_list_head_offset node) := by
  unfold ShmHashMap.AddGarbageList
  split
  · rfl
  · split <;> rfl

theorem setItem_pool (m : ShmHashMap K V) (x : Nat) (it : ItemNode K V) :
    (m.setItem x it).pool = m.pool.write x it := rfl

/-- The exchange of the state of a chained item `x` of bucket `index` and
`RemoveExpireNode` on a well-formed state. -/
theorem enlist_spec (m : ShmHashMap K V) (index : Nat) (l g : List Nat) (x : Nat) (hm : m.WF)
    (hb : m.BucketWF index l) (hg : m.GarbageWF g) (hx : x ∈ l) :
    ∃ m1, (m.setItem x { m.item x with invalid := COLLECTING }).RemoveExpireNode x index
        = some m1 ∧ m.EnlistedFrom m1 index x g := by
  have hxg : ∀ t, t ∈ g → m.slot t ≠ m.slot x := fun t ht h =>
    BucketWF_GarbageWF_slot_ne m index l g hb hg x t hx ht h.symm
  unfold ShmHashMap.RemoveExpireNode
  rw [AddGarbageList_eq]
  simp only [setItem_garbage_head, setItem_garbage_tail, OffsetToNode_setItem,
    setBucket_NodeToOffset]
  rcases List.eq_nil_or_concat g with hgl | ⟨g0, t, hgl⟩
  · subst hgl
    have hh : m.garbage_list_head_offset = OFFSET_NULL := hg.chain
    simp only [hh, if_true]
    refine ⟨_, rfl, ?_⟩
    refine ⟨rfl, rfl, rfl, rfl, rfl, rfl, ?_, ?_, by simp, by simp, by simp, ?_, ?_, by simp, ?_⟩
    · simp only [setBucket_pool, setGarbage_pool, setItem_pool]
      exact RingInv_write _ _ _ hm.pool
    · intro s
      simp only [setBucket_pool, setGarbage_pool]
      exact setItem_used m x _ s
    · intro t ht; simp at ht
    · intro y hy _
      simp only [setBucket_item, setGarbage_item]
      exact item_setItem_ne m x _ y hy
    · intro b hb
      simp [setBucket_buckets_ne _ _ _ _ hb]
  · rw [List.concat_eq_append] at hgl
    subst hgl
    have hlast : (g0 ++ [t]).getLast? = some t := by simp
    have htin : t ∈ g0 ++ [t] := by simp
    have hh : m.garbage_list_head_offset ≠ OFFSET_NULL :=
      Chain_head_ne m _ _ _ hg.chain (by simp)
    have htail := hg.tail_last t hlast
    have hlive := Chain_mem_live m _ _ _ hg.chain t htin
    have htx := hxg t htin
    simp only [hh, if_false, htail, hlive]
    refine ⟨_, rfl, ?_⟩
    refine ⟨rfl, rfl, rfl, rfl, rfl, rfl, ?_, ?_, by simp, by simp, ?_, ?_, ?_, by simp, ?_⟩
    · simp only [setBucket_pool, setGarbage_pool, setItem_pool]
      exact RingInv_write _ _ _ (RingInv_write _ _ _ hm.pool)
    · intro s
      simp only [setBucket_pool, setGarbage_pool]
      rw [setItem_used, setItem_used]
    · simp only [setBucket_item, setGarbage_item]
      rw [item_setItem_ne _ t _ x (by simpa using fun h => htx h.symm)]
      simp
    · intro t1 ht1
      rw [hlast] at ht1
      cases ht1
      simp only [setBucket_item, setGarbage_item, item_setItem_same]
      rw [item_setItem_ne m x _ t htx]
    · intro y hy hyt
      simp only [setBucket_item, setGarbage_item]
      rw [item_setItem_ne _ t _ y (by simpa using hyt t hlast), item_setItem_ne m x _ y hy]
    · intro b hb
      simp [setBucket_buckets_ne _ _ _ _ hb]

end ShmMap

namespace ShmMap

open ShmPool

variable {K V : Type}

theorem EnlistedFrom_slot (m m1 : ShmHashMap K V) (index x : Nat) (g : List Nat)
    (hE : m.EnlistedFrom m1 index x g) : m1.slot = m.slot :=
  funext (slot_eq_of_NodeSize m m1 hE.NodeSize_eq)

/-- Unlinking an interior item: the removal from the chain after the item is
enlisted. -/
theorem unlink_interior (m mE : ShmHashMap K V) (index : Nat) (l1 : List Nat) (p0 x : Nat)
    (l2 g : List Nat) (hE : m.EnlistedFrom mE index x g)
    (hb : m.BucketWF index (l1 ++ p0 :: x :: l2)) (hg : m.GarbageWF g) :
    m.RemovedFrom (mE.unlinkNext p0 x) index (l1 ++ [p0]) x l2 g := by
  have hslot := EnlistedFrom_slot m mE index x g hE
  have hp0in : p0 ∈ l1 ++ p0 :: x :: l2 := by simp
  have hxin : x ∈ l1 ++ p0 :: x :: l2 := by simp
  have hpx : m.slot p0 ≠ m.slot x := by
    intro h
    have hnd := hb.nodup
    rw [List.map_append, List.nodup_append] at hnd
    have h2 := hnd.2.1
    simp only [List.map_cons, List.nodup_cons, List.mem_cons] at h2
    exact h2.1 (Or.inl h)
  have hpg : ∀ t, g.getLast? = some t → m.slot p0 ≠ m.slot t := fun t ht =>
    BucketWF_GarbageWF_slot_ne m index _ g hb hg p0 t hp0in (getLast?_mem g t ht)
  have hxg : ∀ t, g.getLast? = some t → m.slot x ≠ m.slot t := fun t ht =>
    BucketWF_GarbageWF_slot_ne m index _ g hb hg x t hxin (getLast?_mem g t ht)
  have hlast : (l1 ++ [p0]).getLast? = some p0 := by simp
  have hEp0 : mE.item p0 = m.item p0 := hE.item_other p0 hpx hpg
  unfold ShmHashMap.unlinkNext
  refine ⟨hE.bucket_size_eq, hE.hash_eq, hE.gc_eq, hE.NodeSize_eq, hE.node_size_eq,
    hE.dataOff_eq, ?_, ?_, hE.ghead_eq, hE.gtail_eq, ?_, ?_, ?_, ?_, ?_, hE.other_buckets⟩
  · rw [setItem_pool]
    exact RingInv_write _ _ _ hE.pool_inv
  · intro s
    rw [setItem_used]
    exact hE.used_eq s
  · rw [item_setItem_ne mE p0 _ x (by rw [hslot]; exact fun h => hpx h.symm)]
    exact hE.item_x
  · intro t ht
    rw [item_setItem_ne mE p0 _ t (by rw [hslot]; exact fun h => hpg t ht h.symm)]
    exact hE.item_gt t ht
  · intro p hp
    rw [hlast] at hp
    cases hp
    rw [item_setItem_same, hEp0, hE.item_x]
  · intro y hy1 hy2 hy3
    rw [item_setItem_ne mE p0 _ y (by rw [hslot]; exact hy3 p0 hlast)]
    exact hE.item_other y hy1 hy2
  · rw [setItem_buckets, hE.bucket]
    simp

/-- Unlinking the head item: the update of the bucket anchors after the item is
enlisted. -/
theorem unlink_head (m mE : ShmHashMap K V) (index : Nat) (x : Nat) (l2 g : List Nat)
    (hE : m.EnlistedFrom mE index x g) (hb : m.BucketWF index (x :: l2)) :
    m.RemovedFrom
      (if (mE.buckets index).head = (mE.buckets index).tail then
        mE.setBucket index { mE.buckets index with tail := OFFSET_NULL, head := OFFSET_NULL }
      else mE.setBucket index { mE.buckets index with head := (mE.item x).next })
      index [] x l2 g := by
  have hhead : (m.buckets index).head = x := hb.chain.1
  have hiff : (mE.buckets index).head = (mE.buckets index).tail ↔ l2 = [] := by
    rw [hE.bucket]
    simp only [hhead]
    constructor
    · intro h
      by_contra hl2
      obtain ⟨t, ht⟩ : ∃ t, l2.getLast? = some t := by
        cases h2 : l2.getLast? with
        | none =>
          cases l2 with
          | nil => exact absurd rfl hl2
          | cons z l2 => simp at h2
        | some t => exact ⟨t, rfl⟩
      have htl := hb.tail_last t (by rw [getLast?_cons_ne_nil x l2 hl2]; exact ht)
      have hnd := hb.nodup
      rw [List.map_cons, List.nodup_cons] at hnd
      apply hnd.1
      rw [h, htl]
      exact List.mem_map_of_mem _ (getLast?_mem l2 t ht)
    · intro h
      subst h
      exact (hb.tail_last x (by simp)).symm
  by_cases hl2 : l2 = []
  · rw [if_pos (hiff.mpr hl2)]
    refine ⟨hE.bucket_size_eq, hE.hash_eq, hE.gc_eq, hE.NodeSize_eq, hE.node_size_eq,
      hE.dataOff_eq, hE.pool_inv, hE.used_eq, hE.ghead_eq, hE.gtail_eq, hE.item_x, hE.item_gt,
      ?_, ?_, ?_, ?_⟩
    · intro p hp; simp at hp
    · intro y h1 h2 _
      exact hE.item_other y h1 h2
    · rw [setBucket_buckets_same, hE.bucket]
      simp [hl2]
    · intro b hbne
      rw [setBucket_buckets_ne _ _ _ _ hbne]
      exact hE.other_buckets b hbne
  · rw [if_neg (fun h => hl2 (hiff.mp h))]
    refine ⟨hE.bucket_size_eq, hE.hash_eq, hE.gc_eq, hE.NodeSize_eq, hE.node_size_eq,
      hE.dataOff_eq, hE.pool_inv, hE.used_eq, hE.ghead_eq, hE.gtail_eq, hE.item_x, hE.item_gt,
      ?_, ?_, ?_, ?_⟩
    · intro p hp; simp at hp
    · intro y h1 h2 _
      exact hE.item_other y h1 h2
    · rw [setBucket_buckets_same, hE.bucket, hE.item_x]
      simp [hl2]
    · intro b hbne
      rw [setBucket_buckets_ne _ _ _ _ hbne]
      exact hE.other_buckets b hbne

/-- The interior loop of `Scan` keeps the state well formed and the chain of the
bucket non-empty. -/
theorem ScanLoop_WF (index : Nat) (now : Int) :
    ∀ (rem pre : List Nat) (p0 fuel : Nat) (m m1 : ShmHashMap K V),
      m.WF → m.BucketWF index (pre ++ p0 :: rem) →
      ShmHashMap.ScanLoop index now fuel m p0 (m.OffsetToNode (m.item p0).next) = some m1 →
      m1.WF ∧ m1.bucket_size = m.bucket_size ∧ ∃ l1, m1.BucketWF index l1 ∧ l1 ≠ [] := by
  intro rem
  induction rem with
  | nil =>
    intro pre p0 fuel m m1 hm hb h
    have hlast := Chain_last_link m _ _ _ p0 hb.chain (by simp)
    simp only at hlast
    rw [hlast, OffsetToNode_NULL] at h
    cases fuel with
    | zero => simp [ShmHashMap.ScanLoop] at h
    | succ f =>
      simp only [ShmHashMap.ScanLoop, Option.some.injEq] at h
      subst h
      exact ⟨hm, rfl, _, hb, by simp⟩
  | cons p1 rem ih =>
    intro pre p0 fuel m m1 hm hb h
    have hc := Chain_suffix m (fun it => it.next) p0 (p1 :: rem) pre _ hb.chain
    obtain ⟨e1, e2, e3⟩ := hc
    simp only at e1
    rw [e1, e2] at h
    have hp1in : p1 ∈ pre ++ p0 :: p1 :: rem := by simp
    cases fuel with
    | zero => simp [ShmHashMap.ScanLoop] at h
    | succ f =>
      rw [ShmHashMap.ScanLoop] at h
      by_cases hnx : (m.item p1).next = OFFSET_NULL
      · simp only [hnx, if_true, Option.some.injEq] at h
        subst h
        exact ⟨hm, rfl, _, hb, by simp⟩
      · simp only [hnx, if_false] at h
        have hrem : rem ≠ [] := by
          intro hr
          subst hr
          exact hnx (Chain_last_link m _ _ _ p1 hb.chain (by simp))
        by_cases hexp : isExpired (m.item p1) now = true
        · have hv := (hb.nodes p1 hp1in).2.1
          simp only [hexp, if_true, hv] at h
          obtain ⟨g, hg⟩ := hm.garbage
          obtain ⟨mE, hE1, hE⟩ := enlist_spec m index _ g p1 hm hb hg hp1in
          rw [hE1] at h
          simp only at h
          have hR := unlink_interior m mE index pre p0 p1 rem g hE hb hg
          have hb' : m.BucketWF index ((pre ++ [p0]) ++ p1 :: rem) := by
            simpa using hb
          have hm2 := RemovedFrom_WF m _ index _ p1 rem g hR hm hb' hg
            (fun hr => absurd hr hrem)
          have hb2 := RemovedFrom_BucketWF_index m _ index _ p1 rem g hR hb' hg hm.slots_lt
            (fun hr => absurd hr hrem)
          rw [List.append_assoc, List.singleton_append] at hb2
          obtain ⟨r1, r2, r3⟩ := ih pre p0 f _ m1 hm2 hb2 h
          exact ⟨r1, r2.trans hR.bucket_size_eq, r3⟩
        · simp only [hexp, Bool.false_eq_true, if_false] at h
          have hb' : m.BucketWF index ((pre ++ [p0]) ++ p1 :: rem) := by
            simpa using hb
          exact ih (pre ++ [p0]) p1 f m m1 hm hb' h

/-- The head check of `Scan` keeps the state well formed. -/
theorem ScanHead_WF (index : Nat) (now : Int) (m m1 : ShmHashMap K V) (l : List Nat)
    (hm : m.WF) (hb : m.BucketWF index l) (hl : l ≠ [])
    (h : ShmHashMap.ScanHead index now m = some m1) :
    m1.WF ∧ m1.bucket_size = m.bucket_size := by
  cases l with
  | nil => exact absurd rfl hl
  | cons x l2 =>
    obtain ⟨e1, e2, _⟩ := hb.chain
    unfold ShmHashMap.ScanHead at h
    rw [e1, e2] at h
    simp only at h
    by_cases hc : isExpired (m.item x) now = true ∧ (m.item x).invalid = VALID
    · simp only [hc, and_self, if_true] at h
      obtain ⟨g, hg⟩ := hm.garbage
      obtain ⟨mE, hE1, hE⟩ := enlist_spec m index _ g x hm hb hg (by simp)
      rw [hE1] at h
      simp only at h
      have hR := unlink_head m mE index x l2 g hE hb
      have hb' : m.BucketWF index ([] ++ x :: l2) := by simpa using hb
      have hres : m1 = (if (mE.buckets index).head = (mE.buckets index).tail then
          mE.setBucket index { mE.buckets index with tail := OFFSET_NULL, head := OFFSET_NULL }
        else mE.setBucket index { mE.buckets index with head := (mE.item x).next }) := by
        split at h
        · rename_i hht
          rw [if_pos hht]
          exact (Option.some.inj h).symm
        · rename_i hht
          rw [if_neg hht]
          exact (Option.some.inj h).symm
      rw [hres]
      exact ⟨RemovedFrom_WF m _ index [] x l2 g hR hm hb' hg (fun _ => rfl), hR.bucket_size_eq⟩
    · simp only [hc, if_false, Option.some.injEq] at h
      subst h
      exact ⟨hm, rfl⟩

/-- The body of the `for` loop of `Scan` keeps the state well formed. -/
theorem ScanBucket_WF (fuel : Nat) (now : Int) (m m1 : ShmHashMap K V) (index : Nat)
    (hm : m.WF) (hi : index < m.bucket_size)
    (h : ShmHashMap.ScanBucket fuel now m index = some m1) :
    m1.WF ∧ m1.bucket_size = m.bucket_size := by
  obtain ⟨l, hb⟩ := hm.buckets index hi
  unfold ShmHashMap.ScanBucket at h
  cases l with
  | nil =>
    have hh : (m.buckets index).head = OFFSET_NULL := hb.chain
    rw [hh, OffsetToNode_NULL] at h
    simp only [Option.some.injEq] at h
    subst h
    exact ⟨hm, rfl⟩
  | cons p0 rem =>
    obtain ⟨e1, e2, _⟩ := hb.chain
    rw [e1, e2] at h
    simp only at h
    cases hs : ShmHashMap.ScanLoop index now fuel m p0 (m.OffsetToNode (m.item p0).next) with
    | none => rw [hs] at h; cases h
    | some m2 =>
      rw [hs] at h
      simp only at h
      obtain ⟨r1, r2, l1, r3, r4⟩ := ScanLoop_WF index now rem [] p0 fuel m m2 hm
        (by simpa using hb) hs
      obtain ⟨k1, k2⟩ := ScanHead_WF index now m2 m1 l1 r1 r3 r4 h
      exact ⟨k1, k2.trans r2⟩

/-- `Scan` keeps the state well formed. -/
theorem Scan_WF (fuel : Nat) (now : Int) :
    ∀ (is : List Nat) (m m1 : ShmHashMap K V), m.WF → (∀ i, i ∈ is → i < m.bucket_size) →
      is.foldlM (ShmHashMap.ScanBucket fuel now) m = some m1 → m1.WF := by
  intro is
  induction is with
  | nil =>
    intro m m1 hm _ h
    simp only [List.foldlM_nil, pure, Option.some.injEq] at h
    subst h
    exact hm
  | cons i is ih =>
    intro m m1 hm hlt h
    simp only [List.foldlM_cons] at h
    cases hs : ShmHashMap.ScanBucket fuel now m i with
    | none => rw [hs] at h; cases h
    | some m2 =>
      rw [hs] at h
      obtain ⟨r1, r2⟩ := ScanBucket_WF fuel now m m2 i hm (hlt i (List.mem_cons_self _ _)) hs
      exact ih m2 m1 r1 (fun j hj => by rw [r2]; exact hlt j (List.mem_cons_of_mem _ hj)) h

end ShmMap

namespace ShmMap

open ShmPool

variable {K V : Type}

theorem SweepInv_of_WF (m : ShmHashMap K V) (g : List Nat) (hm : m.WF) (hg : m.GarbageWF g) :
    m.SweepInv g :=
  ⟨hm.pool, hm.data_gt, hm.slots_lt, hm.bucket_pos, hm.buckets, hg.chain, hg.nodup, hg.nodes⟩

/-- A chained item and a garbage item lie in different slots. -/
theorem SweepInv_slot_ne (m : ShmHashMap K V) (b : Nat) (l g : List Nat) (h : m.BucketWF b l)
    (hI : m.SweepInv g) (x y : Nat) (hx : x ∈ l) (hy : y ∈ g) : m.slot x ≠ m.slot y := by
  intro he
  have hv := (h.nodes x hx).2.1
  rw [item_eq_of_slot_eq m x y he] at hv
  rcases (hI.nodes y hy).2 with h1 | h1 <;> rw [hv] at h1 <;> revert h1 <;> decide

/-- The store of the garbage tail at the end of the loop of `SafeFree`. -/
theorem SweepInv_finish (m : ShmHashMap K V) (kept : List Nat) (p0 : Nat)
    (hI : m.SweepInv (kept ++ [p0])) :
    ({ m with garbage_list_tail_offset := m.NodeToOffset p0 } : ShmHashMap K V).WF := by
  refine ⟨hI.pool, hI.data_gt, hI.slots_lt, hI.bucket_pos, ?_, kept ++ [p0], ?_⟩
  · intro b hb
    obtain ⟨l, hl⟩ := hI.buckets b hb
    exact ⟨l, BucketWF_congr m _ b l rfl rfl rfl rfl rfl
      (fun x _ => ⟨rfl, rfl, rfl, rfl, rfl⟩) hl⟩
  · refine ⟨?_, ?_, hI.nodup, hI.nodes⟩
    · exact Chain_congr m
        ({ m with garbage_list_tail_offset := m.NodeToOffset p0 } : ShmHashMap K V) _ _
        (fun x _ => ⟨rfl, rfl⟩) _ hI.chain
    · intro t ht
      rw [getLast?_append_cons] at ht
      simp only [List.getLast?_singleton, Option.some.injEq] at ht
      subst ht
      rfl

/-- The state increment of a garbage item that stays enlisted. -/
theorem SweepInv_advance (m : ShmHashMap K V) (g : List Nat) (p1 : Nat) (it1 : ItemNode K V)
    (hI : m.SweepInv g) (hp1 : p1 ∈ g) (hd : it1.del_next = (m.item p1).del_next)
    (hv : it1.invalid = COLLECTING ∨ it1.invalid = WAITING_DELETE) :
    (m.setItem p1 it1).SweepInv g := by
  refine ⟨?_, hI.data_gt, hI.slots_lt, hI.bucket_pos, ?_, ?_, hI.nodup, ?_⟩
  · rw [setItem_pool]
    exact RingInv_write _ _ _ hI.pool
  · intro b hb
    obtain ⟨l, hl⟩ := hI.buckets b hb
    refine ⟨l, BucketWF_congr m (m.setItem p1 it1) b l rfl rfl rfl rfl rfl ?_ hl⟩
    intro x hx
    have hne := SweepInv_slot_ne m b l g hl hI x p1 hx hp1
    rw [item_setItem_ne m p1 it1 x hne]
    exact ⟨setItem_used m p1 it1 _, rfl, rfl, rfl, rfl⟩
  · refine Chain_congr m _ _ g ?_ _ hI.chain
    intro x _
    refine ⟨OffsetToNode_congr m (m.setItem p1 it1) rfl x (setItem_used m p1 it1 _), ?_⟩
    rw [item_setItem]
    split
    · rename_i he
      rw [hd, item_eq_of_slot_eq m x p1 he]
    · rfl
  · intro x hx
    refine ⟨(hI.nodes x hx).1, ?_⟩
    rw [item_setItem]
    split
    · exact hv
    · exact (hI.nodes x hx).2

/-- The removal of the garbage item `p1` behind `p0` and the return of its slot
to the pool. -/
theorem SweepInv_free (m : ShmHashMap K V) (kept : List Nat) (p0 p1 : Nat) (rem : List Nat)
    (it1 it0 : ItemNode K V) (pool1 : MemoryPool (ItemNode K V))
    (hI : m.SweepInv (kept ++ p0 :: p1 :: rem))
    (h0 : it0 = { m.item p0 with del_next := (m.item p1).del_next })
    (hfree : ((m.setItem p1 it1).setItem p0 it0).pool.Free p1 = some pool1) :
    ShmHashMap.SweepInv
      ({ (m.setItem p1 it1).setItem p0 it0 with pool := pool1 } : ShmHashMap K V)
      (kept ++ p0 :: rem) := by
  have hp0in : p0 ∈ kept ++ p0 :: p1 :: rem := by simp
  have hp1in : p1 ∈ kept ++ p0 :: p1 :: rem := by simp
  have hsub : ∀ y, y ∈ kept ++ p0 :: rem → y ∈ kept ++ p0 :: p1 :: rem := by
    intro y hy
    simp only [List.mem_append, List.mem_cons] at hy ⊢
    tauto
  have hnd1 : ∀ y, y ∈ kept ++ p0 :: rem → m.slot y ≠ m.slot p1 := by
    intro y hy he
    have hnd := hI.nodup
    rw [List.map_append, List.nodup_append] at hnd
    obtain ⟨_, hnd2, hdis⟩ := hnd
    simp only [List.map_cons, List.nodup_cons, List.mem_cons, List.mem_map, not_or] at hnd2
    simp only [List.mem_append, List.mem_cons] at hy
    rcases hy with hy | hy | hy
    · exact hdis (List.mem_map_of_mem _ hy) (by rw [he]; simp)
    · subst hy
      exact hnd2.1.1 he
    · exact hnd2.2.1 ⟨y, hy, he⟩
  have hused1 := (Chain_mem_used m _ _ _ hI.chain p1 hp1in).1
  have hR : pool1.RingInv :=
    RingInv_Free ((m.setItem p1 it1).setItem p0 it0).pool pool1 p1
      (by rw [setItem_pool, setItem_pool]
          exact RingInv_write _ _ _ (RingInv_write _ _ _ hI.pool))
      (hI.nodes p1 hp1in).1 hfree
  rw [Free_used _ _ (by rw [setItem_used, setItem_used]; exact hused1)] at hfree
  split at hfree
  case isFalse => cases hfree
  have hfree := (Option.some.inj hfree).symm
  have hS : pool1.NodeSize = m.pool.NodeSize := by rw [hfree]; rfl
  have hn : pool1.node_size = m.pool.node_size := by rw [hfree]; rfl
  have hD : pool1.dataOff = m.pool.dataOff := by rw [hfree]; rfl
  have hnodes : ∀ s, s ≠ m.slot p1 →
      pool1.nodes s = ((m.setItem p1 it1).setItem p0 it0).pool.nodes s := by
    intro s hs
    rw [hfree]
    exact setAt_ne _ _ hs
  have hused : ∀ s, s ≠ m.slot p1 → (pool1.nodes s).used = (m.pool.nodes s).used := by
    intro s hs
    rw [hnodes s hs, setItem_used, setItem_used]
  have hitem : ∀ y, m.slot y ≠ m.slot p1 →
      ShmHashMap.item
        ({ (m.setItem p1 it1).setItem p0 it0 with pool := pool1 } : ShmHashMap K V) y
        = if m.slot y = m.slot p0 then it0 else m.item y := by
    intro y hy
    have e1 : ShmHashMap.item
        ({ (m.setItem p1 it1).setItem p0 it0 with pool := pool1 } : ShmHashMap K V) y
        = ((m.setItem p1 it1).setItem p0 it0).item y :=
      item_congr ((m.setItem p1 it1).setItem p0 it0) _ hS y (hnodes _ hy)
    rw [e1, item_setItem]
    simp only [setItem_slot]
    split
    · rfl
    · exact item_setItem_ne m p1 it1 y hy
  have hlive : ∀ y, m.slot y ≠ m.slot p1 →
      ShmHashMap.OffsetToNode
        ({ (m.setItem p1 it1).setItem p0 it0 with pool := pool1 } : ShmHashMap K V) y
        = m.OffsetToNode y :=
    fun y hy => OffsetToNode_congr m _ hS y (hused _ hy)
  have hslot : ShmHashMap.slot
      ({ (m.setItem p1 it1).setItem p0 it0 with pool := pool1 } : ShmHashMap K V) = m.slot :=
    funext (slot_eq_of_NodeSize m _ hS)
  refine ⟨hR, by rw [hD]; exact hI.data_gt, by rw [hn]; exact hI.slots_lt, hI.bucket_pos,
    ?_, ?_, ?_, ?_⟩
  · intro b hb
    obtain ⟨l, hl⟩ := hI.buckets b hb
    refine ⟨l, BucketWF_congr m _ b l hS hn rfl rfl rfl ?_ hl⟩
    intro x hx
    have hx1 := SweepInv_slot_ne m b l _ hl hI x p1 hx hp1in
    have hx0 := SweepInv_slot_ne m b l _ hl hI x p0 hx hp0in
    rw [hitem x hx1, if_neg hx0]
    exact ⟨hused _ hx1, rfl, rfl, rfl, rfl⟩
  · have hc2 : ShmHashMap.Chain
        ({ (m.setItem p1 it1).setItem p0 it0 with pool := pool1 } : ShmHashMap K V)
        (fun it => it.del_next) ((fun it : ItemNode K V => it.del_next) (m.item p1)) rem := by
      have hsuf := Chain_suffix m (fun it => it.del_next) p1 rem (kept ++ [p0]) _
        (by simpa using hI.chain)
      refine Chain_congr m _ _ rem ?_ _ hsuf
      intro y hy
      have hy1 := hnd1 y (by simp [hy])
      have hy0 : m.slot y ≠ m.slot p0 := by
        intro he
        have hnd := hI.nodup
        rw [List.map_append, List.nodup_append] at hnd
        have h2 := hnd.2.1
        simp only [List.map_cons, List.nodup_cons, List.mem_cons, List.mem_map, not_or] at h2
        exact h2.1.2 ⟨y, hy, he⟩
      refine ⟨hlive y hy1, ?_⟩
      rw [hitem y hy1, if_neg hy0]
    refine Chain_remove m _ (fun it => it.del_next) p0 p1 rem hc2 ?_ kept _ hI.chain ?_ ?_
    · simp only
      rw [hitem p0 (hnd1 p0 (by simp)), if_pos rfl, h0]
    · intro y hy
      exact hlive y (hnd1 y (by
        simp only [List.mem_append, List.mem_singleton, List.mem_cons] at hy ⊢
        tauto))
    · intro y hy
      have hy1 := hnd1 y (by simp [hy])
      have hy0 : m.slot y ≠ m.slot p0 := by
        intro he
        have hnd := hI.nodup
        rw [List.map_append, List.nodup_append] at hnd
        exact hnd.2.2 (List.mem_map_of_mem _ hy) (by rw [he]; simp)
      simp only
      rw [hitem y hy1, if_neg hy0]
  · rw [hslot]
    have hnd := hI.nodup
    refine List.Nodup.sublist ?_ hnd
    refine List.Sublist.map _ ?_
    exact List.Sublist.append_left (List.Sublist.cons₂ _ (List.sublist_cons_self _ _)) _
  · intro x hx
    rw [hslot, hn]
    refine ⟨(hI.nodes x (hsub x hx)).1, ?_⟩
    rw [hitem x (hnd1 x hx)]
    split
    · rename_i he
      rw [h0]
      simp only
      have := (hI.nodes p0 hp0in).2
      exact this
    · exact (hI.nodes x (hsub x hx)).2

end ShmMap

namespace ShmMap

open ShmPool

variable {K V : Type}

/-- The loop of `SafeFree` ends in a well-formed state. -/
theorem SafeFreeLoop_WF :
    ∀ (rem kept : List Nat) (p0 fuel : Nat) (m m1 : ShmHashMap K V),
      m.SweepInv (kept ++ p0 :: rem) →
      ShmHashMap.SafeFreeLoop fuel m p0 (m.OffsetToNode (m.item p0).del_next) = some m1 →
      m1.WF := by
  intro rem
  induction rem with
  | nil =>
    intro kept p0 fuel m m1 hI h
    have hlast := Chain_last_link m _ _ _ p0 hI.chain (by simp)
    simp only at hlast
    rw [hlast, OffsetToNode_NULL] at h
    cases fuel with
    | zero => simp [ShmHashMap.SafeFreeLoop] at h
    | succ f =>
      simp only [ShmHashMap.SafeFreeLoop, Option.some.injEq] at h
      subst h
      exact SweepInv_finish m kept p0 hI
  | cons p1 rem ih =>
    intro kept p0 fuel m m1 hI h
    obtain ⟨e1, e2, _⟩ := Chain_suffix m (fun it => it.del_next) p0 (p1 :: rem) kept _ hI.chain
    rw [e1, e2] at h
    have hp1in : p1 ∈ kept ++ p0 :: p1 :: rem := by simp
    have hne : m.slot p0 ≠ m.slot p1 := by
      intro he
      have hnd := hI.nodup
      rw [List.map_append, List.nodup_append] at hnd
      have h2 := hnd.2.1
      simp only [List.map_cons, List.nodup_cons, List.mem_cons] at h2
      exact h2.1 (Or.inl he)
    cases fuel with
    | zero => simp [ShmHashMap.SafeFreeLoop] at h
    | succ f =>
      rw [ShmHashMap.SafeFreeLoop] at h
      simp only at h
      by_cases hold : (m.item p1).invalid = 2
      · simp only [hold, if_true] at h
        split at h
        · cases h
        · rename_i pool1 heq
          have hI3 := SweepInv_free m kept p0 p1 rem _ _ pool1 hI
            (by rw [item_setItem_ne m p1 _ p0 hne, item_setItem_same]) heq
          exact ih kept p0 f _ m1 hI3 h
      · simp only [hold, if_false] at h
        have h1 : (m.item p1).invalid = 1 := by
          rcases (hI.nodes p1 hp1in).2 with h1 | h1
          · exact h1
          · exact absurd h1 hold
        have hIa := SweepInv_advance m _ p1
          { m.item p1 with invalid := wrapInt32 ((m.item p1).invalid + 1) } hI hp1in rfl
          (Or.inr (by
            show wrapInt32 ((m.item p1).invalid + 1) = WAITING_DELETE
            rw [h1]
            decide))
        exact ih (kept ++ [p0]) p1 f _ m1 (by simpa using hIa) h

/-- `SafeFree` keeps the state well formed. -/
theorem SafeFree_WF (fuel : Nat) (m m1 : ShmHashMap K V) (hm : m.WF)
    (h : ShmHashMap.SafeFree fuel m = some m1) : m1.WF := by
  obtain ⟨g, hg⟩ := hm.garbage
  unfold ShmHashMap.SafeFree at h
  cases g with
  | nil =>
    have hh : m.garbage_list_head_offset = OFFSET_NULL := hg.chain
    rw [hh, OffsetToNode_NULL] at h
    simp only [Option.some.injEq] at h
    subst h
    exact hm
  | cons p0 rem =>
    obtain ⟨e1, e2, _⟩ := hg.chain
    rw [e1, e2] at h
    simp only at h
    exact SafeFreeLoop_WF rem [] p0 fuel m m1 (SweepInv_of_WF m _ hm hg) h

/-- The store to `_gc_timestamp` keeps the state well formed. -/
theorem WF_gc_timestamp (m : ShmHashMap K V) (t : Nat) (hm : m.WF) :
    ({ m with gc_timestamp := t } : ShmHashMap K V).WF := by
  refine ⟨hm.pool, hm.data_gt, hm.slots_lt, hm.bucket_pos, ?_, ?_⟩
  · intro b hb
    obtain ⟨l, hl⟩ := hm.buckets b hb
    exact ⟨l, BucketWF_congr m ({ m with gc_timestamp := t } : ShmHashMap K V) b l
      rfl rfl rfl rfl rfl (fun x _ => ⟨rfl, rfl, rfl, rfl, rfl⟩) hl⟩
  · obtain ⟨g, hg⟩ := hm.garbage
    exact ⟨g, GarbageWF_congr m ({ m with gc_timestamp := t } : ShmHashMap K V) g
      rfl rfl rfl rfl (fun x _ => ⟨rfl, rfl, rfl⟩) hg⟩

/-- `GC` keeps the state well formed. -/
theorem WF_GC (fuel : Nat) (m m1 : ShmHashMap K V) (now : Int) (hm : m.WF)
    (h : m.GC fuel now = some m1) : m1.WF := by
  unfold ShmHashMap.GC at h
  simp only at h
  split at h
  · cases hs : ShmHashMap.Scan fuel now
        ({ m with gc_timestamp := (now % 4294967296).toNat } : ShmHashMap K V) with
    | none => rw [hs] at h; cases h
    | some m2 =>
      rw [hs] at h
      simp only at h
      have h2 : m2.WF := by
        unfold ShmHashMap.Scan at hs
        exact Scan_WF fuel now _ _ m2 (WF_gc_timestamp m _ hm)
          (fun i hi => List.mem_range.mp hi) hs
      exact SafeFree_WF fuel m2 m1 h2 h
  · cases h
    exact hm

/-- Every state reachable from a well-formed state is well formed. -/
theorem Reachable_WF [DecidableEq K] (m0 m : ShmHashMap K V) (h0 : m0.WF)
    (h : ShmHashMap.Reachable m0 m) : m.WF := by
  induction h with
  | init => exact h0
  | insert m m1 fuel key value expire now r _ hins ih => exact WF_Insert m m1 key value expire now fuel r ih hins
  | get m fuel key now r _ _ ih => exact ih
  | gc m m1 fuel now _ hgc ih => exact WF_GC fuel m m1 now ih hgc

end ShmMap

namespace ShmMap

open ShmPool

variable {K V : Type} [DecidableEq K]

/-- C2 as stated fails: after `Insert(7, 7, ttl 2)` at time `0` on the map of the
scenarios (a reachable state that at time `5` holds an expired item not yet
reclaimed), `Insert(7, 8, ttl 0)` at time `5` returns `RET_OK`, and the `Get(7)`
issued next at time `5` returns `RET_NOT_FOUND`. -/
theorem insert_behind_expired_not_found :
    ∃ m m1 : ShmHashMap Nat Nat, ShmHashMap.Reachable scenarioMap m ∧
      m.Insert 5 7 8 0 5 = some (SinHashRet.RET_OK, m1) ∧
      m1.Get 5 7 5 = some (SinHashRet.RET_NOT_FOUND, none) := by
  have h1 : (scenarioMap.Insert 5 7 7 2 0).isSome = true := by decide
  obtain ⟨p, hp⟩ := Option.isSome_iff_exists.mp h1
  have h2 : ((scenarioMap.Insert 5 7 7 2 0).bind
      (fun p => (p.2.Insert 5 7 8 0 5).map Prod.fst)) = some SinHashRet.RET_OK := by decide
  have h3 : ((scenarioMap.Insert 5 7 7 2 0).bind
      (fun p => (p.2.Insert 5 7 8 0 5).bind (fun q => q.2.Get 5 7 5)))
      = some (SinHashRet.RET_NOT_FOUND, none) := by decide
  rw [hp] at h2 h3
  simp only [Option.some_bind] at h2 h3
  cases hq : p.2.Insert 5 7 8 0 5 with
  | none => rw [hq] at h2; cases h2
  | some q =>
    rw [hq] at h2 h3
    simp only [Option.map_some', Option.some.injEq, Option.some_bind] at h2 h3
    obtain ⟨r, m1⟩ := q
    simp only at h2 h3
    subst h2
    exact ⟨p.2, m1, ShmHashMap.Reachable.insert scenarioMap p.2 5 7 7 2 0 p.1
      ShmHashMap.Reachable.init hp, hq, h3⟩

/-- C2 (amended): in every state `m` reached from a map constructed over a fresh
pool by sequential `Insert`, `Get` and `GC` calls, if `Insert(k, v, ttl)` at time
`t` returns `RET_OK`, the item that `GetNode` finds for `k` in `m`, if any, is
not expired at `t`, and `t + ttl` lies in the range of the `int` that stores
`_expire`, then the `Get(k)` issued next at a time `t1` with `ttl = 0` or
`t1 <= t + ttl` returns `RET_OK` with the value `v`. -/
theorem Insert_then_Get (HashCode : K → Nat) (N S D : Nat) (zero : ItemNode K V)
    (bucket_size gc_timestamp : Nat) (hN : N + 2 < 4294967296) (hD1 : 1 < D) (hD2 : D < S)
    (m m1 : ShmHashMap K V)
    (hreach : ShmHashMap.Reachable
      (ShmHashMap.construct HashCode (MemoryPool.construct N S D zero) bucket_size
        gc_timestamp) m)
    (key : K) (value : V) (ttl t t1 : Int) (fuel fuel1 : Nat)
    (hfirst : ∀ x, m.GetNode fuel (m.HashCode key % m.bucket_size) key = some (some x) →
      isExpired (m.item x) t = false)
    (hins : m.Insert fuel key value ttl t = some (SinHashRet.RET_OK, m1))
    (hr1 : -2147483648 ≤ t + ttl) (hr2 : t + ttl < 2147483648)
    (hexp : ttl = 0 ∨ t1 ≤ t + ttl) (hf1 : m.pool.node_size < fuel1) :
    m1.Get fuel1 key t1 = some (SinHashRet.RET_OK, some value) := by
  have hm : m.WF :=
    Reachable_WF _ m (WF_construct HashCode N S D zero bucket_size gc_timestamp hN hD1 hD2)
      hreach
  obtain ⟨l, hb⟩ := hm.buckets (m.HashCode key % m.bucket_size) (Nat.mod_lt _ hm.bucket_pos)
  have hgn : m.GetNode fuel (m.HashCode key % m.bucket_size) key ≠ none := by
    intro h0
    simp [ShmHashMap.Insert, h0] at hins
  have hlive : ∀ x, l.find? (fun y => decide ((m.item y).key = key)) = some x →
      isExpired (m.item x) t = false := by
    intro x hx
    apply hfirst x
    cases hg : m.GetNode fuel (m.HashCode key % m.bucket_size) key with
    | none => exact absurd hg hgn
    | some r => rw [(GetNode_bucket m _ key l hb fuel).1 r hg, hx]
  have hns : m1.pool.node_size = m.pool.node_size := by
    rcases Insert_effect m m1 key value ttl t l fuel hm hb hins with
      ⟨x, _, _, e⟩ | ⟨_, _, _, hA⟩
    · rw [e]; rfl
    · exact hA.node_size_eq
  obtain ⟨hH, hB, l1, x, hb1, hfind1, hval, hex, _, _, _⟩ :=
    Insert_then_found m m1 key value ttl t l fuel hm hb hlive hins
  have hidx : m1.HashCode key % m1.bucket_size = m.HashCode key % m.bucket_size := by
    rw [hH, hB]
  have hlen : l1.length < fuel1 := by
    have := BucketWF_length_le m1 _ l1 hb1
    omega
  rw [Get_walk m1 key t1 l1 fuel1 (by rw [hidx]; exact Chain_IsWalk m1 _ _ hb1.chain) hlen,
    hfind1]
  simp only
  rw [hex, expireAt_eq ttl t hr1 hr2, hval]
  have hnot : ¬ ((if ttl = 0 then (0 : Int) else t + ttl) ≠ 0 ∧
      (if ttl = 0 then (0 : Int) else t + ttl) < t1) := by
    rintro ⟨h1, h2⟩
    by_cases h0 : ttl = 0
    · simp [h0] at h1
    · rcases hexp with h | h
      · exact h0 h
      · simp only [h0, if_false] at h2
        omega
  rw [if_neg hnot]

theorem Insert_then_Get_witness :
    ∃ m m1 : ShmHashMap Nat Nat, ShmHashMap.Reachable scenarioMap m ∧
      (m.buckets 3).count = 1 ∧ m.garbage_list_head_offset ≠ OFFSET_NULL ∧
      m.Insert 5 7 8 4 10 = some (SinHashRet.RET_OK, m1) ∧
      m1.Get 19 7 14 = some (SinHashRet.RET_OK, some 8) := by
  have h1 : (scenarioMap.Insert 5 7 7 2 0).isSome = true := by decide
  obtain ⟨p, hp⟩ := Option.isSome_iff_exists.mp h1
  have h2 : ((scenarioMap.Insert 5 7 7 2 0).bind
      (fun p => p.2.Insert 5 3 3 0 0)).isSome = true := by decide
  rw [hp, Option.some_bind] at h2
  obtain ⟨q, hq⟩ := Option.isSome_iff_exists.mp h2
  have h3 : ((scenarioMap.Insert 5 7 7 2 0).bind
      (fun p => (p.2.Insert 5 3 3 0 0).bind (fun q => q.2.GC 5 10))).isSome = true := by
    decide
  rw [hp, Option.some_bind, hq, Option.some_bind] at h3
  obtain ⟨m, hm⟩ := Option.isSome_iff_exists.mp h3
  have h4 : ((scenarioMap.Insert 5 7 7 2 0).bind
      (fun p => (p.2.Insert 5 3 3 0 0).bind (fun q => (q.2.GC 5 10).map
        (fun g => (g.buckets 3).count)))) = some 1 := by decide
  have h5 : ((scenarioMap.Insert 5 7 7 2 0).bind
      (fun p => (p.2.Insert 5 3 3 0 0).bind (fun q => (q.2.GC 5 10).map
        (fun g => g.garbage_list_head_offset)))) = some 8 := by decide
  have h6 : ((scenarioMap.Insert 5 7 7 2 0).bind
      (fun p => (p.2.Insert 5 3 3 0 0).bind (fun q => (q.2.GC 5 10).map
        (fun g => g.pool.node_size)))) = some 18 := by decide
  have h7 : ((scenarioMap.Insert 5 7 7 2 0).bind
      (fun p => (p.2.Insert 5 3 3 0 0).bind (fun q => (q.2.GC 5 10).bind
        (fun g => g.GetNode 5 (g.HashCode 7 % g.bucket_size) 7)))) = some none := by decide
  have h8 : ((scenarioMap.Insert 5 7 7 2 0).bind
      (fun p => (p.2.Insert 5 3 3 0 0).bind (fun q => (q.2.GC 5 10).bind
        (fun g => (g.Insert 5 7 8 4 10).map Prod.fst)))) = some SinHashRet.RET_OK := by
    decide
  rw [hp, Option.some_bind, hq, Option.some_bind, hm] at h4 h5 h6 h7 h8
  simp only [Option.map_some', Option.some.injEq, Option.some_bind] at h4 h5 h6 h7 h8
  have k1 := h4
  have k2 := h5
  have k3 := h6
  have k4 := h7
  have k5 := h8
  cases hi : m.Insert 5 7 8 4 10 with
  | none => rw [hi] at k5; cases k5
  | some w =>
    obtain ⟨r, m1⟩ := w
    rw [hi] at k5
    simp only [Option.map_some', Option.some.injEq] at k5
    subst k5
    have hreach : ShmHashMap.Reachable scenarioMap m :=
      ShmHashMap.Reachable.gc q.2 m 5 10
        (ShmHashMap.Reachable.insert p.2 q.2 5 3 3 0 0 q.1
          (ShmHashMap.Reachable.insert scenarioMap p.2 5 7 7 2 0 p.1
            ShmHashMap.Reachable.init hp) hq) hm
    exact ⟨m, m1, hreach, k1, by rw [k2]; decide, hi,
      Insert_then_Get (fun k => k) 16 40 8
        { next := 0, key := 0, value := 0, expire := 0, invalid := 0, del_next := 0 } 4 0
        (by norm_num) (by norm_num) (by norm_num) m m1 hreach 7 8 4 10 14 5 19
        (fun x hx => by rw [k4] at hx; cases hx) hi (by norm_num) (by norm_num)
        (Or.inr (by norm_num)) (by rw [k3]; norm_num)⟩

end ShmMap

namespace ShmPool

variable {Obj : Type}

/-- C11: `GetObjByOffset(offset)` returns the pointer `_data + offset` if and only
if the slot that contains `offset` has `_used == true` and `offset` is not
`OFFSET_NULL`; otherwise it returns `NULL`, and it never returns another pointer.
An offset inside the data area lies in a slot of the pool. -/
theorem GetObjByOffset_spec (p : MemoryPool Obj) (offset : Nat) :
    (p.GetObjByOffset offset = some offset ↔
      ((p.nodes (offset / p.NodeSize)).used = true ∧ offset ≠ OFFSET_NULL)) ∧
    (p.GetObjByOffset offset = none ↔
      ¬ ((p.nodes (offset / p.NodeSize)).used = true ∧ offset ≠ OFFSET_NULL)) ∧
    (∀ q, p.GetObjByOffset offset = some q → q = offset) ∧
    (offset < p.node_size * p.NodeSize → offset / p.NodeSize < p.node_size) := by
  unfold MemoryPool.GetObjByOffset
  rw [GetNodeByOffset_eq]
  refine ⟨?_, ?_, ?_, ?_⟩
  · by_cases h : (p.nodes (offset / p.NodeSize)).used = false ∨ offset = OFFSET_NULL
    · rw [if_pos h]
      constructor
      · intro h1; cases h1
      · rintro ⟨h1, h2⟩
        rcases h with h | h
        · rw [h] at h1; cases h1
        · exact absurd h h2
    · rw [if_neg h]
      simp only [true_iff]
      push_neg at h
      exact ⟨by simpa using h.1, h.2⟩
  · by_cases h : (p.nodes (offset / p.NodeSize)).used = false ∨ offset = OFFSET_NULL
    · rw [if_pos h]
      simp only [true_iff]
      rintro ⟨h1, h2⟩
      rcases h with h | h
      · rw [h] at h1; cases h1
      · exact h2 h
    · rw [if_neg h]
      constructor
      · intro h1; cases h1
      · intro h1
        exfalso
        apply h1
        push_neg at h
        exact ⟨by simpa using h.1, h.2⟩
  · intro q hq
    split at hq
    · cases hq
    · exact (Option.some.inj hq).symm
  · intro h
    exact Nat.div_lt_of_lt_mul (by rwa [Nat.mul_comm] at h)

theorem GetObjByOffset_spec_witness :
    (MemoryPool.afterAllocs 4 16 8 () 2).GetObjByOffset 24 = some 24 ∧
    (MemoryPool.afterAllocs 4 16 8 () 2).GetObjByOffset 1 = none ∧
    (MemoryPool.afterAllocs 4 16 8 () 2).GetObjByOffset 40 = none ∧
    24 / 16 < 4 := by
  have h24 := GetObjByOffset_spec (MemoryPool.afterAllocs 4 16 8 () 2) 24
  have h1 := GetObjByOffset_spec (MemoryPool.afterAllocs 4 16 8 () 2) 1
  have h40 := GetObjByOffset_spec (MemoryPool.afterAllocs 4 16 8 () 2) 40
  exact ⟨h24.1.mpr (by decide), h1.2.1.mpr (by decide), h40.2.1.mpr (by decide),
    h24.2.2.2 (by decide)⟩

end ShmPool

namespace ShmPool

variable {Obj : Type}

theorem dataPtr_ne_OFFSET_NULL (p : MemoryPool Obj) (h : 1 < p.dataOff) (node : Nat) :
    p.dataPtr node ≠ OFFSET_NULL := by
  unfold MemoryPool.dataPtr OFFSET_NULL
  omega

/-- The layout constants and the flag of a slot that is not freed are kept. -/
theorem NotFreed_inv (node : Nat) (p q : MemoryPool Obj) (h : MemoryPool.NotFreed node p q) :
    q.NodeSize = p.NodeSize ∧ q.dataOff = p.dataOff ∧
      ((p.nodes node).used = true → (q.nodes node).used = true) := by
  induction h with
  | refl => exact ⟨rfl, rfl, fun h => h⟩
  | allocate q _ ih =>
    obtain ⟨h1, h2, h3⟩ := ih
    by_cases hq : q.free_queue (q.read_index % q.node_size) = OFFSET_NULL
    · rw [Allocate_fail q hq]
      exact ⟨h1, h2, h3⟩
    · rw [Allocate_success q hq]
      refine ⟨h1, h2, fun hu => ?_⟩
      simp only [setAt_apply]
      split
      · rfl
      · exact h3 hu
  | free q q1 ptr _ hne hfree ih =>
    obtain ⟨h1, h2, h3⟩ := ih
    rw [GetNodeByObj_eq] at hne
    by_cases hu : (q.nodes (ptr / q.NodeSize)).used = false
    · rw [Free_unused q ptr hu] at hfree
      cases hfree
      exact ⟨h1, h2, h3⟩
    · rw [Free_used q ptr (by simpa using hu)] at hfree
      split at hfree
      · cases hfree
        refine ⟨h1, h2, fun hu1 => ?_⟩
        simp only
        rw [setAt_ne _ _ (Ne.symm hne)]
        exact h3 hu1
      · cases hfree
  | write q ptr o _ ih =>
    obtain ⟨h1, h2, h3⟩ := ih
    exact ⟨h1, h2, fun hu => by rw [write_used]; exact h3 hu⟩

/-- The object returned by a successful `Allocate` lies in a slot that the call
marks used. -/
theorem Allocate_some (p p1 : MemoryPool Obj) (ptr : Nat) (hD : p.dataOff < p.NodeSize)
    (h : p.Allocate = (some ptr, p1)) :
    ptr = p.dataPtr (ptr / p.NodeSize) ∧ (p1.nodes (ptr / p.NodeSize)).used = true ∧
      p1.NodeSize = p.NodeSize ∧ p1.dataOff = p.dataOff := by
  by_cases hq : p.free_queue (p.read_index % p.node_size) = OFFSET_NULL
  · rw [Allocate_fail p hq] at h
    cases h
  · rw [Allocate_success p hq] at h
    have h1 := (Prod.mk.inj h).1
    have h2 := (Prod.mk.inj h).2
    have h1 := Option.some.inj h1
    subst h1
    subst h2
    rw [dataPtr_div p hD]
    refine ⟨rfl, ?_, rfl, rfl⟩
    simp

theorem Linked_suffix (p : MemoryPool Obj) (next : Obj → Nat) (x : Nat) (b : List Nat) :
    ∀ (a : List Nat) (s : Nat), p.Linked next s (a ++ x :: b) →
      p.Linked next (p.GetOffsetByObj x) (x :: b) := by
  intro a
  induction a with
  | nil =>
    intro s h
    exact ⟨rfl, h.2⟩
  | cons y a ih =>
    intro s h
    exact ih _ h.2.2

theorem Linked_unique (p : MemoryPool Obj) (next : Obj → Nat) (hD : 1 < p.dataOff) :
    ∀ (l l1 : List Nat) (s : Nat), p.Linked next s l → p.Linked next s l1 → l = l1 := by
  intro l
  induction l with
  | nil =>
    intro l1 s h h1
    cases l1 with
    | nil => rfl
    | cons y l1 =>
      obtain ⟨e, ⟨node, e1, _⟩, _⟩ := h1
      have hs : s = OFFSET_NULL := h
      rw [hs] at e
      have e2 : OFFSET_NULL = y := e
      exact absurd (e2.trans e1).symm (dataPtr_ne_OFFSET_NULL p hD node)
  | cons x l ih =>
    intro l1 s h h1
    cases l1 with
    | nil =>
      obtain ⟨e, ⟨node, e1, _⟩, _⟩ := h
      have hs : s = OFFSET_NULL := h1
      rw [hs] at e
      have e2 : OFFSET_NULL = x := e
      exact absurd (e2.trans e1).symm (dataPtr_ne_OFFSET_NULL p hD node)
    | cons y l1 =>
      obtain ⟨e, _, h2⟩ := h
      obtain ⟨e1, _, h3⟩ := h1
      have hxy : x = y := e.symm.trans e1
      subst hxy
      rw [ih l1 _ h2 h3]

theorem Linked_nodup (p : MemoryPool Obj) (next : Obj → Nat) (hD : 1 < p.dataOff) :
    ∀ (l : List Nat) (s : Nat), p.Linked next s l → l.Nodup := by
  intro l
  induction l with
  | nil => intro _ _; exact List.nodup_nil
  | cons x l ih =>
    intro s h
    rw [List.nodup_cons]
    refine ⟨?_, ih _ h.2.2⟩
    intro hx
    obtain ⟨a, b, hab⟩ := List.append_of_mem hx
    have h1 : p.Linked next (p.GetOffsetByObj x) (x :: b) := by
      have h2 := h.2.2
      rw [hab] at h2
      exact Linked_suffix p next x b a _ h2
    have h3 : p.Linked next (p.GetOffsetByObj x) (x :: l) := ⟨rfl, h.2⟩
    have h4 := Linked_unique p next hD _ _ _ h3 h1
    have h5 : l.length = b.length := by
      have := congrArg List.length h4
      simpa using this
    rw [hab] at h5
    simp only [List.length_append, List.length_cons] at h5
    omega

theorem traverse_Linked (p : MemoryPool Obj) (next : Obj → Nat) (hD1 : 1 < p.dataOff)
    (hD2 : p.dataOff < p.NodeSize) :
    ∀ (l : List Nat) (s fuel : Nat), p.Linked next s l → l.length < fuel →
      p.traverse next fuel (p.GetObjByOffset s) = some l := by
  intro l
  induction l with
  | nil =>
    intro s fuel h hf
    have hs : s = OFFSET_NULL := h
    obtain ⟨f, rfl⟩ : ∃ f, fuel = f + 1 := ⟨fuel - 1, by omega⟩
    have : p.GetObjByOffset s = none := by
      rw [hs]
      simp [MemoryPool.GetObjByOffset]
    rw [this]
    rfl
  | cons x l ih =>
    intro s fuel h hf
    obtain ⟨e, ⟨node, e1, hu⟩, h2⟩ := h
    obtain ⟨f, rfl⟩ : ∃ f, fuel = f + 1 := ⟨fuel - 1, by omega⟩
    have hx : p.GetObjByOffset s = some x := by
      have e2 : s = x := e
      rw [e2, e1]
      unfold MemoryPool.GetObjByOffset
      rw [GetNodeByOffset_eq, dataPtr_div p hD2, if_neg]
      rintro (h3 | h3)
      · rw [hu] at h3; cases h3
      · exact dataPtr_ne_OFFSET_NULL p hD1 node h3
    rw [hx]
    simp only [MemoryPool.traverse]
    rw [ih _ f h2 (by simp only [List.length_cons] at hf; omega)]
    rfl

/-- C12 as stated fails for an object type of alignment one: in a pool of `char`
objects (`sizeof(MemoryNode<char>) = 2`, the object at byte `1` of its slot) the
first `Allocate` returns the object at offset `1`, which is `OFFSET_NULL`, and
`GetObjByOffset` of that offset is `NULL`. -/
theorem allocate_offset_is_null :
    (MemoryPool.construct 20 2 1 (0 : Nat)).Allocate.1 = some 1 ∧
    (MemoryPool.construct 20 2 1 (0 : Nat)).Allocate.2.GetOffsetByObj 1 = OFFSET_NULL ∧
    (MemoryPool.construct 20 2 1 (0 : Nat)).Allocate.2.GetObjByOffset
      ((MemoryPool.construct 20 2 1 (0 : Nat)).Allocate.2.GetOffsetByObj 1) = none := by
  decide

/-- C12 (amended): for an object type whose member `_data` lies at byte offset two
or more of `MemoryNode<Obj>`, every object `ptr` returned by `Allocate` and not
freed since (whatever `Allocate` calls, stores through object pointers and `Free`
calls on other slots follow) satisfies `GetObjByOffset(GetOffsetByObj(ptr)) = ptr`
and `GetOffsetByObj(ptr) != OFFSET_NULL`; and a list of allocated objects linked
through their offsets and ended by `OFFSET_NULL` has pairwise different members
and is traversed by `GetObjByOffset` in link order, ending with `NULL`. -/
theorem allocate_offset_roundtrip :
    (∀ (p p1 p2 : MemoryPool Obj) (ptr : Nat), 1 < p.dataOff → p.dataOff < p.NodeSize →
      p.Allocate = (some ptr, p1) → MemoryPool.NotFreed (p.GetNodeByObj ptr) p1 p2 →
      p2.GetObjByOffset (p2.GetOffsetByObj ptr) = some ptr ∧
        p2.GetOffsetByObj ptr ≠ OFFSET_NULL) ∧
    (∀ (p : MemoryPool Obj) (next : Obj → Nat) (l : List Nat) (start : Nat),
      1 < p.dataOff → p.dataOff < p.NodeSize → p.Linked next start l →
      l.Nodup ∧ ∀ fuel, l.length < fuel →
        p.traverse next fuel (p.GetObjByOffset start) = some l) := by
  constructor
  · intro p p1 p2 ptr hD1 hD2 halloc hnf
    obtain ⟨e, hu, hS, hD⟩ := Allocate_some p p1 ptr hD2 halloc
    rw [GetNodeByObj_eq] at hnf
    obtain ⟨k1, k2, k3⟩ := NotFreed_inv _ p1 p2 hnf
    have hne : ptr ≠ OFFSET_NULL := by
      rw [e]
      exact dataPtr_ne_OFFSET_NULL p hD1 _
    refine ⟨?_, hne⟩
    unfold MemoryPool.GetOffsetByObj MemoryPool.GetObjByOffset
    rw [GetNodeByOffset_eq, k1, hS, if_neg]
    rintro (h | h)
    · rw [k3 hu] at h; cases h
    · exact hne h
  · intro p next l start hD1 hD2 h
    exact ⟨Linked_nodup p next hD1 l start h,
      fun fuel hf => traverse_Linked p next hD1 hD2 l start fuel h hf⟩

theorem allocate_offset_roundtrip_witness :
    ((MemoryPool.construct 20 16 8 ((0, 1) : Nat × Nat)).Allocate.2.Allocate.2.GetObjByOffset 8
      = some 8) ∧
    [8, 24].Nodup ∧
    ((MemoryPool.afterAllocs 4 16 8 ((0, 1) : Nat × Nat) 2).write 8 (5, 24)).traverse
      Prod.snd 3 (some 8) = some [8, 24] := by
  have h1 := (@allocate_offset_roundtrip (Nat × Nat)).1
    (MemoryPool.construct 20 16 8 (0, 1)) (MemoryPool.construct 20 16 8 (0, 1)).Allocate.2
    (MemoryPool.construct 20 16 8 (0, 1)).Allocate.2.Allocate.2 8
    (by decide) (by decide) (Prod.ext (by decide) rfl)
    (MemoryPool.NotFreed.allocate _ MemoryPool.NotFreed.refl)
  have h2 := (@allocate_offset_roundtrip (Nat × Nat)).2
    ((MemoryPool.afterAllocs 4 16 8 ((0, 1) : Nat × Nat) 2).write 8 (5, 24)) Prod.snd
    [8, 24] 8 (by decide) (by decide)
    ⟨rfl, ⟨0, by decide, by decide⟩, by decide, ⟨1, by decide, by decide⟩,
      (by unfold MemoryPool.Linked; decide)⟩
  exact ⟨h1.1, h2.1, h2.2 3 (by decide)⟩

end ShmPool

namespace ShmPool

variable {Obj : Type}

theorem usedCount_pos (p : MemoryPool Obj) (s : Nat) (hs : s < p.node_size)
    (hu : (p.nodes s).used = true) : 0 < p.usedCount := by
  unfold MemoryPool.usedCount
  rw [List.countP_pos_iff]
  exact ⟨s, List.mem_range.mpr hs, hu⟩

/-- On a consistent pool the assertion of `Free` holds: `Free` on an object of a
slot of the pool returns, and the pool stays consistent and keeps its constants. -/
theorem Free_total (p : MemoryPool Obj) (ptr : Nat) (hp : p.RingInv)
    (hptr : ptr / p.NodeSize < p.node_size) :
    ∃ p1, p.Free ptr = some p1 ∧ p1.RingInv ∧ p1.node_size = p.node_size ∧
      p1.NodeSize = p.NodeSize ∧ p1.dataOff = p.dataOff := by
  by_cases hu : (p.nodes (ptr / p.NodeSize)).used = false
  · exact ⟨p, Free_unused p ptr hu, hp, rfl, rfl, rfl⟩
  · have hu1 : (p.nodes (ptr / p.NodeSize)).used = true := by simpa using hu
    have hpos := usedCount_pos p _ hptr hu1
    have hc := hp.count_le
    have hle : p.write_index + 1 ≤ p.read_index := by omega
    have hf := Free_used p ptr hu1
    rw [if_pos hle] at hf
    exact ⟨_, hf, RingInv_Free p _ ptr hp hptr hf, rfl, rfl, rfl⟩

/-- The body of the loop of `SyncMemory` returns on a consistent pool. -/
theorem syncSlot_total (obj_set free_set : List Nat) (q : MemoryPool Obj) (i : Nat)
    (hq : q.RingInv) (hi : i < q.node_size) :
    ∃ q1, MemoryPool.syncSlot obj_set free_set q i = some q1 ∧ q1.RingInv ∧
      q1.node_size = q.node_size := by
  have hdiv : q.dataPtr i / q.NodeSize < q.node_size := by
    rw [dataPtr_div q hq.data_lt]
    exact hi
  obtain ⟨q1, h1, h2, h3, _⟩ := Free_total q (q.dataPtr i) hq hdiv
  unfold MemoryPool.syncSlot
  by_cases hu : (q.nodes i).used = true
  · rw [if_pos hu]
    by_cases ho : obj_set.contains (q.dataPtr i) = true
    · rw [if_pos ho]
      exact ⟨q, rfl, hq, rfl⟩
    · rw [if_neg ho]
      exact ⟨q1, h1, h2, h3⟩
  · rw [if_neg hu]
    by_cases ho : free_set.contains i = true
    · rw [if_pos ho]
      exact ⟨q, rfl, hq, rfl⟩
    · rw [if_neg ho]
      exact ⟨q1, h1, h2, h3⟩

theorem syncLoop_total (obj_set free_set : List Nat) :
    ∀ (is : List Nat) (q : MemoryPool Obj), q.RingInv → (∀ i, i ∈ is → i < q.node_size) →
      ∃ q1, is.foldlM (MemoryPool.syncSlot obj_set free_set) q = some q1 ∧ q1.RingInv ∧
        q1.node_size = q.node_size := by
  intro is
  induction is with
  | nil =>
    intro q hq _
    exact ⟨q, rfl, hq, rfl⟩
  | cons i is ih =>
    intro q hq hlt
    obtain ⟨q1, h1, h2, h3⟩ :=
      syncSlot_total obj_set free_set q i hq (hlt i (List.mem_cons_self _ _))
    obtain ⟨q2, k1, k2, k3⟩ := ih q1 h2
      (fun j hj => by rw [h3]; exact hlt j (List.mem_cons_of_mem _ hj))
    refine ⟨q2, ?_, k2, k3.trans h3⟩
    simp only [List.foldlM_cons, h1]
    exact k1

/-- `SyncMemory` returns on a consistent pool and keeps it consistent. -/
theorem SyncMemory_total (p : MemoryPool Obj) (obj_set : List Nat) (hp : p.RingInv) :
    ∃ p1, p.SyncMemory obj_set = some p1 ∧ p1.RingInv ∧ p1.node_size = p.node_size := by
  unfold MemoryPool.SyncMemory
  exact syncLoop_total obj_set _ _ p hp (fun i hi => List.mem_range.mp hi)

/-- Every reachable pool state is consistent. -/
theorem Reachable_RingInv (p0 p : MemoryPool Obj) (h0 : p0.RingInv)
    (h : MemoryPool.Reachable p0 p) : p.RingInv := by
  induction h with
  | init => exact h0
  | allocate p _ ih => exact RingInv_Allocate p ih
  | free p p1 slot _ hs hf ih =>
    exact RingInv_Free p p1 _ ih (by rw [dataPtr_div p ih.data_lt]; exact hs) hf
  | sync p p1 obj_set _ hs ih =>
    obtain ⟨q, h1, h2, _⟩ := SyncMemory_total p obj_set ih
    rw [h1] at hs
    cases hs
    exact h2

/-- C20: in every pool state reachable from a fresh pool (of fewer than `2^31`
slots, with `sizeof(MemoryNode<Obj>) >= 2`) by calls of `Allocate`, of `Free` on
the object of any slot of the pool, freed before or not, and of `SyncMemory`, the
write index is at most the read index; and the assertion inside `Free` never
fails: every `Free` on an object of the pool and every `SyncMemory` returns. -/
theorem write_le_read (N S D : Nat) (zero : Obj) (hN : N + 2 < 2147483648) (hS : 2 ≤ S)
    (hD : D < S) (p : MemoryPool Obj)
    (h : MemoryPool.Reachable (MemoryPool.construct N S D zero) p) :
    p.write_index ≤ p.read_index ∧
    (∀ slot, slot < p.node_size → ∃ p1, p.Free (p.dataPtr slot) = some p1) ∧
    (∀ obj_set, ∃ p1, p.SyncMemory obj_set = some p1) := by
  have hp := Reachable_RingInv _ p (RingInv_construct N S D zero (by omega) hS hD) h
  refine ⟨?_, ?_, ?_⟩
  · have := hp.count_le
    omega
  · intro slot hs
    obtain ⟨p1, h1, _⟩ := Free_total p (p.dataPtr slot) hp
      (by rw [dataPtr_div p hp.data_lt]; exact hs)
    exact ⟨p1, h1⟩
  · intro obj_set
    obtain ⟨p1, h1, _⟩ := SyncMemory_total p obj_set hp
    exact ⟨p1, h1⟩

theorem write_le_read_witness :
    (MemoryPool.construct 2 16 8 ()).Allocate.2.Allocate.2.write_index
      ≤ (MemoryPool.construct 2 16 8 ()).Allocate.2.Allocate.2.read_index ∧
    (∃ p1, (MemoryPool.construct 2 16 8 ()).Allocate.2.Allocate.2.Free
      ((MemoryPool.construct 2 16 8 ()).Allocate.2.Allocate.2.dataPtr 0) = some p1) ∧
    (∃ p1, (MemoryPool.construct 2 16 8 ()).Allocate.2.Allocate.2.SyncMemory [24]
      = some p1) := by
  have h := write_le_read 2 16 8 () (by norm_num) (by norm_num) (by norm_num) _
    (MemoryPool.Reachable.allocate _
      (MemoryPool.Reachable.allocate _ MemoryPool.Reachable.init))
  exact ⟨h.1, h.2.1 0 (by decide), h.2.2 [24]⟩

end ShmPool

namespace ShmMap

open ShmPool

/-- C17, the code at the scenario of the claim: after `Insert(7, 7, ttl 2)` at time
`0` and sweeps at the times `3`, `6` and `9`, all past the expiry, the item is off
its chain and still the head of the garbage list in state `COLLECTING`, its slot
is still used, `Free` has never been called and one slot fewer is free than before
the `Insert`: `SafeFree` never examines the head of the garbage list. -/
theorem garbage_head_never_freed :
    ((scenarioMap.Insert 5 7 7 2 0).bind (fun p => (p.2.GC 5 3).bind (fun m1 =>
      (m1.GC 5 6).bind (fun m2 => (m2.GC 5 9).map (fun m3 =>
        [m1.gc_timestamp, m2.gc_timestamp, m3.gc_timestamp, (m3.buckets 3).count,
          (m3.buckets 3).head, m3.garbage_list_head_offset, m3.pool.usedCount,
          m3.pool.write_index, scenarioMap.pool.usedCount]))))
      = some [3, 6, 9, 0, OFFSET_NULL, 8, 1, 0, 0]) ∧
    ((scenarioMap.Insert 5 7 7 2 0).bind (fun p => (p.2.GC 5 3).bind (fun m1 =>
      (m1.GC 5 6).bind (fun m2 => (m2.GC 5 9).map (fun m3 =>
        ((m3.pool.nodes 0).used, (m3.item 8).invalid)))))
      = some (true, COLLECTING)) := by
  constructor <;> decide

/-- C18, the code at a state in which the reclaimer has claimed the found item:
after `Insert(7, 7, ttl 2)` at time `0` the state of the item (at offset `8`) is
set to `COLLECTING`; `Insert(7, 8, ttl 0)` at time `2` finds it live, appends a
second item to the bucket and then, the loop having no `return` after the append,
claims the found item with the reloaded state and overwrites it: its value
becomes `8`, its `_expire` `0` and its state `VALID`.  `SinHashMap::Insert`, which
returns after the append, leaves the found item (at address `100`) as it was. -/
theorem Insert_claimed_overwrites :
    ((scenarioMap.Insert 5 7 7 2 0).bind (fun p =>
      (((p.2.setItem 8 { p.2.item 8 with invalid := COLLECTING }).Insert 5 7 8 0 2).map
        (fun q => (q.1, [(p.2.buckets 3).count, (q.2.buckets 3).count, (p.2.item 8).value,
          (q.2.item 8).value, (q.2.item 48).value]))))
      = some (SinHashRet.RET_OK, [1, 2, 7, 8, 8])) ∧
    ((scenarioMap.Insert 5 7 7 2 0).bind (fun p =>
      (((p.2.setItem 8 { p.2.item 8 with invalid := COLLECTING }).Insert 5 7 8 0 2).map
        (fun q => [(p.2.item 8).expire, (q.2.item 8).expire, (q.2.item 8).invalid])))
      = some [2, 0, VALID]) ∧
    (((SinMap.SinHashMap.construct (fun k => k) 4 0 : SinMap.SinHashMap Nat Nat).Insert
        5 100 7 7 2 0).bind (fun s =>
      (s.store 100 (fun i => { i with invalid := SinMap.COLLECTING })).bind (fun s1 =>
        (s1.Insert 5 200 7 8 0 2).map (fun q =>
          ((q.buckets 3).count, (q.heap 100).map (fun i => (i.value, i.expire, i.invalid)),
            (q.heap 200).map (fun i => (i.key, i.value)))))))
      = some (2, some (7, 2, SinMap.COLLECTING), some (7, 8)) := by
  refine ⟨?_, ?_, ?_⟩ <;> decide

end ShmMap

namespace ShmMap

open ShmPool

variable {K V : Type}

/-- The list of items reached from an offset along a link field is unique. -/
theorem Chain_unique (m : ShmHashMap K V) (link : ItemNode K V → Nat) :
    ∀ (l l1 : List Nat) (s : Nat), m.Chain link s l → m.Chain link s l1 → l = l1 := by
  intro l
  induction l with
  | nil =>
    intro l1 s h h1
    cases l1 with
    | nil => rfl
    | cons y l1 =>
      obtain ⟨e, e1, _⟩ := h1
      have hs : s = OFFSET_NULL := h
      rw [← e, hs, OffsetToNode_NULL] at e1
      cases e1
  | cons x l ih =>
    intro l1 s h h1
    cases l1 with
    | nil =>
      obtain ⟨e, e1, _⟩ := h
      have hs : s = OFFSET_NULL := h1
      rw [← e, hs, OffsetToNode_NULL] at e1
      cases e1
    | cons y l1 =>
      obtain ⟨e, _, h2⟩ := h
      obtain ⟨e1, _, h3⟩ := h1
      have hxy : x = y := e.symm.trans e1
      subst hxy
      rw [ih l1 _ h2 h3]

/-- No entry of the free queue of a consistent pool is the offset of the slot of
a live item. -/
theorem ring_ne_used_slot (m : ShmHashMap K V) (hp : m.pool.RingInv) (x : Nat)
    (hu : (m.pool.nodes (m.slot x)).used = true) (j : Nat) (hj : j < m.pool.node_size) :
    m.pool.free_queue j ≠ m.pool.GetOffsetByNode (m.slot x) := by
  intro h
  have hS : 0 < m.pool.NodeSize := by have := hp.size_ge; omega
  have hne : m.pool.free_queue j ≠ OFFSET_NULL := by
    rw [h]
    unfold MemoryPool.GetOffsetByNode
    rw [Nat.mul_comm]
    exact mul_ne_OFFSET_NULL _ _ hp.size_ge
  have h1 := (hp.ring_free j hj hne).2
  rw [h] at h1
  unfold MemoryPool.GetOffsetByNode at h1
  rw [Nat.mul_div_cancel _ hS, hu] at h1
  cases h1

/-- The disjointness of chains, garbage list and free queue in a well-formed
state. -/
theorem WF_disjoint (m : ShmHashMap K V) (hm : m.WF) :
    ∃ (chains : Nat → List Nat) (g : List Nat),
      (∀ b, b < m.bucket_size →
        m.Chain (fun it => it.next) (m.buckets b).head (chains b) ∧
        (∀ l, m.Chain (fun it => it.next) (m.buckets b).head l → l = chains b) ∧
        ((chains b).map m.slot).Nodup) ∧
      m.Chain (fun it => it.del_next) m.garbage_list_head_offset g ∧
      (∀ l, m.Chain (fun it => it.del_next) m.garbage_list_head_offset l → l = g) ∧
      (g.map m.slot).Nodup ∧
      (∀ b x y, b < m.bucket_size → x ∈ chains b → y ∈ g → m.slot x ≠ m.slot y) ∧
      (∀ b x j, b < m.bucket_size → x ∈ chains b → j < m.pool.node_size →
        m.pool.free_queue j ≠ m.pool.GetOffsetByNode (m.slot x)) ∧
      (∀ y j, y ∈ g → j < m.pool.node_size →
        m.pool.free_queue j ≠ m.pool.GetOffsetByNode (m.slot y)) ∧
      (∀ b b1 x y, b < m.bucket_size → b1 < m.bucket_size → b ≠ b1 → x ∈ chains b →
        y ∈ chains b1 → m.slot x ≠ m.slot y) := by
  obtain ⟨g, hg⟩ := hm.garbage
  have hex : ∀ b, ∃ l, b < m.bucket_size → m.BucketWF b l := by
    intro b
    by_cases hb : b < m.bucket_size
    · obtain ⟨l, hl⟩ := hm.buckets b hb
      exact ⟨l, fun _ => hl⟩
    · exact ⟨[], fun h => absurd h hb⟩
  choose chains hchains using hex
  refine ⟨chains, g, ?_, hg.chain, ?_, hg.nodup, ?_, ?_, ?_, ?_⟩
  · intro b hb
    exact ⟨(hchains b hb).chain,
      fun l hl => Chain_unique m _ _ _ _ hl (hchains b hb).chain, (hchains b hb).nodup⟩
  · intro l hl
    exact Chain_unique m _ _ _ _ hl hg.chain
  · intro b x y hb hx hy
    exact BucketWF_GarbageWF_slot_ne m b _ g (hchains b hb) hg x y hx hy
  · intro b x j hb hx hj
    exact ring_ne_used_slot m hm.pool x
      (Chain_mem_used m _ _ _ (hchains b hb).chain x hx).1 j hj
  · intro y j hy hj
    exact ring_ne_used_slot m hm.pool y (Chain_mem_used m _ _ _ hg.chain y hy).1 j hj
  · intro b b1 x y hb hb1 hne hx hy
    exact BucketWF_slot_ne m b b1 _ _ (hchains b hb) (hchains b1 hb1) hne x y hx hy

variable [DecidableEq K]

/-- C19: in every state reachable from a fresh map and pool by sequential `Insert`,
`Get` and `GC` calls, every bucket head starts exactly one `_next` chain and the
garbage head exactly one `_del_next` chain, each without a repeated slot; no slot
of a bucket chain is a slot of the garbage list, no slot of a bucket chain or of
the garbage list has its offset in an entry of the free queue, and no slot lies
on the chains of two different buckets. -/
theorem slots_disjoint (HashCode : K → Nat) (N S D : Nat) (zero : ItemNode K V)
    (bucket_size gc_timestamp : Nat) (hN : N + 2 < 4294967296) (hD1 : 1 < D) (hD2 : D < S)
    (m : ShmHashMap K V)
    (hreach : ShmHashMap.Reachable
      (ShmHashMap.construct HashCode (MemoryPool.construct N S D zero) bucket_size
        gc_timestamp) m) :
    ∃ (chains : Nat → List Nat) (g : List Nat),
      (∀ b, b < m.bucket_size →
        m.Chain (fun it => it.next) (m.buckets b).head (chains b) ∧
        (∀ l, m.Chain (fun it => it.next) (m.buckets b).head l → l = chains b) ∧
        ((chains b).map m.slot).Nodup) ∧
      m.Chain (fun it => it.del_next) m.garbage_list_head_offset g ∧
      (∀ l, m.Chain (fun it => it.del_next) m.garbage_list_head_offset l → l = g) ∧
      (g.map m.slot).Nodup ∧
      (∀ b x y, b < m.bucket_size → x ∈ chains b → y ∈ g → m.slot x ≠ m.slot y) ∧
      (∀ b x j, b < m.bucket_size → x ∈ chains b → j < m.pool.node_size →
        m.pool.free_queue j ≠ m.pool.GetOffsetByNode (m.slot x)) ∧
      (∀ y j, y ∈ g → j < m.pool.node_size →
        m.pool.free_queue j ≠ m.pool.GetOffsetByNode (m.slot y)) ∧
      (∀ b b1 x y, b < m.bucket_size → b1 < m.bucket_size → b ≠ b1 → x ∈ chains b →
        y ∈ chains b1 → m.slot x ≠ m.slot y) :=
  WF_disjoint m
    (Reachable_WF _ m (WF_construct HashCode N S D zero bucket_size gc_timestamp hN hD1 hD2)
      hreach)

theorem slots_disjoint_witness :
    ∃ (m : ShmHashMap Nat Nat) (chains : Nat → List Nat) (g : List Nat),
      ShmHashMap.Reachable scenarioMap m ∧ chains 3 ≠ [] ∧ g ≠ [] ∧
      (∀ x y, x ∈ chains 3 → y ∈ g → m.slot x ≠ m.slot y) ∧
      (∀ x j, x ∈ chains 3 → j < m.pool.node_size →
        m.pool.free_queue j ≠ m.pool.GetOffsetByNode (m.slot x)) := by
  have h1 : (scenarioMap.Insert 5 7 7 2 0).isSome = true := by decide
  obtain ⟨p, hp⟩ := Option.isSome_iff_exists.mp h1
  have h2 : ((scenarioMap.Insert 5 7 7 2 0).bind
      (fun p => p.2.Insert 5 3 3 0 0)).isSome = true := by decide
  rw [hp, Option.some_bind] at h2
  obtain ⟨q, hq⟩ := Option.isSome_iff_exists.mp h2
  have h3 : ((scenarioMap.Insert 5 7 7 2 0).bind
      (fun p => (p.2.Insert 5 3 3 0 0).bind (fun q => q.2.GC 5 10))).isSome = true := by
    decide
  rw [hp, Option.some_bind, hq, Option.some_bind] at h3
  obtain ⟨m, hm⟩ := Option.isSome_iff_exists.mp h3
  have h4 : ((scenarioMap.Insert 5 7 7 2 0).bind
      (fun p => (p.2.Insert 5 3 3 0 0).bind (fun q => (q.2.GC 5 10).map
        (fun g => [g.bucket_size, (g.buckets 3).head, g.garbage_list_head_offset]))))
      = some [4, 48, 8] := by decide
  rw [hp, Option.some_bind, hq, Option.some_bind, hm] at h4
  simp only [Option.map_some', Option.some.injEq, List.cons.injEq, and_true] at h4
  obtain ⟨k1, k2, k3⟩ := h4
  have hreach : ShmHashMap.Reachable scenarioMap m :=
    ShmHashMap.Reachable.gc q.2 m 5 10
      (ShmHashMap.Reachable.insert p.2 q.2 5 3 3 0 0 q.1
        (ShmHashMap.Reachable.insert scenarioMap p.2 5 7 7 2 0 p.1
          ShmHashMap.Reachable.init hp) hq) hm
  obtain ⟨chains, g, c1, c2, _, _, c5, c6, _, _⟩ :=
    slots_disjoint (fun k => k) 16 40 8
      { next := 0, key := 0, value := 0, expire := 0, invalid := 0, del_next := 0 } 4 0
      (by norm_num) (by norm_num) (by norm_num) m hreach
  have hb3 : 3 < m.bucket_size := by rw [k1]; norm_num
  refine ⟨m, chains, g, hreach, ?_, ?_, fun x y hx hy => c5 3 x y hb3 hx hy,
    fun x j hx hj => c6 3 x j hb3 hx hj⟩
  · intro hnil
    have hc := (c1 3 hb3).1
    rw [hnil, k2] at hc
    have hc1 : (48 : Nat) = OFFSET_NULL := hc
    exact absurd hc1 (by decide)
  · intro hnil
    rw [hnil, k3] at c2
    have hc1 : (8 : Nat) = OFFSET_NULL := c2
    exact absurd hc1 (by decide)

end ShmMap

namespace ShmMap

open ShmPool

variable {K V : Type}

theorem Frame_refl (m : ShmHashMap K V) : m.Frame m :=
  ⟨rfl, rfl, rfl, rfl, rfl, rfl, rfl, fun _ h => h, fun _ => rfl, fun _ => rfl, fun _ => rfl⟩

theorem Frame_trans (m m1 m2 : ShmHashMap K V) (h1 : m.Frame m1) (h2 : m1.Frame m2) :
    m.Frame m2 :=
  ⟨h2.bucket_size_eq.trans h1.bucket_size_eq, h2.hash_eq.trans h1.hash_eq,
    h2.gc_eq.trans h1.gc_eq, h2.NodeSize_eq.trans h1.NodeSize_eq,
    h2.node_size_eq.trans h1.node_size_eq, h2.dataOff_eq.trans h1.dataOff_eq,
    h2.read_eq.trans h1.read_eq, fun s h => h1.used_le s (h2.used_le s h),
    fun s => (h2.key_eq s).trans (h1.key_eq s), fun s => (h2.value_eq s).trans (h1.value_eq s),
    fun s => (h2.expire_eq s).trans (h1.expire_eq s)⟩

theorem ScanKeeps_refl (m : ShmHashMap K V) : m.ScanKeeps m :=
  ⟨fun _ => rfl, rfl, rfl, fun _ => Or.inl rfl⟩

theorem ScanKeeps_trans (m m1 m2 : ShmHashMap K V) (h1 : m.ScanKeeps m1)
    (h2 : m1.ScanKeeps m2) : m.ScanKeeps m2 := by
  refine ⟨fun s => (h2.used_eq s).trans (h1.used_eq s), h2.queue_eq.trans h1.queue_eq,
    h2.write_eq.trans h1.write_eq, fun s => ?_⟩
  rcases h1.invalid_step s with a | ⟨a1, a2⟩
  · rcases h2.invalid_step s with b | ⟨b1, b2⟩
    · exact Or.inl (b.trans a)
    · exact Or.inr ⟨a ▸ b1, b2⟩
  · rcases h2.invalid_step s with b | ⟨b1, _⟩
    · exact Or.inr ⟨a1, b.trans a2⟩
    · rw [a2] at b1
      exact absurd b1 (by decide)

theorem SweepKeeps_refl (m : ShmHashMap K V) : m.SweepKeeps m :=
  ⟨rfl, rfl, fun _ => rfl⟩

theorem SweepKeeps_trans (m m1 m2 : ShmHashMap K V) (h1 : m.SweepKeeps m1)
    (h2 : m1.SweepKeeps m2) : m.SweepKeeps m2 :=
  ⟨h2.buckets_eq.trans h1.buckets_eq, h2.ghead_eq.trans h1.ghead_eq,
    fun s => (h2.next_eq s).trans (h1.next_eq s)⟩

/-- A store to an item that keeps its key, value and expiry. -/
theorem Frame_setItem (m : ShmHashMap K V) (x : Nat) (it : ItemNode K V)
    (hk : it.key = (m.item x).key) (hv : it.value = (m.item x).value)
    (he : it.expire = (m.item x).expire) : m.Frame (m.setItem x it) := by
  refine ⟨rfl, rfl, rfl, rfl, rfl, rfl, rfl, fun s h => by rwa [setItem_used] at h, ?_, ?_, ?_⟩
  all_goals
    intro s
    rw [nodes_setItem]
    split
    · rename_i hs
      subst hs
      first
        | exact hk
        | exact hv
        | exact he
    · rfl

theorem ScanKeeps_setItem (m : ShmHashMap K V) (x : Nat) (it : ItemNode K V)
    (hi : it.invalid = (m.item x).invalid ∨
      ((m.item x).invalid = VALID ∧ it.invalid = COLLECTING)) :
    m.ScanKeeps (m.setItem x it) := by
  refine ⟨fun s => setItem_used m x it s, rfl, rfl, ?_⟩
  intro s
  rw [nodes_setItem]
  split
  · rename_i hs
    subst hs
    exact hi
  · exact Or.inl rfl

theorem SweepKeeps_setItem (m : ShmHashMap K V) (x : Nat) (it : ItemNode K V)
    (hn : it.next = (m.item x).next) : m.SweepKeeps (m.setItem x it) := by
  refine ⟨rfl, rfl, ?_⟩
  intro s
  rw [nodes_setItem]
  split
  · rename_i hs
    subst hs
    exact hn
  · rfl

theorem Frame_setBucket (m : ShmHashMap K V) (index : Nat) (b : BucketItem) :
    m.Frame (m.setBucket index b) :=
  ⟨rfl, rfl, rfl, rfl, rfl, rfl, rfl, fun _ h => h, fun _ => rfl, fun _ => rfl, fun _ => rfl⟩

theorem ScanKeeps_setBucket (m : ShmHashMap K V) (index : Nat) (b : BucketItem) :
    m.ScanKeeps (m.setBucket index b) :=
  ⟨fun _ => rfl, rfl, rfl, fun _ => Or.inl rfl⟩

end ShmMap

namespace ShmMap

open ShmPool

variable {K V : Type}

theorem AddGarbageList_Frame (m m1 : ShmHashMap K V) (node : Nat)
    (h : m.AddGarbageList node = some m1) : m.Frame m1 ∧ m.ScanKeeps m1 := by
  unfold ShmHashMap.AddGarbageList at h
  split at h
  · cases h
    exact ⟨⟨rfl, rfl, rfl, rfl, rfl, rfl, rfl, fun _ h => h, fun _ => rfl, fun _ => rfl,
      fun _ => rfl⟩, ⟨fun _ => rfl, rfl, rfl, fun _ => Or.inl rfl⟩⟩
  · split at h
    · cases h
    · rename_i t _
      cases h
      have hF := Frame_setItem m t { m.item t with del_next := m.NodeToOffset node } rfl rfl rfl
      have hS := ScanKeeps_setItem m t { m.item t with del_next := m.NodeToOffset node }
        (Or.inl rfl)
      exact ⟨⟨hF.bucket_size_eq, hF.hash_eq, hF.gc_eq, hF.NodeSize_eq, hF.node_size_eq,
        hF.dataOff_eq, hF.read_eq, hF.used_le, hF.key_eq, hF.value_eq, hF.expire_eq⟩,
        ⟨hS.used_eq, hS.queue_eq, hS.write_eq, hS.invalid_step⟩⟩

theorem RemoveExpireNode_Frame (m m1 : ShmHashMap K V) (p index : Nat)
    (h : m.RemoveExpireNode p index = some m1) : m.Frame m1 ∧ m.ScanKeeps m1 := by
  unfold ShmHashMap.RemoveExpireNode at h
  split at h
  · cases h
  · rename_i m2 h2
    cases h
    obtain ⟨a, b⟩ := AddGarbageList_Frame m m2 p h2
    exact ⟨Frame_trans _ _ _ a (Frame_setBucket m2 index _),
      ScanKeeps_trans _ _ _ b (ScanKeeps_setBucket m2 index _)⟩

theorem unlinkNext_Frame (m : ShmHashMap K V) (p0 p1 : Nat) :
    m.Frame (m.unlinkNext p0 p1) ∧ m.ScanKeeps (m.unlinkNext p0 p1) :=
  ⟨Frame_setItem m p0 _ rfl rfl rfl, ScanKeeps_setItem m p0 _ (Or.inl rfl)⟩

/-- The exchange of the state of an item from `VALID` to `COLLECTING` followed by
`RemoveExpireNode`. -/
theorem claim_Frame (m m1 : ShmHashMap K V) (p index : Nat)
    (hv : (m.item p).invalid = VALID)
    (h : (m.setItem p { m.item p with invalid := COLLECTING }).RemoveExpireNode p index
      = some m1) : m.Frame m1 ∧ m.ScanKeeps m1 := by
  obtain ⟨a, b⟩ := RemoveExpireNode_Frame _ m1 p index h
  exact ⟨Frame_trans _ _ _
      (Frame_setItem m p { m.item p with invalid := COLLECTING } rfl rfl rfl) a,
    ScanKeeps_trans _ _ _
      (ScanKeeps_setItem m p { m.item p with invalid := COLLECTING } (Or.inr ⟨hv, rfl⟩)) b⟩

/-- The interior loop of `Scan` keeps the frame, whatever the state it runs on. -/
theorem ScanLoop_Frame (index : Nat) (now : Int) :
    ∀ (fuel : Nat) (m : ShmHashMap K V) (p0 : Nat) (c : Option Nat) (m1 : ShmHashMap K V),
      ShmHashMap.ScanLoop index now fuel m p0 c = some m1 → m.Frame m1 ∧ m.ScanKeeps m1 := by
  intro fuel
  induction fuel with
  | zero =>
    intro m p0 c m1 h
    simp [ShmHashMap.ScanLoop] at h
  | succ f ih =>
    intro m p0 c m1 h
    cases c with
    | none =>
      simp only [ShmHashMap.ScanLoop, Option.some.injEq] at h
      subst h
      exact ⟨Frame_refl m, ScanKeeps_refl m⟩
    | some p1 =>
      rw [ShmHashMap.ScanLoop] at h
      split at h
      · cases h
        exact ⟨Frame_refl m, ScanKeeps_refl m⟩
      · split at h
        · split at h
          · rename_i hv
            split at h
            · cases h
            · rename_i mE hE
              obtain ⟨a, b⟩ := claim_Frame m mE p1 index hv hE
              obtain ⟨a1, b1⟩ := unlinkNext_Frame mE p0 p1
              obtain ⟨a2, b2⟩ := ih _ _ _ _ h
              exact ⟨Frame_trans _ _ _ (Frame_trans _ _ _ a a1) a2,
                ScanKeeps_trans _ _ _ (ScanKeeps_trans _ _ _ b b1) b2⟩
          · split at h
            · split at h
              · cases h
              · rename_i dbl _
                split at h
                · cases h
                · rename_i mE hE
                  have hstep : m.Frame mE ∧ m.ScanKeeps mE := by
                    cases dbl with
                    | true =>
                      simp only [if_true, Option.some.injEq] at hE
                      subst hE
                      exact ⟨Frame_refl m, ScanKeeps_refl m⟩
                    | false =>
                      simp only [Bool.false_eq_true, if_false] at hE
                      exact RemoveExpireNode_Frame m mE p1 index hE
                  obtain ⟨a1, b1⟩ := unlinkNext_Frame mE p0 p1
                  obtain ⟨a2, b2⟩ := ih _ _ _ _ h
                  exact ⟨Frame_trans _ _ _ (Frame_trans _ _ _ hstep.1 a1) a2,
                    ScanKeeps_trans _ _ _ (ScanKeeps_trans _ _ _ hstep.2 b1) b2⟩
            · exact ih _ _ _ _ h
        · exact ih _ _ _ _ h

theorem ScanHead_Frame (index : Nat) (now : Int) (m m1 : ShmHashMap K V)
    (h : ShmHashMap.ScanHead index now m = some m1) : m.Frame m1 ∧ m.ScanKeeps m1 := by
  unfold ShmHashMap.ScanHead at h
  split at h
  · cases h
  · rename_i p0 _
    split at h
    · rename_i hc
      split at h
      · cases h
      · rename_i mE hE
        obtain ⟨a, b⟩ := claim_Frame m mE p0 index hc.2 hE
        simp only at h
        split at h
        · cases h
          exact ⟨Frame_trans _ _ _ a (Frame_setBucket mE index _),
            ScanKeeps_trans _ _ _ b (ScanKeeps_setBucket mE index _)⟩
        · cases h
          exact ⟨Frame_trans _ _ _ a (Frame_setBucket mE index _),
            ScanKeeps_trans _ _ _ b (ScanKeeps_setBucket mE index _)⟩
    · cases h
      exact ⟨Frame_refl m, ScanKeeps_refl m⟩

theorem ScanBucket_Frame (fuel : Nat) (now : Int) (m m1 : ShmHashMap K V) (index : Nat)
    (h : ShmHashMap.ScanBucket fuel now m index = some m1) : m.Frame m1 ∧ m.ScanKeeps m1 := by
  unfold ShmHashMap.ScanBucket at h
  split at h
  · cases h
    exact ⟨Frame_refl m, ScanKeeps_refl m⟩
  · split at h
    · cases h
    · rename_i m2 h2
      obtain ⟨a, b⟩ := ScanLoop_Frame index now _ _ _ _ _ h2
      obtain ⟨a1, b1⟩ := ScanHead_Frame index now m2 m1 h
      exact ⟨Frame_trans _ _ _ a a1, ScanKeeps_trans _ _ _ b b1⟩

theorem ScanFold_Frame (fuel : Nat) (now : Int) :
    ∀ (is : List Nat) (m m1 : ShmHashMap K V),
      is.foldlM (ShmHashMap.ScanBucket fuel now) m = some m1 → m.Frame m1 ∧ m.ScanKeeps m1 := by
  intro is
  induction is with
  | nil =>
    intro m m1 h
    simp only [List.foldlM_nil, pure, Option.some.injEq] at h
    subst h
    exact ⟨Frame_refl m, ScanKeeps_refl m⟩
  | cons i is ih =>
    intro m m1 h
    simp only [List.foldlM_cons] at h
    cases hs : ShmHashMap.ScanBucket fuel now m i with
    | none => rw [hs] at h; cases h
    | some m2 =>
      rw [hs] at h
      obtain ⟨a, b⟩ := ScanBucket_Frame fuel now m m2 i hs
      obtain ⟨a1, b1⟩ := ih m2 m1 h
      exact ⟨Frame_trans _ _ _ a a1, ScanKeeps_trans _ _ _ b b1⟩

/-- `Scan` keeps the frame, whatever the state it runs on. -/
theorem Scan_Frame (fuel : Nat) (now : Int) (m m1 : ShmHashMap K V)
    (h : ShmHashMap.Scan fuel now m = some m1) : m.Frame m1 ∧ m.ScanKeeps m1 :=
  ScanFold_Frame fuel now _ m m1 h

end ShmMap

namespace ShmPool

variable {Obj : Type}

/-- What `Free` leaves unchanged. -/
theorem Free_frame (p p1 : MemoryPool Obj) (ptr : Nat) (h : p.Free ptr = some p1) :
    p1.NodeSize = p.NodeSize ∧ p1.node_size = p.node_size ∧ p1.dataOff = p.dataOff ∧
    p1.read_index = p.read_index ∧ (∀ s, (p1.nodes s).data = (p.nodes s).data) ∧
    (∀ s, (p1.nodes s).used = true → (p.nodes s).used = true) ∧
    (∀ s, s ≠ ptr / p.NodeSize → (p1.nodes s).used = (p.nodes s).used) ∧
    (p1.nodes (ptr / p.NodeSize)).used = false := by
  by_cases hu : (p.nodes (ptr / p.NodeSize)).used = false
  · rw [Free_unused p ptr hu] at h
    cases h
    exact ⟨rfl, rfl, rfl, rfl, fun _ => rfl, fun _ h => h, fun _ _ => rfl, hu⟩
  · rw [Free_used p ptr (by simpa using hu)] at h
    split at h
    · cases h
      refine ⟨rfl, rfl, rfl, rfl, ?_, ?_, ?_, by simp⟩
      · intro s
        simp only [setAt_apply]
        split
        · rename_i hs; rw [hs]
        · rfl
      · intro s hs
        simp only [setAt_apply] at hs
        split at hs
        · cases hs
        · exact hs
      · intro s hs
        simp only
        rw [setAt_ne _ _ hs]
    · cases h

end ShmPool

namespace ShmMap

open ShmPool

variable {K V : Type}

/-- The return of the slot of an item to the pool. -/
theorem Frame_free (m : ShmHashMap K V) (pool1 : MemoryPool (ItemNode K V)) (ptr : Nat)
    (h : m.pool.Free ptr = some pool1) :
    m.Frame ({ m with pool := pool1 } : ShmHashMap K V) ∧
      m.SweepKeeps ({ m with pool := pool1 } : ShmHashMap K V) := by
  obtain ⟨a1, a2, a3, a4, a5, a6, _, _⟩ := Free_frame m.pool pool1 ptr h
  exact ⟨⟨rfl, rfl, rfl, a1, a2, a3, a4, a6, fun s => by rw [a5], fun s => by rw [a5],
    fun s => by rw [a5]⟩, ⟨rfl, rfl, fun s => by rw [a5]⟩⟩

/-- The loop of `SafeFree` keeps the frame, whatever the state it runs on. -/
theorem SafeFreeLoop_Frame :
    ∀ (fuel : Nat) (m : ShmHashMap K V) (p0 : Nat) (c : Option Nat) (m1 : ShmHashMap K V),
      ShmHashMap.SafeFreeLoop fuel m p0 c = some m1 → m.Frame m1 ∧ m.SweepKeeps m1 := by
  intro fuel
  induction fuel with
  | zero =>
    intro m p0 c m1 h
    simp [ShmHashMap.SafeFreeLoop] at h
  | succ f ih =>
    intro m p0 c m1 h
    cases c with
    | none =>
      simp only [ShmHashMap.SafeFreeLoop, Option.some.injEq] at h
      subst h
      exact ⟨⟨rfl, rfl, rfl, rfl, rfl, rfl, rfl, fun _ h => h, fun _ => rfl, fun _ => rfl,
        fun _ => rfl⟩, ⟨rfl, rfl, fun _ => rfl⟩⟩
    | some p1 =>
      rw [ShmHashMap.SafeFreeLoop] at h
      simp only at h
      have hF1 := Frame_setItem m p1
        { m.item p1 with invalid := wrapInt32 ((m.item p1).invalid + 1) } rfl rfl rfl
      have hS1 := SweepKeeps_setItem m p1
        { m.item p1 with invalid := wrapInt32 ((m.item p1).invalid + 1) } rfl
      split at h
      · split at h
        · cases h
        · rename_i pool1 hfree
          have hF2 := Frame_setItem
            (m.setItem p1 { m.item p1 with invalid := wrapInt32 ((m.item p1).invalid + 1) }) p0
            { (m.setItem p1
                { m.item p1 with invalid := wrapInt32 ((m.item p1).invalid + 1) }).item p0 with
              del_next := ((m.setItem p1
                { m.item p1 with invalid := wrapInt32 ((m.item p1).invalid + 1) }).item
                  p1).del_next } rfl rfl rfl
          have hS2 := SweepKeeps_setItem
            (m.setItem p1 { m.item p1 with invalid := wrapInt32 ((m.item p1).invalid + 1) }) p0
            { (m.setItem p1
                { m.item p1 with invalid := wrapInt32 ((m.item p1).invalid + 1) }).item p0 with
              del_next := ((m.setItem p1
                { m.item p1 with invalid := wrapInt32 ((m.item p1).invalid + 1) }).item
                  p1).del_next } rfl
          obtain ⟨a3, b3⟩ := Frame_free _ pool1 p1 hfree
          obtain ⟨a4, b4⟩ := ih _ _ _ _ h
          exact ⟨Frame_trans _ _ _ (Frame_trans _ _ _ (Frame_trans _ _ _ hF1 hF2) a3) a4,
            SweepKeeps_trans _ _ _
              (SweepKeeps_trans _ _ _ (SweepKeeps_trans _ _ _ hS1 hS2) b3) b4⟩
      · obtain ⟨a4, b4⟩ := ih _ _ _ _ h
        exact ⟨Frame_trans _ _ _ hF1 a4, SweepKeeps_trans _ _ _ hS1 b4⟩

/-- `SafeFree` keeps the frame, whatever the state it runs on. -/
theorem SafeFree_Frame (fuel : Nat) (m m1 : ShmHashMap K V)
    (h : ShmHashMap.SafeFree fuel m = some m1) : m.Frame m1 ∧ m.SweepKeeps m1 := by
  unfold ShmHashMap.SafeFree at h
  split at h
  · cases h
    exact ⟨Frame_refl m, SweepKeeps_refl m⟩
  · exact SafeFreeLoop_Frame fuel m _ _ m1 h

/-- What a call of `GC` that returns leaves unchanged: the constants of the map
and of the pool and the key, value and expiry of the item of every slot; no slot
becomes used; and the timestamp is either kept or becomes the time of the call. -/
theorem GC_Frame (fuel : Nat) (m m1 : ShmHashMap K V) (now : Int)
    (h : m.GC fuel now = some m1) :
    m1.bucket_size = m.bucket_size ∧ m1.HashCode = m.HashCode ∧
    m1.pool.NodeSize = m.pool.NodeSize ∧ m1.pool.node_size = m.pool.node_size ∧
    m1.pool.dataOff = m.pool.dataOff ∧ m1.pool.read_index = m.pool.read_index ∧
    (∀ s, (m1.pool.nodes s).used = true → (m.pool.nodes s).used = true) ∧
    (∀ s, (m1.pool.nodes s).data.key = (m.pool.nodes s).data.key) ∧
    (∀ s, (m1.pool.nodes s).data.value = (m.pool.nodes s).data.value) ∧
    (∀ s, (m1.pool.nodes s).data.expire = (m.pool.nodes s).data.expire) ∧
    (m1.gc_timestamp = m.gc_timestamp ∨ m1.gc_timestamp = (now % 4294967296).toNat) := by
  unfold ShmHashMap.GC at h
  simp only at h
  split at h
  · split at h
    · cases h
    · rename_i m2 hs
      obtain ⟨a, _⟩ := Scan_Frame fuel now _ m2 hs
      obtain ⟨b, _⟩ := SafeFree_Frame fuel m2 m1 h
      have c := Frame_trans _ _ _ a b
      exact ⟨c.bucket_size_eq, c.hash_eq, c.NodeSize_eq, c.node_size_eq, c.dataOff_eq,
        c.read_eq, c.used_le, c.key_eq, c.value_eq, c.expire_eq, Or.inr c.gc_eq⟩
  · cases h
    exact ⟨rfl, rfl, rfl, rfl, rfl, rfl, fun _ h => h, fun _ => rfl, fun _ => rfl,
      fun _ => rfl, Or.inl rfl⟩

/-- `GC` at a time that fails the gate returns the state as it is. -/
theorem GC_closed (m : ShmHashMap K V) (now : Int) (fuel : Nat)
    (hgate : ¬ ((((m.gc_timestamp + 2) % 4294967296 : Nat) : Int) < now)) :
    m.GC fuel now = some m := by
  unfold ShmHashMap.GC
  simp only [hgate, if_false]

end ShmMap

namespace ShmMap

open ShmPool

theorem interiorKeep_cons_cons (e : Nat → Bool) (x y : Nat) (r : List Nat) :
    interiorKeep e (x :: y :: r)
      = if e x then interiorKeep e (y :: r) else x :: interiorKeep e (y :: r) := rfl

theorem interiorDrop_cons_cons (e : Nat → Bool) (x y : Nat) (r : List Nat) :
    interiorDrop e (x :: y :: r)
      = if e x then x :: interiorDrop e (y :: r) else interiorDrop e (y :: r) := rfl

theorem interiorKeep_sublist (e : Nat → Bool) : ∀ l, (interiorKeep e l).Sublist l
  | [] => List.Sublist.slnil
  | [_] => List.Sublist.refl _
  | x :: y :: r => by
    rw [interiorKeep_cons_cons]
    split
    · exact List.Sublist.cons _ (interiorKeep_sublist e (y :: r))
    · exact List.Sublist.cons₂ _ (interiorKeep_sublist e (y :: r))

theorem interiorDrop_sublist (e : Nat → Bool) : ∀ l, (interiorDrop e l).Sublist l
  | [] => List.Sublist.slnil
  | [_] => List.Sublist.cons _ List.Sublist.slnil
  | x :: y :: r => by
    rw [interiorDrop_cons_cons]
    split
    · exact List.Sublist.cons₂ _ (interiorDrop_sublist e (y :: r))
    · exact List.Sublist.cons _ (interiorDrop_sublist e (y :: r))

theorem interiorDrop_expired (e : Nat → Bool) : ∀ l x, x ∈ interiorDrop e l → e x = true
  | [], x, h => by simp [interiorDrop] at h
  | [_], x, h => by simp [interiorDrop] at h
  | a :: y :: r, x, h => by
    rw [interiorDrop_cons_cons] at h
    split at h
    · rename_i ha
      rcases List.mem_cons.mp h with h1 | h1
      · rw [h1]; exact ha
      · exact interiorDrop_expired e (y :: r) x h1
    · exact interiorDrop_expired e (y :: r) x h

theorem mem_interiorKeep_or_Drop (e : Nat → Bool) :
    ∀ l x, x ∈ l → x ∈ interiorKeep e l ∨ x ∈ interiorDrop e l
  | [], x, h => by simp at h
  | [t], x, h => Or.inl h
  | a :: y :: r, x, h => by
    rw [interiorKeep_cons_cons, interiorDrop_cons_cons]
    rcases List.mem_cons.mp h with h1 | h1
    · subst h1
      split
      · exact Or.inr (List.mem_cons_self _ _)
      · exact Or.inl (List.mem_cons_self _ _)
    · rcases mem_interiorKeep_or_Drop e (y :: r) x h1 with h2 | h2
      · split
        · exact Or.inl h2
        · exact Or.inl (List.mem_cons_of_mem _ h2)
      · split
        · exact Or.inr (List.mem_cons_of_mem _ h2)
        · exact Or.inr h2

theorem interiorKeep_congr (e e1 : Nat → Bool) :
    ∀ l, (∀ x, x ∈ l → e x = e1 x) → interiorKeep e l = interiorKeep e1 l
  | [], _ => rfl
  | [_], _ => rfl
  | a :: y :: r, h => by
    rw [interiorKeep_cons_cons, interiorKeep_cons_cons, h a (List.mem_cons_self _ _),
      interiorKeep_congr e e1 (y :: r) (fun x hx => h x (List.mem_cons_of_mem _ hx))]

theorem interiorDrop_congr (e e1 : Nat → Bool) :
    ∀ l, (∀ x, x ∈ l → e x = e1 x) → interiorDrop e l = interiorDrop e1 l
  | [], _ => rfl
  | [_], _ => rfl
  | a :: y :: r, h => by
    rw [interiorDrop_cons_cons, interiorDrop_cons_cons, h a (List.mem_cons_self _ _),
      interiorDrop_congr e e1 (y :: r) (fun x hx => h x (List.mem_cons_of_mem _ hx))]

theorem interiorKeep_getLast (e : Nat → Bool) :
    ∀ l, (interiorKeep e l).getLast? = l.getLast?
  | [] => rfl
  | [_] => rfl
  | a :: y :: r => by
    have ih := interiorKeep_getLast e (y :: r)
    have hne : interiorKeep e (y :: r) ≠ [] := by
      intro h0
      rw [h0] at ih
      have h1 := List.getLast?_eq_none_iff.mp ih.symm
      cases h1
    rw [interiorKeep_cons_cons]
    split
    · rw [ih, List.getLast?_cons_cons]
    · rw [List.getLast?_cons_cons, ← ih]
      cases hk : interiorKeep e (y :: r) with
      | nil => exact absurd hk hne
      | cons z w => rw [List.getLast?_cons_cons]

theorem scanKeep_cons (e : Nat → Bool) (h : Nat) (rest : List Nat) :
    scanKeep e (h :: rest)
      = if e h then interiorKeep e rest else h :: interiorKeep e rest := rfl

theorem scanDrop_cons (e : Nat → Bool) (h : Nat) (rest : List Nat) :
    scanDrop e (h :: rest) = interiorDrop e rest ++ (if e h then [h] else []) := rfl

theorem scanKeep_sublist (e : Nat → Bool) (l : List Nat) : (scanKeep e l).Sublist l := by
  cases l with
  | nil => exact List.Sublist.slnil
  | cons h rest =>
    rw [scanKeep_cons]
    split
    · exact List.Sublist.cons _ (interiorKeep_sublist e rest)
    · exact List.Sublist.cons₂ _ (interiorKeep_sublist e rest)

theorem scanDrop_expired (e : Nat → Bool) (l : List Nat) (x : Nat) (h : x ∈ scanDrop e l) :
    x ∈ l ∧ e x = true := by
  cases l with
  | nil => simp [scanDrop] at h
  | cons a rest =>
    rw [scanDrop_cons] at h
    rcases List.mem_append.mp h with h1 | h1
    · exact ⟨List.mem_cons_of_mem _ ((interiorDrop_sublist e rest).subset h1),
        interiorDrop_expired e rest x h1⟩
    · split at h1
      · rename_i ha
        simp only [List.mem_singleton] at h1
        subst h1
        exact ⟨List.mem_cons_self _ _, ha⟩
      · simp at h1

theorem mem_scanKeep_or_Drop (e : Nat → Bool) (l : List Nat) (x : Nat) (h : x ∈ l) :
    x ∈ scanKeep e l ∨ x ∈ scanDrop e l := by
  cases l with
  | nil => simp at h
  | cons a rest =>
    rw [scanKeep_cons, scanDrop_cons]
    rcases List.mem_cons.mp h with h1 | h1
    · subst h1
      split
      · exact Or.inr (List.mem_append_right _ (List.mem_singleton_self _))
      · exact Or.inl (List.mem_cons_self _ _)
    · rcases mem_interiorKeep_or_Drop e rest x h1 with h2 | h2
      · split
        · exact Or.inl h2
        · exact Or.inl (List.mem_cons_of_mem _ h2)
      · exact Or.inr (List.mem_append_left _ h2)

theorem scanKeep_congr (e e1 : Nat → Bool) (l : List Nat) (h : ∀ x, x ∈ l → e x = e1 x) :
    scanKeep e l = scanKeep e1 l := by
  cases l with
  | nil => rfl
  | cons a rest =>
    rw [scanKeep_cons, scanKeep_cons, h a (List.mem_cons_self _ _),
      interiorKeep_congr e e1 rest (fun x hx => h x (List.mem_cons_of_mem _ hx))]

theorem scanDrop_congr (e e1 : Nat → Bool) (l : List Nat) (h : ∀ x, x ∈ l → e x = e1 x) :
    scanDrop e l = scanDrop e1 l := by
  cases l with
  | nil => rfl
  | cons a rest =>
    rw [scanDrop_cons, scanDrop_cons, h a (List.mem_cons_self _ _),
      interiorDrop_congr e e1 rest (fun x hx => h x (List.mem_cons_of_mem _ hx))]

/-- An item that is not expired stays on the chain. -/
theorem mem_scanKeep_of_live (e : Nat → Bool) (l : List Nat) (x : Nat) (h : x ∈ l)
    (hx : e x = false) : x ∈ scanKeep e l := by
  rcases mem_scanKeep_or_Drop e l x h with h1 | h1
  · exact h1
  · have := (scanDrop_expired e l x h1).2
    rw [hx] at this
    cases this

theorem Computes_const {α : Type} (f : Nat → Option α) (r : α) (n : Nat) (h0 : f 0 = none)
    (h : ∀ k, f (k + 1) = some r) : Computes f n r := by
  intro fuel
  cases fuel with
  | zero => exact ⟨fun h1 => absurd h1 (Nat.not_lt_zero _), fun r1 h1 => by rw [h0] at h1; cases h1⟩
  | succ k => exact ⟨fun _ => h k, fun r1 h1 => by rw [h k] at h1; exact (Option.some.inj h1).symm⟩

theorem Computes_step {α : Type} (f g : Nat → Option α) (r : α) (n : Nat) (h0 : f 0 = none)
    (h : ∀ k, f (k + 1) = g k) (hg : Computes g n r) : Computes f (n + 1) r := by
  intro fuel
  cases fuel with
  | zero => exact ⟨fun h1 => absurd h1 (Nat.not_lt_zero _), fun r1 h1 => by rw [h0] at h1; cases h1⟩
  | succ k =>
    rw [h k]
    exact ⟨fun h1 => (hg k).1 (by omega), (hg k).2⟩

theorem Computes_mono {α : Type} (f : Nat → Option α) (r : α) (n n1 : Nat) (h : n ≤ n1)
    (hf : Computes f n r) : Computes f n1 r :=
  fun fuel => ⟨fun h1 => (hf fuel).1 (by omega), (hf fuel).2⟩

theorem Computes_bind {α β : Type} (f : Nat → Option α) (g : α → Nat → Option β) (r : α)
    (r1 : β) (n : Nat) (hf : Computes f n r) (hg : Computes (g r) n r1) :
    Computes (fun fuel => (f fuel).bind (fun x => g x fuel)) n r1 := by
  intro fuel
  constructor
  · intro h1
    simp only [(hf fuel).1 h1, Option.some_bind]
    exact (hg fuel).1 h1
  · intro r2 h2
    cases hx : f fuel with
    | none => simp only [hx, Option.none_bind] at h2; cases h2
    | some x =>
      simp only [hx, Option.some_bind] at h2
      rw [(hf fuel).2 x hx] at h2
      exact (hg fuel).2 r2 h2

end ShmMap

namespace ShmMap

open ShmPool

variable {K V : Type}

theorem expired_congr (m m1 : ShmHashMap K V) (now : Int) (hF : m.Frame m1) :
    m1.expired now = m.expired now := by
  funext x
  unfold ShmHashMap.expired isExpired
  have h : (m1.item x).expire = (m.item x).expire := by
    rw [item_eq_nodes, item_eq_nodes, slot_eq_of_NodeSize m m1 hF.NodeSize_eq]
    exact hF.expire_eq _
  rw [h]

theorem ScanLoop_last (index : Nat) (now : Int) (k : Nat) (m : ShmHashMap K V) (p0 p1 : Nat)
    (h : (m.item p1).next = OFFSET_NULL) :
    ShmHashMap.ScanLoop index now (k + 1) m p0 (some p1) = some m := by
  rw [ShmHashMap.ScanLoop, if_pos h]

theorem ScanLoop_advance (index : Nat) (now : Int) (k : Nat) (m : ShmHashMap K V) (p0 p1 : Nat)
    (h : (m.item p1).next ≠ OFFSET_NULL) (he : isExpired (m.item p1) now = false) :
    ShmHashMap.ScanLoop index now (k + 1) m p0 (some p1)
      = ShmHashMap.ScanLoop index now k m p1 (m.OffsetToNode (m.item p1).next) := by
  rw [ShmHashMap.ScanLoop, if_neg h]
  simp only [he, Bool.false_eq_true, if_false]

theorem ScanLoop_remove (index : Nat) (now : Int) (k : Nat) (m mE : ShmHashMap K V)
    (p0 p1 : Nat) (h : (m.item p1).next ≠ OFFSET_NULL) (he : isExpired (m.item p1) now = true)
    (hv : (m.item p1).invalid = VALID)
    (hE : (m.setItem p1 { m.item p1 with invalid := COLLECTING }).RemoveExpireNode p1 index
      = some mE) :
    ShmHashMap.ScanLoop index now (k + 1) m p0 (some p1)
      = ShmHashMap.ScanLoop index now k (mE.unlinkNext p0 p1) p0
          ((mE.unlinkNext p0 p1).OffsetToNode ((mE.unlinkNext p0 p1).item p0).next) := by
  rw [ShmHashMap.ScanLoop, if_neg h]
  simp only [he, if_true, hv, hE]

/-- The interior loop of `Scan` on a well-formed state: it returns, and leaves on
the chain behind `p0` the items `interiorKeep` names and appends the others to the
garbage list. -/
theorem ScanLoop_spec (index : Nat) (now : Int) :
    ∀ (rem pre : List Nat) (p0 : Nat) (m : ShmHashMap K V) (g : List Nat),
      m.WF → m.BucketWF index (pre ++ p0 :: rem) → m.GarbageWF g →
      ∃ m1, m1.WF ∧
        m1.BucketWF index (pre ++ p0 :: interiorKeep (m.expired now) rem) ∧
        m1.GarbageWF (g ++ interiorDrop (m.expired now) rem) ∧
        (∀ b lb, b ≠ index → m.BucketWF b lb → m1.BucketWF b lb) ∧ m.Frame m1 ∧
        Computes (fun fuel =>
          ShmHashMap.ScanLoop index now fuel m p0 (m.OffsetToNode (m.item p0).next))
          rem.length m1 := by
  intro rem
  induction rem with
  | nil =>
    intro pre p0 m g hm hb hg
    have hlast := Chain_last_link m _ _ _ p0 hb.chain (by simp)
    simp only at hlast
    refine ⟨m, hm, hb, by simpa [interiorDrop] using hg, fun _ _ _ h => h, Frame_refl m, ?_⟩
    rw [hlast, OffsetToNode_NULL]
    exact Computes_const _ m _ rfl (fun _ => rfl)
  | cons p1 rem ih =>
    intro pre p0 m g hm hb hg
    obtain ⟨e1, e2, _⟩ := Chain_suffix m (fun it => it.next) p0 (p1 :: rem) pre _ hb.chain
    have e3 : (m.item p0).next = p1 := e1
    rw [e3, e2]
    have hp1in : p1 ∈ pre ++ p0 :: p1 :: rem := by simp
    cases rem with
    | nil =>
      have hlast := Chain_last_link m _ _ _ p1 hb.chain (by simp)
      simp only at hlast
      refine ⟨m, hm, hb, by simpa [interiorDrop] using hg, fun _ _ _ h => h, Frame_refl m, ?_⟩
      exact Computes_const _ m _ rfl (fun k => ScanLoop_last index now k m p0 p1 hlast)
    | cons y r =>
      have hnx : (m.item p1).next ≠ OFFSET_NULL := by
        have hc := Chain_suffix m (fun it => it.next) p1 (y :: r) (pre ++ [p0]) _
          (by simpa using hb.chain)
        obtain ⟨c1, c2, _⟩ := hc
        have c3 : (m.item p1).next = y := c1
        rw [c3]
        exact ((OffsetToNode_some_iff m y y).mp c2).2.2
      have hb' : m.BucketWF index ((pre ++ [p0]) ++ p1 :: y :: r) := by simpa using hb
      by_cases hexp : isExpired (m.item p1) now = true
      · have hv := (hb.nodes p1 hp1in).2.1
        obtain ⟨mE, hE1, hE⟩ := enlist_spec m index _ g p1 hm hb hg hp1in
        have hR := unlink_interior m mE index pre p0 p1 (y :: r) g hE hb hg
        have hm2 := RemovedFrom_WF m _ index _ p1 (y :: r) g hR hm hb' hg
          (fun hr => by cases hr)
        have hb2 := RemovedFrom_BucketWF_index m _ index _ p1 (y :: r) g hR hb' hg hm.slots_lt
          (fun hr => by cases hr)
        rw [List.append_assoc, List.singleton_append] at hb2
        have hg2 := RemovedFrom_GarbageWF m _ index _ p1 (y :: r) g hR hb' hg
        have hF2 : m.Frame (mE.unlinkNext p0 p1) :=
          Frame_trans _ _ _ (claim_Frame m mE p1 index hv hE1).1 (unlinkNext_Frame mE p0 p1).1
        obtain ⟨m1, k1, k2, k3, k4, k5, k6⟩ := ih pre p0 _ (g ++ [p1]) hm2 hb2 hg2
        rw [expired_congr m _ now hF2] at k2 k3
        have hx : m.expired now p1 = true := hexp
        refine ⟨m1, k1, ?_, ?_, ?_, Frame_trans _ _ _ hF2 k5, ?_⟩
        · rw [interiorKeep_cons_cons, hx, if_pos rfl]
          exact k2
        · rw [interiorDrop_cons_cons, hx, if_pos rfl]
          simpa using k3
        · intro b lb hne hlb
          exact k4 b lb hne
            (RemovedFrom_BucketWF_other m _ index _ p1 (y :: r) g hR hb' hg b lb hne hlb)
        · exact Computes_step _ _ m1 _ rfl
            (fun k => ScanLoop_remove index now k m mE p0 p1 hnx hexp hv hE1) k6
      · have hexp' : isExpired (m.item p1) now = false := by simpa using hexp
        obtain ⟨m1, k1, k2, k3, k4, k5, k6⟩ := ih (pre ++ [p0]) p1 m g hm hb' hg
        have hx : m.expired now p1 = false := hexp'
        refine ⟨m1, k1, ?_, ?_, k4, k5, ?_⟩
        · rw [interiorKeep_cons_cons, hx]
          simpa using k2
        · rw [interiorDrop_cons_cons, hx]
          simpa using k3
        · exact Computes_step _ _ m1 _ rfl
            (fun k => ScanLoop_advance index now k m p0 p1 hnx hexp') k6

end ShmMap

namespace ShmMap

open ShmPool

variable {K V : Type}

/-- The chain of a well-formed bucket is unique. -/
theorem BucketWF_unique (m : ShmHashMap K V) (b : Nat) (l l1 : List Nat) (h : m.BucketWF b l)
    (h1 : m.BucketWF b l1) : l = l1 :=
  Chain_unique m _ l l1 _ h.chain h1.chain

theorem GarbageWF_unique (m : ShmHashMap K V) (g g1 : List Nat) (h : m.GarbageWF g)
    (h1 : m.GarbageWF g1) : g = g1 :=
  Chain_unique m _ g g1 _ h.chain h1.chain

/-- The head check of `Scan` on a well-formed state. -/
theorem ScanHead_spec (index : Nat) (now : Int) (m : ShmHashMap K V) (h : Nat)
    (rest g : List Nat) (hm : m.WF) (hb : m.BucketWF index (h :: rest)) (hg : m.GarbageWF g) :
    ∃ m1, ShmHashMap.ScanHead index now m = some m1 ∧ m1.WF ∧
      m1.BucketWF index (if m.expired now h then rest else h :: rest) ∧
      m1.GarbageWF (g ++ if m.expired now h then [h] else []) ∧
      (∀ b lb, b ≠ index → m.BucketWF b lb → m1.BucketWF b lb) ∧ m.Frame m1 := by
  obtain ⟨e1, e2, _⟩ := hb.chain
  have hv := (hb.nodes h (List.mem_cons_self _ _)).2.1
  by_cases hexp : isExpired (m.item h) now = true
  · obtain ⟨mE, hE1, hE⟩ := enlist_spec m index _ g h hm hb hg (List.mem_cons_self _ _)
    have hR := unlink_head m mE index h rest g hE hb
    have hb' : m.BucketWF index ([] ++ h :: rest) := by simpa using hb
    have hres : ShmHashMap.ScanHead index now m =
        some (if (mE.buckets index).head = (mE.buckets index).tail then
          mE.setBucket index { mE.buckets index with tail := OFFSET_NULL, head := OFFSET_NULL }
        else mE.setBucket index { mE.buckets index with head := (mE.item h).next }) := by
      unfold ShmHashMap.ScanHead
      rw [e1, e2]
      simp only [hexp, hv, and_self, if_true, hE1]
      split <;> rfl
    have hx : m.expired now h = true := hexp
    refine ⟨_, hres, RemovedFrom_WF m _ index [] h rest g hR hm hb' hg (fun _ => rfl), ?_, ?_,
      ?_, (ScanHead_Frame index now m _ hres).1⟩
    · rw [hx, if_pos rfl]
      have := RemovedFrom_BucketWF_index m _ index [] h rest g hR hb' hg hm.slots_lt
        (fun _ => rfl)
      simpa using this
    · rw [hx, if_pos rfl]
      exact RemovedFrom_GarbageWF m _ index [] h rest g hR hb' hg
    · intro b lb hne hlb
      exact RemovedFrom_BucketWF_other m _ index [] h rest g hR hb' hg b lb hne hlb
  · have hx : m.expired now h = false := by simpa using hexp
    have hres : ShmHashMap.ScanHead index now m = some m := by
      unfold ShmHashMap.ScanHead
      rw [e1, e2]
      simp [hexp]
    refine ⟨m, hres, hm, ?_, ?_, fun _ _ _ hlb => hlb, Frame_refl m⟩
    · rw [hx]
      simpa using hb
    · rw [hx]
      simpa using hg

/-- The body of the loop of `Scan` for one bucket of a well-formed state: it
returns, leaves on the chain `l` of the bucket the items `scanKeep` names, appends
the others to the garbage list and keeps the other chains. -/
theorem ScanBucket_spec (index : Nat) (now : Int) (m : ShmHashMap K V) (l g : List Nat)
    (hm : m.WF) (hb : m.BucketWF index l) (hg : m.GarbageWF g) :
    ∃ m1, m1.WF ∧ m1.BucketWF index (scanKeep (m.expired now) l) ∧
      m1.GarbageWF (g ++ scanDrop (m.expired now) l) ∧
      (∀ b lb, b ≠ index → m.BucketWF b lb → m1.BucketWF b lb) ∧ m.Frame m1 ∧
      Computes (fun fuel => ShmHashMap.ScanBucket fuel now m index) l.length m1 := by
  cases l with
  | nil =>
    have hh : (m.buckets index).head = OFFSET_NULL := hb.chain
    refine ⟨m, hm, hb, by simpa [scanDrop] using hg, fun _ _ _ h => h, Frame_refl m, ?_⟩
    intro fuel
    have hres : ShmHashMap.ScanBucket fuel now m index = some m := by
      unfold ShmHashMap.ScanBucket
      rw [hh, OffsetToNode_NULL]
    show (_ < fuel → ShmHashMap.ScanBucket fuel now m index = some m) ∧
      ∀ r1, ShmHashMap.ScanBucket fuel now m index = some r1 → r1 = m
    rw [hres]
    exact ⟨fun _ => rfl, fun r1 h1 => (Option.some.inj h1).symm⟩
  | cons h rest =>
    obtain ⟨e1, e2, _⟩ := hb.chain
    obtain ⟨m2, a1, a2, a3, a4, a5, a6⟩ :=
      ScanLoop_spec index now rest [] h m g hm (by simpa using hb) hg
    rw [List.nil_append] at a2
    obtain ⟨m1, b1, b2, b3, b4, b5, b6⟩ := ScanHead_spec index now m2 h _ _ a1 a2 a3
    rw [expired_congr m m2 now a5] at b3 b4
    refine ⟨m1, b2, ?_, ?_, fun b lb hne hlb => b5 b lb hne (a4 b lb hne hlb),
      Frame_trans _ _ _ a5 b6, ?_⟩
    · rw [scanKeep_cons]
      exact b3
    · rw [scanDrop_cons, ← List.append_assoc]
      exact b4
    · have hfun : (fun fuel => ShmHashMap.ScanBucket fuel now m index)
          = (fun fuel => (ShmHashMap.ScanLoop index now fuel m h
              (m.OffsetToNode (m.item h).next)).bind
                (fun x => (fun y (_ : Nat) => ShmHashMap.ScanHead index now y) x fuel)) := by
        funext fuel
        unfold ShmHashMap.ScanBucket
        rw [e1, e2]
        simp only
        cases ShmHashMap.ScanLoop index now fuel m h (m.OffsetToNode (m.item h).next) <;> rfl
      rw [hfun]
      refine Computes_bind _ _ m2 m1 _ (Computes_mono _ _ _ _ (by simp) a6) ?_
      intro fuel
      show (_ < fuel → ShmHashMap.ScanHead index now m2 = some m1) ∧
        ∀ r1, ShmHashMap.ScanHead index now m2 = some r1 → r1 = m1
      rw [b1]
      exact ⟨fun _ => rfl, fun r1 h1 => (Option.some.inj h1).symm⟩

end ShmMap

namespace ShmMap

open ShmPool

variable {K V : Type}

/-- The loop of `Scan` over the buckets `is` of a well-formed state. -/
theorem ScanFold_spec (now : Int) :
    ∀ (is : List Nat) (m : ShmHashMap K V) (g : List Nat), m.WF → m.GarbageWF g → is.Nodup →
      (∀ i, i ∈ is → i < m.bucket_size) →
      ∃ m1 rm, m1.WF ∧ m1.GarbageWF (g ++ rm) ∧
        (∀ b l, m.BucketWF b l →
          m1.BucketWF b (if b ∈ is then scanKeep (m.expired now) l else l)) ∧
        (∀ x, x ∈ rm ↔ ∃ b l, b ∈ is ∧ m.BucketWF b l ∧ x ∈ scanDrop (m.expired now) l) ∧
        m.Frame m1 ∧
        Computes (fun fuel => is.foldlM (ShmHashMap.ScanBucket fuel now) m)
          m.pool.node_size m1 := by
  intro is
  induction is with
  | nil =>
    intro m g hm hg _ _
    refine ⟨m, [], hm, by simpa using hg, fun b l h => by simpa using h, ?_, Frame_refl m, ?_⟩
    · intro x
      simp
    · intro fuel
      exact ⟨fun _ => rfl, fun r1 h1 => (Option.some.inj h1).symm⟩
  | cons i is ih =>
    intro m g hm hg hnd hlt
    have hi := hlt i (List.mem_cons_self _ _)
    obtain ⟨li, hli⟩ := hm.buckets i hi
    obtain ⟨m2, a1, a2, a3, a4, a5, a6⟩ := ScanBucket_spec i now m li g hm hli hg
    have hnd' := (List.nodup_cons.mp hnd).2
    have hni := (List.nodup_cons.mp hnd).1
    obtain ⟨m1, rm, b1, b2, b3, b4, b5, b6⟩ := ih m2 _ a1 a3 hnd'
      (fun j hj => by rw [a5.bucket_size_eq]; exact hlt j (List.mem_cons_of_mem _ hj))
    rw [expired_congr m m2 now a5] at b3 b4
    refine ⟨m1, scanDrop (m.expired now) li ++ rm, b1, by simpa using b2, ?_, ?_,
      Frame_trans _ _ _ a5 b5, ?_⟩
    · intro b l hl
      by_cases hbi : b = i
      · subst hbi
        have hll := BucketWF_unique m b l li hl hli
        subst hll
        have := b3 b _ a2
        rw [if_neg hni] at this
        rw [if_pos (List.mem_cons_self _ _)]
        exact this
      · have := b3 b l (a4 b l hbi hl)
        by_cases hbs : b ∈ is
        · rw [if_pos hbs] at this
          rw [if_pos (List.mem_cons_of_mem _ hbs)]
          exact this
        · rw [if_neg hbs] at this
          rw [if_neg (by
            intro h
            rcases List.mem_cons.mp h with h | h
            · exact hbi h
            · exact hbs h)]
          exact this
    · intro x
      rw [List.mem_append, b4 x]
      constructor
      · rintro (h | ⟨b, l, hb, hl, hx⟩)
        · exact ⟨i, li, List.mem_cons_self _ _, hli, h⟩
        · have hbi : b ≠ i := fun h => hni (h ▸ hb)
          have hbB := hlt b (List.mem_cons_of_mem _ hb)
          obtain ⟨lb, hlb⟩ := hm.buckets b hbB
          have hll := BucketWF_unique m2 b l lb hl (a4 b lb hbi hlb)
          subst hll
          exact ⟨b, l, List.mem_cons_of_mem _ hb, hlb, hx⟩
      · rintro ⟨b, l, hb, hl, hx⟩
        rcases List.mem_cons.mp hb with h | h
        · subst h
          have hll := BucketWF_unique m b l li hl hli
          subst hll
          exact Or.inl hx
        · have hbi : b ≠ i := fun h1 => hni (h1 ▸ h)
          exact Or.inr ⟨b, l, h, a4 b l hbi hl, hx⟩
    · have hfun : (fun fuel => (i :: is).foldlM (ShmHashMap.ScanBucket fuel now) m)
          = (fun fuel => (ShmHashMap.ScanBucket fuel now m i).bind
              (fun x => (fun y fuel => is.foldlM (ShmHashMap.ScanBucket fuel now) y) x fuel)) := by
        funext fuel
        simp only [List.foldlM_cons]
        rfl
      rw [hfun]
      refine Computes_bind _ _ m2 m1 _
        (Computes_mono _ _ _ _ (BucketWF_length_le m i li hli) a6) ?_
      rw [a5.node_size_eq] at b6
      exact b6

/-- `Scan` on a well-formed state: it returns, every chain `l` becomes
`scanKeep l`, the items of `scanDrop l` are appended to the garbage list, in the
state `COLLECTING`. -/
theorem Scan_spec (now : Int) (m : ShmHashMap K V) (g : List Nat) (hm : m.WF)
    (hg : m.GarbageWF g) :
    ∃ m1 rm, m1.WF ∧ m1.GarbageWF (g ++ rm) ∧
      (∀ b l, b < m.bucket_size → m.BucketWF b l →
        m1.BucketWF b (scanKeep (m.expired now) l)) ∧
      (∀ x, x ∈ rm ↔
        ∃ b l, b < m.bucket_size ∧ m.BucketWF b l ∧ x ∈ scanDrop (m.expired now) l) ∧
      (∀ x, x ∈ rm → (m1.item x).invalid = COLLECTING) ∧
      m.Frame m1 ∧ m.ScanKeeps m1 ∧
      Computes (fun fuel => ShmHashMap.Scan fuel now m) m.pool.node_size m1 := by
  obtain ⟨m1, rm, a1, a2, a3, a4, a5, a6⟩ :=
    ScanFold_spec now (List.range m.bucket_size) m g hm hg (List.nodup_range _)
      (fun i hi => List.mem_range.mp hi)
  have hS : m.ScanKeeps m1 :=
    (Scan_Frame (m.pool.node_size + 1) now m m1 ((a6 _).1 (Nat.lt_succ_self _))).2
  refine ⟨m1, rm, a1, a2, ?_, ?_, ?_, a5, hS, a6⟩
  · intro b l hb hl
    have := a3 b l hl
    rw [if_pos (List.mem_range.mpr hb)] at this
    exact this
  · intro x
    rw [a4 x]
    constructor
    · rintro ⟨b, l, hb, h⟩
      exact ⟨b, l, List.mem_range.mp hb, h⟩
    · rintro ⟨b, l, hb, h⟩
      exact ⟨b, l, List.mem_range.mpr hb, h⟩
  · intro x hx
    obtain ⟨b, l, _, hl, hxd⟩ := (a4 x).mp hx
    have hxl := (scanDrop_expired _ l x hxd).1
    have hv := (hl.nodes x hxl).2.1
    have hgx := (a2.nodes x (List.mem_append_right _ hx)).2
    have hstep := hS.invalid_step (m.slot x)
    have e1 : (m1.item x).invalid = (m1.pool.nodes (m.slot x)).data.invalid := by
      rw [item_eq_nodes, slot_eq_of_NodeSize m m1 a5.NodeSize_eq]
    have e0 : (m.item x).invalid = (m.pool.nodes (m.slot x)).data.invalid := by
      rw [item_eq_nodes]
    rw [← e1, ← e0] at hstep
    rcases hstep with h1 | ⟨_, h2⟩
    · rw [h1, hv] at hgx
      rcases hgx with h | h <;> exact absurd h (by decide)
    · exact h2

end ShmMap

namespace ShmMap

open ShmPool

variable {K V : Type}

theorem SafeFreeLoop_advance (k : Nat) (m : ShmHashMap K V) (p0 p1 : Nat)
    (h : (m.item p1).invalid ≠ 2) :
    ShmHashMap.SafeFreeLoop (k + 1) m p0 (some p1)
      = ShmHashMap.SafeFreeLoop k
          (m.setItem p1 { m.item p1 with invalid := wrapInt32 ((m.item p1).invalid + 1) }) p1
          ((m.setItem p1
            { m.item p1 with invalid := wrapInt32 ((m.item p1).invalid + 1) }).OffsetToNode
            ((m.setItem p1
              { m.item p1 with invalid := wrapInt32 ((m.item p1).invalid + 1) }).item
              p1).del_next) := by
  rw [ShmHashMap.SafeFreeLoop]
  simp only [h, if_false]

theorem SafeFreeLoop_free (k : Nat) (m : ShmHashMap K V) (p0 p1 : Nat)
    (pool1 : MemoryPool (ItemNode K V)) (h : (m.item p1).invalid = 2)
    (hfree : ((m.setItem p1
        { m.item p1 with invalid := wrapInt32 ((m.item p1).invalid + 1) }).setItem p0
      { (m.setItem p1
          { m.item p1 with invalid := wrapInt32 ((m.item p1).invalid + 1) }).item p0 with
        del_next := ((m.setItem p1
          { m.item p1 with invalid := wrapInt32 ((m.item p1).invalid + 1) }).item
            p1).del_next }).pool.Free p1 = some pool1) :
    ShmHashMap.SafeFreeLoop (k + 1) m p0 (some p1)
      = ShmHashMap.SafeFreeLoop k
          ({ (m.setItem p1
              { m.item p1 with invalid := wrapInt32 ((m.item p1).invalid + 1) }).setItem p0
            { (m.setItem p1
                { m.item p1 with invalid := wrapInt32 ((m.item p1).invalid + 1) }).item p0 with
              del_next := ((m.setItem p1
                { m.item p1 with invalid := wrapInt32 ((m.item p1).invalid + 1) }).item
                  p1).del_next } with pool := pool1 } : ShmHashMap K V) p0
          (ShmHashMap.OffsetToNode
            ({ (m.setItem p1
                { m.item p1 with invalid := wrapInt32 ((m.item p1).invalid + 1) }).setItem p0
              { (m.setItem p1
                  { m.item p1 with invalid := wrapInt32 ((m.item p1).invalid + 1) }).item p0 with
                del_next := ((m.setItem p1
                  { m.item p1 with invalid := wrapInt32 ((m.item p1).invalid + 1) }).item
                    p1).del_next } with pool := pool1 } : ShmHashMap K V)
            (ShmHashMap.item
              ({ (m.setItem p1
                  { m.item p1 with invalid := wrapInt32 ((m.item p1).invalid + 1) }).setItem p0
                { (m.setItem p1
                    { m.item p1 with invalid := wrapInt32 ((m.item p1).invalid + 1) }).item
                      p0 with
                  del_next := ((m.setItem p1
                    { m.item p1 with invalid := wrapInt32 ((m.item p1).invalid + 1) }).item
                      p1).del_next } with pool := pool1 } : ShmHashMap K V) p0).del_next) := by
  rw [ShmHashMap.SafeFreeLoop]
  simp only [h, if_true]
  rw [h] at hfree
  simp only [hfree]

/-- The garbage list when the loop of `SafeFree` ends. -/
theorem SweepInv_finish_garbage (m : ShmHashMap K V) (kept : List Nat) (p0 : Nat)
    (hI : m.SweepInv (kept ++ [p0])) :
    ShmHashMap.GarbageWF
      ({ m with garbage_list_tail_offset := m.NodeToOffset p0 } : ShmHashMap K V)
      (kept ++ [p0]) := by
  refine ⟨?_, ?_, hI.nodup, hI.nodes⟩
  · exact Chain_congr m
      ({ m with garbage_list_tail_offset := m.NodeToOffset p0 } : ShmHashMap K V) _ _
      (fun x _ => ⟨rfl, rfl⟩) _ hI.chain
  · intro t ht
    rw [getLast?_append_cons] at ht
    simp only [List.getLast?_singleton, Option.some.injEq] at ht
    subst ht
    rfl

/-- The state after the removal of the garbage item `p1` behind `p0`: every item
but that of `p0` is as before up to the state of `p1`, and only the slot of `p1`
changes its flag. -/
theorem free_step_facts (m : ShmHashMap K V) (p0 p1 : Nat) (it1 it0 : ItemNode K V)
    (pool1 : MemoryPool (ItemNode K V))
    (hfree : ((m.setItem p1 it1).setItem p0 it0).pool.Free p1 = some pool1) :
    ShmHashMap.slot ({ (m.setItem p1 it1).setItem p0 it0 with pool := pool1 } : ShmHashMap K V)
      = m.slot ∧
    (∀ y, ShmHashMap.item
        ({ (m.setItem p1 it1).setItem p0 it0 with pool := pool1 } : ShmHashMap K V) y
      = if m.slot y = m.slot p0 then it0 else if m.slot y = m.slot p1 then it1 else m.item y) ∧
    (∀ s, s ≠ m.slot p1 → (pool1.nodes s).used = (m.pool.nodes s).used) ∧
    (pool1.nodes (m.slot p1)).used = false := by
  obtain ⟨a1, _, _, _, a5, _, a7, a8⟩ := Free_frame _ pool1 p1 hfree
  have hS : pool1.NodeSize = m.pool.NodeSize := a1
  have hslot : ShmHashMap.slot
      ({ (m.setItem p1 it1).setItem p0 it0 with pool := pool1 } : ShmHashMap K V) = m.slot :=
    funext (slot_eq_of_NodeSize m _ hS)
  refine ⟨hslot, ?_, ?_, a8⟩
  · intro y
    have e1 : ShmHashMap.item
        ({ (m.setItem p1 it1).setItem p0 it0 with pool := pool1 } : ShmHashMap K V) y
        = ((m.setItem p1 it1).setItem p0 it0).item y := by
      rw [item_eq_nodes, hslot, a5]
      rfl
    rw [e1, item_setItem, item_setItem]
    rfl
  · intro s hs
    rw [a7 s hs, setItem_used, setItem_used]

end ShmMap

namespace ShmMap

open ShmPool

variable {K V : Type}

theorem nodup_slot_ne (m : ShmHashMap K V) (l1 : List Nat) (x : Nat) (l2 : List Nat)
    (h : ((l1 ++ x :: l2).map m.slot).Nodup) :
    ∀ y, y ∈ l1 ++ l2 → m.slot y ≠ m.slot x := by
  intro y hy he
  rw [List.map_append, List.nodup_append] at h
  obtain ⟨_, h2, h3⟩ := h
  rw [List.map_cons, List.nodup_cons] at h2
  rcases List.mem_append.mp hy with hy1 | hy1
  · exact h3 (List.mem_map_of_mem _ hy1) (by rw [he]; exact List.mem_cons_self _ _)
  · exact h2.1 (by rw [← he]; exact List.mem_map_of_mem _ hy1)

/-- One iteration of the loop of `SafeFree` on an item in state `COLLECTING`. -/
theorem advance_step (m : ShmHashMap K V) (kept : List Nat) (p0 p1 : Nat) (rem : List Nat)
    (hI : m.SweepInv (kept ++ p0 :: p1 :: rem)) (hinv : (m.item p1).invalid = COLLECTING) :
    ∃ mA : ShmHashMap K V,
      (∀ k, ShmHashMap.SafeFreeLoop (k + 1) m p0 (some p1)
        = ShmHashMap.SafeFreeLoop k mA p1 (mA.OffsetToNode (mA.item p1).del_next)) ∧
      mA.SweepInv ((kept ++ [p0]) ++ p1 :: rem) ∧ mA.slot = m.slot ∧
      (∀ y, m.slot y ≠ m.slot p1 → mA.item y = m.item y) ∧
      (mA.item p1).invalid = WAITING_DELETE ∧
      (∀ s, (mA.pool.nodes s).used = (m.pool.nodes s).used) := by
  have hne2 : (m.item p1).invalid ≠ 2 := by rw [hinv]; decide
  have hw : wrapInt32 ((m.item p1).invalid + 1) = WAITING_DELETE := by rw [hinv]; decide
  refine ⟨_, fun k => SafeFreeLoop_advance k m p0 p1 hne2, ?_, rfl, ?_, ?_,
    fun s => setItem_used m p1 _ s⟩
  · have := SweepInv_advance m _ p1
      { m.item p1 with invalid := wrapInt32 ((m.item p1).invalid + 1) } hI (by simp) rfl
      (Or.inr hw)
    simpa using this
  · intro y hy
    exact item_setItem_ne m p1 _ y hy
  · rw [item_setItem_same]
    exact hw

/-- One iteration of the loop of `SafeFree` on an item in state `WAITING_DELETE`:
the item is unlinked from the garbage list and its slot returns to the pool. -/
theorem free_step (m : ShmHashMap K V) (kept : List Nat) (p0 p1 : Nat) (rem : List Nat)
    (hI : m.SweepInv (kept ++ p0 :: p1 :: rem)) (hinv : (m.item p1).invalid = WAITING_DELETE) :
    ∃ m3 : ShmHashMap K V,
      (∀ k, ShmHashMap.SafeFreeLoop (k + 1) m p0 (some p1)
        = ShmHashMap.SafeFreeLoop k m3 p0 (m3.OffsetToNode (m3.item p0).del_next)) ∧
      m3.SweepInv (kept ++ p0 :: rem) ∧ m3.slot = m.slot ∧
      (∀ y, m.slot y ≠ m.slot p1 → m.slot y ≠ m.slot p0 → m3.item y = m.item y) ∧
      (∀ y, m.slot y ≠ m.slot p1 → (m3.item y).invalid = (m.item y).invalid) ∧
      (∀ s, s ≠ m.slot p1 → (m3.pool.nodes s).used = (m.pool.nodes s).used) ∧
      (m3.pool.nodes (m.slot p1)).used = false := by
  have hp1in : p1 ∈ kept ++ p0 :: p1 :: rem := by simp
  have hne : m.slot p0 ≠ m.slot p1 :=
    nodup_slot_ne m (kept ++ [p0]) p1 rem (by simpa using hI.nodup) p0 (by simp)
  have hR : ((m.setItem p1
        { m.item p1 with invalid := wrapInt32 ((m.item p1).invalid + 1) }).setItem p0
      { (m.setItem p1
          { m.item p1 with invalid := wrapInt32 ((m.item p1).invalid + 1) }).item p0 with
        del_next := ((m.setItem p1
          { m.item p1 with invalid := wrapInt32 ((m.item p1).invalid + 1) }).item
            p1).del_next }).pool.RingInv := by
    rw [setItem_pool, setItem_pool]
    exact RingInv_write _ _ _ (RingInv_write _ _ _ hI.pool)
  obtain ⟨pool1, hfree, _⟩ := Free_total _ p1 hR (hI.nodes p1 hp1in).1
  have h0 : ({ (m.setItem p1
          { m.item p1 with invalid := wrapInt32 ((m.item p1).invalid + 1) }).item p0 with
        del_next := ((m.setItem p1
          { m.item p1 with invalid := wrapInt32 ((m.item p1).invalid + 1) }).item
            p1).del_next } : ItemNode K V)
      = { m.item p0 with del_next := (m.item p1).del_next } := by
    rw [item_setItem_ne m p1 _ p0 hne, item_setItem_same]
  obtain ⟨f1, f2, f3, f4⟩ := free_step_facts m p0 p1 _ _ pool1 hfree
  refine ⟨_, fun k => SafeFreeLoop_free k m p0 p1 pool1 hinv hfree,
    SweepInv_free m kept p0 p1 rem _ _ pool1 hI h0 hfree, f1, ?_, ?_, f3, f4⟩
  · intro y hy1 hy0
    rw [f2 y, if_neg hy0, if_neg hy1]
  · intro y hy1
    rw [f2 y]
    by_cases hy0 : m.slot y = m.slot p0
    · rw [if_pos hy0, h0, item_eq_of_slot_eq m y p0 hy0]
    · rw [if_neg hy0, if_neg hy1]

end ShmMap

namespace ShmMap

open ShmPool

variable {K V : Type}

/-- The loop of `SafeFree` on a well-formed state with the garbage list
`kept ++ p0 :: rem`: it returns; every item of `rem` in state `WAITING_DELETE` is
unlinked and its slot returned to the pool, every item of `rem` in state
`COLLECTING` stays in the list, in state `WAITING_DELETE`; nothing else changes
its state or its flag. -/
theorem SafeFreeLoop_spec :
    ∀ (rem kept : List Nat) (p0 : Nat) (m : ShmHashMap K V),
      m.SweepInv (kept ++ p0 :: rem) →
      ∃ m1 : ShmHashMap K V, m1.WF ∧
        m1.GarbageWF (kept ++ p0 :: rem.filter (fun y => !(m.waiting y))) ∧
        (∀ y, (∀ z, z ∈ rem → m.slot y ≠ m.slot z) →
          (m1.item y).invalid = (m.item y).invalid ∧
          (m1.pool.nodes (m.slot y)).used = (m.pool.nodes (m.slot y)).used) ∧
        (∀ y, (∀ z, z ∈ kept ++ p0 :: rem → m.slot y ≠ m.slot z) → m1.item y = m.item y) ∧
        (∀ y, y ∈ rem → (m.item y).invalid = COLLECTING →
          (m1.item y).invalid = WAITING_DELETE ∧
          (m1.pool.nodes (m.slot y)).used = true) ∧
        (∀ y, y ∈ rem → (m.item y).invalid = WAITING_DELETE →
          (m1.pool.nodes (m.slot y)).used = false) ∧
        Computes (fun fuel =>
          ShmHashMap.SafeFreeLoop fuel m p0 (m.OffsetToNode (m.item p0).del_next))
          rem.length m1 := by
  intro rem
  induction rem with
  | nil =>
    intro kept p0 m hI
    have hlast := Chain_last_link m _ _ _ p0 hI.chain (by simp)
    have hlast1 : (m.item p0).del_next = OFFSET_NULL := hlast
    refine ⟨_, SweepInv_finish m kept p0 hI, ?_, fun y _ => ⟨rfl, rfl⟩, fun y _ => rfl,
      fun y hy => absurd hy (List.not_mem_nil _), fun y hy => absurd hy (List.not_mem_nil _), ?_⟩
    · simpa using SweepInv_finish_garbage m kept p0 hI
    · rw [hlast1, OffsetToNode_NULL]
      exact Computes_const _ _ _ rfl (fun _ => rfl)
  | cons p1 rem ih =>
    intro kept p0 m hI
    obtain ⟨e1, e2, _⟩ :=
      Chain_suffix m (fun it => it.del_next) p0 (p1 :: rem) kept _ hI.chain
    have e3 : (m.item p0).del_next = p1 := e1
    rw [e3, e2]
    have hp1in : p1 ∈ kept ++ p0 :: p1 :: rem := by simp
    have hu1 := (Chain_mem_used m _ _ _ hI.chain p1 hp1in).1
    have hnd1 : ∀ y, y ∈ (kept ++ [p0]) ++ rem → m.slot y ≠ m.slot p1 :=
      nodup_slot_ne m (kept ++ [p0]) p1 rem (by simpa using hI.nodup)
    have hnd0 : ∀ y, y ∈ kept ++ (p1 :: rem) → m.slot y ≠ m.slot p0 :=
      nodup_slot_ne m kept p0 (p1 :: rem) hI.nodup
    have hrem1 : ∀ y, y ∈ rem → m.slot y ≠ m.slot p1 :=
      fun y hy => hnd1 y (List.mem_append_right _ hy)
    have hrem0 : ∀ y, y ∈ rem → m.slot y ≠ m.slot p0 :=
      fun y hy => hnd0 y (List.mem_append_right _ (List.mem_cons_of_mem _ hy))
    rcases (hI.nodes p1 hp1in).2 with hinv | hinv
    · -- the item stays in the list
      obtain ⟨mA, s1, s2, s3, s4, s5, s6⟩ := advance_step m kept p0 p1 rem hI hinv
      obtain ⟨m1, k1, k2, k3, k4, k5, k6, k7⟩ := ih (kept ++ [p0]) p1 mA s2
      rw [s3] at k3 k4 k5 k6
      have hfil : rem.filter (fun y => !(mA.waiting y)) = rem.filter (fun y => !(m.waiting y)) := by
        apply List.filter_congr
        intro y hy
        unfold ShmHashMap.waiting
        rw [s4 y (hrem1 y hy)]
      have hw1 : (p1 :: rem).filter (fun y => !(m.waiting y))
          = p1 :: rem.filter (fun y => !(m.waiting y)) := by
        have hw : m.waiting p1 = false := by
          unfold ShmHashMap.waiting
          rw [hinv]
          decide
        simp [List.filter_cons, hw]
      refine ⟨m1, k1, ?_, ?_, ?_, ?_, ?_, Computes_step _ _ m1 _ rfl s1 k7⟩
      · rw [hw1, ← hfil]
        simpa using k2
      · intro y hy
        have hy1 := hy p1 (List.mem_cons_self _ _)
        obtain ⟨a, b⟩ := k3 y (fun z hz => hy z (List.mem_cons_of_mem _ hz))
        exact ⟨by rw [a, s4 y hy1], by rw [b, s6]⟩
      · intro y hy
        have hy1 := hy p1 hp1in
        rw [k4 y (fun z hz => hy z (by simpa using hz)), s4 y hy1]
      · intro y hy hc
        rcases List.mem_cons.mp hy with h | h
        · subst h
          obtain ⟨a, b⟩ := k3 y (fun z hz => (hrem1 z hz).symm)
          exact ⟨by rw [a, s5], by rw [b, s6, hu1]⟩
        · exact k5 y h (by rw [s4 y (hrem1 y h)]; exact hc)
      · intro y hy hc
        rcases List.mem_cons.mp hy with h | h
        · subst h
          rw [hinv] at hc
          exact absurd hc (by decide)
        · exact k6 y h (by rw [s4 y (hrem1 y h)]; exact hc)
    · -- the item is unlinked and freed
      obtain ⟨m3, s1, s2, s3, s4, s5, s6, s7⟩ := free_step m kept p0 p1 rem hI hinv
      obtain ⟨m1, k1, k2, k3, k4, k5, k6, k7⟩ := ih kept p0 m3 s2
      rw [s3] at k3 k4 k5 k6
      have hfil : rem.filter (fun y => !(m3.waiting y)) = rem.filter (fun y => !(m.waiting y)) := by
        apply List.filter_congr
        intro y hy
        unfold ShmHashMap.waiting
        rw [s4 y (hrem1 y hy) (hrem0 y hy)]
      have hw1 : (p1 :: rem).filter (fun y => !(m.waiting y))
          = rem.filter (fun y => !(m.waiting y)) := by
        have hw : m.waiting p1 = true := by
          unfold ShmHashMap.waiting
          rw [hinv]
          decide
        simp [List.filter_cons, hw]
      refine ⟨m1, k1, ?_, ?_, ?_, ?_, ?_, Computes_step _ _ m1 _ rfl s1 k7⟩
      · rw [hw1, ← hfil]
        exact k2
      · intro y hy
        have hy1 := hy p1 (List.mem_cons_self _ _)
        obtain ⟨a, b⟩ := k3 y (fun z hz => hy z (List.mem_cons_of_mem _ hz))
        exact ⟨by rw [a, s5 y hy1], by rw [b, s6 _ hy1]⟩
      · intro y hy
        have hy1 := hy p1 hp1in
        have hy0 := hy p0 (by simp)
        rw [k4 y (fun z hz => hy z (by
          simp only [List.mem_append, List.mem_cons] at hz ⊢
          tauto)), s4 y hy1 hy0]
      · intro y hy hc
        rcases List.mem_cons.mp hy with h | h
        · subst h
          rw [hinv] at hc
          exact absurd hc (by decide)
        · exact k5 y h (by rw [s4 y (hrem1 y h) (hrem0 y h)]; exact hc)
      · intro y hy hc
        rcases List.mem_cons.mp hy with h | h
        · subst h
          obtain ⟨_, b⟩ := k3 y (fun z hz => (hrem1 z hz).symm)
          rw [b, s7]
        · exact k6 y h (by rw [s4 y (hrem1 y h) (hrem0 y h)]; exact hc)

end ShmMap

namespace ShmMap

open ShmPool

variable {K V : Type}

theorem GarbageWF_length_le (m : ShmHashMap K V) (g : List Nat) (h : m.GarbageWF g) :
    g.length ≤ m.pool.node_size := by
  have := length_le_of_nodup_lt _ m.pool.node_size h.nodup (by
    intro s hs
    obtain ⟨x, hx, he⟩ := List.mem_map.mp hs
    subst he
    exact (h.nodes x hx).1)
  simpa using this

theorem sweepKeep_cons (w : Nat → Bool) (h : Nat) (t : List Nat) :
    sweepKeep w (h :: t) = h :: t.filter (fun y => !(w y)) := rfl

/-- `SafeFree` on a well-formed state with garbage list `g`: it returns, keeps
every chain and every chained item, leaves the garbage list `sweepKeep g`, keeps
every `COLLECTING` item of `g` allocated and frees the `WAITING_DELETE` items
behind the head. -/
theorem SafeFree_spec (m : ShmHashMap K V) (g : List Nat) (hm : m.WF) (hg : m.GarbageWF g) :
    ∃ m1 : ShmHashMap K V, m1.WF ∧ m1.GarbageWF (sweepKeep m.waiting g) ∧
      (∀ b lb, m.BucketWF b lb → m1.BucketWF b lb) ∧
      (∀ b lb x, m.BucketWF b lb → x ∈ lb → m1.item x = m.item x) ∧
      (∀ y, y ∈ g → (m.item y).invalid = COLLECTING →
        (m1.pool.nodes (m.slot y)).used = true ∧
        ((m1.item y).invalid = COLLECTING ∨ (m1.item y).invalid = WAITING_DELETE) ∧
        y ∈ sweepKeep m.waiting g) ∧
      (∀ y, y ∈ g.tail → (m.item y).invalid = WAITING_DELETE →
        (m1.pool.nodes (m.slot y)).used = false) ∧
      m.Frame m1 ∧ m.SweepKeeps m1 ∧
      Computes (fun fuel => ShmHashMap.SafeFree fuel m) g.length m1 := by
  cases g with
  | nil =>
    have hh : m.garbage_list_head_offset = OFFSET_NULL := hg.chain
    refine ⟨m, hm, hg, fun _ _ h => h, fun _ _ _ _ _ => rfl,
      fun y hy => absurd hy (List.not_mem_nil _), fun y hy => absurd hy (List.not_mem_nil _),
      Frame_refl m, SweepKeeps_refl m, ?_⟩
    intro fuel
    have hres : ShmHashMap.SafeFree fuel m = some m := by
      unfold ShmHashMap.SafeFree
      rw [hh, OffsetToNode_NULL]
    show (_ < fuel → ShmHashMap.SafeFree fuel m = some m) ∧
      ∀ r1, ShmHashMap.SafeFree fuel m = some r1 → r1 = m
    rw [hres]
    exact ⟨fun _ => rfl, fun r1 h1 => (Option.some.inj h1).symm⟩
  | cons h t =>
    obtain ⟨e1, e2, _⟩ := hg.chain
    have hI := SweepInv_of_WF m _ hm hg
    obtain ⟨m1, k1, k2, k3, k4, k5, k6, k7⟩ := SafeFreeLoop_spec t [] h m hI
    have hfun : (fun fuel => ShmHashMap.SafeFree fuel m)
        = (fun fuel => ShmHashMap.SafeFreeLoop fuel m h (m.OffsetToNode (m.item h).del_next)) := by
      funext fuel
      unfold ShmHashMap.SafeFree
      rw [e1, e2]
    have hC : Computes (fun fuel => ShmHashMap.SafeFree fuel m) (h :: t).length m1 := by
      rw [hfun]
      exact Computes_mono _ _ _ _ (by simp) k7
    obtain ⟨hF, hS⟩ := SafeFree_Frame _ m m1 ((hC _).1 (Nat.lt_succ_self _))
    have hht : ∀ z, z ∈ t → m.slot h ≠ m.slot z := fun z hz =>
      (nodup_slot_ne m [] h t hg.nodup z hz).symm
    have hhu := (Chain_mem_used m _ _ _ hg.chain h (List.mem_cons_self _ _)).1
    refine ⟨m1, k1, by simpa [sweepKeep_cons] using k2, ?_, ?_, ?_, ?_, hF, hS, hC⟩
    · intro b lb hlb
      refine BucketWF_congr m m1 b lb hF.NodeSize_eq hF.node_size_eq hF.bucket_size_eq
        hF.hash_eq (by rw [hS.buckets_eq]) ?_ hlb
      intro x hx
      have hout : ∀ z, z ∈ [] ++ h :: t → m.slot x ≠ m.slot z := fun z hz =>
        SweepInv_slot_ne m b lb _ hlb hI x z hx hz
      have hi := k4 x hout
      refine ⟨(k3 x (fun z hz => hout z (by simp [hz]))).2, ?_, ?_, ?_, ?_⟩ <;> rw [hi]
    · intro b lb x hlb hx
      exact k4 x (fun z hz => SweepInv_slot_ne m b lb _ hlb hI x z hx hz)
    · intro y hy hc
      rcases List.mem_cons.mp hy with hyh | hyt
      · subst hyh
        obtain ⟨a, b⟩ := k3 y hht
        exact ⟨by rw [b]; exact hhu, Or.inl (by rw [a]; exact hc), List.mem_cons_self _ _⟩
      · obtain ⟨a, b⟩ := k5 y hyt hc
        refine ⟨b, Or.inr a, ?_⟩
        rw [sweepKeep_cons]
        refine List.mem_cons_of_mem _ (List.mem_filter.mpr ⟨hyt, ?_⟩)
        unfold ShmHashMap.waiting
        rw [hc]
        decide
    · intro y hy hc
      exact k6 y hy hc

end ShmMap

namespace ShmMap

open ShmPool

variable {K V : Type}

theorem sweepKeep_append (w w1 : Nat → Bool) (g rm : List Nat)
    (h1 : ∀ x, x ∈ rm → w1 x = false) (h2 : ∀ y, y ∈ g → w1 y = w y) :
    sweepKeep w1 (g ++ rm) = sweepKeep w g ++ rm := by
  have hrm : ∀ r : List Nat, (∀ x, x ∈ r → w1 x = false) → r.filter (fun y => !(w1 y)) = r := by
    intro r hr
    rw [List.filter_eq_self]
    intro x hx
    rw [hr x hx]
    rfl
  cases g with
  | nil =>
    cases rm with
    | nil => rfl
    | cons a r =>
      rw [List.nil_append, sweepKeep_cons, hrm r (fun x hx => h1 x (List.mem_cons_of_mem _ hx))]
      rfl
  | cons h t =>
    rw [List.cons_append, sweepKeep_cons, sweepKeep_cons, List.filter_append, hrm rm h1,
      List.cons_append]
    congr 2
    apply List.filter_congr
    intro y hy
    rw [h2 y (List.mem_cons_of_mem _ hy)]

theorem item_field_of_nodes (m m1 : ShmHashMap K V) (hS : m1.pool.NodeSize = m.pool.NodeSize)
    (x : Nat) :
    m1.item x = (m1.pool.nodes (m.slot x)).data ∧ m.item x = (m.pool.nodes (m.slot x)).data := by
  constructor
  · rw [item_eq_nodes, slot_eq_of_NodeSize m m1 hS]
  · rw [item_eq_nodes]

/-- A sweep on a well-formed state: `GC` at a time that passes the gate returns;
it stores the time, leaves of every chain `l` the chain `scanKeep l` with the
items on it unchanged in key, value, expiry and state, moves the items of
`scanDrop l` to the end of the garbage list, keeps them allocated, and frees the
`WAITING_DELETE` items behind the head of the old garbage list. -/
theorem GC_spec (m : ShmHashMap K V) (g : List Nat) (now : Int) (hm : m.WF)
    (hg : m.GarbageWF g)
    (hgate : (((m.gc_timestamp + 2) % 4294967296 : Nat) : Int) < now) :
    ∃ (m2 : ShmHashMap K V) (rm : List Nat), m2.WF ∧
      m2.gc_timestamp = (now % 4294967296).toNat ∧
      (∀ b l, b < m.bucket_size → m.BucketWF b l →
        m2.BucketWF b (scanKeep (m.expired now) l)) ∧
      (∀ x, (m2.item x).key = (m.item x).key ∧ (m2.item x).value = (m.item x).value ∧
        (m2.item x).expire = (m.item x).expire) ∧
      m2.GarbageWF (sweepKeep m.waiting g ++ rm) ∧
      (∀ x, x ∈ rm ↔
        ∃ b l, b < m.bucket_size ∧ m.BucketWF b l ∧ x ∈ scanDrop (m.expired now) l) ∧
      (∀ x, x ∈ rm → (m2.pool.nodes (m.slot x)).used = true ∧
        ((m2.item x).invalid = COLLECTING ∨ (m2.item x).invalid = WAITING_DELETE)) ∧
      (∀ y, y ∈ g.tail → (m.item y).invalid = WAITING_DELETE →
        (m2.pool.nodes (m.slot y)).used = false) ∧
      Computes (fun fuel => m.GC fuel now) m.pool.node_size m2 := by
  have hm0 := WF_gc_timestamp m (now % 4294967296).toNat hm
  have hg0 : ShmHashMap.GarbageWF
      ({ m with gc_timestamp := (now % 4294967296).toNat } : ShmHashMap K V) g :=
    GarbageWF_congr m ({ m with gc_timestamp := (now % 4294967296).toNat } : ShmHashMap K V)
      g rfl rfl rfl rfl (fun x _ => ⟨rfl, rfl, rfl⟩) hg
  have hb0 : ∀ b l, m.BucketWF b l → ShmHashMap.BucketWF
      ({ m with gc_timestamp := (now % 4294967296).toNat } : ShmHashMap K V) b l :=
    fun b l hl => BucketWF_congr m
      ({ m with gc_timestamp := (now % 4294967296).toNat } : ShmHashMap K V) b l
      rfl rfl rfl rfl rfl (fun x _ => ⟨rfl, rfl, rfl, rfl, rfl⟩) hl
  have hb0' : ∀ b l, ShmHashMap.BucketWF
      ({ m with gc_timestamp := (now % 4294967296).toNat } : ShmHashMap K V) b l →
      m.BucketWF b l :=
    fun b l hl => BucketWF_congr
      ({ m with gc_timestamp := (now % 4294967296).toNat } : ShmHashMap K V) m b l
      rfl rfl rfl rfl rfl (fun x _ => ⟨rfl, rfl, rfl, rfl, rfl⟩) hl
  obtain ⟨m1, rm, a1, a2, a3, a4, a5, a6, a7, a8⟩ := Scan_spec now _ g hm0 hg0
  obtain ⟨m2, b1, b2, b3, _, b5, b6, b7, b8, b9⟩ := SafeFree_spec m1 (g ++ rm) a1 a2
  have hF := Frame_trans _ _ _ a6 b7
  have hS1 : m1.pool.NodeSize = m.pool.NodeSize := a6.NodeSize_eq
  have hslot1 : m1.slot = m.slot := funext (slot_eq_of_NodeSize m m1 hS1)
  have hinvg : ∀ y, y ∈ g → (m1.item y).invalid = (m.item y).invalid := by
    intro y hy
    obtain ⟨e1, e0⟩ := item_field_of_nodes m m1 hS1 y
    rcases a7.invalid_step (m.slot y) with h | ⟨h, _⟩
    · rw [e1, e0]
      exact h
    · have h0 : (m.item y).invalid = VALID := by rw [e0]; exact h
      rcases (hg.nodes y hy).2 with h1 | h1 <;> rw [h0] at h1 <;> exact absurd h1 (by decide)
  have hkeep : sweepKeep m1.waiting (g ++ rm) = sweepKeep m.waiting g ++ rm := by
    apply sweepKeep_append
    · intro x hx
      unfold ShmHashMap.waiting
      rw [a5 x hx]
      decide
    · intro y hy
      unfold ShmHashMap.waiting
      rw [hinvg y hy]
  refine ⟨m2, rm, b1, ?_, ?_, ?_, ?_, ?_, ?_, ?_, ?_⟩
  · exact hF.gc_eq
  · intro b l hb hl
    exact b3 b _ (a3 b l hb (hb0 b l hl))
  · intro x
    obtain ⟨e1, e0⟩ := item_field_of_nodes m m2 hF.NodeSize_eq x
    rw [e1, e0]
    exact ⟨hF.key_eq _, hF.value_eq _, hF.expire_eq _⟩
  · rw [← hkeep]
    exact b2
  · intro x
    rw [a4 x]
    constructor
    · rintro ⟨b, l, hb, hl, hx⟩
      exact ⟨b, l, hb, hb0' b l hl, hx⟩
    · rintro ⟨b, l, hb, hl, hx⟩
      exact ⟨b, l, hb, hb0 b l hl, hx⟩
  · intro x hx
    obtain ⟨c1, c2, _⟩ := b5 x (List.mem_append_right _ hx) (a5 x hx)
    rw [hslot1] at c1
    exact ⟨c1, c2⟩
  · intro y hy hc
    have hyg : y ∈ g := List.mem_of_mem_tail hy
    have hy1 : y ∈ (g ++ rm).tail := by
      cases g with
      | nil => simp at hy
      | cons h t =>
        simp only [List.tail_cons] at hy
        simp [hy]
    have := b6 y hy1 (by rw [hinvg y hyg]; exact hc)
    rw [hslot1] at this
    exact this
  · have hfun : (fun fuel => m.GC fuel now)
        = (fun fuel => (ShmHashMap.Scan fuel now
            ({ m with gc_timestamp := (now % 4294967296).toNat } : ShmHashMap K V)).bind
              (fun x => (fun y fuel => ShmHashMap.SafeFree fuel y) x fuel)) := by
      funext fuel
      unfold ShmHashMap.GC
      simp only [hgate, if_true]
      cases ShmHashMap.Scan fuel now
        ({ m with gc_timestamp := (now % 4294967296).toNat } : ShmHashMap K V) <;> rfl
    rw [hfun]
    refine Computes_bind _ _ m1 m2 _ a8 ?_
    have hle := GarbageWF_length_le m1 _ a2
    rw [a6.node_size_eq] at hle
    exact Computes_mono _ _ _ _ hle b9

end ShmMap

namespace ShmMap

open ShmPool

variable {K V : Type}

/-- C14 as stated fails at `now - last_gc_ts = BREAK_TIME`: with the timestamp `0`
and an item that expired at time `1`, `GC` at time `2` changes nothing (the
timestamp stays `0`, the item stays on its chain, the garbage list stays empty),
while `GC` at time `3` stores the time, unlinks the item and enlists it; the same
on the `SinHashMap` with the item at address `100`.  It fails as well when the sum
`last_gc_ts + BREAK_TIME` wraps in `uint32_t`: with the timestamp `4294967295`, `GC`
at time `3` sweeps on both maps, although `now - last_gc_ts` is below
`BREAK_TIME`. -/
theorem GC_skips_at_break_time :
    ((scenarioMap.Insert 5 7 7 1 0).bind (fun p => (p.2.GC 5 2).map (fun m1 =>
        [p.2.gc_timestamp, m1.gc_timestamp, (m1.buckets 3).count,
          m1.garbage_list_head_offset])))
      = some [0, 0, 1, OFFSET_NULL] ∧
    ((scenarioMap.Insert 5 7 7 1 0).bind (fun p => (p.2.GC 5 3).map (fun m1 =>
        [p.2.gc_timestamp, m1.gc_timestamp, (m1.buckets 3).count,
          m1.garbage_list_head_offset])))
      = some [0, 3, 0, 8] ∧
    (((SinMap.SinHashMap.construct (fun k => k) 4 0 : SinMap.SinHashMap Nat Nat).Insert
        5 100 7 7 1 0).bind (fun s => (s.GC 5 2).map (fun s1 =>
          (s.gc_timestamp, s1.gc_timestamp, (s1.buckets 3).count, s1.garbage_list_head))))
      = some (0, 0, 1, 0) ∧
    (((SinMap.SinHashMap.construct (fun k => k) 4 0 : SinMap.SinHashMap Nat Nat).Insert
        5 100 7 7 1 0).bind (fun s => (s.GC 5 3).map (fun s1 =>
          (s.gc_timestamp, s1.gc_timestamp, (s1.buckets 3).count, s1.garbage_list_head))))
      = some (0, 3, 0, 100) ∧
    (((ShmHashMap.construct (fun k => k)
        (MemoryPool.construct 16 40 8
          { next := 0, key := 0, value := 0, expire := 0, invalid := 0, del_next := 0 })
        4 4294967295 : ShmHashMap Nat Nat).Insert 5 7 7 1 0).bind
      (fun p => (p.2.GC 5 3).map (fun m1 =>
        [p.2.gc_timestamp, m1.gc_timestamp, (m1.buckets 3).count,
          m1.garbage_list_head_offset])))
      = some [4294967295, 3, 0, 8] ∧
    (((SinMap.SinHashMap.construct (fun k => k) 4 4294967295 :
        SinMap.SinHashMap Nat Nat).Insert 5 100 7 7 1 0).bind (fun s => (s.GC 5 3).map
          (fun s1 =>
            (s.gc_timestamp, s1.gc_timestamp, (s1.buckets 3).count, s1.garbage_list_head))))
      = some (4294967295, 3, 0, 100) := by
  refine ⟨?_, ?_, ?_, ?_, ?_, ?_⟩ <;> decide

/-- C14 (amended): `GC` at time `now` with the stored timestamp `last` changes
nothing when the test `(last + 2) mod 2^32 < now` fails (the sum is taken in
`uint32_t`), and otherwise, on a well-formed state and with enough fuel, returns
the result of `SafeFree` on the result of `Scan` on the state with the timestamp
`now`, and that result carries the timestamp `now` (as a `uint32_t`).  While
`last + 2` is in the range of `uint32_t` the test is `now - last > 2`; for the two
timestamps `2^32 - 2` and `2^32 - 1` the sum wraps and the test is
`last + 2 - 2^32 < now`.  A time in the range of `uint32_t` is stored as it is.
`GC` of the `SinHashMap` has the same gate: it changes nothing when the test fails,
and otherwise is `SafeFree` after `Scan` on the state with the timestamp `now`. -/
theorem GC_gate (m : ShmHashMap K V) (s : SinMap.SinHashMap K V) (now : Int) :
    (¬ ((((m.gc_timestamp + 2) % 4294967296 : Nat) : Int) < now) →
      ∀ fuel, m.GC fuel now = some m) ∧
    ((((m.gc_timestamp + 2) % 4294967296 : Nat) : Int) < now → m.WF →
      ∀ fuel, m.pool.node_size < fuel →
        ∃ m1 m2 : ShmHashMap K V,
          ShmHashMap.Scan fuel now
            ({ m with gc_timestamp := (now % 4294967296).toNat } : ShmHashMap K V) = some m1 ∧
          ShmHashMap.SafeFree fuel m1 = some m2 ∧ m.GC fuel now = some m2 ∧
          m2.gc_timestamp = (now % 4294967296).toNat) ∧
    (m.gc_timestamp + 2 < 4294967296 →
      (((((m.gc_timestamp + 2) % 4294967296 : Nat) : Int) < now ↔
        2 < now - (m.gc_timestamp : Int)))) ∧
    (m.gc_timestamp < 4294967296 → 4294967296 ≤ m.gc_timestamp + 2 →
      (((((m.gc_timestamp + 2) % 4294967296 : Nat) : Int) < now ↔
        (m.gc_timestamp : Int) + 2 - 4294967296 < now))) ∧
    (0 ≤ now → now < 4294967296 → (((now % 4294967296).toNat : Nat) : Int) = now) ∧
    (¬ ((((s.gc_timestamp + 2) % 4294967296 : Nat) : Int) < now) →
      ∀ fuel, s.GC fuel now = some s) ∧
    ((((s.gc_timestamp + 2) % 4294967296 : Nat) : Int) < now →
      ∀ fuel, s.GC fuel now
        = (SinMap.SinHashMap.Scan fuel now
            ({ s with gc_timestamp := (now % 4294967296).toNat } : SinMap.SinHashMap K V)).bind
          (SinMap.SinHashMap.SafeFree fuel)) := by
  refine ⟨?_, ?_, ?_, ?_, ?_, ?_, ?_⟩
  · intro hgate fuel
    unfold ShmHashMap.GC
    simp only [hgate, if_false]
  · intro hgate hm fuel hf
    obtain ⟨g, hg⟩ := hm.garbage
    have hm0 := WF_gc_timestamp m (now % 4294967296).toNat hm
    have hg0 : ShmHashMap.GarbageWF
        ({ m with gc_timestamp := (now % 4294967296).toNat } : ShmHashMap K V) g :=
      GarbageWF_congr m
        ({ m with gc_timestamp := (now % 4294967296).toNat } : ShmHashMap K V)
        g rfl rfl rfl rfl (fun x _ => ⟨rfl, rfl, rfl⟩) hg
    obtain ⟨m1, rm, a1, a2, _, _, _, a6, _, a8⟩ := Scan_spec now _ g hm0 hg0
    obtain ⟨m2, _, _, _, _, _, _, b7, _, b9⟩ := SafeFree_spec m1 (g ++ rm) a1 a2
    have h1 := (a8 fuel).1 hf
    have hle := GarbageWF_length_le m1 _ a2
    rw [a6.node_size_eq] at hle
    have h2 := (b9 fuel).1 (Nat.lt_of_le_of_lt hle hf)
    have h1' : ShmHashMap.Scan fuel now
        ({ m with gc_timestamp := (now % 4294967296).toNat } : ShmHashMap K V) = some m1 := h1
    have h2' : ShmHashMap.SafeFree fuel m1 = some m2 := h2
    refine ⟨m1, m2, h1', h2', ?_, (Frame_trans _ _ _ a6 b7).gc_eq⟩
    unfold ShmHashMap.GC
    simp only [hgate, if_true, h1', h2']
  · intro h1
    rw [Nat.mod_eq_of_lt h1]
    push_cast
    constructor <;> intro h <;> omega
  · intro h1 h2
    have e : (m.gc_timestamp + 2) % 4294967296 = m.gc_timestamp + 2 - 4294967296 := by
      omega
    rw [e]
    constructor <;> intro h <;> omega
  · intro h2 h3
    rw [Int.emod_eq_of_lt h2 h3]
    exact Int.toNat_of_nonneg h2
  · intro hgate fuel
    unfold SinMap.SinHashMap.GC
    rw [if_neg hgate]
  · intro hgate fuel
    unfold SinMap.SinHashMap.GC
    rw [if_pos hgate]

theorem GC_gate_witness :
    scenarioMap.GC 5 2 = some scenarioMap ∧
    (∃ m1 m2 : ShmHashMap Nat Nat,
      ShmHashMap.Scan 19 3
        ({ scenarioMap with gc_timestamp := ((3 : Int) % 4294967296).toNat }
          : ShmHashMap Nat Nat) = some m1 ∧
      ShmHashMap.SafeFree 19 m1 = some m2 ∧ scenarioMap.GC 19 3 = some m2 ∧
      m2.gc_timestamp = ((3 : Int) % 4294967296).toNat) ∧
    (((((scenarioMap.gc_timestamp + 2) % 4294967296 : Nat) : Int) < 3 ↔
        2 < (3 : Int) - (scenarioMap.gc_timestamp : Int))) ∧
    ((((3 : Int) % 4294967296).toNat : Nat) : Int) = 3 ∧
    (SinMap.SinHashMap.construct (fun k => k) 4 0 : SinMap.SinHashMap Nat Nat).GC 5 2
      = some (SinMap.SinHashMap.construct (fun k => k) 4 0) ∧
    (SinMap.SinHashMap.construct (fun k => k) 4 0 : SinMap.SinHashMap Nat Nat).GC 5 3
      = (SinMap.SinHashMap.Scan 5 3
          ({ (SinMap.SinHashMap.construct (fun k => k) 4 0 : SinMap.SinHashMap Nat Nat) with
              gc_timestamp := ((3 : Int) % 4294967296).toNat }
            : SinMap.SinHashMap Nat Nat)).bind (SinMap.SinHashMap.SafeFree 5) :=
  ⟨(GC_gate scenarioMap (SinMap.SinHashMap.construct (fun k => k) 4 0) 2).1 (by decide) 5,
    (GC_gate scenarioMap (SinMap.SinHashMap.construct (fun k => k) 4 0) 3).2.1 (by decide)
      WF_scenarioMap 19 (by decide),
    (GC_gate scenarioMap (SinMap.SinHashMap.construct (fun k => k) 4 0) 3).2.2.1
      (by decide),
    (GC_gate scenarioMap (SinMap.SinHashMap.construct (fun k => k) 4 0) 3).2.2.2.2.1
      (by decide) (by decide),
    (GC_gate scenarioMap (SinMap.SinHashMap.construct (fun k => k) 4 0) 2).2.2.2.2.2.1
      (by decide) 5,
    (GC_gate scenarioMap (SinMap.SinHashMap.construct (fun k => k) 4 0) 3).2.2.2.2.2.2
      (by decide) 5⟩

end ShmMap

namespace ShmMap

open ShmPool

variable {K V : Type}

/-- On a well-formed state `GC` returns when it is given enough fuel. -/
theorem GC_total (m : ShmHashMap K V) (now : Int) (fuel : Nat) (hm : m.WF)
    (hf : m.pool.node_size < fuel) : ∃ m2, m.GC fuel now = some m2 := by
  by_cases hgate : (((m.gc_timestamp + 2) % 4294967296 : Nat) : Int) < now
  · obtain ⟨g, hg⟩ := hm.garbage
    obtain ⟨m2, rm, _, _, _, _, _, _, _, _, hC⟩ := GC_spec m g now hm hg hgate
    exact ⟨m2, (hC fuel).1 hf⟩
  · exact ⟨m, by unfold ShmHashMap.GC; simp only [hgate, if_false]⟩

/-- What a call of `GC` does to the chain `l` of a bucket of a well-formed state:
the chain that remains consists of items of `l` in their order and holds every
item that is not expired at the time of the call. -/
theorem GC_chain (m m2 : ShmHashMap K V) (now : Int) (fuel : Nat) (b : Nat) (l : List Nat)
    (hm : m.WF) (hb : b < m.bucket_size) (hl : m.BucketWF b l)
    (h : m.GC fuel now = some m2) :
    m2.WF ∧ ∃ l2, m2.BucketWF b l2 ∧ l2.Sublist l ∧
      (∀ y, y ∈ l → m.expired now y = false → y ∈ l2) ∧
      (∀ y, y ∈ l → y ∉ l2 →
        (((m.gc_timestamp + 2) % 4294967296 : Nat) : Int) < now ∧
        m2.gc_timestamp = (now % 4294967296).toNat ∧
        (m2.pool.nodes (m.slot y)).used = true ∧
        ((m2.item y).invalid = COLLECTING ∨ (m2.item y).invalid = WAITING_DELETE) ∧
        ∃ g2, m2.GarbageWF g2 ∧ y ∈ g2) := by
  by_cases hgate : (((m.gc_timestamp + 2) % 4294967296 : Nat) : Int) < now
  · obtain ⟨g, hg⟩ := hm.garbage
    obtain ⟨m3, rm, a1, a2, a3, _, a5, a6, a7, _, hC⟩ := GC_spec m g now hm hg hgate
    have := (hC fuel).2 m2 h
    subst this
    refine ⟨a1, _, a3 b l hb hl, scanKeep_sublist _ l,
      fun y hy he => mem_scanKeep_of_live _ l y hy he, ?_⟩
    intro y hy hny
    have hd : y ∈ scanDrop (m.expired now) l := by
      rcases mem_scanKeep_or_Drop (m.expired now) l y hy with h1 | h1
      · exact absurd h1 hny
      · exact h1
    have hrm : y ∈ rm := (a6 y).mpr ⟨b, l, hb, hl, hd⟩
    obtain ⟨c1, c2⟩ := a7 y hrm
    exact ⟨hgate, a2, c1, c2, _, a5, List.mem_append_right _ hrm⟩
  · have h0 : m.GC fuel now = some m := by
      unfold ShmHashMap.GC
      simp only [hgate, if_false]
    rw [h0] at h
    cases h
    exact ⟨hm, l, hl, List.Sublist.refl l, fun y hy _ => hy, fun y hy hny => absurd hy hny⟩

end ShmMap

namespace ShmMap

open ShmPool

variable {K V : Type}

theorem find?_sublist {α : Type} (p : α → Bool) (x : α) :
    ∀ (l2 l : List α), l2.Sublist l → l.Nodup → l.find? p = some x → x ∈ l2 →
      l2.find? p = some x := by
  intro l2 l hs
  induction hs with
  | slnil => intro _ h _; exact h
  | cons a hs ih =>
    rename_i l2 l
    intro hnd hf hx
    rw [List.nodup_cons] at hnd
    rw [List.find?_cons] at hf
    cases hpa : p a with
    | true =>
      rw [hpa] at hf
      have : a = x := Option.some.inj hf
      subst this
      exact absurd (hs.subset hx) hnd.1
    | false =>
      rw [hpa] at hf
      exact ih hnd.2 hf hx
  | cons₂ a hs ih =>
    rename_i l2 l
    intro hnd hf hx
    rw [List.nodup_cons] at hnd
    rw [List.find?_cons] at hf ⊢
    cases hpa : p a with
    | true =>
      rw [hpa] at hf
      exact hf
    | false =>
      rw [hpa] at hf
      simp only
      rcases List.mem_cons.mp hx with h | h
      · subst h
        have := List.find?_some hf
        rw [hpa] at this
        cases this
      · exact ih hnd.2 hf h

theorem item_kv_of_GC (m m2 : ShmHashMap K V) (now : Int) (fuel : Nat)
    (h : m.GC fuel now = some m2) (y : Nat) :
    (m2.item y).key = (m.item y).key ∧ (m2.item y).value = (m.item y).value ∧
      (m2.item y).expire = (m.item y).expire := by
  obtain ⟨_, _, hS, _, _, _, _, k1, k2, k3, _⟩ := GC_Frame fuel m m2 now h
  obtain ⟨e1, e0⟩ := item_field_of_nodes m m2 hS y
  rw [e1, e0]
  exact ⟨k1 _, k2 _, k3 _⟩

variable [DecidableEq K]

/-- Any number of sweeps keep an item that never expires on its chain, and keep it
the first item of the chain with its key when it was so. -/
theorem sweeps_keep (b x fuel : Nat) (k : K) :
    ∀ (times : List Int) (m : ShmHashMap K V) (l : List Nat), m.WF → b < m.bucket_size →
      m.BucketWF b l → x ∈ l → (m.item x).expire = 0 → m.pool.node_size < fuel →
      ∃ (m1 : ShmHashMap K V) (l1 : List Nat), m.sweeps fuel times = some m1 ∧ m1.WF ∧
        m1.bucket_size = m.bucket_size ∧ m1.HashCode = m.HashCode ∧
        m1.pool.node_size = m.pool.node_size ∧ m1.BucketWF b l1 ∧ x ∈ l1 ∧
        (m1.item x).key = (m.item x).key ∧ (m1.item x).value = (m.item x).value ∧
        (m1.item x).expire = 0 ∧
        (l.find? (fun y => decide ((m.item y).key = k)) = some x →
          l1.find? (fun y => decide ((m1.item y).key = k)) = some x) := by
  intro times
  induction times with
  | nil =>
    intro m l hm _ hl hx he _
    exact ⟨m, l, rfl, hm, rfl, rfl, rfl, hl, hx, rfl, rfl, he, fun h => h⟩
  | cons now times ih =>
    intro m l hm hb hl hx he hf
    obtain ⟨m2, h2⟩ := GC_total m now fuel hm hf
    obtain ⟨hm2, l2, hl2, hsub, hlive, _⟩ := GC_chain m m2 now fuel b l hm hb hl h2
    obtain ⟨f1, f2, _, f4, _⟩ := GC_Frame fuel m m2 now h2
    have hkv := item_kv_of_GC m m2 now fuel h2
    have hx2 : x ∈ l2 := hlive x hx (isExpired_of_expire_zero _ now he)
    have he2 : (m2.item x).expire = 0 := by rw [(hkv x).2.2]; exact he
    obtain ⟨m1, l1, k1, k2, k3, k4, k5, k6, k7, k8, k9, k10, k11⟩ :=
      ih m2 l2 hm2 (by rw [f1]; exact hb) hl2 hx2 he2 (by rw [f4]; exact hf)
    refine ⟨m1, l1, ?_, k2, k3.trans f1, k4.trans f2, k5.trans f4, k6, k7,
      k8.trans (hkv x).1, k9.trans (hkv x).2.1, k10, ?_⟩
    · unfold ShmHashMap.sweeps
      simp only [List.foldlM_cons, h2]
      exact k1
    · intro hfind
      apply k11
      have hnd : l.Nodup := List.Nodup.of_map _ hl.nodup
      have := find?_sublist (fun y => decide ((m.item y).key = k)) x l2 l hsub hnd hfind hx2
      rw [← this]
      apply find?_congr_mem
      intro y _
      rw [(hkv y).1]

end ShmMap

namespace ShmMap

open ShmPool

variable {K V : Type} [DecidableEq K]

/-- C15: in a state reached from a fresh map by sequential `Insert`, `Get` and `GC`
calls, an item `x` on the chain of a bucket whose `_expire` is `0` is, after any
sequence of `GC` calls at any times (which all return), still on the chain of that
bucket and on no garbage list, still `VALID`, with its key, value and `_expire`
unchanged; and when `GetNode` found `x` for its key before the sweeps, `Get` for
that key returns `RET_OK` with the value of `x` at every time after them. -/
theorem never_expiring_kept (HashCode : K → Nat) (N S D : Nat) (zero : ItemNode K V)
    (bucket_size gc_timestamp : Nat) (hN : N + 2 < 4294967296) (hD1 : 1 < D) (hD2 : D < S)
    (m : ShmHashMap K V)
    (hreach : ShmHashMap.Reachable
      (ShmHashMap.construct HashCode (MemoryPool.construct N S D zero) bucket_size
        gc_timestamp) m)
    (b : Nat) (l : List Nat) (x : Nat) (hb : b < m.bucket_size)
    (hl : m.Chain (fun it => it.next) (m.buckets b).head l) (hx : x ∈ l)
    (he : (m.item x).expire = 0) (times : List Int) (fuel : Nat)
    (hf : m.pool.node_size < fuel) :
    ∃ (m1 : ShmHashMap K V) (l1 : List Nat), m.sweeps fuel times = some m1 ∧
      m1.Chain (fun it => it.next) (m1.buckets b).head l1 ∧ x ∈ l1 ∧
      (∀ g1, m1.Chain (fun it => it.del_next) m1.garbage_list_head_offset g1 → x ∉ g1) ∧
      (m.item x).invalid = VALID ∧ (m1.item x).invalid = VALID ∧
      (m1.item x).key = (m.item x).key ∧ (m1.item x).value = (m.item x).value ∧
      (m1.item x).expire = 0 ∧
      (∀ fuel0, m.GetNode fuel0 b (m.item x).key = some (some x) →
        ∀ t, m1.Get fuel (m.item x).key t = some (SinHashRet.RET_OK, some (m.item x).value)) := by
  have hm : m.WF :=
    Reachable_WF _ m (WF_construct HashCode N S D zero bucket_size gc_timestamp hN hD1 hD2)
      hreach
  obtain ⟨l0, hl0⟩ := hm.buckets b hb
  have hll : l = l0 := Chain_unique m _ l l0 _ hl hl0.chain
  subst hll
  obtain ⟨m1, l1, k1, k2, k3, k4, k5, k6, k7, k8, k9, k10, k11⟩ :=
    sweeps_keep b x fuel (m.item x).key times m l hm hb hl0 hx he hf
  refine ⟨m1, l1, k1, k6.chain, k7, ?_, (hl0.nodes x hx).2.1, (k6.nodes x k7).2.1, k8, k9, k10,
    ?_⟩
  · intro g1 hg1 hxg
    obtain ⟨g0, hg0⟩ := k2.garbage
    have hgg : g1 = g0 := Chain_unique m1 _ g1 g0 _ hg1 hg0.chain
    subst hgg
    exact BucketWF_GarbageWF_slot_ne m1 b l1 g1 k6 hg0 x x k7 hxg rfl
  · intro fuel0 hget t
    have hfind := (GetNode_bucket m b (m.item x).key l hl0 fuel0).1 _ hget
    have hfind1 := k11 hfind.symm
    have hidx : m1.HashCode (m.item x).key % m1.bucket_size = b := by
      rw [k4, k3]
      exact (hl0.nodes x hx).2.2.2
    have hlen : l1.length < fuel := by
      have := BucketWF_length_le m1 b l1 k6
      omega
    rw [Get_walk m1 (m.item x).key t l1 fuel
      (by rw [hidx]; exact Chain_IsWalk m1 _ _ k6.chain) hlen, hfind1]
    simp only [k10, ne_eq, not_true_eq_false, false_and, if_false, k9]

theorem never_expiring_kept_witness :
    ∃ m m1 : ShmHashMap Nat Nat, ShmHashMap.Reachable scenarioMap m ∧
      m.sweeps 19 [3, 6, 9] = some m1 ∧ (m1.item 8).invalid = VALID ∧
      m1.Get 19 7 100 = some (SinHashRet.RET_OK, some 7) := by
  have h1 : (scenarioMap.Insert 5 7 7 0 0).isSome = true := by decide
  obtain ⟨p, hp⟩ := Option.isSome_iff_exists.mp h1
  have h2 : ((scenarioMap.Insert 5 7 7 0 0).map (fun p =>
      [p.2.bucket_size, (p.2.buckets 3).head, (p.2.item 8).next, p.2.pool.node_size,
        (p.2.item 8).key, (p.2.item 8).value])) = some [4, 8, OFFSET_NULL, 18, 7, 7] := by
    decide
  have h3 : ((scenarioMap.Insert 5 7 7 0 0).map (fun p => (p.2.item 8).expire)) = some 0 := by
    decide
  have h4 : ((scenarioMap.Insert 5 7 7 0 0).map (fun p => p.2.OffsetToNode 8))
      = some (some 8) := by decide
  have h5 : ((scenarioMap.Insert 5 7 7 0 0).map (fun p => p.2.GetNode 5 3 7))
      = some (some (some 8)) := by decide
  rw [hp] at h2 h3 h4 h5
  simp only [Option.map_some', Option.some.injEq, List.cons.injEq, and_true] at h2 h3 h4 h5
  obtain ⟨k1, k2, k3, k4, k5, k6⟩ := h2
  have hreach : ShmHashMap.Reachable scenarioMap p.2 :=
    ShmHashMap.Reachable.insert scenarioMap p.2 5 7 7 0 0 p.1 ShmHashMap.Reachable.init hp
  obtain ⟨m1, l1, c1, _, _, _, _, c6, _, _, _, c10⟩ :=
    never_expiring_kept (fun k => k) 16 40 8
      { next := 0, key := 0, value := 0, expire := 0, invalid := 0, del_next := 0 } 4 0
      (by norm_num) (by norm_num) (by norm_num) p.2 hreach 3 [8] 8 (by rw [k1]; norm_num)
      ⟨k2, h4, k3⟩ (by simp) h3 [3, 6, 9] 19 (by rw [k4]; norm_num)
  have hget := c10 5 (by rw [k5]; exact h5) 100
  rw [k5, k6] at hget
  exact ⟨p.2, m1, hreach, c1, c6, hget⟩

end ShmMap
namespace ShmMap

open ShmPool

variable {K V : Type} [DecidableEq K]

/-- What `Insert` on a well-formed state does to the slots of the pool: a slot
keeps its flag, key and value, or the call returns `RET_OK` and the slot is in use
and holds the key and value of the call. -/
theorem Insert_nodes (m m1 : ShmHashMap K V) (key : K) (value : V) (expire now : Int)
    (fuel : Nat) (r : SinHashRet) (hm : m.WF)
    (h : m.Insert fuel key value expire now = some (r, m1)) :
    m1.pool.NodeSize = m.pool.NodeSize ∧
    ∀ s, ((m1.pool.nodes s).used = (m.pool.nodes s).used ∧
        (m1.pool.nodes s).data.key = (m.pool.nodes s).data.key ∧
        (m1.pool.nodes s).data.value = (m.pool.nodes s).data.value) ∨
      (r = SinHashRet.RET_OK ∧ (m1.pool.nodes s).used = true ∧
        (m1.pool.nodes s).data.key = key ∧ (m1.pool.nodes s).data.value = value) := by
  have hi : m.HashCode key % m.bucket_size < m.bucket_size := Nat.mod_lt _ hm.bucket_pos
  obtain ⟨l, hl⟩ := hm.buckets _ hi
  have hf : m.GetNode fuel (m.HashCode key % m.bucket_size) key ≠ none := by
    intro h0
    simp [ShmHashMap.Insert, h0] at h
  obtain ⟨c1, c2, c3⟩ := Insert_cases m key value expire now l hl fuel hf
  have hadd : m.Insert fuel key value expire now
      = some (m.AddNodeItem (m.HashCode key % m.bucket_size) key value expire now) →
      m1.pool.NodeSize = m.pool.NodeSize ∧
      ∀ s, ((m1.pool.nodes s).used = (m.pool.nodes s).used ∧
        (m1.pool.nodes s).data.key = (m.pool.nodes s).data.key ∧
        (m1.pool.nodes s).data.value = (m.pool.nodes s).data.value) ∨
      (r = SinHashRet.RET_OK ∧ (m1.pool.nodes s).used = true ∧
        (m1.pool.nodes s).data.key = key ∧ (m1.pool.nodes s).data.value = value) := by
    intro e
    rw [e] at h
    have h := Option.some.inj h
    by_cases hq : m.pool.free_queue (m.pool.read_index % m.pool.node_size) = OFFSET_NULL
    · rw [AddNodeItem_fail m _ key value expire now hq] at h
      cases h
      exact ⟨rfl, fun s => Or.inl ⟨rfl, rfl, rfl⟩⟩
    · obtain ⟨m2, e2, hA⟩ :=
        AddNodeItem_appended m _ key value expire now l hm.pool hm.data_gt hl hq
      rw [e2] at h
      cases h
      refine ⟨hA.NodeSize_eq, ?_⟩
      intro s
      by_cases hs : s = m.slot (m.pool.dataPtr
          (m.pool.free_queue (m.pool.read_index % m.pool.node_size) / m.pool.NodeSize))
      · right
        rw [hs, hA.new_node]
        exact ⟨rfl, rfl, rfl, rfl⟩
      · left
        cases hlast : l.getLast? with
        | none =>
          rw [hA.other_nodes s hs (by intro t ht; rw [hlast] at ht; cases ht)]
          exact ⟨rfl, rfl, rfl⟩
        | some t =>
          by_cases hst : s = m.slot t
          · rw [hst, hA.last_node t hlast]
            have hu := (Chain_mem_used m _ l _ hl.chain t (getLast?_mem l t hlast)).1
            rw [hu, item_eq_nodes]
            exact ⟨rfl, rfl, rfl⟩
          · rw [hA.other_nodes s hs (by
              intro t1 ht1
              rw [hlast] at ht1
              cases ht1
              exact hst)]
            exact ⟨rfl, rfl, rfl⟩
  cases hfind : l.find? (fun x => decide ((m.item x).key = key)) with
  | none => exact hadd (c1 hfind)
  | some x =>
    cases hexp : isExpired (m.item x) now with
    | true => exact hadd (c2 x hfind hexp)
    | false =>
      rw [c3 x hfind hexp] at h
      cases h
      refine ⟨rfl, ?_⟩
      intro s
      obtain ⟨hx, hk⟩ := find?_mem_key m key l x hfind
      rw [nodes_setItem]
      by_cases hs : s = m.slot x
      · right
        rw [if_pos hs]
        refine ⟨rfl, (Chain_mem_used m _ l _ hl.chain x hx).1, hk, rfl⟩
      · left
        rw [if_neg hs]
        exact ⟨rfl, rfl, rfl⟩

/-- `Insert` keeps the constants of the map and of the pool. -/
theorem Insert_consts (m m1 : ShmHashMap K V) (key : K) (value : V) (expire now : Int)
    (fuel : Nat) (r : SinHashRet) (hm : m.WF)
    (h : m.Insert fuel key value expire now = some (r, m1)) :
    m1.pool.node_size = m.pool.node_size ∧ m1.bucket_size = m.bucket_size ∧
      m1.HashCode = m.HashCode ∧ m1.gc_timestamp = m.gc_timestamp := by
  have hi : m.HashCode key % m.bucket_size < m.bucket_size := Nat.mod_lt _ hm.bucket_pos
  obtain ⟨l, hl⟩ := hm.buckets _ hi
  have hf : m.GetNode fuel (m.HashCode key % m.bucket_size) key ≠ none := by
    intro h0
    simp [ShmHashMap.Insert, h0] at h
  obtain ⟨c1, c2, c3⟩ := Insert_cases m key value expire now l hl fuel hf
  have hadd : m.Insert fuel key value expire now
      = some (m.AddNodeItem (m.HashCode key % m.bucket_size) key value expire now) →
      m1.pool.node_size = m.pool.node_size ∧ m1.bucket_size = m.bucket_size ∧
        m1.HashCode = m.HashCode ∧ m1.gc_timestamp = m.gc_timestamp := by
    intro e
    rw [e] at h
    have h := Option.some.inj h
    by_cases hq : m.pool.free_queue (m.pool.read_index % m.pool.node_size) = OFFSET_NULL
    · rw [AddNodeItem_fail m _ key value expire now hq] at h
      cases h
      exact ⟨rfl, rfl, rfl, rfl⟩
    · obtain ⟨m2, e2, hA⟩ :=
        AddNodeItem_appended m _ key value expire now l hm.pool hm.data_gt hl hq
      rw [e2] at h
      cases h
      exact ⟨hA.node_size_eq, hA.bucket_size_eq, hA.hash_eq, hA.gc_eq⟩
  cases hfind : l.find? (fun x => decide ((m.item x).key = key)) with
  | none => exact hadd (c1 hfind)
  | some x =>
    cases hexp : isExpired (m.item x) now with
    | true => exact hadd (c2 x hfind hexp)
    | false =>
      rw [c3 x hfind hexp] at h
      cases h
      exact ⟨rfl, rfl, rfl, rfl⟩

/-- A slot in use stays in use across `Insert`. -/
theorem Insert_used (m m1 : ShmHashMap K V) (key : K) (value : V) (expire now : Int)
    (fuel : Nat) (r : SinHashRet) (hm : m.WF)
    (h : m.Insert fuel key value expire now = some (r, m1)) (s : Nat)
    (hs : (m.pool.nodes s).used = true) : (m1.pool.nodes s).used = true := by
  rcases (Insert_nodes m m1 key value expire now fuel r hm h).2 s with ⟨e, _, _⟩ | ⟨_, e, _, _⟩
  · rw [e]; exact hs
  · exact e

/-- Appending a run to a run. -/
theorem Reachable_trans (m0 m1 m2 : ShmHashMap K V) (h1 : ShmHashMap.Reachable m0 m1)
    (h2 : ShmHashMap.Reachable m1 m2) : ShmHashMap.Reachable m0 m2 := by
  induction h2 with
  | init => exact h1
  | insert m m3 fuel key value expire now r _ hins ih =>
    exact ShmHashMap.Reachable.insert m m3 fuel key value expire now r ih hins
  | get m fuel key now r _ hget ih => exact ShmHashMap.Reachable.get m fuel key now r ih hget
  | gc m m3 fuel now _ hgc ih => exact ShmHashMap.Reachable.gc m m3 fuel now ih hgc

/-- Between a state in which a slot is in use and a later state in which it is
not, there is a `GC` call that passed the gate and freed the slot. -/
theorem freed_by_sweep (m2 m3 : ShmHashMap K V) (s : Nat) (hm : m2.WF)
    (hreach : ShmHashMap.Reachable m2 m3) (hu : (m2.pool.nodes s).used = true)
    (hn : (m3.pool.nodes s).used = false) :
    ∃ (ma mb : ShmHashMap K V) (fuel : Nat) (now : Int), ShmHashMap.Reachable m2 ma ∧
      ma.GC fuel now = some mb ∧ ShmHashMap.Reachable mb m3 ∧
      (((ma.gc_timestamp + 2) % 4294967296 : Nat) : Int) < now ∧
      (ma.pool.nodes s).used = true ∧ (mb.pool.nodes s).used = false := by
  induction hreach with
  | init => rw [hu] at hn; cases hn
  | insert m m4 fuel key value expire now r hr hins ih =>
    have hw := Reachable_WF m2 m hm hr
    cases hc : (m.pool.nodes s).used with
    | true =>
      rw [Insert_used m m4 key value expire now fuel r hw hins s hc] at hn
      cases hn
    | false =>
      obtain ⟨ma, mb, f, t, k1, k2, k3, k4, k5, k6⟩ := ih hc
      exact ⟨ma, mb, f, t, k1, k2,
        ShmHashMap.Reachable.insert m m4 fuel key value expire now r k3 hins, k4, k5, k6⟩
  | get m fuel key now r _ hget ih =>
    obtain ⟨ma, mb, f, t, k1, k2, k3, k4, k5, k6⟩ := ih hn
    exact ⟨ma, mb, f, t, k1, k2, ShmHashMap.Reachable.get m fuel key now r k3 hget, k4, k5, k6⟩
  | gc m m4 fuel now hr hgc ih =>
    cases hc : (m.pool.nodes s).used with
    | true =>
      by_cases hgate : (((m.gc_timestamp + 2) % 4294967296 : Nat) : Int) < now
      · exact ⟨m, m4, fuel, now, hr, hgc, ShmHashMap.Reachable.init, hgate, hc, hn⟩
      · rw [GC_closed m now fuel hgate] at hgc
        cases hgc
        rw [hc] at hn
        cases hn
    | false =>
      obtain ⟨ma, mb, f, t, k1, k2, k3, k4, k5, k6⟩ := ih hc
      exact ⟨ma, mb, f, t, k1, k2, ShmHashMap.Reachable.gc m m4 fuel now k3 hgc, k4, k5, k6⟩

end ShmMap
namespace ShmMap

open ShmPool

variable {K V : Type} [DecidableEq K]

/-- C16: in a state reached from a fresh map by sequential `Insert`, `Get` and `GC`
calls, a `GC` call returns, and an item `y` of a bucket chain that is no longer on
the chain after the call was unlinked by a sweep that passed the gate and stored
its time: after the call the slot of `y` is still in use, the state of `y` is
`COLLECTING` or `WAITING_DELETE` and `y` is on the garbage list; and in every later
state in which the slot is not in use, a later `GC` call that passed the gate has
freed it. -/
theorem unlinked_not_recycled (HashCode : K → Nat) (N S D : Nat) (zero : ItemNode K V)
    (bucket_size gc_timestamp : Nat) (hN : N + 2 < 4294967296) (hD1 : 1 < D) (hD2 : D < S)
    (m : ShmHashMap K V)
    (hreach : ShmHashMap.Reachable
      (ShmHashMap.construct HashCode (MemoryPool.construct N S D zero) bucket_size
        gc_timestamp) m)
    (b : Nat) (l : List Nat) (y : Nat) (hb : b < m.bucket_size)
    (hl : m.Chain (fun it => it.next) (m.buckets b).head l) (hy : y ∈ l)
    (now : Int) (fuel : Nat) (hf : m.pool.node_size < fuel) :
    ∃ (m2 : ShmHashMap K V) (l2 : List Nat), m.GC fuel now = some m2 ∧
      m2.Chain (fun it => it.next) (m2.buckets b).head l2 ∧
      (y ∉ l2 →
        (((m.gc_timestamp + 2) % 4294967296 : Nat) : Int) < now ∧
        m2.gc_timestamp = (now % 4294967296).toNat ∧
        (m2.pool.nodes (m.slot y)).used = true ∧
        ((m2.item y).invalid = COLLECTING ∨ (m2.item y).invalid = WAITING_DELETE) ∧
        (∃ g2, m2.Chain (fun it => it.del_next) m2.garbage_list_head_offset g2 ∧ y ∈ g2) ∧
        ∀ m3, ShmHashMap.Reachable m2 m3 → (m3.pool.nodes (m.slot y)).used = false →
          ∃ (ma mb : ShmHashMap K V) (fuel2 : Nat) (now2 : Int),
            ShmHashMap.Reachable m2 ma ∧ ma.GC fuel2 now2 = some mb ∧
            ShmHashMap.Reachable mb m3 ∧
            (((ma.gc_timestamp + 2) % 4294967296 : Nat) : Int) < now2 ∧
            (ma.pool.nodes (m.slot y)).used = true ∧
            (mb.pool.nodes (m.slot y)).used = false) := by
  have hm : m.WF :=
    Reachable_WF _ m (WF_construct HashCode N S D zero bucket_size gc_timestamp hN hD1 hD2)
      hreach
  obtain ⟨l0, hl0⟩ := hm.buckets b hb
  have hll : l = l0 := Chain_unique m _ l l0 _ hl hl0.chain
  subst hll
  obtain ⟨m2, hgc⟩ := GC_total m now fuel hm hf
  obtain ⟨hm2, l2, hl2, _, _, hrm⟩ := GC_chain m m2 now fuel b l hm hb hl0 hgc
  refine ⟨m2, l2, hgc, hl2.chain, ?_⟩
  intro hny
  obtain ⟨k1, k2, k3, k4, g2, k5, k6⟩ := hrm y hy hny
  exact ⟨k1, k2, k3, k4, ⟨g2, k5.chain, k6⟩,
    fun m3 hr hn => freed_by_sweep m2 m3 (m.slot y) hm2 hr k3 hn⟩

theorem unlinked_not_recycled_witness :
    ∃ m m2 : ShmHashMap Nat Nat, ShmHashMap.Reachable scenarioMap m ∧
      (m.buckets 3).head = 8 ∧ m.GC 19 3 = some m2 ∧ (m2.buckets 3).head = OFFSET_NULL ∧
      (m2.pool.nodes (m.slot 8)).used = true ∧
      ((m2.item 8).invalid = COLLECTING ∨ (m2.item 8).invalid = WAITING_DELETE) ∧
      m2.GC 19 5 = some m2 := by
  have h1 : (scenarioMap.Insert 5 7 7 1 0).isSome = true := by decide
  obtain ⟨p, hp⟩ := Option.isSome_iff_exists.mp h1
  have h2 : ((scenarioMap.Insert 5 7 7 1 0).map (fun p =>
      [p.2.bucket_size, (p.2.buckets 3).head, (p.2.item 8).next, p.2.pool.node_size]))
      = some [4, 8, OFFSET_NULL, 18] := by
    decide
  have h4 : ((scenarioMap.Insert 5 7 7 1 0).map (fun p => p.2.OffsetToNode 8))
      = some (some 8) := by decide
  have h5 : ((scenarioMap.Insert 5 7 7 1 0).bind (fun p => (p.2.GC 19 3).map (fun m1 =>
      [(m1.buckets 3).head, m1.gc_timestamp]))) = some [OFFSET_NULL, 3] := by decide
  rw [hp] at h2 h4 h5
  simp only [Option.map_some', Option.some.injEq, List.cons.injEq, and_true,
    Option.some_bind] at h2 h4 h5
  obtain ⟨k1, k2, k3, k4⟩ := h2
  have hreach : ShmHashMap.Reachable scenarioMap p.2 :=
    ShmHashMap.Reachable.insert scenarioMap p.2 5 7 7 1 0 p.1 ShmHashMap.Reachable.init hp
  obtain ⟨m2, l2, c1, c2, c3⟩ :=
    unlinked_not_recycled (fun k => k) 16 40 8
      { next := 0, key := 0, value := 0, expire := 0, invalid := 0, del_next := 0 } 4 0
      (by norm_num) (by norm_num) (by norm_num) p.2 hreach 3 [8] 8 (by rw [k1]; norm_num)
      ⟨k2, h4, k3⟩ (by simp) 3 19 (by rw [k4]; norm_num)
  rw [c1] at h5
  simp only [Option.map_some', Option.some.injEq, List.cons.injEq, and_true] at h5
  have hnil : l2 = [] := by
    cases l2 with
    | nil => rfl
    | cons x t =>
      obtain ⟨e1, e2, _⟩ := c2
      rw [h5.1] at e1
      rw [← e1, OffsetToNode_NULL] at e2
      cases e2
  obtain ⟨_, d2, d3, d4, _, _⟩ := c3 (by rw [hnil]; simp)
  refine ⟨p.2, m2, hreach, k2, c1, h5.1, d3, d4, GC_closed m2 5 19 ?_⟩
  rw [h5.2]
  norm_num

end ShmMap
namespace ShmMap

open ShmPool

variable {K V : Type} [DecidableEq K]

/-- A run with a log is a run. -/
theorem Run_Reachable (m0 m : ShmHashMap K V) (log : List (K × V))
    (h : ShmHashMap.Run m0 log m) : ShmHashMap.Reachable m0 m := by
  induction h with
  | init => exact ShmHashMap.Reachable.init
  | insert log m m1 fuel key value expire now _ hins ih =>
    exact ShmHashMap.Reachable.insert m m1 fuel key value expire now _ ih hins
  | insert_failed log m m1 fuel key value expire now r _ hins _ ih =>
    exact ShmHashMap.Reachable.insert m m1 fuel key value expire now r ih hins
  | get log m fuel key now r _ hget ih => exact ShmHashMap.Reachable.get m fuel key now r ih hget
  | gc log m m1 fuel now _ hgc ih => exact ShmHashMap.Reachable.gc m m1 fuel now ih hgc

/-- In a run from a well-formed state whose slots in use hold logged pairs, every
slot in use holds the key and value of an `Insert` call of the run that returned
`RET_OK`, or a pair logged before. -/
theorem Run_Logged (m0 m : ShmHashMap K V) (log0 log : List (K × V)) (h0 : m0.WF)
    (hl0 : m0.Logged log0) (h : ShmHashMap.Run m0 log m) : m.Logged (log ++ log0) := by
  induction h with
  | init => exact hl0
  | insert log m m1 fuel key value expire now hr hins ih =>
    have hw := Reachable_WF m0 m h0 (Run_Reachable m0 m log hr)
    intro s hs
    rcases (Insert_nodes m m1 key value expire now fuel _ hw hins).2 s with
      ⟨e1, e2, e3⟩ | ⟨_, _, e2, e3⟩
    · rw [e1] at hs
      rw [e2, e3]
      exact List.mem_cons_of_mem _ (ih s hs)
    · rw [e2, e3]
      exact List.mem_cons_self _ _
  | insert_failed log m m1 fuel key value expire now r hr hins hne ih =>
    have hw := Reachable_WF m0 m h0 (Run_Reachable m0 m log hr)
    intro s hs
    rcases (Insert_nodes m m1 key value expire now fuel r hw hins).2 s with
      ⟨e1, e2, e3⟩ | ⟨e, _, _, _⟩
    · rw [e1] at hs
      rw [e2, e3]
      exact ih s hs
    · exact absurd e hne
  | get log m fuel key now r _ _ ih => exact ih
  | gc log m m1 fuel now _ hgc ih =>
    obtain ⟨_, _, _, _, _, _, k1, k2, k3, _⟩ := GC_Frame fuel m m1 now hgc
    intro s hs
    rw [k2 s, k3 s]
    exact ih s (k1 s hs)

/-- On a well-formed state, a `Get` that returns `RET_OK` returns the value of an
item in use that carries the key. -/
theorem Get_ok_item (m : ShmHashMap K V) (hm : m.WF) (fuel : Nat) (k : K) (now : Int)
    (v : Option V) (h : m.Get fuel k now = some (SinHashRet.RET_OK, v)) :
    ∃ x, (m.pool.nodes (m.slot x)).used = true ∧ (m.item x).key = k ∧
      v = some (m.item x).value := by
  have hi : m.HashCode k % m.bucket_size < m.bucket_size := Nat.mod_lt _ hm.bucket_pos
  obtain ⟨l, hl⟩ := hm.buckets _ hi
  unfold ShmHashMap.Get at h
  simp only at h
  cases hg : m.GetNode fuel (m.HashCode k % m.bucket_size) k with
  | none => rw [hg] at h; cases h
  | some r =>
    rw [hg] at h
    have hr := (GetNode_bucket m _ k l hl fuel).1 r hg
    cases r with
    | none => simp at h
    | some x =>
      simp only at h
      obtain ⟨hx, hk⟩ := find?_mem_key m k l x hr.symm
      refine ⟨x, (Chain_mem_used m _ l _ hl.chain x hx).1, hk, ?_⟩
      split at h
      · simp at h
      · simp only [Option.some.injEq, Prod.mk.injEq, true_and] at h
        exact h.symm

end ShmMap
namespace SinMap

open ShmPool

variable {K V : Type}

theorem sin_load_heap (m : SinHashMap K V) (p : Nat) (it : ItemNode K V)
    (h : m.load p = some it) : m.heap p = some it ∧ p ≠ 0 := by
  unfold SinHashMap.load at h
  by_cases hp : p = 0
  · rw [if_pos hp] at h; cases h
  · rw [if_neg hp] at h; exact ⟨h, hp⟩

/-- A store through a pointer keeps the items logged when the item stored is. -/
theorem sin_store_Logged (m m1 : SinHashMap K V) (log : List (K × V)) (p : Nat)
    (f : ItemNode K V → ItemNode K V) (h : m.store p f = some m1) (hl : m.Logged log)
    (hf : ∀ it, m.heap p = some it → ((f it).key, (f it).value) ∈ log) : m1.Logged log := by
  unfold SinHashMap.store at h
  cases hld : m.load p with
  | none => rw [hld] at h; cases h
  | some it =>
    rw [hld] at h
    cases h
    intro q it1 hq
    simp only [setAt] at hq
    by_cases hqp : q = p
    · rw [if_pos hqp] at hq
      cases hq
      exact hf it (sin_load_heap m p it hld).1
    · rw [if_neg hqp] at hq
      exact hl q it1 hq

/-- A store that keeps key and value keeps the items logged. -/
theorem sin_store_kv (m m1 : SinHashMap K V) (log : List (K × V)) (p : Nat)
    (f : ItemNode K V → ItemNode K V) (h : m.store p f = some m1) (hl : m.Logged log)
    (hf : ∀ it, (f it).key = it.key ∧ (f it).value = it.value) : m1.Logged log := by
  refine sin_store_Logged m m1 log p f h hl ?_
  intro it hit
  rw [(hf it).1, (hf it).2]
  exact hl p it hit

/-- A store keeps the key of every live item when it keeps keys. -/
theorem sin_store_key (m m1 : SinHashMap K V) (p : Nat) (f : ItemNode K V → ItemNode K V)
    (h : m.store p f = some m1) (hf : ∀ it, (f it).key = it.key) (q : Nat) (k : K)
    (hq : ∃ it, m.heap q = some it ∧ it.key = k) : ∃ it, m1.heap q = some it ∧ it.key = k := by
  unfold SinHashMap.store at h
  cases hld : m.load p with
  | none => rw [hld] at h; cases h
  | some it =>
    rw [hld] at h
    cases h
    obtain ⟨it1, h1, h2⟩ := hq
    simp only [setAt]
    by_cases hqp : q = p
    · rw [if_pos hqp]
      subst hqp
      rw [(sin_load_heap m q it hld).1] at h1
      cases h1
      exact ⟨f it, rfl, by rw [hf it, h2]⟩
    · rw [if_neg hqp]
      exact ⟨it1, h1, h2⟩

theorem sin_Logged_heap (m m1 : SinHashMap K V) (log : List (K × V)) (e : m1.heap = m.heap)
    (hl : m.Logged log) : m1.Logged log := by
  intro p it hp
  rw [e] at hp
  exact hl p it hp

theorem sin_free_Logged (m : SinHashMap K V) (log : List (K × V)) (p : Nat)
    (hl : m.Logged log) : (m.free p).Logged log := by
  intro q it hq
  simp only [SinHashMap.free, setAt] at hq
  by_cases hqp : q = p
  · rw [if_pos hqp] at hq; cases hq
  · rw [if_neg hqp] at hq; exact hl q it hq

theorem sin_AddGarbageList_Logged (m m1 : SinHashMap K V) (log : List (K × V)) (node : Nat)
    (h : m.AddGarbageList node = some m1) (hl : m.Logged log) : m1.Logged log := by
  unfold SinHashMap.AddGarbageList at h
  split at h
  · cases h
    exact sin_Logged_heap m _ log rfl hl
  · simp only [Option.map_eq_some'] at h
    obtain ⟨m2, h2, e⟩ := h
    subst e
    exact sin_Logged_heap m2 _ log rfl
      (sin_store_kv m m2 log _ _ h2 hl (fun it => ⟨rfl, rfl⟩))

theorem sin_RemoveExpireNode_Logged (m m1 : SinHashMap K V) (log : List (K × V))
    (p index : Nat) (h : m.RemoveExpireNode p index = some m1) (hl : m.Logged log) :
    m1.Logged log := by
  unfold SinHashMap.RemoveExpireNode at h
  simp only [Option.map_eq_some'] at h
  obtain ⟨m2, h2, e⟩ := h
  subst e
  exact sin_Logged_heap m2 _ log rfl (sin_AddGarbageList_Logged m m2 log p h2 hl)

theorem sin_ScanLoop_Logged (log : List (K × V)) (now : Int) (index : Nat) :
    ∀ (fuel p0 p1 : Nat) (m m1 : SinHashMap K V),
      SinHashMap.ScanLoop now index fuel p0 p1 m = some m1 → m.Logged log → m1.Logged log := by
  intro fuel
  induction fuel with
  | zero => intro p0 p1 m m1 h; simp [SinHashMap.ScanLoop] at h
  | succ fuel ih =>
    intro p0 p1 m m1 h hl
    unfold SinHashMap.ScanLoop at h
    by_cases hp : p1 = 0
    · rw [if_pos hp] at h; cases h; exact hl
    · rw [if_neg hp] at h
      cases hld : m.load p1 with
      | none => rw [hld] at h; cases h
      | some it1 =>
        rw [hld] at h
        simp only at h
        by_cases hn : it1.next = 0
        · rw [if_pos hn] at h; cases h; exact hl
        · rw [if_neg hn] at h
          by_cases hexp : isExpired it1 now = true
          · rw [if_pos hexp] at h
            by_cases hv : it1.invalid = VALID
            · rw [if_pos hv] at h
              simp only [Option.bind_eq_some] at h
              obtain ⟨m2, h2, m3, h3, h⟩ := h
              have l2 := sin_store_kv m m2 log _ _ h2 hl (fun it => ⟨rfl, rfl⟩)
              have l3 := sin_RemoveExpireNode_Logged m2 m3 log p1 index h3 l2
              cases hld2 : m3.load p1 with
              | none => rw [hld2] at h; cases h
              | some it2 =>
                rw [hld2] at h
                simp only [Option.bind_eq_some] at h
                obtain ⟨m4, h4, h⟩ := h
                exact ih _ _ m4 m1 h (sin_store_kv m3 m4 log _ _ h4 l3 (fun it => ⟨rfl, rfl⟩))
            · rw [if_neg hv] at h
              exact ih _ _ m m1 h hl
          · rw [if_neg hexp] at h
            exact ih _ _ m m1 h hl

theorem sin_ScanHead_Logged (log : List (K × V)) (now : Int) (index : Nat)
    (m m1 : SinHashMap K V) (h : SinHashMap.ScanHead now index m = some m1)
    (hl : m.Logged log) : m1.Logged log := by
  unfold SinHashMap.ScanHead at h
  simp only at h
  cases hld : m.load (m.buckets index).head with
  | none => rw [hld] at h; cases h
  | some it0 =>
    rw [hld] at h
    simp only at h
    by_cases hexp : isExpired it0 now = true
    · rw [if_pos hexp] at h
      by_cases hv : it0.invalid = VALID
      · rw [if_pos hv] at h
        simp only [Option.bind_eq_some] at h
        obtain ⟨m2, h2, m3, h3, h⟩ := h
        have l2 := sin_store_kv m m2 log _ _ h2 hl (fun it => ⟨rfl, rfl⟩)
        have l3 := sin_RemoveExpireNode_Logged m2 m3 log _ index h3 l2
        split at h
        · cases h; exact sin_Logged_heap m3 _ log rfl l3
        · split at h
          · cases h
          · cases h; exact sin_Logged_heap m3 _ log rfl l3
      · rw [if_neg hv] at h; cases h; exact hl
    · rw [if_neg hexp] at h; cases h; exact hl

theorem sin_ScanBucket_Logged (log : List (K × V)) (fuel : Nat) (now : Int) (index : Nat)
    (m m1 : SinHashMap K V) (h : SinHashMap.ScanBucket fuel now m index = some m1)
    (hl : m.Logged log) : m1.Logged log := by
  unfold SinHashMap.ScanBucket at h
  simp only at h
  split at h
  · cases h; exact hl
  · split at h
    · cases h
    · simp only [Option.bind_eq_some] at h
      obtain ⟨m2, h2, h⟩ := h
      exact sin_ScanHead_Logged log now index m2 m1 h
        (sin_ScanLoop_Logged log now index fuel _ _ m m2 h2 hl)

theorem sin_ScanFold_Logged (log : List (K × V)) (fuel : Nat) (now : Int) :
    ∀ (bs : List Nat) (m m1 : SinHashMap K V),
      bs.foldlM (SinHashMap.ScanBucket fuel now) m = some m1 → m.Logged log →
      m1.Logged log := by
  intro bs
  induction bs with
  | nil => intro m m1 h hl; simp only [List.foldlM_nil] at h; cases h; exact hl
  | cons b bs ih =>
    intro m m1 h hl
    simp only [List.foldlM_cons, Option.bind_eq_bind, Option.bind_eq_some] at h
    obtain ⟨m2, h2, h⟩ := h
    exact ih m2 m1 h (sin_ScanBucket_Logged log fuel now b m m2 h2 hl)

theorem sin_SafeFreeLoop_Logged (log : List (K × V)) :
    ∀ (fuel p0 p1 : Nat) (m m1 : SinHashMap K V),
      SinHashMap.SafeFreeLoop fuel p0 p1 m = some m1 → m.Logged log → m1.Logged log := by
  intro fuel
  induction fuel with
  | zero => intro p0 p1 m m1 h; simp [SinHashMap.SafeFreeLoop] at h
  | succ fuel ih =>
    intro p0 p1 m m1 h hl
    unfold SinHashMap.SafeFreeLoop at h
    by_cases hp : p1 = 0
    · rw [if_pos hp] at h; cases h; exact sin_Logged_heap m _ log rfl hl
    · rw [if_neg hp] at h
      cases hld : m.load p1 with
      | none => rw [hld] at h; cases h
      | some it1 =>
        rw [hld] at h
        simp only [Option.bind_eq_some] at h
        obtain ⟨m2, h2, h⟩ := h
        have l2 := sin_store_kv m m2 log _ _ h2 hl (fun it => ⟨rfl, rfl⟩)
        by_cases hv : it1.invalid = 2
        · rw [if_pos hv] at h
          simp only [Option.bind_eq_some] at h
          obtain ⟨m3, h3, h⟩ := h
          exact ih _ _ _ m1 h (sin_free_Logged m3 log p1
            (sin_store_kv m2 m3 log _ _ h3 l2 (fun it => ⟨rfl, rfl⟩)))
        · rw [if_neg hv] at h
          exact ih _ _ m2 m1 h l2

/-- `GC` keeps the items logged. -/
theorem sin_GC_Logged (log : List (K × V)) (fuel : Nat) (now : Int) (m m1 : SinHashMap K V)
    (h : m.GC fuel now = some m1) (hl : m.Logged log) : m1.Logged log := by
  unfold SinHashMap.GC at h
  split at h
  · simp only [Option.bind_eq_some] at h
    obtain ⟨m2, h2, h⟩ := h
    have l2 := sin_ScanFold_Logged log fuel now _ _ m2 h2
      (sin_Logged_heap m _ log rfl hl)
    unfold SinHashMap.SafeFree at h
    split at h
    · cases h; exact l2
    · split at h
      · cases h
      · exact sin_SafeFreeLoop_Logged log fuel _ _ m2 m1 h l2
  · cases h; exact hl

end SinMap
namespace SinMap

open ShmPool

variable {K V : Type}

/-- A new item at a fresh address comes with its pair. -/
theorem sin_alloc_Logged (m : SinHashMap K V) (log : List (K × V)) (fresh : Nat)
    (it : ItemNode K V) (hl : m.Logged log) :
    SinHashMap.Logged ({ m with heap := setAt m.heap fresh (some it) } : SinHashMap K V)
      ((it.key, it.value) :: log) := by
  intro q i hq
  simp only [setAt] at hq
  by_cases hqp : q = fresh
  · rw [if_pos hqp] at hq
    cases hq
    exact List.mem_cons_self _ _
  · rw [if_neg hqp] at hq
    exact List.mem_cons_of_mem _ (hl q i hq)

/-- `AddNodeItem` leaves every live item with a logged pair or the pair of the
call. -/
theorem sin_AddNodeItem_Logged (m m1 : SinHashMap K V) (log : List (K × V))
    (fresh index : Nat) (key : K) (value : V) (expire now : Int)
    (h : m.AddNodeItem fresh index key value expire now = some m1) (hl : m.Logged log) :
    m1.Logged ((key, value) :: log) := by
  unfold SinHashMap.AddNodeItem at h
  split at h
  · cases h
  · simp only [Option.map_eq_some'] at h
    obtain ⟨m4, h4, e⟩ := h
    subst e
    refine sin_Logged_heap m4 _ _ rfl ?_
    have l1 := sin_alloc_Logged m log fresh
      { invalid := 0, key := key, value := value, next := 0,
        expire := ShmMap.expireAt expire now, del_next := 0 } hl
    split at h4
    · cases h4
      exact sin_Logged_heap _ _ _ rfl l1
    · exact sin_store_kv _ m4 _ _ _ h4 (sin_Logged_heap _ _ _ rfl l1) (fun it => ⟨rfl, rfl⟩)

theorem sin_InsertLoop_Logged (m : SinHashMap K V) (log : List (K × V))
    (fresh index : Nat) (key : K) (value : V) (expire now : Int) (item : Nat)
    (hk : ∃ it, m.heap item = some it ∧ it.key = key) (hl : m.Logged log) :
    ∀ (fuel : Nat) (m1 : SinHashMap K V),
      m.InsertLoop fresh index key value expire now item fuel = some m1 →
      m1.Logged ((key, value) :: log) := by
  intro fuel
  induction fuel with
  | zero => intro m1 h; simp [SinHashMap.InsertLoop] at h
  | succ fuel ih =>
    intro m1 h
    unfold SinHashMap.InsertLoop at h
    cases hld : m.load item with
    | none => rw [hld] at h; cases h
    | some it =>
      rw [hld] at h
      simp only at h
      by_cases hv : it.invalid = VALID
      · rw [if_pos hv] at h
        simp only [Option.bind_eq_some] at h
        obtain ⟨m2, h2, m3, h3, m4, h4, h5⟩ := h
        have hl0 : m.Logged ((key, value) :: log) :=
          fun q i hq => List.mem_cons_of_mem _ (hl q i hq)
        have l2 := sin_store_kv m m2 _ _ _ h2 hl0 (fun it => ⟨rfl, rfl⟩)
        have k2 := sin_store_key m m2 _ _ h2 (fun it => rfl) item key hk
        have l3 : m3.Logged ((key, value) :: log) := by
          refine sin_store_Logged m2 m3 _ _ _ h3 l2 ?_
          intro i hi
          obtain ⟨i2, e2, e3⟩ := k2
          rw [e2] at hi
          cases hi
          simp only [e3]
          exact List.mem_cons_self _ _
        have l4 := sin_store_kv m3 m4 _ _ _ h4 l3 (fun it => ⟨rfl, rfl⟩)
        exact sin_store_kv m4 m1 _ _ _ h5 l4 (fun it => ⟨rfl, rfl⟩)
      · rw [if_neg hv] at h
        by_cases hw : it.invalid = WRITING
        · rw [if_pos hw] at h
          exact ih m1 h
        · rw [if_neg hw] at h
          exact sin_AddNodeItem_Logged m m1 log fresh index key value expire now h hl

theorem sin_GetLoop_Logged (m : SinHashMap K V) (log : List (K × V)) (item : Nat)
    (hl : m.Logged log) :
    ∀ (fuel : Nat) (invalid : Int) (m1 : SinHashMap K V),
      m.GetLoop item fuel invalid = some m1 →
      m1.Logged log ∧ ∀ q k, (∃ it, m.heap q = some it ∧ it.key = k) →
        ∃ it, m1.heap q = some it ∧ it.key = k := by
  intro fuel
  induction fuel with
  | zero => intro invalid m1 h; simp [SinHashMap.GetLoop] at h
  | succ fuel ih =>
    intro invalid m1 h
    unfold SinHashMap.GetLoop at h
    cases hld : m.load item with
    | none => rw [hld] at h; cases h
    | some it =>
      rw [hld] at h
      simp only at h
      split at h
      · exact ⟨sin_store_kv m m1 _ _ _ h hl (fun it => ⟨rfl, rfl⟩),
          fun q k hq => sin_store_key m m1 _ _ h (fun it => rfl) q k hq⟩
      · exact ih _ m1 h

variable [DecidableEq K]

/-- A pointer returned by `GetNode` is `NULL` or points to a live item with the
key. -/
theorem sin_GetNodeLoop_key (m : SinHashMap K V) (key : K) :
    ∀ (fuel p r : Nat), m.GetNodeLoop key fuel p = some r → r ≠ 0 →
      ∃ it, m.load r = some it ∧ it.key = key := by
  intro fuel
  induction fuel with
  | zero => intro p r h; simp [SinHashMap.GetNodeLoop] at h
  | succ fuel ih =>
    intro p r h hr
    unfold SinHashMap.GetNodeLoop at h
    by_cases hp : p = 0
    · rw [if_pos hp] at h
      cases h
      exact absurd rfl hr
    · rw [if_neg hp] at h
      cases hld : m.load p with
      | none => rw [hld] at h; cases h
      | some it =>
        rw [hld] at h
        simp only at h
        by_cases hk : it.key = key
        · rw [if_pos hk] at h
          cases h
          exact ⟨it, hld, hk⟩
        · rw [if_neg hk] at h
          exact ih _ r h hr

/-- `Insert` leaves every live item with a logged pair or the pair of the call. -/
theorem sin_Insert_Logged (m m1 : SinHashMap K V) (log : List (K × V)) (fuel fresh : Nat)
    (key : K) (value : V) (expire now : Int)
    (h : m.Insert fuel fresh key value expire now = some m1) (hl : m.Logged log) :
    m1.Logged ((key, value) :: log) := by
  unfold SinHashMap.Insert at h
  simp only at h
  cases hg : m.GetNode fuel (m.HashCode key % m.bucket_size) key with
  | none => rw [hg] at h; cases h
  | some item =>
    rw [hg] at h
    simp only at h
    by_cases hz : item = 0
    · rw [if_pos hz] at h
      exact sin_AddNodeItem_Logged m m1 log fresh _ key value expire now h hl
    · rw [if_neg hz] at h
      obtain ⟨it, hit, hkey⟩ := sin_GetNodeLoop_key m key fuel _ item hg hz
      rw [hit] at h
      simp only at h
      split at h
      · exact sin_AddNodeItem_Logged m m1 log fresh _ key value expire now h hl
      · exact sin_InsertLoop_Logged m log fresh _ key value expire now item
          ⟨it, (sin_load_heap m item it hit).1, hkey⟩ hl fuel m1 h

/-- `Get` keeps the items logged, and a `Get` that returns `RET_OK` returns a
value logged with the key. -/
theorem sin_Get_Logged (m m1 : SinHashMap K V) (log : List (K × V)) (fuel : Nat) (key : K)
    (now : Int) (r : SinHashRet) (v : Option V)
    (h : m.Get fuel key now = some (r, v, m1)) (hl : m.Logged log) :
    m1.Logged log ∧ (r = SinHashRet.RET_OK → ∃ w, v = some w ∧ (key, w) ∈ log) := by
  unfold SinHashMap.Get at h
  simp only at h
  cases hg : m.GetNode fuel (m.HashCode key % m.bucket_size) key with
  | none => rw [hg] at h; cases h
  | some item =>
    rw [hg] at h
    simp only at h
    by_cases hz : item = 0
    · rw [if_pos hz] at h
      cases h
      exact ⟨hl, fun e => by cases e⟩
    · rw [if_neg hz] at h
      obtain ⟨it, hit, hkey⟩ := sin_GetNodeLoop_key m key fuel _ item hg hz
      rw [hit] at h
      simp only at h
      split at h
      · cases h
        exact ⟨hl, fun e => by cases e⟩
      · cases hgl : m.GetLoop item fuel VALID with
        | none => rw [hgl] at h; cases h
        | some m2 =>
          rw [hgl] at h
          simp only at h
          obtain ⟨l2, k2⟩ := sin_GetLoop_Logged m log item hl fuel VALID m2 hgl
          cases hld : m2.load item with
          | none => rw [hld] at h; cases h
          | some it1 =>
            rw [hld] at h
            simp only [Option.map_eq_some', Prod.mk.injEq] at h
            obtain ⟨m3, h3, _, e2, e3⟩ := h
            subst e3
            refine ⟨sin_store_kv m2 m3 _ _ _ h3 l2 (fun it => ⟨rfl, rfl⟩), ?_⟩
            intro _
            refine ⟨it1.value, e2.symm, ?_⟩
            obtain ⟨i2, c1, c2⟩ := k2 item key ⟨it, (sin_load_heap m item it hit).1, hkey⟩
            have c3 := (sin_load_heap m2 item it1 hld).1
            rw [c1] at c3
            cases c3
            rw [← c2]
            exact l2 item _ c1

/-- In a run from a state whose live items hold logged pairs, every live item
holds the key and value of an `Insert` call of the run, or a pair logged before. -/
theorem sin_Run_Logged (m0 m : SinHashMap K V) (log0 log : List (K × V))
    (hl0 : m0.Logged log0) (h : SinHashMap.Run m0 log m) : m.Logged (log ++ log0) := by
  induction h with
  | init => exact hl0
  | insert log m m1 fuel fresh key value expire now _ hins ih =>
    exact sin_Insert_Logged m m1 _ fuel fresh key value expire now hins ih
  | get log m m1 fuel key now r v _ hget ih =>
    exact (sin_Get_Logged m m1 _ fuel key now r v hget ih).1
  | gc log m m1 fuel now _ hgc ih => exact sin_GC_Logged _ fuel now m m1 hgc ih

end SinMap
namespace ShmMap

open ShmPool

/-- C13: in every run of sequential `Insert`, `Get` and `GC` calls on a fresh
`ShmHashMap`, a `Get(k)` that returns `RET_OK` writes a value `w` for which an
earlier `Insert(k, w, ttl)` of the run returned `RET_OK`; in every such run on a
fresh `SinHashMap`, whose `Insert` returns no code, a `Get(k)` that returns
`RET_OK` writes a value `w` for which an earlier `Insert(k, w, ttl)` of the run
returned; so when every such `Insert` stored the value `f key` (`value == key` for
the identity), every `Get` that returns `RET_OK` yields `f k`. -/
theorem Get_ok_was_inserted {K V : Type} [DecidableEq K] (HashCode : K → Nat) (N S D : Nat)
    (zero : ItemNode K V) (bucket_size gc_timestamp : Nat) (hN : N + 2 < 4294967296)
    (hD1 : 1 < D) (hD2 : D < S) (sin_bucket_size : Int) (f : K → V) :
    (∀ (log : List (K × V)) (m : ShmHashMap K V),
      ShmHashMap.Run
        (ShmHashMap.construct HashCode (MemoryPool.construct N S D zero) bucket_size
          gc_timestamp) log m →
      ∀ (fuel : Nat) (k : K) (now : Int) (v : Option V),
        m.Get fuel k now = some (SinHashRet.RET_OK, v) →
        ∃ w, v = some w ∧ (k, w) ∈ log ∧ ((∀ kv, kv ∈ log → kv.2 = f kv.1) → w = f k)) ∧
    (∀ (log : List (K × V)) (m m1 : SinMap.SinHashMap K V),
      SinMap.SinHashMap.Run (SinMap.SinHashMap.construct HashCode sin_bucket_size gc_timestamp)
        log m →
      ∀ (fuel : Nat) (k : K) (now : Int) (v : Option V),
        m.Get fuel k now = some (SinMap.SinHashRet.RET_OK, v, m1) →
        ∃ w, v = some w ∧ (k, w) ∈ log ∧ ((∀ kv, kv ∈ log → kv.2 = f kv.1) → w = f k)) := by
  constructor
  · intro log m hrun fuel k now v hget
    have h0 := WF_construct HashCode N S D zero bucket_size gc_timestamp hN hD1 hD2
    have hm := Reachable_WF _ m h0 (Run_Reachable _ m log hrun)
    have hl := Run_Logged _ m [] log h0 (by intro s hs; cases hs) hrun
    obtain ⟨x, hu, hk, hv⟩ := Get_ok_item m hm fuel k now v hget
    have hmem := hl _ hu
    rw [List.append_nil, ← item_eq_nodes, hk] at hmem
    exact ⟨_, hv, hmem, fun hall => hall _ hmem⟩
  · intro log m m1 hrun fuel k now v hget
    have hl := SinMap.sin_Run_Logged _ m [] log (by intro p it hp; cases hp) hrun
    obtain ⟨w, hv, hmem⟩ :=
      (SinMap.sin_Get_Logged m m1 _ fuel k now _ v hget hl).2 rfl
    rw [List.append_nil] at hmem
    exact ⟨w, hv, hmem, fun hall => hall _ hmem⟩

theorem Get_ok_was_inserted_witness :
    (∃ (m : ShmHashMap Nat Nat) (log : List (Nat × Nat)), ShmHashMap.Run scenarioMap log m ∧
      m.Get 5 7 5 = some (SinHashRet.RET_OK, some 7) ∧ (7, 7) ∈ log) ∧
    (∃ (m m1 : SinMap.SinHashMap Nat Nat) (log : List (Nat × Nat)),
      SinMap.SinHashMap.Run (SinMap.SinHashMap.construct (fun k => k) 4 0) log m ∧
      m.Get 5 7 5 = some (SinMap.SinHashRet.RET_OK, some 7, m1) ∧ (7, 7) ∈ log) := by
  have hthm := @Get_ok_was_inserted Nat Nat _ (fun k => k) 16 40 8
    { next := 0, key := 0, value := 0, expire := 0, invalid := 0, del_next := 0 } 4 0
    (by norm_num) (by norm_num) (by norm_num) 4 (fun k => k)
  constructor
  · have h1 : (scenarioMap.Insert 5 7 7 0 0).isSome = true := by decide
    obtain ⟨p, hp⟩ := Option.isSome_iff_exists.mp h1
    have h2 : (scenarioMap.Insert 5 7 7 0 0).map (fun p => p.1) = some SinHashRet.RET_OK := by
      decide
    have h3 : (scenarioMap.Insert 5 7 7 0 0).bind (fun p => p.2.Get 5 7 5)
        = some (SinHashRet.RET_OK, some 7) := by decide
    rw [hp] at h2 h3
    simp only [Option.map_some', Option.some.injEq, Option.some_bind] at h2 h3
    have hp1 : scenarioMap.Insert 5 7 7 0 0 = some (SinHashRet.RET_OK, p.2) := by
      rw [hp, ← h2]
    have hrun : ShmHashMap.Run scenarioMap [(7, 7)] p.2 :=
      ShmHashMap.Run.insert [] scenarioMap p.2 5 7 7 0 0 ShmHashMap.Run.init hp1
    obtain ⟨w, e, hmem, _⟩ := hthm.1 [(7, 7)] p.2 hrun 5 7 5 (some 7) h3
    cases e
    exact ⟨p.2, [(7, 7)], hrun, h3, hmem⟩
  · have h1 : ((SinMap.SinHashMap.construct (fun k => k) 4 0 :
        SinMap.SinHashMap Nat Nat).Insert 5 100 7 7 0 0).isSome = true := by decide
    obtain ⟨m, hm⟩ := Option.isSome_iff_exists.mp h1
    have h3 : (((SinMap.SinHashMap.construct (fun k => k) 4 0 :
        SinMap.SinHashMap Nat Nat).Insert 5 100 7 7 0 0).bind (fun m => m.Get 5 7 5)).map
          (fun r => (r.1, r.2.1)) = some (SinMap.SinHashRet.RET_OK, some 7) := by decide
    rw [hm] at h3
    simp only [Option.some_bind, Option.map_eq_some', Prod.mk.injEq] at h3
    obtain ⟨r, hr, e1, e2⟩ := h3
    have hr1 : m.Get 5 7 5 = some (SinMap.SinHashRet.RET_OK, some 7, r.2.2) := by
      rw [hr, ← e1, ← e2]
    have hrun : SinMap.SinHashMap.Run (SinMap.SinHashMap.construct (fun k => k) 4 0)
        [(7, 7)] m :=
      SinMap.SinHashMap.Run.insert [] _ m 5 100 7 7 0 0 SinMap.SinHashMap.Run.init hm
    obtain ⟨w, e, hmem, _⟩ := hthm.2 [(7, 7)] m r.2.2 hrun 5 7 5 (some 7) hr1
    cases e
    exact ⟨m, r.2.2, [(7, 7)], hrun, hr1, hmem⟩

end ShmMap
namespace ShmMap

open ShmPool

variable {K V : Type} [DecidableEq K]

/-- C28: in a state reached from a fresh map by sequential `Insert`, `Get` and `GC`
calls, for every bucket: the head is `OFFSET_NULL` exactly when the tail is; the
items reached from the head through `_next` form a finite list `l` without
repetition, which is the walk of `GetNode`; and when the head is not `OFFSET_NULL`
the tail is the last item of `l` and its `_next` is `OFFSET_NULL`. -/
theorem bucket_head_tail (HashCode : K → Nat) (N S D : Nat) (zero : ItemNode K V)
    (bucket_size gc_timestamp : Nat) (hN : N + 2 < 4294967296) (hD1 : 1 < D) (hD2 : D < S)
    (m : ShmHashMap K V)
    (hreach : ShmHashMap.Reachable
      (ShmHashMap.construct HashCode (MemoryPool.construct N S D zero) bucket_size
        gc_timestamp) m)
    (b : Nat) (hb : b < m.bucket_size) :
    ((m.buckets b).head = OFFSET_NULL ↔ (m.buckets b).tail = OFFSET_NULL) ∧
    ∃ l : List Nat, m.Chain (fun it => it.next) (m.buckets b).head l ∧
      m.IsWalk (m.buckets b).head l ∧ l.Nodup ∧ (l.map m.slot).Nodup ∧
      (∀ l1, m.Chain (fun it => it.next) (m.buckets b).head l1 → l1 = l) ∧
      (l = [] ↔ (m.buckets b).head = OFFSET_NULL) ∧
      ((m.buckets b).head ≠ OFFSET_NULL →
        ∃ t, l.getLast? = some t ∧ (m.buckets b).tail = t ∧ t ≠ OFFSET_NULL ∧
          (m.item t).next = OFFSET_NULL) := by
  have hm : m.WF :=
    Reachable_WF _ m (WF_construct HashCode N S D zero bucket_size gc_timestamp hN hD1 hD2)
      hreach
  obtain ⟨l, hl⟩ := hm.buckets b hb
  have hnil : l = [] ↔ (m.buckets b).head = OFFSET_NULL := by
    constructor
    · intro e
      have hc := hl.chain
      rw [e] at hc
      exact hc
    · intro e
      by_contra hne
      exact Chain_head_ne m _ l _ hl.chain hne e
  have hlast : l ≠ [] → ∃ t, l.getLast? = some t ∧ (m.buckets b).tail = t ∧
      t ≠ OFFSET_NULL ∧ (m.item t).next = OFFSET_NULL := by
    intro hne
    cases hg : l.getLast? with
    | none => exact absurd (List.getLast?_eq_none_iff.mp hg) hne
    | some t =>
      exact ⟨t, rfl, hl.tail_last t hg,
        (Chain_mem_used m _ l _ hl.chain t (getLast?_mem l t hg)).2,
        Chain_last_link m _ l _ t hl.chain hg⟩
  refine ⟨?_, l, hl.chain, Chain_IsWalk m l _ hl.chain, ?_, hl.nodup, ?_, hnil, ?_⟩
  · constructor
    · intro e
      exact hl.tail_nil (hnil.mpr e)
    · intro e
      by_contra hne
      obtain ⟨t, _, e1, e2, _⟩ := hlast (fun h0 => hne (hnil.mp h0))
      exact e2 (e1.symm.trans e)
  · exact List.Nodup.of_map _ hl.nodup
  · intro l1 h1
    exact Chain_unique m _ l1 l _ h1 hl.chain
  · intro hne
    exact hlast (fun h0 => hne (hnil.mp h0))

theorem bucket_head_tail_witness :
    ∃ m : ShmHashMap Nat Nat, ShmHashMap.Reachable scenarioMap m ∧
      (m.buckets 3).head = 8 ∧ (m.buckets 3).tail = 48 ∧
      (m.item 8).next = 48 ∧ (m.item 48).next = OFFSET_NULL ∧
      m.Chain (fun it => it.next) (m.buckets 3).head [8, 48] := by
  have h1 : ((scenarioMap.Insert 5 7 7 0 0).bind (fun p => p.2.Insert 5 3 3 0 0)).isSome
      = true := by decide
  obtain ⟨q, hq⟩ := Option.isSome_iff_exists.mp h1
  obtain ⟨p, hp, hq1⟩ := Option.bind_eq_some.mp hq
  have h2 : ((scenarioMap.Insert 5 7 7 0 0).bind (fun p => p.2.Insert 5 3 3 0 0)).map
      (fun q => [q.2.bucket_size, (q.2.buckets 3).head, (q.2.buckets 3).tail,
        (q.2.item 8).next, (q.2.item 48).next]) = some [4, 8, 48, 48, OFFSET_NULL] := by
    decide
  rw [hq] at h2
  simp only [Option.map_some', Option.some.injEq, List.cons.injEq, and_true] at h2
  obtain ⟨k1, k2, k3, k4, k5⟩ := h2
  have hreach : ShmHashMap.Reachable scenarioMap q.2 :=
    ShmHashMap.Reachable.insert p.2 q.2 5 3 3 0 0 q.1
      (ShmHashMap.Reachable.insert scenarioMap p.2 5 7 7 0 0 p.1 ShmHashMap.Reachable.init hp)
      hq1
  obtain ⟨_, l, c1, _, _, _, _, _, c7⟩ :=
    bucket_head_tail (fun k => k) 16 40 8
      { next := 0, key := 0, value := 0, expire := 0, invalid := 0, del_next := 0 } 4 0
      (by norm_num) (by norm_num) (by norm_num) q.2 hreach 3 (by rw [k1]; norm_num)
  have hne : (q.2.buckets 3).head ≠ OFFSET_NULL := by rw [k2]; decide
  obtain ⟨t, e1, e2, _, e4⟩ := c7 hne
  have hl : l = [8, 48] := by
    cases l with
    | nil => simp at e1
    | cons x l =>
      obtain ⟨a1, _, a3⟩ := c1
      rw [k2] at a1
      subst a1
      cases l with
      | nil =>
        have a4 : (q.2.item 8).next = OFFSET_NULL := a3
        rw [k4] at a4
        exact absurd a4 (by decide)
      | cons y l =>
        obtain ⟨b1, _, b3⟩ := a3
        have b1' : (q.2.item 8).next = y := b1
        rw [k4] at b1'
        subst b1'
        cases l with
        | nil => rfl
        | cons z l =>
          obtain ⟨d1, d2, _⟩ := b3
          have d1' : (q.2.item 48).next = z := d1
          rw [k5] at d1'
          rw [← d1', OffsetToNode_NULL] at d2
          cases d2
  rw [hl] at c1
  exact ⟨q.2, hreach, k2, k3, k4, k5, c1⟩

end ShmMap
namespace ShmMap

open ShmPool

variable {K V : Type} [DecidableEq K]

/-- What a `Get` that returns `RET_OK` has found on a well-formed bucket: the first
item of the chain with the key, which is not expired. -/
theorem Get_ok_found (m : ShmHashMap K V) (l : List Nat) (fuel : Nat) (k : K) (now : Int)
    (v : Option V) (hl : m.BucketWF (m.HashCode k % m.bucket_size) l)
    (h : m.Get fuel k now = some (SinHashRet.RET_OK, v)) :
    ∃ x, l.find? (fun y => decide ((m.item y).key = k)) = some x ∧ x ∈ l ∧
      (m.item x).key = k ∧ m.expired now x = false ∧ v = some (m.item x).value ∧
      m.GetNode fuel (m.HashCode k % m.bucket_size) k = some (some x) := by
  unfold ShmHashMap.Get at h
  simp only at h
  cases hg : m.GetNode fuel (m.HashCode k % m.bucket_size) k with
  | none => rw [hg] at h; cases h
  | some r =>
    rw [hg] at h
    have hr := (GetNode_bucket m _ k l hl fuel).1 r hg
    cases r with
    | none => simp at h
    | some x =>
      simp only at h
      obtain ⟨hx, hk⟩ := find?_mem_key m k l x hr.symm
      cases hexp : isExpired (m.item x) now with
      | true => rw [hexp] at h; simp at h
      | false =>
        rw [hexp] at h
        simp only [Bool.false_eq_true, if_false, Option.some.injEq, Prod.mk.injEq,
          true_and] at h
        exact ⟨x, hr.symm, hx, hk, hexp, h.symm, rfl⟩

/-- C29: in a state reached from a fresh map by sequential `Insert`, `Get` and `GC`
calls, when `Get(k)` at time `now` returns `RET_OK` with the value `v`, a `GC` call
at time `now` returns, and `Get(k)` at time `now` on the state after it returns
`RET_OK` with `v` again: the item `x` that the lookup found is still on the chain
of its bucket and still what `GetNode` finds, in state `VALID` with its key, value
and `_expire` unchanged, and it is on no garbage list. -/
theorem Get_kept_by_sweep (HashCode : K → Nat) (N S D : Nat) (zero : ItemNode K V)
    (bucket_size gc_timestamp : Nat) (hN : N + 2 < 4294967296) (hD1 : 1 < D) (hD2 : D < S)
    (m : ShmHashMap K V)
    (hreach : ShmHashMap.Reachable
      (ShmHashMap.construct HashCode (MemoryPool.construct N S D zero) bucket_size
        gc_timestamp) m)
    (k : K) (now : Int) (v : Option V) (fuel : Nat) (hf : m.pool.node_size < fuel)
    (hget : m.Get fuel k now = some (SinHashRet.RET_OK, v)) :
    ∃ (m2 : ShmHashMap K V) (x : Nat), m.GC fuel now = some m2 ∧
      m2.Get fuel k now = some (SinHashRet.RET_OK, v) ∧
      m.GetNode fuel (m.HashCode k % m.bucket_size) k = some (some x) ∧
      m2.GetNode fuel (m.HashCode k % m.bucket_size) k = some (some x) ∧
      v = some (m.item x).value ∧
      (m2.item x).key = (m.item x).key ∧ (m2.item x).value = (m.item x).value ∧
      (m2.item x).expire = (m.item x).expire ∧ (m.item x).invalid = VALID ∧
      (m2.item x).invalid = VALID ∧
      (∀ g2, m2.Chain (fun it => it.del_next) m2.garbage_list_head_offset g2 → x ∉ g2) := by
  have hm : m.WF :=
    Reachable_WF _ m (WF_construct HashCode N S D zero bucket_size gc_timestamp hN hD1 hD2)
      hreach
  have hb : m.HashCode k % m.bucket_size < m.bucket_size := Nat.mod_lt _ hm.bucket_pos
  obtain ⟨l, hl⟩ := hm.buckets _ hb
  obtain ⟨x, hfind, hx, hk, hexp, hv, hgn⟩ := Get_ok_found m l fuel k now v hl hget
  obtain ⟨m2, h2⟩ := GC_total m now fuel hm hf
  obtain ⟨hm2, l2, hl2, hsub, hlive, _⟩ := GC_chain m m2 now fuel _ l hm hb hl h2
  obtain ⟨f1, f2, _, f4, _⟩ := GC_Frame fuel m m2 now h2
  have hkv := item_kv_of_GC m m2 now fuel h2
  have hx2 : x ∈ l2 := hlive x hx hexp
  have hfind2 : l2.find? (fun y => decide ((m2.item y).key = k)) = some x := by
    have hnd : l.Nodup := List.Nodup.of_map _ hl.nodup
    have := find?_sublist (fun y => decide ((m.item y).key = k)) x l2 l hsub hnd hfind hx2
    rw [← this]
    apply find?_congr_mem
    intro y _
    rw [(hkv y).1]
  have hlen : l2.length < fuel := by
    have := BucketWF_length_le m2 _ l2 hl2
    rw [f4] at this
    omega
  have hidx : m2.HashCode k % m2.bucket_size = m.HashCode k % m.bucket_size := by
    rw [f1, f2]
  have hl2' : m2.BucketWF (m2.HashCode k % m2.bucket_size) l2 := by rw [hidx]; exact hl2
  have hexp2 : ¬ ((m2.item x).expire ≠ 0 ∧ (m2.item x).expire < now) := by
    rw [(hkv x).2.2]
    intro hc
    have : isExpired (m.item x) now = true := by
      unfold isExpired
      simp only [Bool.and_eq_true, decide_eq_true_eq]
      exact hc
    have hexp' : isExpired (m.item x) now = false := hexp
    rw [hexp'] at this
    cases this
  refine ⟨m2, x, h2, ?_, hgn, ?_, hv, (hkv x).1, (hkv x).2.1, (hkv x).2.2, (hl.nodes x hx).2.1,
    (hl2.nodes x hx2).2.1, ?_⟩
  · rw [Get_walk m2 k now l2 fuel (Chain_IsWalk m2 _ _ hl2'.chain) hlen, hfind2]
    simp only [hexp2, if_false, hv, (hkv x).2.1]
  · have := (GetNode_bucket m2 _ k l2 hl2 fuel).2 hlen
    rw [this, hfind2]
  · intro g2 hg2 hxg
    obtain ⟨g0, hg0⟩ := hm2.garbage
    have hgg : g2 = g0 := Chain_unique m2 _ g2 g0 _ hg2 hg0.chain
    subst hgg
    exact BucketWF_GarbageWF_slot_ne m2 _ l2 g2 hl2 hg0 x x hx2 hxg rfl

theorem Get_kept_by_sweep_witness :
    ∃ m m2 : ShmHashMap Nat Nat, ShmHashMap.Reachable scenarioMap m ∧
      m.Get 19 7 3 = some (SinHashRet.RET_OK, some 7) ∧ m.GC 19 3 = some m2 ∧
      m2.gc_timestamp = 3 ∧ m2.Get 19 7 3 = some (SinHashRet.RET_OK, some 7) := by
  have h1 : (scenarioMap.Insert 5 7 7 5 0).isSome = true := by decide
  obtain ⟨p, hp⟩ := Option.isSome_iff_exists.mp h1
  have h2 : (scenarioMap.Insert 5 7 7 5 0).bind (fun p => p.2.Get 19 7 3)
      = some (SinHashRet.RET_OK, some 7) := by decide
  have h3 : (scenarioMap.Insert 5 7 7 5 0).map (fun p => p.2.pool.node_size) = some 18 := by
    decide
  have h4 : ((scenarioMap.Insert 5 7 7 5 0).bind (fun p => (p.2.GC 19 3).map (fun m1 =>
      m1.gc_timestamp))) = some 3 := by decide
  rw [hp] at h2 h3 h4
  simp only [Option.map_some', Option.some.injEq, Option.some_bind] at h2 h3 h4
  have hreach : ShmHashMap.Reachable scenarioMap p.2 :=
    ShmHashMap.Reachable.insert scenarioMap p.2 5 7 7 5 0 p.1 ShmHashMap.Reachable.init hp
  obtain ⟨m2, x, c1, c2, _⟩ :=
    Get_kept_by_sweep (fun k => k) 16 40 8
      { next := 0, key := 0, value := 0, expire := 0, invalid := 0, del_next := 0 } 4 0
      (by norm_num) (by norm_num) (by norm_num) p.2 hreach 7 3 (some 7) 19
      (by rw [h3]; norm_num) h2
  rw [c1] at h4
  simp only [Option.map_some', Option.some.injEq] at h4
  exact ⟨p.2, m2, hreach, h2, c1, h4, c2⟩

end ShmMap
namespace ShmMap

open ShmPool

variable {K V : Type}

/-- The chains of a well-formed state, as a function of the bucket. -/
theorem WF_chains (m : ShmHashMap K V) (hm : m.WF) :
    ∃ chains : Nat → List Nat, ∀ b, b < m.bucket_size → m.BucketWF b (chains b) := by
  classical
  refine ⟨fun b => if h : b < m.bucket_size then Classical.choose (hm.buckets b h) else [], ?_⟩
  intro b hb
  simp only [dif_pos hb]
  exact Classical.choose_spec (hm.buckets b hb)

/-- A list of pairwise different slots in use is no longer than the count of the
slots in use. -/
theorem length_le_usedCount (p : MemoryPool (ItemNode K V)) (l : List Nat) (hd : l.Nodup)
    (hl : ∀ s, s ∈ l → s < p.node_size ∧ (p.nodes s).used = true) :
    l.length ≤ p.usedCount := by
  unfold MemoryPool.usedCount
  have hsub : l ⊆ List.range p.node_size := fun s hs => List.mem_range.mpr (hl s hs).1
  have h1 := List.Subperm.countP_le (fun i => (p.nodes i).used)
    (List.subperm_of_subset hd hsub)
  have h2 : List.countP (fun i => (p.nodes i).used) l = l.length :=
    List.countP_eq_length.mpr (fun s hs => (hl s hs).2)
  omega

/-- The slots of all chains of a well-formed state are pairwise different slots in
use. -/
theorem chains_length_le (m : ShmHashMap K V) (chains : Nat → List Nat)
    (hc : ∀ b, b < m.bucket_size → m.BucketWF b (chains b)) :
    ((List.range m.bucket_size).map (fun b => (chains b).length)).sum ≤ m.pool.usedCount := by
  have hnd : ((List.range m.bucket_size).flatMap (fun b => (chains b).map m.slot)).Nodup := by
    rw [List.nodup_flatMap]
    refine ⟨fun b hb => (hc b (List.mem_range.mp hb)).nodup, ?_⟩
    refine List.Nodup.pairwise_of_forall_ne (List.nodup_range _) ?_
    intro a ha b hb hab s hsa hsb
    obtain ⟨x, hx, ex⟩ := List.mem_map.mp hsa
    obtain ⟨y, hy, ey⟩ := List.mem_map.mp hsb
    exact BucketWF_slot_ne m a b _ _ (hc a (List.mem_range.mp ha)) (hc b (List.mem_range.mp hb))
      hab x y hx hy (ex.trans ey.symm)
  have hlen := length_le_usedCount m.pool _ hnd (by
    intro s hs
    obtain ⟨b, hb, hsb⟩ := List.mem_flatMap.mp hs
    obtain ⟨x, hx, ex⟩ := List.mem_map.mp hsb
    subst ex
    have hw := hc b (List.mem_range.mp hb)
    exact ⟨(hw.nodes x hx).1, (Chain_mem_used m _ _ _ hw.chain x hx).1⟩)
  rw [List.length_flatMap] at hlen
  have e : (List.range m.bucket_size).map (List.length ∘ fun b => (chains b).map m.slot)
      = (List.range m.bucket_size).map (fun b => (chains b).length) := by
    apply List.map_congr_left
    intro b _
    simp
  rw [e] at hlen
  exact hlen

variable [DecidableEq K]

/-- C30: in a state reached from a fresh map by sequential `Insert`, `Get` and `GC`
calls, the counter of every bucket is the number of items on the chain from its
head; `GetCount()` is the total number of chained items, converted to `int`, which
is that number itself for a pool of fewer than `2^31` slots; and the total is at
most the number of slots in use. -/
theorem GetCount_spec (HashCode : K → Nat) (N S D : Nat) (zero : ItemNode K V)
    (bucket_size gc_timestamp : Nat) (hN : N + 2 < 4294967296) (hD1 : 1 < D) (hD2 : D < S)
    (m : ShmHashMap K V)
    (hreach : ShmHashMap.Reachable
      (ShmHashMap.construct HashCode (MemoryPool.construct N S D zero) bucket_size
        gc_timestamp) m) :
    ∃ chains : Nat → List Nat,
      (∀ b, b < m.bucket_size →
        m.Chain (fun it => it.next) (m.buckets b).head (chains b) ∧
        m.IsWalk (m.buckets b).head (chains b) ∧
        (m.buckets b).count = (chains b).length) ∧
      m.GetCount
        = wrapInt32 (((List.range m.bucket_size).map (fun b => (chains b).length)).sum : Nat) ∧
      (N + 2 < 2147483648 →
        m.GetCount = (((List.range m.bucket_size).map (fun b => (chains b).length)).sum : Nat)) ∧
      ((List.range m.bucket_size).map (fun b => (chains b).length)).sum ≤ m.pool.usedCount ∧
      m.pool.usedCount ≤ N + 2 := by
  have h0 := WF_construct HashCode N S D zero bucket_size gc_timestamp hN hD1 hD2
  have hm : m.WF := Reachable_WF _ m h0 hreach
  obtain ⟨chains, hc⟩ := WF_chains m hm
  have hsum : ((List.range m.bucket_size).map (fun i => (m.buckets i).count))
      = (List.range m.bucket_size).map (fun b => (chains b).length) := by
    apply List.map_congr_left
    intro b hb
    exact (hc b (List.mem_range.mp hb)).count
  have hle := chains_length_le m chains hc
  have hn : m.pool.node_size = N + 2 := by
    have e : ∀ m1, ShmHashMap.Reachable
        (ShmHashMap.construct HashCode (MemoryPool.construct N S D zero) bucket_size
          gc_timestamp) m1 → m1.pool.node_size = N + 2 := by
      intro m1 h1
      induction h1 with
      | init => simp [ShmHashMap.construct, MemoryPool.construct, Nat.mod_eq_of_lt hN]
      | insert ma mb fuel key value expire now r hr hins ih =>
        have hw := Reachable_WF _ ma h0 hr
        rw [← ih]
        exact (Insert_consts ma mb key value expire now fuel r hw hins).1
      | get ma fuel key now r _ _ ih => exact ih
      | gc ma mb fuel now _ hgc ih =>
        obtain ⟨_, _, _, f4, _⟩ := GC_Frame fuel ma mb now hgc
        rw [f4]; exact ih
    exact e m hreach
  have hu : m.pool.usedCount ≤ N + 2 := by
    rw [← hn]; exact usedCount_le m.pool
  have hG : m.GetCount = wrapInt32
      (((List.range m.bucket_size).map (fun b => (chains b).length)).sum : Nat) := by
    unfold ShmHashMap.GetCount
    rw [hsum]
  refine ⟨chains, ?_, hG, ?_, hle, hu⟩
  · intro b hb
    exact ⟨(hc b hb).chain, Chain_IsWalk m _ _ (hc b hb).chain, (hc b hb).count⟩
  · intro hN2
    rw [hG]
    apply wrapInt32_eq
    · have : (0 : Int) ≤
          ((((List.range m.bucket_size).map (fun b => (chains b).length)).sum : Nat) : Int) :=
        Int.natCast_nonneg _
      omega
    · have : ((List.range m.bucket_size).map (fun b => (chains b).length)).sum < 2147483648 := by
        omega
      exact_mod_cast this

theorem GetCount_spec_witness :
    ∃ (m : ShmHashMap Nat Nat) (chains : Nat → List Nat), ShmHashMap.Reachable scenarioMap m ∧
      (∀ b, b < m.bucket_size → m.Chain (fun it => it.next) (m.buckets b).head (chains b)) ∧
      ((List.range m.bucket_size).map (fun b => (chains b).length)).sum = 3 ∧
      m.GetCount = 3 ∧ 3 ≤ m.pool.usedCount ∧
      m.Get 5 7 10 = some (SinHashRet.RET_NOT_FOUND, none) := by
  have h1 : ((scenarioMap.Insert 5 7 7 1 0).bind (fun p => (p.2.Insert 5 3 3 0 0).bind
      (fun q => q.2.Insert 5 2 2 0 0))).isSome = true := by decide
  obtain ⟨r, hr⟩ := Option.isSome_iff_exists.mp h1
  obtain ⟨p, hp, hr1⟩ := Option.bind_eq_some.mp hr
  obtain ⟨q, hq, hr2⟩ := Option.bind_eq_some.mp hr1
  have h2 : ((scenarioMap.Insert 5 7 7 1 0).bind (fun p => (p.2.Insert 5 3 3 0 0).bind
      (fun q => q.2.Insert 5 2 2 0 0))).map (fun r => r.2.GetCount) = some 3 := by decide
  have h3 : ((scenarioMap.Insert 5 7 7 1 0).bind (fun p => (p.2.Insert 5 3 3 0 0).bind
      (fun q => q.2.Insert 5 2 2 0 0))).bind (fun r => r.2.Get 5 7 10)
      = some (SinHashRet.RET_NOT_FOUND, none) := by decide
  rw [hr] at h2 h3
  simp only [Option.map_some', Option.some.injEq, Option.some_bind] at h2 h3
  have hreach : ShmHashMap.Reachable scenarioMap r.2 :=
    ShmHashMap.Reachable.insert q.2 r.2 5 2 2 0 0 r.1
      (ShmHashMap.Reachable.insert p.2 q.2 5 3 3 0 0 q.1
        (ShmHashMap.Reachable.insert scenarioMap p.2 5 7 7 1 0 p.1 ShmHashMap.Reachable.init
          hp) hq) hr2
  obtain ⟨chains, c1, _, c3, c4, _⟩ :=
    GetCount_spec (fun k => k) 16 40 8
      { next := 0, key := 0, value := 0, expire := 0, invalid := 0, del_next := 0 } 4 0
      (by norm_num) (by norm_num) (by norm_num) r.2 hreach
  have c5 := c3 (by norm_num)
  rw [h2] at c5
  have c6 : ((List.range r.2.bucket_size).map (fun b => (chains b).length)).sum = 3 := by
    exact_mod_cast c5.symm
  refine ⟨r.2, chains, hreach, fun b hb => (c1 b hb).1, c6, h2, ?_, h3⟩
  rw [← c6]
  exact c4

end ShmMap
namespace ShmMap

open ShmPool

variable {K V : Type}

theorem interiorKeep_eq_filter (e : Nat → Bool) :
    ∀ l : List Nat, l.Nodup →
      interiorKeep e l = l.filter (fun y => decide (l.getLast? = some y) || !(e y))
  | [], _ => rfl
  | [t], _ => by simp [interiorKeep]
  | x :: y :: r, hnd => by
    have hx : x ∉ y :: r := (List.nodup_cons.mp hnd).1
    have hnd1 : (y :: r).Nodup := (List.nodup_cons.mp hnd).2
    have ih := interiorKeep_eq_filter e (y :: r) hnd1
    have hlast : (x :: y :: r).getLast? = (y :: r).getLast? :=
      getLast?_cons_ne_nil x (y :: r) (by simp)
    have hxl : decide ((y :: r).getLast? = some x) = false := by
      rw [decide_eq_false_iff_not]
      intro h
      exact hx (getLast?_mem _ _ h)
    have hP : (fun z => decide ((x :: y :: r).getLast? = some z) || !(e z))
        = (fun z => decide ((y :: r).getLast? = some z) || !(e z)) := by rw [hlast]
    rw [interiorKeep_cons_cons, ih, hP]
    conv_rhs => rw [List.filter_cons]
    rw [hxl]
    cases e x <;> simp

theorem interiorKeep_length (e : Nat → Bool) :
    ∀ l : List Nat, (interiorKeep e l).length + (interiorDrop e l).length = l.length
  | [] => rfl
  | [_] => rfl
  | x :: y :: r => by
    have ih := interiorKeep_length e (y :: r)
    rw [interiorKeep_cons_cons, interiorDrop_cons_cons]
    cases e x <;> simp only [Bool.false_eq_true, if_false, if_true, List.length_cons] at ih ⊢ <;>
      omega

theorem scanKeep_length (e : Nat → Bool) (l : List Nat) :
    (scanKeep e l).length + (scanDrop e l).length = l.length := by
  cases l with
  | nil => rfl
  | cons h rest =>
    have := interiorKeep_length e rest
    rw [scanKeep_cons, scanDrop_cons]
    cases e h <;> simp only [Bool.false_eq_true, if_false, if_true, List.length_cons,
      List.length_append, List.length_nil, List.length_singleton] <;> omega

/-- The chain that `Scan` leaves is the chain that the specification describes. -/
theorem scanKeep_eq_keptByScan (e : Nat → Bool) (l : List Nat) (hnd : l.Nodup) :
    scanKeep e l = keptByScan e l := by
  cases l with
  | nil => rfl
  | cons h rest =>
    cases rest with
    | nil =>
      rw [scanKeep_cons]
      simp only [interiorKeep, keptByScan]
    | cons y r =>
      have hx : h ∉ y :: r := (List.nodup_cons.mp hnd).1
      have hnd1 : (y :: r).Nodup := (List.nodup_cons.mp hnd).2
      have hlast : (h :: y :: r).getLast? = (y :: r).getLast? :=
        getLast?_cons_ne_nil h (y :: r) (by simp)
      have hxl : decide ((y :: r).getLast? = some h) = false := by
        rw [decide_eq_false_iff_not]
        intro h1
        exact hx (getLast?_mem _ _ h1)
      have hP : (fun z => decide ((h :: y :: r).getLast? = some z) || !(e z))
          = (fun z => decide ((y :: r).getLast? = some z) || !(e z)) := by rw [hlast]
      rw [scanKeep_cons, interiorKeep_eq_filter e (y :: r) hnd1]
      show _ = (h :: y :: r).filter
        (fun z => decide ((h :: y :: r).getLast? = some z) || !(e z))
      rw [hP]
      conv_rhs => rw [List.filter_cons]
      rw [hxl]
      cases e h <;> simp

/-- C25: on a well-formed state (every chained item is `VALID`; the states reached
by sequential `Insert`, `Get` and `GC` calls are such) `Scan` at time `now`
returns, and for every bucket with chain `l` it leaves the chain `keptByScan l`:
no item, with head and tail `OFFSET_NULL`, when `l` is one expired item, and
otherwise the items of `l`, in order, that are the last of `l` or not expired; the
last item of a chain of two or more stays and stays the tail.  Every item of `l`
that is not kept is expired, is on the garbage list behind the items that were
there, in state `COLLECTING`, and the counter of the bucket drops by the number of
these items.  Key, value and `_expire` of every item are unchanged. -/
theorem Scan_chain_spec (m : ShmHashMap K V) (now : Int) (hm : m.WF) :
    ∃ (m1 : ShmHashMap K V) (g rm : List Nat),
      (∀ fuel, m.pool.node_size < fuel → ShmHashMap.Scan fuel now m = some m1) ∧
      (∀ fuel r, ShmHashMap.Scan fuel now m = some r → r = m1) ∧
      m.Chain (fun it => it.del_next) m.garbage_list_head_offset g ∧
      m1.Chain (fun it => it.del_next) m1.garbage_list_head_offset (g ++ rm) ∧
      (∀ x, (m1.item x).key = (m.item x).key ∧ (m1.item x).value = (m.item x).value ∧
        (m1.item x).expire = (m.item x).expire) ∧
      ∀ b l, b < m.bucket_size → m.Chain (fun it => it.next) (m.buckets b).head l →
        m1.Chain (fun it => it.next) (m1.buckets b).head (keptByScan (m.expired now) l) ∧
        (keptByScan (m.expired now) l).Sublist l ∧
        (keptByScan (m.expired now) l = [] →
          (m1.buckets b).head = OFFSET_NULL ∧ (m1.buckets b).tail = OFFSET_NULL) ∧
        (∀ t, l.getLast? = some t → 2 ≤ l.length →
          t ∈ keptByScan (m.expired now) l ∧ (m1.buckets b).tail = t) ∧
        (∀ x, x ∈ l → x ∉ keptByScan (m.expired now) l →
          m.expired now x = true ∧ x ∈ rm ∧ (m.item x).invalid = VALID ∧
          (m1.item x).invalid = COLLECTING) ∧
        (m.buckets b).count = l.length ∧
        (m1.buckets b).count = (keptByScan (m.expired now) l).length ∧
        (m1.buckets b).count + (l.length - (keptByScan (m.expired now) l).length)
          = (m.buckets b).count := by
  obtain ⟨g, hg⟩ := hm.garbage
  obtain ⟨m1, rm, a1, a2, a3, a4, a5, a6, _, a8⟩ := Scan_spec now m g hm hg
  have hkv : ∀ x, (m1.item x).key = (m.item x).key ∧ (m1.item x).value = (m.item x).value ∧
      (m1.item x).expire = (m.item x).expire := by
    intro x
    obtain ⟨e1, e0⟩ := item_field_of_nodes m m1 a6.NodeSize_eq x
    rw [e1, e0]
    exact ⟨a6.key_eq _, a6.value_eq _, a6.expire_eq _⟩
  refine ⟨m1, g, rm, fun fuel hf => (a8 fuel).1 hf, fun fuel r hr => (a8 fuel).2 r hr,
    hg.chain, a2.chain, hkv, ?_⟩
  intro b l hb hl
  obtain ⟨l0, hl0⟩ := hm.buckets b hb
  have hll : l = l0 := Chain_unique m _ l l0 _ hl hl0.chain
  subst hll
  have hnd : l.Nodup := List.Nodup.of_map _ hl0.nodup
  have hk := a3 b l hb hl0
  rw [scanKeep_eq_keptByScan _ l hnd] at hk
  have hlen := scanKeep_length (m.expired now) l
  rw [scanKeep_eq_keptByScan _ l hnd] at hlen
  have hsub : (keptByScan (m.expired now) l).Sublist l := by
    rw [← scanKeep_eq_keptByScan _ l hnd]
    exact scanKeep_sublist _ l
  refine ⟨hk.chain, hsub, ?_, ?_, ?_, hl0.count, hk.count, ?_⟩
  · intro e
    have hc := hk.chain
    rw [e] at hc
    exact ⟨hc, hk.tail_nil e⟩
  · intro t ht h2
    have hmem : t ∈ keptByScan (m.expired now) l := by
      cases l with
      | nil => simp at ht
      | cons h rest =>
        cases rest with
        | nil => simp at h2
        | cons y r =>
          show t ∈ (h :: y :: r).filter
            (fun z => decide ((h :: y :: r).getLast? = some z) || !(m.expired now z))
          rw [List.mem_filter]
          exact ⟨getLast?_mem _ _ ht, by simp [ht]⟩
    refine ⟨hmem, ?_⟩
    have hkl : (keptByScan (m.expired now) l).getLast? = some t := by
      rw [← scanKeep_eq_keptByScan _ l hnd]
      cases l with
      | nil => simp at ht
      | cons h rest =>
        cases rest with
        | nil => simp at h2
        | cons y r =>
          rw [scanKeep_cons]
          have hi := interiorKeep_getLast (m.expired now) (y :: r)
          have hne : interiorKeep (m.expired now) (y :: r) ≠ [] := by
            intro e0
            rw [e0] at hi
            have hi1 : (y :: r).getLast? = none := hi.symm
            exact absurd (List.getLast?_eq_none_iff.mp hi1) (by simp)
          have ht1 : (y :: r).getLast? = some t := by
            rw [← getLast?_cons_ne_nil h (y :: r) (by simp)]
            exact ht
          cases m.expired now h with
          | true => simp only [if_true]; rw [hi, ht1]
          | false =>
            simp only [Bool.false_eq_true, if_false]
            rw [getLast?_cons_ne_nil h _ hne, hi, ht1]
    exact hk.tail_last t hkl
  · intro x hx hnk
    rw [← scanKeep_eq_keptByScan _ l hnd] at hnk
    rcases mem_scanKeep_or_Drop (m.expired now) l x hx with h1 | h1
    · exact absurd h1 hnk
    · have hrm : x ∈ rm := (a4 x).mpr ⟨b, l, hb, hl0, h1⟩
      exact ⟨(scanDrop_expired _ l x h1).2, hrm, (hl0.nodes x hx).2.1, a5 x hrm⟩
  · rw [hl0.count, hk.count]
    have := hsub.length_le
    omega

theorem Scan_chain_spec_witness :
    ∃ m m1 : ShmHashMap Nat Nat, ShmHashMap.Reachable scenarioMap m ∧
      m.Chain (fun it => it.next) (m.buckets 3).head [8, 48, 88] ∧
      m.Chain (fun it => it.next) (m.buckets 2).head [128] ∧
      ShmHashMap.Scan 19 10 m = some m1 ∧
      m1.Chain (fun it => it.next) (m1.buckets 3).head [88] ∧ (m1.buckets 3).count = 1 ∧
      (m1.buckets 2).head = OFFSET_NULL ∧ (m1.buckets 2).tail = OFFSET_NULL ∧
      (m1.item 8).invalid = COLLECTING ∧ (m1.item 48).invalid = COLLECTING ∧
      (m1.item 128).invalid = COLLECTING := by
  have h1 : ((scenarioMap.Insert 5 3 3 1 0).bind (fun p => (p.2.Insert 5 7 7 1 0).bind
      (fun q => (q.2.Insert 5 11 11 1 0).bind (fun r => r.2.Insert 5 2 2 1 0)))).isSome
      = true := by decide
  obtain ⟨u, hu⟩ := Option.isSome_iff_exists.mp h1
  obtain ⟨p, hp, hu1⟩ := Option.bind_eq_some.mp hu
  obtain ⟨q, hq, hu2⟩ := Option.bind_eq_some.mp hu1
  obtain ⟨r, hr, hu3⟩ := Option.bind_eq_some.mp hu2
  have h2 : ((scenarioMap.Insert 5 3 3 1 0).bind (fun p => (p.2.Insert 5 7 7 1 0).bind
      (fun q => (q.2.Insert 5 11 11 1 0).bind (fun r => r.2.Insert 5 2 2 1 0)))).map
      (fun u => [u.2.bucket_size, u.2.pool.node_size, (u.2.buckets 3).head, (u.2.item 8).next,
        (u.2.item 48).next, (u.2.item 88).next, (u.2.buckets 2).head, (u.2.item 128).next])
      = some [4, 18, 8, 48, 88, OFFSET_NULL, 128, OFFSET_NULL] := by decide
  have h3 : ((scenarioMap.Insert 5 3 3 1 0).bind (fun p => (p.2.Insert 5 7 7 1 0).bind
      (fun q => (q.2.Insert 5 11 11 1 0).bind (fun r => r.2.Insert 5 2 2 1 0)))).map
      (fun u => [u.2.OffsetToNode 8, u.2.OffsetToNode 48, u.2.OffsetToNode 88,
        u.2.OffsetToNode 128]) = some [some 8, some 48, some 88, some 128] := by decide
  have h4 : ((scenarioMap.Insert 5 3 3 1 0).bind (fun p => (p.2.Insert 5 7 7 1 0).bind
      (fun q => (q.2.Insert 5 11 11 1 0).bind (fun r => r.2.Insert 5 2 2 1 0)))).map
      (fun u => [u.2.expired 10 8, u.2.expired 10 48, u.2.expired 10 88, u.2.expired 10 128])
      = some [true, true, true, true] := by decide
  rw [hu] at h2 h3 h4
  simp only [Option.map_some', Option.some.injEq, List.cons.injEq, and_true] at h2 h3 h4
  obtain ⟨k1, k2, k3, k4, k5, k6, k7, k8⟩ := h2
  obtain ⟨o1, o2, o3, o4⟩ := h3
  obtain ⟨e1, e2, e3, e4⟩ := h4
  have hreach : ShmHashMap.Reachable scenarioMap u.2 :=
    ShmHashMap.Reachable.insert r.2 u.2 5 2 2 1 0 u.1
      (ShmHashMap.Reachable.insert q.2 r.2 5 11 11 1 0 r.1
        (ShmHashMap.Reachable.insert p.2 q.2 5 7 7 1 0 q.1
          (ShmHashMap.Reachable.insert scenarioMap p.2 5 3 3 1 0 p.1
            ShmHashMap.Reachable.init hp) hq) hr) hu3
  have hc3 : u.2.Chain (fun it => it.next) (u.2.buckets 3).head [8, 48, 88] :=
    ⟨k3, o1, k4, o2, k5, o3, k6⟩
  have hc2 : u.2.Chain (fun it => it.next) (u.2.buckets 2).head [128] := ⟨k7, o4, k8⟩
  obtain ⟨m1, g, rm, c1, _, _, _, _, c6⟩ :=
    Scan_chain_spec u.2 10 (Reachable_WF scenarioMap u.2 WF_scenarioMap hreach)
  have hk3 : keptByScan (u.2.expired 10) [8, 48, 88] = [88] := by
    simp [keptByScan, e1, e2, e3]
  have hk2 : keptByScan (u.2.expired 10) [128] = [] := by
    simp [keptByScan, e4]
  obtain ⟨a1, _, _, _, a5, _, a7, _⟩ := c6 3 [8, 48, 88] (by rw [k1]; norm_num) hc3
  obtain ⟨_, _, b3, _, b5, _⟩ := c6 2 [128] (by rw [k1]; norm_num) hc2
  rw [hk3] at a1 a5 a7
  rw [hk2] at b3 b5
  exact ⟨u.2, m1, hreach, hc3, hc2, c1 19 (by rw [k2]; norm_num), a1, by simpa using a7,
    (b3 rfl).1, (b3 rfl).2, (a5 8 (by simp) (by simp)).2.2.2,
    (a5 48 (by simp) (by simp)).2.2.2, (b5 128 (by simp) (by simp)).2.2.2⟩

end ShmMap
namespace ShmPool

variable {Obj : Type}

theorem UnusedInRing_construct (N S D : Nat) (zero : Obj) :
    (MemoryPool.construct N S D zero).UnusedInRing := by
  intro s hs _
  simp only [MemoryPool.construct] at hs ⊢
  refine ⟨s, Nat.zero_le _, by omega, ?_⟩
  rw [Nat.mod_eq_of_lt hs]
  simp [MemoryPool.GetOffsetByNode, Nat.mul_comm]

theorem UnusedInRing_Allocate (p : MemoryPool Obj) (hp : p.NoFailInv) (hq : p.UnusedInRing)
    (h : p.Allocate.1 ≠ none) : p.Allocate.2.UnusedInRing := by
  have hne : p.free_queue (p.read_index % p.node_size) ≠ OFFSET_NULL :=
    fun he => h ((Allocate_none_iff p).mpr he)
  have hS : 0 < p.NodeSize := by have := hp.ring.size_ge; omega
  have hc := hp.count_eq
  rw [Allocate_success p hne]
  intro s hs hu
  simp only [setAt_apply] at hu hs ⊢
  by_cases hst : s = p.free_queue (p.read_index % p.node_size) / p.NodeSize
  · rw [if_pos hst] at hu
    cases hu
  · rw [if_neg hst] at hu
    obtain ⟨j, j1, j2, j3⟩ := hq s hs hu
    have hjr : j ≠ p.read_index := by
      intro e
      rw [e] at j3
      apply hst
      rw [j3]
      simp [MemoryPool.GetOffsetByNode, Nat.mul_div_cancel _ hS]
    refine ⟨j, by omega, j2, ?_⟩
    have hmod : j % p.node_size ≠ p.read_index % p.node_size :=
      fun e => mod_ne_of_lt_of_lt (show p.read_index < j by omega) (by omega) e.symm
    rw [if_neg hmod]
    exact j3

theorem UnusedInRing_Free (p p1 : MemoryPool Obj) (ptr : Nat) (hp : p.NoFailInv)
    (hq : p.UnusedInRing) (hptr : ptr / p.NodeSize < p.node_size) (h : p.Free ptr = some p1) :
    p1.UnusedInRing := by
  by_cases hu : (p.nodes (ptr / p.NodeSize)).used = false
  · rw [Free_unused p ptr hu] at h
    cases h
    exact hq
  · have hu1 : (p.nodes (ptr / p.NodeSize)).used = true := by simpa using hu
    rw [Free_used p ptr hu1] at h
    have hpos := usedCount_pos p _ hptr hu1
    have hc := hp.count_eq
    have hrl := hp.read_le
    have ha : p.write_index + 1 ≤ p.read_index := by omega
    rw [if_pos ha] at h
    cases h
    intro s hs hus
    simp only [setAt_apply] at hs hus ⊢
    by_cases hst : s = ptr / p.NodeSize
    · refine ⟨p.write_index + p.node_size, by omega, by omega, ?_⟩
      rw [Nat.add_mod_right, if_pos rfl, hst]
      rfl
    · rw [if_neg hst] at hus
      obtain ⟨j, j1, j2, j3⟩ := hq s hs hus
      refine ⟨j, j1, by omega, ?_⟩
      have hmod : j % p.node_size ≠ p.write_index % p.node_size :=
        fun e => mod_ne_of_lt_of_lt (show p.write_index < j by omega) (by omega) e.symm
      rw [if_neg hmod]
      exact j3

theorem UnusedInRing_runNoFail (ops : List PoolOp) :
    ∀ (p p1 : MemoryPool Obj), p.NoFailInv → p.UnusedInRing → p.runNoFail ops = some p1 →
      p1.UnusedInRing := by
  induction ops with
  | nil =>
    intro p p1 _ hq h
    simp only [MemoryPool.runNoFail, List.foldlM_nil, pure, Option.some.injEq] at h
    subst h; exact hq
  | cons op ops ih =>
    intro p p1 hp hq h
    simp only [MemoryPool.runNoFail, List.foldlM_cons] at h
    cases hs : p.stepNoFail op with
    | none => rw [hs] at h; cases h
    | some q =>
      rw [hs] at h
      refine ih q p1 (NoFailInv_stepNoFail p q op hp hs) ?_ h
      cases op with
      | allocate =>
        simp only [MemoryPool.stepNoFail] at hs
        split at hs
        · cases hs
        · cases hs
          exact UnusedInRing_Allocate p hp hq (by assumption)
      | free slot =>
        simp only [MemoryPool.stepNoFail] at hs
        split at hs
        · rename_i hsl
          apply UnusedInRing_Free p q _ hp hq _ hs
          rw [dataPtr_div p hp.ring.data_lt]
          exact hsl
        · cases hs

/-- C21 as stated fails once an `Allocate` has failed: from a fresh pool of three
slots (capacity `1`), three allocations, a fourth that returns `NULL`, the release
of the slots `1`, `0` and `2`, an allocation (which returns slot `0`) and the
release of slot `0` are all served; the last `Free` stores the offset of slot `0`
at queue position `0`, over the offset `16` of slot `1`, which had not been read:
slot `1` is unused and its offset is in no queue entry. -/
theorem free_overwrites_ring_entry :
    ((MemoryPool.construct 1 16 8 ()).run
      [PoolOp.allocate, PoolOp.allocate, PoolOp.allocate, PoolOp.allocate, PoolOp.free 1,
        PoolOp.free 0, PoolOp.free 2, PoolOp.allocate]).map
      (fun p => (p.node_size, [(p.nodes 0).used, (p.nodes 1).used, (p.nodes 2).used],
        [p.free_queue 0, p.free_queue 1, p.free_queue 2], p.read_index, p.write_index))
      = some (3, [true, false, false], [16, OFFSET_NULL, 32], 5, 3) ∧
    ((MemoryPool.construct 1 16 8 ()).run
      [PoolOp.allocate, PoolOp.allocate, PoolOp.allocate, PoolOp.allocate, PoolOp.free 1,
        PoolOp.free 0, PoolOp.free 2, PoolOp.allocate, PoolOp.free 0]).map
      (fun p => (p.node_size, [(p.nodes 0).used, (p.nodes 1).used, (p.nodes 2).used],
        [p.free_queue 0, p.free_queue 1, p.free_queue 2], p.read_index, p.write_index,
        p.GetOffsetByNode 1))
      = some (3, [false, false, false], [0, OFFSET_NULL, 32], 5, 4, 16) := by
  constructor <;> decide

/-- C21 (amended): in every pool state reached from a fresh pool by `Allocate` and
`Free` calls among which no `Allocate` returned `NULL`, every slot with
`used = false` has its offset stored in a queue entry, at a position from the read
index up to one lap after the write index. -/
theorem unused_slot_in_ring (N S D : Nat) (zero : Obj) (ops : List PoolOp)
    (p : MemoryPool Obj) (hN : N + 2 < 4294967296) (hS : 2 ≤ S) (hD : D < S)
    (hrun : (MemoryPool.construct N S D zero).runNoFail ops = some p) (s : Nat)
    (hs : s < p.node_size) (hu : (p.nodes s).used = false) :
    (∃ i, i < p.node_size ∧ p.free_queue i = p.GetOffsetByNode s) ∧
    ∃ j, p.read_index ≤ j ∧ j < p.write_index + p.node_size ∧
      p.free_queue (j % p.node_size) = p.GetOffsetByNode s := by
  have hinv := NoFailInv_construct N S D zero hN hS hD
  have hq := UnusedInRing_runNoFail ops _ p hinv (UnusedInRing_construct N S D zero) hrun
  have hp := NoFailInv_runNoFail ops _ p hinv hrun
  obtain ⟨j, j1, j2, j3⟩ := hq s hs hu
  exact ⟨⟨j % p.node_size, Nat.mod_lt _ hp.ring.slots_pos, j3⟩, j, j1, j2, j3⟩

theorem unused_slot_in_ring_witness :
    ∃ p : MemoryPool Unit,
      (MemoryPool.construct 1 16 8 ()).runNoFail
        [PoolOp.allocate, PoolOp.allocate, PoolOp.allocate, PoolOp.free 1] = some p ∧
      (p.nodes 1).used = false ∧ ∃ i, i < p.node_size ∧ p.free_queue i = 16 := by
  have hrun : ((MemoryPool.construct 1 16 8 ()).runNoFail
      [PoolOp.allocate, PoolOp.allocate, PoolOp.allocate, PoolOp.free 1]).isSome = true := by
    decide
  obtain ⟨p, hp⟩ := Option.isSome_iff_exists.mp hrun
  have h1 : ((MemoryPool.construct 1 16 8 ()).runNoFail
      [PoolOp.allocate, PoolOp.allocate, PoolOp.allocate, PoolOp.free 1]).map
      (fun q => (q.node_size, (q.nodes 1).used, q.GetOffsetByNode 1)) = some (3, false, 16) := by
    decide
  rw [hp] at h1
  simp only [Option.map_some', Option.some.injEq, Prod.mk.injEq] at h1
  obtain ⟨k1, k2, k3⟩ := h1
  obtain ⟨⟨i, hi, e⟩, _⟩ :=
    unused_slot_in_ring 1 16 8 () _ p (by norm_num) (by norm_num) (by norm_num) hp 1
      (by rw [k1]; norm_num) k2
  rw [k3] at e
  exact ⟨p, hp, k2, i, hi, e⟩

end ShmPool
namespace ShmPool

variable {Obj : Type}

end ShmPool
namespace ShmPool

variable {Obj : Type}

/-- C23, the code at a state with an unused slot that is in no queue entry: the
pool of three slots reached by three allocations, a failed one, the release of the
slots `1`, `0`, `2`, an allocation and the release of slot `0` has slot `1` unused
and its offset `16` in no queue entry; the first loop of `SyncMemory` collects the
slots `2` and `0`, so its second loop calls `Free` on the object of slot `1`,
which returns at once because the slot is unused: after `SyncMemory` the queue and
the write index are as before and the offset `16` is still in no entry. -/
theorem SyncMemory_leaves_lost_slot :
    ((MemoryPool.construct 1 16 8 ()).run
      [PoolOp.allocate, PoolOp.allocate, PoolOp.allocate, PoolOp.allocate, PoolOp.free 1,
        PoolOp.free 0, PoolOp.free 2, PoolOp.allocate, PoolOp.free 0]).map
      (fun p => [p.node_size, p.write_index, p.GetOffsetByNode 1, p.free_queue 0,
        p.free_queue 1, p.free_queue 2]) = some [3, 4, 16, 0, OFFSET_NULL, 32] ∧
    ((MemoryPool.construct 1 16 8 ()).run
      [PoolOp.allocate, PoolOp.allocate, PoolOp.allocate, PoolOp.allocate, PoolOp.free 1,
        PoolOp.free 0, PoolOp.free 2, PoolOp.allocate, PoolOp.free 0]).map
      (fun p => [(p.nodes 0).used, (p.nodes 1).used, (p.nodes 2).used])
      = some [false, false, false] ∧
    ((MemoryPool.construct 1 16 8 ()).run
      [PoolOp.allocate, PoolOp.allocate, PoolOp.allocate, PoolOp.allocate, PoolOp.free 1,
        PoolOp.free 0, PoolOp.free 2, PoolOp.allocate, PoolOp.free 0]).map
      (fun p => p.freeSetLoop p.node_size p.read_index) = some [2, 0] ∧
    ((MemoryPool.construct 1 16 8 ()).run
      [PoolOp.allocate, PoolOp.allocate, PoolOp.allocate, PoolOp.allocate, PoolOp.free 1,
        PoolOp.free 0, PoolOp.free 2, PoolOp.allocate, PoolOp.free 0]).bind
      (fun p => (p.Free (p.dataPtr 1)).map (fun q =>
        [q.write_index, q.free_queue 0, q.free_queue 1, q.free_queue 2]))
      = some [4, 0, OFFSET_NULL, 32] ∧
    ((MemoryPool.construct 1 16 8 ()).run
      [PoolOp.allocate, PoolOp.allocate, PoolOp.allocate, PoolOp.allocate, PoolOp.free 1,
        PoolOp.free 0, PoolOp.free 2, PoolOp.allocate, PoolOp.free 0]).bind
      (fun p => (p.SyncMemory []).map (fun q =>
        [q.write_index, q.free_queue 0, q.free_queue 1, q.free_queue 2]))
      = some [4, 0, OFFSET_NULL, 32] ∧
    ((MemoryPool.construct 1 16 8 ()).run
      [PoolOp.allocate, PoolOp.allocate, PoolOp.allocate, PoolOp.allocate, PoolOp.free 1,
        PoolOp.free 0, PoolOp.free 2, PoolOp.allocate, PoolOp.free 0]).bind
      (fun p => (p.SyncMemory []).map (fun q =>
        [(q.nodes 0).used, (q.nodes 1).used, (q.nodes 2).used]))
      = some [false, false, false] := by
  refine ⟨?_, ?_, ?_, ?_, ?_, ?_⟩ <;> decide

end ShmPool
namespace ShmMap

open ShmPool

variable {K V : Type}

/-- The interior loop of `Scan` with its cursor on an expired item that has a
successor, is not `VALID` and is not a `COLLECTING` item expired for more than ten
seconds: no branch moves the cursor, and the loop never exits. -/
theorem ScanLoop_spin (index : Nat) (now : Int) (m : ShmHashMap K V) (p0 p1 : Nat)
    (h1 : (m.item p1).next ≠ OFFSET_NULL) (h2 : isExpired (m.item p1) now = true)
    (h3 : (m.item p1).invalid ≠ VALID)
    (h4 : ¬ ((m.item p1).invalid = COLLECTING ∧ (m.item p1).expire < now - 10)) :
    ∀ fuel, ShmHashMap.ScanLoop index now fuel m p0 (some p1) = none := by
  intro fuel
  induction fuel with
  | zero => rfl
  | succ fuel ih =>
    unfold ShmHashMap.ScanLoop
    rw [if_neg h1, if_pos h2, if_neg h3, if_neg h4]
    exact ih

/-- `Scan` does not return when the second item of the chain of bucket `0` is such
an item. -/
theorem Scan_spin (now : Int) (m : ShmHashMap K V) (p0 p1 : Nat) (hB : 0 < m.bucket_size)
    (hh : m.OffsetToNode (m.buckets 0).head = some p0)
    (hn : m.OffsetToNode (m.item p0).next = some p1)
    (h1 : (m.item p1).next ≠ OFFSET_NULL) (h2 : isExpired (m.item p1) now = true)
    (h3 : (m.item p1).invalid ≠ VALID)
    (h4 : ¬ ((m.item p1).invalid = COLLECTING ∧ (m.item p1).expire < now - 10)) :
    ∀ fuel, ShmHashMap.Scan fuel now m = none := by
  intro fuel
  have hb : ShmHashMap.ScanBucket fuel now m 0 = none := by
    unfold ShmHashMap.ScanBucket
    rw [hh]
    simp only
    rw [hn, ScanLoop_spin 0 now m p0 p1 h1 h2 h3 h4 fuel]
  unfold ShmHashMap.Scan
  obtain ⟨n, e⟩ := Nat.exists_eq_succ_of_ne_zero (Nat.pos_iff_ne_zero.mp hB)
  rw [e, List.range_succ_eq_map, List.foldlM_cons, hb]
  rfl

end ShmMap

namespace SinMap

open ShmPool

variable {K V : Type}

/-- The interior loop of `SinHashMap::Scan` with its cursor on an expired item that
has a successor and is not `VALID`: the loop never exits. -/
theorem sin_ScanLoop_spin (now : Int) (index : Nat) (m : SinHashMap K V) (p0 p1 : Nat)
    (it1 : ItemNode K V) (hp : p1 ≠ 0) (hl : m.load p1 = some it1) (h1 : it1.next ≠ 0)
    (h2 : isExpired it1 now = true) (h3 : it1.invalid ≠ VALID) :
    ∀ fuel, SinHashMap.ScanLoop now index fuel p0 p1 m = none := by
  intro fuel
  induction fuel with
  | zero => rfl
  | succ fuel ih =>
    unfold SinHashMap.ScanLoop
    rw [if_neg hp, hl]
    simp only
    rw [if_neg h1, if_pos h2, if_neg h3]
    exact ih

theorem sin_Scan_spin (now : Int) (m : SinHashMap K V) (it0 it1 : ItemNode K V)
    (hB : 0 < m.bucket_size) (hh : (m.buckets 0).head ≠ 0)
    (h0 : m.load (m.buckets 0).head = some it0) (hp : it0.next ≠ 0)
    (hl : m.load it0.next = some it1) (h1 : it1.next ≠ 0)
    (h2 : isExpired it1 now = true) (h3 : it1.invalid ≠ VALID) :
    ∀ fuel, SinHashMap.Scan fuel now m = none := by
  intro fuel
  have hb : SinHashMap.ScanBucket fuel now m 0 = none := by
    unfold SinHashMap.ScanBucket
    simp only
    rw [if_neg hh, h0]
    simp only
    rw [sin_ScanLoop_spin now 0 m _ _ it1 hp hl h1 h2 h3 fuel]
    rfl
  unfold SinHashMap.Scan
  obtain ⟨n, e⟩ := Nat.exists_eq_succ_of_ne_zero (Nat.pos_iff_ne_zero.mp hB)
  rw [e, List.range_succ_eq_map, List.foldlM_cons, hb]
  rfl

end SinMap

namespace ShmMap

open ShmPool

/-- C26 as stated fails: on the map with the keys `4`, `8` and `12` on the chain of
bucket `0`, the second expired at time `10`, `Scan` at time `10` returns; with the
state of the second item `WRITING` it returns for no amount of fuel.  The same
holds for the `SinHashMap` with the three items at the addresses `100`, `200` and
`300`. -/
theorem Scan_spins_on_writing :
    (((scenarioMap.Insert 5 4 4 0 0).bind (fun p => (p.2.Insert 5 8 8 1 0).bind (fun q =>
      (q.2.Insert 5 12 12 0 0).bind (fun r => ShmHashMap.Scan 19 10 r.2)))).isSome = true) ∧
    (∀ fuel, (scenarioMap.Insert 5 4 4 0 0).bind (fun p => (p.2.Insert 5 8 8 1 0).bind
      (fun q => (q.2.Insert 5 12 12 0 0).bind (fun r =>
        ShmHashMap.Scan fuel 10 (r.2.setItem 48 { r.2.item 48 with invalid := WRITING }))))
      = none) ∧
    ((((SinMap.SinHashMap.construct (fun k => k) 4 0 : SinMap.SinHashMap Nat Nat).Insert
        5 100 4 4 0 0).bind (fun p => (p.Insert 5 200 8 8 1 0).bind (fun q =>
      (q.Insert 5 300 12 12 0 0).bind (fun r => SinMap.SinHashMap.Scan 19 10 r)))).isSome
      = true) ∧
    (∀ fuel, ((SinMap.SinHashMap.construct (fun k => k) 4 0 : SinMap.SinHashMap Nat Nat).Insert
        5 100 4 4 0 0).bind (fun p => (p.Insert 5 200 8 8 1 0).bind (fun q =>
      (q.Insert 5 300 12 12 0 0).bind (fun r =>
        (r.store 200 (fun i => { i with invalid := SinMap.WRITING })).bind (fun r1 =>
          SinMap.SinHashMap.Scan fuel 10 r1)))) = none) := by
  refine ⟨by decide, ?_, by decide, ?_⟩
  · intro fuel
    have h1 : ((scenarioMap.Insert 5 4 4 0 0).bind (fun p => (p.2.Insert 5 8 8 1 0).bind
        (fun q => q.2.Insert 5 12 12 0 0))).isSome = true := by decide
    obtain ⟨r, hr⟩ := Option.isSome_iff_exists.mp h1
    have h2 : ((scenarioMap.Insert 5 4 4 0 0).bind (fun p => (p.2.Insert 5 8 8 1 0).bind
        (fun q => q.2.Insert 5 12 12 0 0))).map (fun r =>
          [(r.2.setItem 48 { r.2.item 48 with invalid := WRITING }).bucket_size,
            ((r.2.setItem 48 { r.2.item 48 with invalid := WRITING }).item 48).next])
        = some [4, 88] := by decide
    have h3 : ((scenarioMap.Insert 5 4 4 0 0).bind (fun p => (p.2.Insert 5 8 8 1 0).bind
        (fun q => q.2.Insert 5 12 12 0 0))).map (fun r =>
          [(r.2.setItem 48 { r.2.item 48 with invalid := WRITING }).OffsetToNode
              ((r.2.setItem 48 { r.2.item 48 with invalid := WRITING }).buckets 0).head,
            (r.2.setItem 48 { r.2.item 48 with invalid := WRITING }).OffsetToNode
              ((r.2.setItem 48 { r.2.item 48 with invalid := WRITING }).item 8).next])
        = some [some 8, some 48] := by decide
    have h4 : ((scenarioMap.Insert 5 4 4 0 0).bind (fun p => (p.2.Insert 5 8 8 1 0).bind
        (fun q => q.2.Insert 5 12 12 0 0))).map (fun r =>
          (isExpired ((r.2.setItem 48 { r.2.item 48 with invalid := WRITING }).item 48) 10,
            ((r.2.setItem 48 { r.2.item 48 with invalid := WRITING }).item 48).invalid))
        = some (true, WRITING) := by decide
    have hrun : (scenarioMap.Insert 5 4 4 0 0).bind (fun p => (p.2.Insert 5 8 8 1 0).bind
        (fun q => (q.2.Insert 5 12 12 0 0).bind (fun r =>
          ShmHashMap.Scan fuel 10 (r.2.setItem 48 { r.2.item 48 with invalid := WRITING }))))
        = ((scenarioMap.Insert 5 4 4 0 0).bind (fun p => (p.2.Insert 5 8 8 1 0).bind
          (fun q => q.2.Insert 5 12 12 0 0))).bind (fun r =>
            ShmHashMap.Scan fuel 10 (r.2.setItem 48 { r.2.item 48 with invalid := WRITING }))
        := by
      simp only [Option.bind_assoc]
    rw [hrun, hr]
    rw [hr] at h2 h3 h4
    simp only [Option.map_some', Option.some.injEq, List.cons.injEq, and_true,
      Prod.mk.injEq] at h2 h3 h4
    simp only [Option.some_bind]
    apply Scan_spin 10 _ 8 48 (by rw [h2.1]; norm_num) h3.1 h3.2
    · rw [h2.2]; decide
    · exact h4.1
    · rw [h4.2]; decide
    · rw [h4.2]; intro hc; exact absurd hc.1 (by decide)
  · intro fuel
    have h1 : (((SinMap.SinHashMap.construct (fun k => k) 4 0 :
        SinMap.SinHashMap Nat Nat).Insert 5 100 4 4 0 0).bind (fun p =>
        (p.Insert 5 200 8 8 1 0).bind (fun q => (q.Insert 5 300 12 12 0 0).bind (fun r =>
          r.store 200 (fun i => { i with invalid := SinMap.WRITING }))))).isSome = true := by
      decide
    obtain ⟨r, hr⟩ := Option.isSome_iff_exists.mp h1
    have h2 : (((SinMap.SinHashMap.construct (fun k => k) 4 0 :
        SinMap.SinHashMap Nat Nat).Insert 5 100 4 4 0 0).bind (fun p =>
        (p.Insert 5 200 8 8 1 0).bind (fun q => (q.Insert 5 300 12 12 0 0).bind (fun r =>
          r.store 200 (fun i => { i with invalid := SinMap.WRITING }))))).map (fun r =>
            [r.bucket_size, (r.buckets 0).head]) = some [4, 100] := by decide
    have h3 : (((SinMap.SinHashMap.construct (fun k => k) 4 0 :
        SinMap.SinHashMap Nat Nat).Insert 5 100 4 4 0 0).bind (fun p =>
        (p.Insert 5 200 8 8 1 0).bind (fun q => (q.Insert 5 300 12 12 0 0).bind (fun r =>
          r.store 200 (fun i => { i with invalid := SinMap.WRITING }))))).map (fun r =>
            [(r.load 100).map (fun i => i.next), (r.load 200).map (fun i => i.next)])
        = some [some 200, some 300] := by decide
    have h4 : (((SinMap.SinHashMap.construct (fun k => k) 4 0 :
        SinMap.SinHashMap Nat Nat).Insert 5 100 4 4 0 0).bind (fun p =>
        (p.Insert 5 200 8 8 1 0).bind (fun q => (q.Insert 5 300 12 12 0 0).bind (fun r =>
          r.store 200 (fun i => { i with invalid := SinMap.WRITING }))))).map (fun r =>
            (r.load 200).map (fun i => (SinMap.isExpired i 10, i.invalid)))
        = some (some (true, SinMap.WRITING)) := by decide
    have hrun : ((SinMap.SinHashMap.construct (fun k => k) 4 0 :
        SinMap.SinHashMap Nat Nat).Insert 5 100 4 4 0 0).bind (fun p =>
        (p.Insert 5 200 8 8 1 0).bind (fun q => (q.Insert 5 300 12 12 0 0).bind (fun r =>
          (r.store 200 (fun i => { i with invalid := SinMap.WRITING })).bind (fun r1 =>
            SinMap.SinHashMap.Scan fuel 10 r1))))
        = (((SinMap.SinHashMap.construct (fun k => k) 4 0 :
          SinMap.SinHashMap Nat Nat).Insert 5 100 4 4 0 0).bind (fun p =>
          (p.Insert 5 200 8 8 1 0).bind (fun q => (q.Insert 5 300 12 12 0 0).bind (fun r =>
            r.store 200 (fun i => { i with invalid := SinMap.WRITING }))))).bind (fun r1 =>
              SinMap.SinHashMap.Scan fuel 10 r1) := by
      simp only [Option.bind_assoc]
    rw [hrun, hr]
    rw [hr] at h2 h3 h4
    simp only [Option.map_some', Option.some.injEq, List.cons.injEq, and_true,
      Option.map_eq_some', Prod.mk.injEq] at h2 h3 h4
    simp only [Option.some_bind]
    obtain ⟨i0, a1, a2⟩ := h3.1
    obtain ⟨i1, b1, b2⟩ := h3.2
    obtain ⟨i2, c1, c2, c3⟩ := h4
    rw [b1] at c1
    cases c1
    have hl0 : r.load (r.buckets 0).head = some i0 := by rw [h2.2]; exact a1
    apply SinMap.sin_Scan_spin 10 r i0 i1 (by rw [h2.1]; norm_num) (by rw [h2.2]; norm_num) hl0
    · rw [a2]; norm_num
    · rw [a2]; exact b1
    · rw [b2]; norm_num
    · exact c2
    · rw [c3]; decide

/-- C26 (amended): on a well-formed state (every chained item `VALID`, as in every
state reached by sequential `Insert`, `Get` and `GC` calls) `Scan` returns, with any
fuel above the number of pool slots.  When the cursor of the interior loop is on an
expired item that has a successor, whose exchange `VALID` to `COLLECTING` fails and
that is not a `COLLECTING` item expired for more than ten seconds, no branch of the
loop body moves the cursor: the loop tests the same item again and, the item
staying as it is, returns for no amount of fuel; the same in `SinHashMap::Scan` for
an expired item with a successor that is not `VALID`. -/
theorem Scan_returns_or_spins {K V : Type} (now : Int) :
    (∀ m : ShmHashMap K V, m.WF →
      ∃ m1 : ShmHashMap K V, m1.WF ∧
        ∀ fuel, m.pool.node_size < fuel → ShmHashMap.Scan fuel now m = some m1) ∧
    (∀ (m : ShmHashMap K V) (index p0 p1 : Nat), (m.item p1).next ≠ OFFSET_NULL →
      isExpired (m.item p1) now = true → (m.item p1).invalid ≠ VALID →
      ¬ ((m.item p1).invalid = COLLECTING ∧ (m.item p1).expire < now - 10) →
      ∀ fuel, ShmHashMap.ScanLoop index now fuel m p0 (some p1) = none) ∧
    (∀ (s : SinMap.SinHashMap K V) (index p0 p1 : Nat) (it1 : SinMap.ItemNode K V),
      p1 ≠ 0 → s.load p1 = some it1 → it1.next ≠ 0 → SinMap.isExpired it1 now = true →
      it1.invalid ≠ SinMap.VALID →
      ∀ fuel, SinMap.SinHashMap.ScanLoop now index fuel p0 p1 s = none) := by
  refine ⟨?_, ?_, ?_⟩
  · intro m hm
    obtain ⟨g, hg⟩ := hm.garbage
    obtain ⟨m1, rm, a1, _, _, _, _, _, _, a8⟩ := Scan_spec now m g hm hg
    exact ⟨m1, a1, fun fuel hf => (a8 fuel).1 hf⟩
  · intro m index p0 p1 h1 h2 h3 h4
    exact ScanLoop_spin index now m p0 p1 h1 h2 h3 h4
  · intro s index p0 p1 it1 hp hl h1 h2 h3
    exact SinMap.sin_ScanLoop_spin now index s p0 p1 it1 hp hl h1 h2 h3

theorem Scan_returns_or_spins_witness :
    (∃ m m1 : ShmHashMap Nat Nat, ShmHashMap.Reachable scenarioMap m ∧
      (m.item 48).invalid = VALID ∧ ShmHashMap.Scan 19 10 m = some m1 ∧
      ∀ fuel, ShmHashMap.ScanLoop 0 10 fuel
        (m.setItem 48 { m.item 48 with invalid := WRITING }) 8 (some 48) = none) ∧
    (∃ (s : SinMap.SinHashMap Nat Nat) (it1 : SinMap.ItemNode Nat Nat),
      s.load 200 = some it1 ∧ it1.invalid = SinMap.WRITING ∧
      ∀ fuel, SinMap.SinHashMap.ScanLoop 10 0 fuel 100 200 s = none) := by
  have hthm := @Scan_returns_or_spins Nat Nat 10
  constructor
  · have h1 : ((scenarioMap.Insert 5 4 4 0 0).bind (fun p => (p.2.Insert 5 8 8 1 0).bind
        (fun q => q.2.Insert 5 12 12 0 0))).isSome = true := by decide
    obtain ⟨r, hr⟩ := Option.isSome_iff_exists.mp h1
    obtain ⟨p, hp, hr1⟩ := Option.bind_eq_some.mp hr
    obtain ⟨q, hq, hr2⟩ := Option.bind_eq_some.mp hr1
    have h2 : ((scenarioMap.Insert 5 4 4 0 0).bind (fun p => (p.2.Insert 5 8 8 1 0).bind
        (fun q => q.2.Insert 5 12 12 0 0))).map (fun r =>
          [r.2.pool.node_size,
            ((r.2.setItem 48 { r.2.item 48 with invalid := WRITING }).item 48).next])
        = some [18, 88] := by decide
    have h4 : ((scenarioMap.Insert 5 4 4 0 0).bind (fun p => (p.2.Insert 5 8 8 1 0).bind
        (fun q => q.2.Insert 5 12 12 0 0))).map (fun r =>
          (isExpired ((r.2.setItem 48 { r.2.item 48 with invalid := WRITING }).item 48) 10,
            ((r.2.setItem 48 { r.2.item 48 with invalid := WRITING }).item 48).invalid,
            (r.2.item 48).invalid))
        = some (true, WRITING, VALID) := by decide
    rw [hr] at h2 h4
    simp only [Option.map_some', Option.some.injEq, List.cons.injEq, and_true,
      Prod.mk.injEq] at h2 h4
    have hreach : ShmHashMap.Reachable scenarioMap r.2 :=
      ShmHashMap.Reachable.insert q.2 r.2 5 12 12 0 0 r.1
        (ShmHashMap.Reachable.insert p.2 q.2 5 8 8 1 0 q.1
          (ShmHashMap.Reachable.insert scenarioMap p.2 5 4 4 0 0 p.1
            ShmHashMap.Reachable.init hp) hq) hr2
    obtain ⟨m1, _, c1⟩ := hthm.1 r.2 (Reachable_WF scenarioMap r.2 WF_scenarioMap hreach)
    refine ⟨r.2, m1, hreach, h4.2.2, c1 19 (by rw [h2.1]; norm_num), ?_⟩
    apply hthm.2.1
    · rw [h2.2]; decide
    · exact h4.1
    · rw [h4.2.1]; decide
    · rw [h4.2.1]; intro hc; exact absurd hc.1 (by decide)
  · have h1 : (((SinMap.SinHashMap.construct (fun k => k) 4 0 :
        SinMap.SinHashMap Nat Nat).Insert 5 100 4 4 0 0).bind (fun p =>
        (p.Insert 5 200 8 8 1 0).bind (fun q => (q.Insert 5 300 12 12 0 0).bind (fun r =>
          r.store 200 (fun i => { i with invalid := SinMap.WRITING }))))).isSome = true := by
      decide
    obtain ⟨r, hr⟩ := Option.isSome_iff_exists.mp h1
    have h4 : (((SinMap.SinHashMap.construct (fun k => k) 4 0 :
        SinMap.SinHashMap Nat Nat).Insert 5 100 4 4 0 0).bind (fun p =>
        (p.Insert 5 200 8 8 1 0).bind (fun q => (q.Insert 5 300 12 12 0 0).bind (fun r =>
          r.store 200 (fun i => { i with invalid := SinMap.WRITING }))))).map (fun r =>
            (r.load 200).map (fun i => (SinMap.isExpired i 10, i.invalid, i.next)))
        = some (some (true, SinMap.WRITING, 300)) := by decide
    rw [hr] at h4
    simp only [Option.map_some', Option.some.injEq, Option.map_eq_some', Prod.mk.injEq] at h4
    obtain ⟨i1, c1, c2, c3, c4⟩ := h4
    refine ⟨r, i1, c1, c3, ?_⟩
    apply hthm.2.2 r 0 100 200 i1 (by norm_num) c1
    · rw [c4]; norm_num
    · exact c2
    · rw [c3]; decide

end ShmMap
namespace ShmPool

variable {Obj : Type}

theorem mod_ne_of_lt (n a i : Nat) (h1 : a < i) (h2 : i < a + n) : i % n ≠ a % n := by
  intro h
  have hd : n ∣ i - a := (Nat.modEq_iff_dvd' (le_of_lt h1)).mp h.symm
  have := Nat.le_of_dvd (by omega) hd
  omega

/-- `Free` on a used slot stores the offset of the slot at the write position and
advances the write index by one. -/
theorem Free_queue (p p1 : MemoryPool Obj) (ptr : Nat) (h : p.Free ptr = some p1)
    (hu : (p.nodes (ptr / p.NodeSize)).used = true) :
    p1.write_index = p.write_index + 1 ∧
    p1.free_queue = setAt p.free_queue (p.write_index % p.node_size)
      (p.GetOffsetByNode (ptr / p.NodeSize)) := by
  rw [Free_used p ptr hu] at h
  split at h
  · cases h
    exact ⟨rfl, rfl⟩
  · cases h

end ShmPool

namespace ShmMap

open ShmPool

variable {K V : Type}

/-- The queue and the write index of the pool in one iteration of the loop of
`SafeFree` on an item in state `COLLECTING`: both are kept. -/
theorem advance_step_ring (m : ShmHashMap K V) (kept : List Nat) (p0 p1 : Nat) (rem : List Nat)
    (hI : m.SweepInv (kept ++ p0 :: p1 :: rem)) (hinv : (m.item p1).invalid = COLLECTING) :
    ∃ mA : ShmHashMap K V,
      (∀ k, ShmHashMap.SafeFreeLoop (k + 1) m p0 (some p1)
        = ShmHashMap.SafeFreeLoop k mA p1 (mA.OffsetToNode (mA.item p1).del_next)) ∧
      mA.SweepInv ((kept ++ [p0]) ++ p1 :: rem) ∧ mA.slot = m.slot ∧
      (∀ y, m.slot y ≠ m.slot p1 → mA.item y = m.item y) ∧
      mA.pool.write_index = m.pool.write_index ∧ mA.pool.free_queue = m.pool.free_queue ∧
      mA.pool.node_size = m.pool.node_size ∧ mA.pool.NodeSize = m.pool.NodeSize := by
  have hne2 : (m.item p1).invalid ≠ 2 := by rw [hinv]; decide
  have hw : wrapInt32 ((m.item p1).invalid + 1) = WAITING_DELETE := by rw [hinv]; decide
  refine ⟨_, fun k => SafeFreeLoop_advance k m p0 p1 hne2, ?_, rfl, ?_, rfl, rfl, rfl, rfl⟩
  · have := SweepInv_advance m _ p1
      { m.item p1 with invalid := wrapInt32 ((m.item p1).invalid + 1) } hI (by simp) rfl
      (Or.inr hw)
    simpa using this
  · intro y hy
    exact item_setItem_ne m p1 _ y hy

/-- The queue and the write index of the pool in one iteration of the loop of
`SafeFree` on an item in state `WAITING_DELETE`: the offset of the slot of the item
is stored at the write position and the write index advances by one. -/
theorem free_step_ring (m : ShmHashMap K V) (kept : List Nat) (p0 p1 : Nat) (rem : List Nat)
    (hI : m.SweepInv (kept ++ p0 :: p1 :: rem)) (hinv : (m.item p1).invalid = WAITING_DELETE) :
    ∃ m3 : ShmHashMap K V,
      (∀ k, ShmHashMap.SafeFreeLoop (k + 1) m p0 (some p1)
        = ShmHashMap.SafeFreeLoop k m3 p0 (m3.OffsetToNode (m3.item p0).del_next)) ∧
      m3.SweepInv (kept ++ p0 :: rem) ∧ m3.slot = m.slot ∧
      (∀ y, m.slot y ≠ m.slot p1 → m.slot y ≠ m.slot p0 → m3.item y = m.item y) ∧
      m3.pool.write_index = m.pool.write_index + 1 ∧
      m3.pool.free_queue = setAt m.pool.free_queue (m.pool.write_index % m.pool.node_size)
        (m.pool.GetOffsetByNode (m.slot p1)) ∧
      m3.pool.node_size = m.pool.node_size ∧ m3.pool.NodeSize = m.pool.NodeSize := by
  have hp1in : p1 ∈ kept ++ p0 :: p1 :: rem := by simp
  have hu1 := (Chain_mem_used m _ _ _ hI.chain p1 hp1in).1
  have hne : m.slot p0 ≠ m.slot p1 :=
    nodup_slot_ne m (kept ++ [p0]) p1 rem (by simpa using hI.nodup) p0 (by simp)
  have hR : ((m.setItem p1
        { m.item p1 with invalid := wrapInt32 ((m.item p1).invalid + 1) }).setItem p0
      { (m.setItem p1
          { m.item p1 with invalid := wrapInt32 ((m.item p1).invalid + 1) }).item p0 with
        del_next := ((m.setItem p1
          { m.item p1 with invalid := wrapInt32 ((m.item p1).invalid + 1) }).item
            p1).del_next }).pool.RingInv := by
    rw [setItem_pool, setItem_pool]
    exact RingInv_write _ _ _ (RingInv_write _ _ _ hI.pool)
  obtain ⟨pool1, hfree, _⟩ := Free_total _ p1 hR (hI.nodes p1 hp1in).1
  have h0 : ({ (m.setItem p1
          { m.item p1 with invalid := wrapInt32 ((m.item p1).invalid + 1) }).item p0 with
        del_next := ((m.setItem p1
          { m.item p1 with invalid := wrapInt32 ((m.item p1).invalid + 1) }).item
            p1).del_next } : ItemNode K V)
      = { m.item p0 with del_next := (m.item p1).del_next } := by
    rw [item_setItem_ne m p1 _ p0 hne, item_setItem_same]
  obtain ⟨f1, f2, _, _⟩ := free_step_facts m p0 p1 _ _ pool1 hfree
  obtain ⟨a1, a2, _⟩ := Free_frame _ pool1 p1 hfree
  obtain ⟨q1, q2⟩ := Free_queue _ pool1 p1 hfree (by
    rw [setItem_used, setItem_used]
    exact hu1)
  refine ⟨_, fun k => SafeFreeLoop_free k m p0 p1 pool1 hinv hfree,
    SweepInv_free m kept p0 p1 rem _ _ pool1 hI h0 hfree, f1, ?_, q1, q2, a2, a1⟩
  intro y hy1 hy0
  rw [f2 y, if_neg hy0, if_neg hy1]

/-- The free queue after the loop of `SafeFree` on a well-formed state with the
garbage list `kept ++ p0 :: rem`: the write index advances by at most the length
of `rem`, the queue changes at the positions written only, and the offset of the
slot of every item of `rem` in state `WAITING_DELETE` stands at one of them. -/
theorem SafeFreeLoop_ring :
    ∀ (rem kept : List Nat) (p0 : Nat) (m : ShmHashMap K V),
      m.SweepInv (kept ++ p0 :: rem) →
      ∃ m1 : ShmHashMap K V,
        Computes (fun fuel =>
          ShmHashMap.SafeFreeLoop fuel m p0 (m.OffsetToNode (m.item p0).del_next))
          rem.length m1 ∧
        m.pool.write_index ≤ m1.pool.write_index ∧
        m1.pool.write_index ≤ m.pool.write_index + rem.length ∧
        (∀ j, (∀ i, m.pool.write_index ≤ i → i < m1.pool.write_index →
            i % m.pool.node_size ≠ j) →
          m1.pool.free_queue j = m.pool.free_queue j) ∧
        (∀ y, y ∈ rem → (m.item y).invalid = WAITING_DELETE →
          ∃ i, m.pool.write_index ≤ i ∧ i < m1.pool.write_index ∧
            m1.pool.free_queue (i % m.pool.node_size)
              = m.pool.GetOffsetByNode (m.slot y)) := by
  intro rem
  induction rem with
  | nil =>
    intro kept p0 m hI
    have hlast := Chain_last_link m _ _ _ p0 hI.chain (by simp)
    have hlast1 : (m.item p0).del_next = OFFSET_NULL := hlast
    refine ⟨({ m with garbage_list_tail_offset := m.NodeToOffset p0 } : ShmHashMap K V),
      ?_, le_refl _, Nat.le_add_right _ _, fun j _ => rfl,
      fun y hy => absurd hy (List.not_mem_nil _)⟩
    rw [hlast1, OffsetToNode_NULL]
    exact Computes_const _ _ _ rfl (fun _ => rfl)
  | cons p1 rem ih =>
    intro kept p0 m hI
    obtain ⟨e1, e2, _⟩ :=
      Chain_suffix m (fun it => it.del_next) p0 (p1 :: rem) kept _ hI.chain
    have e3 : (m.item p0).del_next = p1 := e1
    rw [e3, e2]
    have hp1in : p1 ∈ kept ++ p0 :: p1 :: rem := by simp
    have hnd1 : ∀ y, y ∈ (kept ++ [p0]) ++ rem → m.slot y ≠ m.slot p1 :=
      nodup_slot_ne m (kept ++ [p0]) p1 rem (by simpa using hI.nodup)
    have hnd0 : ∀ y, y ∈ kept ++ (p1 :: rem) → m.slot y ≠ m.slot p0 :=
      nodup_slot_ne m kept p0 (p1 :: rem) hI.nodup
    have hrem1 : ∀ y, y ∈ rem → m.slot y ≠ m.slot p1 :=
      fun y hy => hnd1 y (List.mem_append_right _ hy)
    have hrem0 : ∀ y, y ∈ rem → m.slot y ≠ m.slot p0 :=
      fun y hy => hnd0 y (List.mem_append_right _ (List.mem_cons_of_mem _ hy))
    have hlen : (kept ++ p0 :: p1 :: rem).length ≤ m.pool.node_size := by
      have := length_le_of_nodup_lt _ m.pool.node_size hI.nodup (by
        intro s hs
        obtain ⟨x, hx, he⟩ := List.mem_map.mp hs
        subst he
        exact (hI.nodes x hx).1)
      simpa using this
    have hlen1 : rem.length + 2 ≤ m.pool.node_size := by
      simp only [List.length_append, List.length_cons] at hlen
      omega
    rcases (hI.nodes p1 hp1in).2 with hinv | hinv
    · obtain ⟨mA, s1, s2, s3, s4, w1, w2, w3, w4⟩ := advance_step_ring m kept p0 p1 rem hI hinv
      obtain ⟨m1, k1, k2, k3, k4, k5⟩ := ih (kept ++ [p0]) p1 mA s2
      rw [w1] at k2 k3 k4 k5
      rw [w2] at k4
      rw [w3] at k4 k5
      rw [s3] at k5
      refine ⟨m1, Computes_step _ _ m1 _ rfl s1 k1, k2, ?_, k4, ?_⟩
      · simp only [List.length_cons]
        omega
      · intro y hy hc
        rcases List.mem_cons.mp hy with h | h
        · subst h
          rw [hinv] at hc
          exact absurd hc (by decide)
        · obtain ⟨i, i1, i2, i3⟩ := k5 y h (by rw [s4 y (hrem1 y h)]; exact hc)
          refine ⟨i, i1, i2, ?_⟩
          rw [i3]
          simp only [MemoryPool.GetOffsetByNode, w4]
    · obtain ⟨m3, s1, s2, s3, s4, w1, w2, w3, w4⟩ := free_step_ring m kept p0 p1 rem hI hinv
      obtain ⟨m1, k1, k2, k3, k4, k5⟩ := ih kept p0 m3 s2
      rw [w1] at k2 k3 k4 k5
      rw [w2] at k4
      rw [w3] at k4 k5
      rw [s3] at k5
      have hkeep : m1.pool.free_queue (m.pool.write_index % m.pool.node_size)
          = m.pool.GetOffsetByNode (m.slot p1) := by
        rw [k4 _ (by
          intro i hi1 hi2
          exact mod_ne_of_lt _ _ _ (by omega) (by omega))]
        exact setAt_same _ _ _
      refine ⟨m1, Computes_step _ _ m1 _ rfl s1 k1, by omega, ?_, ?_, ?_⟩
      · simp only [List.length_cons]
        omega
      · intro j hj
        rw [k4 j (fun i hi1 hi2 => hj i (by omega) hi2)]
        exact setAt_ne _ _ (fun e => hj _ (le_refl _) (by omega) e.symm)
      · intro y hy hc
        rcases List.mem_cons.mp hy with h | h
        · subst h
          exact ⟨_, le_refl _, by omega, hkeep⟩
        · obtain ⟨i, i1, i2, i3⟩ :=
            k5 y h (by rw [s4 y (hrem1 y h) (hrem0 y h)]; exact hc)
          refine ⟨i, by omega, i2, ?_⟩
          rw [i3]
          simp only [MemoryPool.GetOffsetByNode, w4]

end ShmMap
namespace ShmMap

open ShmPool

variable {K V : Type}

/-- What `SafeFree` on a well-formed state does to the state and flag of a slot:
nothing, or the step from `COLLECTING` to `WAITING_DELETE` of a slot in use, or the
release of a slot in use whose item is `WAITING_DELETE`. -/
theorem SafeFree_slots (m m1 : ShmHashMap K V) (fuel : Nat) (hm : m.WF)
    (h : ShmHashMap.SafeFree fuel m = some m1) (s : Nat) :
    ((m1.pool.nodes s).used = (m.pool.nodes s).used ∧
      (m1.pool.nodes s).data.invalid = (m.pool.nodes s).data.invalid) ∨
    ((m.pool.nodes s).used = true ∧ (m1.pool.nodes s).used = true ∧
      (m.pool.nodes s).data.invalid = COLLECTING ∧
      (m1.pool.nodes s).data.invalid = WAITING_DELETE) ∨
    ((m.pool.nodes s).used = true ∧ (m1.pool.nodes s).used = false ∧
      (m.pool.nodes s).data.invalid = WAITING_DELETE ∧
      ∃ j, j < m1.pool.node_size ∧ m1.pool.free_queue j = m1.pool.GetOffsetByNode s) := by
  obtain ⟨g, hg⟩ := hm.garbage
  cases g with
  | nil =>
    have hh : m.garbage_list_head_offset = OFFSET_NULL := hg.chain
    unfold ShmHashMap.SafeFree at h
    rw [hh, OffsetToNode_NULL] at h
    cases h
    exact Or.inl ⟨rfl, rfl⟩
  | cons p0 t =>
    obtain ⟨e1, e2, _⟩ := hg.chain
    have hI := SweepInv_of_WF m _ hm hg
    obtain ⟨m2, _, _, k3, _, k5, k6, k7⟩ := SafeFreeLoop_spec t [] p0 m hI
    obtain ⟨m3, r1, _, _, _, r5⟩ := SafeFreeLoop_ring t [] p0 m hI
    have hloop : ShmHashMap.SafeFreeLoop fuel m p0 (m.OffsetToNode (m.item p0).del_next)
        = some m1 := by
      unfold ShmHashMap.SafeFree at h
      rw [e1, e2] at h
      exact h
    have hm12 : m1 = m2 := (k7 fuel).2 m1 hloop
    have hm13 : m1 = m3 := (r1 fuel).2 m1 hloop
    subst hm12
    subst hm13
    obtain ⟨hF, _⟩ := SafeFree_Frame fuel m m1 h
    have hS0 : 0 < m.pool.NodeSize := by have := hm.pool.size_ge; omega
    have hitem : ∀ y, (m1.item y).invalid = (m1.pool.nodes (m.slot y)).data.invalid := by
      intro y
      rw [item_eq_nodes, slot_eq_of_NodeSize m m1 hF.NodeSize_eq]
    by_cases hz : ∃ z, z ∈ t ∧ m.slot z = s
    · obtain ⟨z, hzt, hzs⟩ := hz
      have hzu := (Chain_mem_used m _ _ _ hg.chain z (List.mem_cons_of_mem _ hzt)).1
      rcases (hg.nodes z (List.mem_cons_of_mem _ hzt)).2 with hc | hw
      · obtain ⟨a, b⟩ := k5 z hzt hc
        rw [hitem z] at a
        rw [item_eq_nodes] at hc
        rw [hzs] at hzu a b hc
        exact Or.inr (Or.inl ⟨hzu, b, hc, a⟩)
      · have b := k6 z hzt hw
        obtain ⟨i, _, _, i3⟩ := r5 z hzt hw
        rw [item_eq_nodes] at hw
        rw [hzs] at hzu b hw i3
        refine Or.inr (Or.inr ⟨hzu, b, hw, i % m.pool.node_size, ?_, ?_⟩)
        · rw [hF.node_size_eq]
          exact Nat.mod_lt _ hm.pool.slots_pos
        · rw [i3]
          simp only [MemoryPool.GetOffsetByNode, hF.NodeSize_eq]
    · left
      have hy : m.slot (s * m.pool.NodeSize) = s := by
        simp only [ShmHashMap.slot]
        exact Nat.mul_div_cancel _ hS0
      obtain ⟨a, b⟩ := k3 (s * m.pool.NodeSize) (by
        intro z hzt he
        exact hz ⟨z, hzt, by rw [← he, hy]⟩)
      rw [hitem, item_eq_nodes, hy] at a
      rw [hy] at b
      exact ⟨b, a⟩

/-- A call of `GC` that returns on a well-formed state changes nothing, or is a
`Scan`, which keeps the flags and takes states from `VALID` to `COLLECTING` only,
followed by a `SafeFree`. -/
theorem GC_slots (m m2 : ShmHashMap K V) (fuel : Nat) (now : Int) (hm : m.WF)
    (h : m.GC fuel now = some m2) :
    ∃ m1 : ShmHashMap K V, m1.WF ∧
      (m2 = m ∨ (ShmHashMap.Scan fuel now
          ({ m with gc_timestamp := (now % 4294967296).toNat } : ShmHashMap K V) = some m1 ∧
        ShmHashMap.SafeFree fuel m1 = some m2)) ∧
      (∀ s, (m1.pool.nodes s).used = (m.pool.nodes s).used ∧
        ((m1.pool.nodes s).data.invalid = (m.pool.nodes s).data.invalid ∨
          ((m.pool.nodes s).data.invalid = VALID ∧
            (m1.pool.nodes s).data.invalid = COLLECTING))) ∧
      (∀ s, ((m2.pool.nodes s).used = (m1.pool.nodes s).used ∧
          (m2.pool.nodes s).data.invalid = (m1.pool.nodes s).data.invalid) ∨
        ((m1.pool.nodes s).used = true ∧ (m2.pool.nodes s).used = true ∧
          (m1.pool.nodes s).data.invalid = COLLECTING ∧
          (m2.pool.nodes s).data.invalid = WAITING_DELETE) ∨
        ((m1.pool.nodes s).used = true ∧ (m2.pool.nodes s).used = false ∧
          (m1.pool.nodes s).data.invalid = WAITING_DELETE ∧
          ∃ j, j < m2.pool.node_size ∧ m2.pool.free_queue j = m2.pool.GetOffsetByNode s)) := by
  by_cases hgate : (((m.gc_timestamp + 2) % 4294967296 : Nat) : Int) < now
  · unfold ShmHashMap.GC at h
    simp only [hgate, if_true] at h
    cases hs : ShmHashMap.Scan fuel now
        ({ m with gc_timestamp := (now % 4294967296).toNat } : ShmHashMap K V) with
    | none => rw [hs] at h; cases h
    | some m1 =>
      rw [hs] at h
      have h' : ShmHashMap.SafeFree fuel m1 = some m2 := h
      have hw0 := WF_gc_timestamp m (now % 4294967296).toNat hm
      have hw1 : m1.WF :=
        Scan_WF fuel now _ _ m1 hw0 (fun i hi => List.mem_range.mp hi) hs
      obtain ⟨_, hK⟩ := Scan_Frame fuel now _ m1 hs
      refine ⟨m1, hw1, Or.inr ⟨rfl, h'⟩, ?_, ?_⟩
      · intro s
        exact ⟨hK.used_eq s, hK.invalid_step s⟩
      · intro s
        exact SafeFree_slots m1 m2 fuel hw1 h' s
  · rw [GC_closed m now fuel hgate] at h
    cases h
    exact ⟨m, hm, Or.inl rfl, fun s => ⟨rfl, Or.inl rfl⟩, fun s => Or.inl ⟨rfl, rfl⟩⟩

variable [DecidableEq K]

/-- What `Insert` on a well-formed state does to the state and flag of a slot:
nothing, or the slot was unused and now holds a new item in state `VALID`. -/
theorem Insert_states (m m1 : ShmHashMap K V) (key : K) (value : V) (expire now : Int)
    (fuel : Nat) (r : SinHashRet) (hm : m.WF)
    (h : m.Insert fuel key value expire now = some (r, m1)) (s : Nat) :
    ((m1.pool.nodes s).used = (m.pool.nodes s).used ∧
      (m1.pool.nodes s).data.invalid = (m.pool.nodes s).data.invalid) ∨
    ((m.pool.nodes s).used = false ∧ (m1.pool.nodes s).used = true ∧
      (m1.pool.nodes s).data.invalid = VALID) := by
  have hi : m.HashCode key % m.bucket_size < m.bucket_size := Nat.mod_lt _ hm.bucket_pos
  obtain ⟨l, hl⟩ := hm.buckets _ hi
  have hf : m.GetNode fuel (m.HashCode key % m.bucket_size) key ≠ none := by
    intro h0
    simp [ShmHashMap.Insert, h0] at h
  obtain ⟨c1, c2, c3⟩ := Insert_cases m key value expire now l hl fuel hf
  have hadd : m.Insert fuel key value expire now
      = some (m.AddNodeItem (m.HashCode key % m.bucket_size) key value expire now) →
      ((m1.pool.nodes s).used = (m.pool.nodes s).used ∧
        (m1.pool.nodes s).data.invalid = (m.pool.nodes s).data.invalid) ∨
      ((m.pool.nodes s).used = false ∧ (m1.pool.nodes s).used = true ∧
        (m1.pool.nodes s).data.invalid = VALID) := by
    intro e
    rw [e] at h
    have h := Option.some.inj h
    by_cases hq : m.pool.free_queue (m.pool.read_index % m.pool.node_size) = OFFSET_NULL
    · rw [AddNodeItem_fail m _ key value expire now hq] at h
      cases h
      exact Or.inl ⟨rfl, rfl⟩
    · obtain ⟨m2, e2, hA⟩ :=
        AddNodeItem_appended m _ key value expire now l hm.pool hm.data_gt hl hq
      rw [e2] at h
      cases h
      by_cases hs : s = m.slot (m.pool.dataPtr
          (m.pool.free_queue (m.pool.read_index % m.pool.node_size) / m.pool.NodeSize))
      · right
        rw [hs, hA.new_node]
        exact ⟨hA.new_unused, rfl, rfl⟩
      · left
        cases hlast : l.getLast? with
        | none =>
          rw [hA.other_nodes s hs (by intro t ht; rw [hlast] at ht; cases ht)]
          exact ⟨rfl, rfl⟩
        | some t =>
          by_cases hst : s = m.slot t
          · rw [hst, hA.last_node t hlast]
            have hu := (Chain_mem_used m _ l _ hl.chain t (getLast?_mem l t hlast)).1
            rw [hu, item_eq_nodes]
            exact ⟨rfl, rfl⟩
          · rw [hA.other_nodes s hs (by
              intro t1 ht1
              rw [hlast] at ht1
              cases ht1
              exact hst)]
            exact ⟨rfl, rfl⟩
  cases hfind : l.find? (fun x => decide ((m.item x).key = key)) with
  | none => exact hadd (c1 hfind)
  | some x =>
    cases hexp : isExpired (m.item x) now with
    | true => exact hadd (c2 x hfind hexp)
    | false =>
      rw [c3 x hfind hexp] at h
      cases h
      left
      obtain ⟨hx, _⟩ := find?_mem_key m key l x hfind
      have hv := (hl.nodes x hx).2.1
      rw [nodes_setItem]
      by_cases hs : s = m.slot x
      · rw [if_pos hs, hs]
        rw [item_eq_nodes] at hv
        exact ⟨rfl, hv.symm⟩
      · rw [if_neg hs]
        exact ⟨rfl, rfl⟩

/-- A slot in use whose item is `COLLECTING` or `WAITING_DELETE` is, after a run of
`Insert`, `Get` and `GC` calls, still in use with its item in one of these states,
or it was unused at some state of the run. -/
theorem claimed_stays (m m3 : ShmHashMap K V) (s : Nat) (hm : m.WF)
    (hreach : ShmHashMap.Reachable m m3) (hu : (m.pool.nodes s).used = true)
    (hc : (m.pool.nodes s).data.invalid = COLLECTING ∨
      (m.pool.nodes s).data.invalid = WAITING_DELETE) :
    ((m3.pool.nodes s).used = true ∧
      ((m3.pool.nodes s).data.invalid = COLLECTING ∨
        (m3.pool.nodes s).data.invalid = WAITING_DELETE)) ∨
    ∃ ma, ShmHashMap.Reachable m ma ∧ ShmHashMap.Reachable ma m3 ∧
      (ma.pool.nodes s).used = false := by
  induction hreach with
  | init => exact Or.inl ⟨hu, hc⟩
  | insert ma mb fuel key value expire now r hr hins ih =>
    have hw := Reachable_WF m ma hm hr
    rcases ih with ⟨a1, a2⟩ | ⟨mc, c1, c2, c3⟩
    · rcases Insert_states ma mb key value expire now fuel r hw hins s with
        ⟨e1, e2⟩ | ⟨e1, _, _⟩
      · exact Or.inl ⟨by rw [e1]; exact a1, by rw [e2]; exact a2⟩
      · rw [a1] at e1; cases e1
    · exact Or.inr ⟨mc, c1,
        ShmHashMap.Reachable.insert ma mb fuel key value expire now r c2 hins, c3⟩
  | get ma fuel key now r _ hget ih =>
    rcases ih with h1 | ⟨mc, c1, c2, c3⟩
    · exact Or.inl h1
    · exact Or.inr ⟨mc, c1, ShmHashMap.Reachable.get ma fuel key now r c2 hget, c3⟩
  | gc ma mb fuel now hr hgc ih =>
    have hw := Reachable_WF m ma hm hr
    rcases ih with ⟨a1, a2⟩ | ⟨mc, c1, c2, c3⟩
    · obtain ⟨m1, _, _, k1, k2⟩ := GC_slots ma mb fuel now hw hgc
      obtain ⟨u1, i1⟩ := k1 s
      have hi1 : (m1.pool.nodes s).data.invalid = COLLECTING ∨
          (m1.pool.nodes s).data.invalid = WAITING_DELETE := by
        rcases i1 with e | ⟨e, _⟩
        · rw [e]; exact a2
        · exfalso
          rcases a2 with a2 | a2 <;> rw [e] at a2 <;> exact absurd a2 (by decide)
      rcases k2 s with ⟨e1, e2⟩ | ⟨_, e2, _, e4⟩ | ⟨_, e2, _⟩
      · exact Or.inl ⟨by rw [e1, u1]; exact a1, by rw [e2]; exact hi1⟩
      · exact Or.inl ⟨e2, Or.inr e4⟩
      · exact Or.inr ⟨mb, ShmHashMap.Reachable.gc ma mb fuel now hr hgc,
          ShmHashMap.Reachable.init, e2⟩
    · exact Or.inr ⟨mc, c1, ShmHashMap.Reachable.gc ma mb fuel now c2 hgc, c3⟩

end ShmMap
namespace ShmMap

open ShmPool

variable {K V : Type} [DecidableEq K]

/-- C27: in a state `m` reached from a fresh map by sequential `Insert`, `Get` and
`GC` calls: every item reached from a bucket head lies in a used slot and is in
state `VALID`; an `Insert` that finds a live item of its key finds it `VALID` and
stores `WRITING`, the value, the expiry and `VALID` on it, in this order; an
`Insert` that returns changes the flag or the state of a slot only by taking an
unused slot for a new item in state `VALID`; a `GC` that returns changes nothing or
is a `Scan`, which keeps the flags and changes states from `VALID` to `COLLECTING`
only, followed by a `SafeFree`, which on a slot in use takes the state from
`COLLECTING` to `WAITING_DELETE`, or frees a slot whose item is `WAITING_DELETE` and
stores its offset in the free queue, and changes nothing else; and a slot in use
whose item is `COLLECTING` or `WAITING_DELETE` is in every later state in use with
its item in one of these two states, unless the slot was unused in between. -/
theorem state_transitions (HashCode : K → Nat) (N S D : Nat) (zero : ItemNode K V)
    (bucket_size gc_timestamp : Nat) (hN : N + 2 < 4294967296) (hD1 : 1 < D) (hD2 : D < S)
    (m : ShmHashMap K V)
    (hreach : ShmHashMap.Reachable
      (ShmHashMap.construct HashCode (MemoryPool.construct N S D zero) bucket_size
        gc_timestamp) m) :
    (∀ b, b < m.bucket_size → ∀ l, m.Chain (fun it => it.next) (m.buckets b).head l →
      ∀ x, x ∈ l → (m.pool.nodes (m.slot x)).used = true ∧ (m.item x).invalid = VALID) ∧
    (∀ (fuel : Nat) (key : K) (value : V) (expire now : Int) (x : Nat),
      m.GetNode fuel (m.HashCode key % m.bucket_size) key = some (some x) →
      isExpired (m.item x) now = false →
      (m.item x).invalid = VALID ∧
      ∃ mW mV mE : ShmHashMap K V,
        mW = m.setItem x { m.item x with invalid := WRITING } ∧
        mV = mW.setItem x { mW.item x with value := value } ∧
        mE = mV.setItem x { mV.item x with expire := expireAt expire now } ∧
        m.Insert fuel key value expire now
          = some (SinHashRet.RET_OK, mE.setItem x { mE.item x with invalid := VALID })) ∧
    (∀ (fuel : Nat) (key : K) (value : V) (expire now : Int) (r : SinHashRet)
      (m1 : ShmHashMap K V), m.Insert fuel key value expire now = some (r, m1) →
      ∀ s, ((m1.pool.nodes s).used = (m.pool.nodes s).used ∧
          (m1.pool.nodes s).data.invalid = (m.pool.nodes s).data.invalid) ∨
        ((m.pool.nodes s).used = false ∧ (m1.pool.nodes s).used = true ∧
          (m1.pool.nodes s).data.invalid = VALID)) ∧
    (∀ (fuel : Nat) (now : Int) (m2 : ShmHashMap K V), m.GC fuel now = some m2 →
      ∃ m1 : ShmHashMap K V,
        (m2 = m ∨ (ShmHashMap.Scan fuel now
            ({ m with gc_timestamp := (now % 4294967296).toNat } : ShmHashMap K V) = some m1 ∧
          ShmHashMap.SafeFree fuel m1 = some m2)) ∧
        (∀ s, (m1.pool.nodes s).used = (m.pool.nodes s).used ∧
          ((m1.pool.nodes s).data.invalid = (m.pool.nodes s).data.invalid ∨
            ((m.pool.nodes s).data.invalid = VALID ∧
              (m1.pool.nodes s).data.invalid = COLLECTING))) ∧
        (∀ s, ((m2.pool.nodes s).used = (m1.pool.nodes s).used ∧
            (m2.pool.nodes s).data.invalid = (m1.pool.nodes s).data.invalid) ∨
          ((m1.pool.nodes s).used = true ∧ (m2.pool.nodes s).used = true ∧
            (m1.pool.nodes s).data.invalid = COLLECTING ∧
            (m2.pool.nodes s).data.invalid = WAITING_DELETE) ∨
          ((m1.pool.nodes s).used = true ∧ (m2.pool.nodes s).used = false ∧
            (m1.pool.nodes s).data.invalid = WAITING_DELETE ∧
            ∃ j, j < m2.pool.node_size ∧
              m2.pool.free_queue j = m2.pool.GetOffsetByNode s))) ∧
    (∀ (s : Nat) (m3 : ShmHashMap K V), ShmHashMap.Reachable m m3 →
      (m.pool.nodes s).used = true →
      ((m.pool.nodes s).data.invalid = COLLECTING ∨
        (m.pool.nodes s).data.invalid = WAITING_DELETE) →
      ((m3.pool.nodes s).used = true ∧
        ((m3.pool.nodes s).data.invalid = COLLECTING ∨
          (m3.pool.nodes s).data.invalid = WAITING_DELETE)) ∨
      ∃ ma, ShmHashMap.Reachable m ma ∧ ShmHashMap.Reachable ma m3 ∧
        (ma.pool.nodes s).used = false) := by
  have hm : m.WF :=
    Reachable_WF _ m (WF_construct HashCode N S D zero bucket_size gc_timestamp hN hD1 hD2)
      hreach
  refine ⟨?_, ?_, ?_, ?_, ?_⟩
  · intro b hb l hc x hx
    obtain ⟨l1, hl1⟩ := hm.buckets b hb
    have e := Chain_unique m _ l l1 _ hc hl1.chain
    subst e
    exact ⟨(Chain_mem_used m _ l _ hc x hx).1, (hl1.nodes x hx).2.1⟩
  · intro fuel key value expire now x hget hexp
    have hi : m.HashCode key % m.bucket_size < m.bucket_size := Nat.mod_lt _ hm.bucket_pos
    obtain ⟨l, hl⟩ := hm.buckets _ hi
    have hr := (GetNode_bucket m _ key l hl fuel).1 _ hget
    obtain ⟨hx, _⟩ := find?_mem_key m key l x hr.symm
    have hv := (hl.nodes x hx).2.1
    refine ⟨hv, _, _, _, rfl, rfl, rfl, ?_⟩
    cases fuel with
    | zero =>
      rw [GetNode_zero] at hget
      cases hget
    | succ k =>
      unfold ShmHashMap.Insert
      simp only [hget, hexp]
      simp only [ShmHashMap.InsertLoop, hv, if_true, Bool.false_eq_true, if_false]
  · intro fuel key value expire now r m1 h s
    exact Insert_states m m1 key value expire now fuel r hm h s
  · intro fuel now m2 h
    obtain ⟨m1, _, k1, k2, k3⟩ := GC_slots m m2 fuel now hm h
    exact ⟨m1, k1, k2, k3⟩
  · intro s m3 hr hu hc
    exact claimed_stays m m3 s hm hr hu hc

theorem state_transitions_witness :
    ∃ m : ShmHashMap Nat Nat, ShmHashMap.Reachable scenarioMap m ∧
      (m.pool.nodes 0).used = true ∧ (m.pool.nodes 0).data.invalid = COLLECTING ∧
      ∀ m3 : ShmHashMap Nat Nat, ShmHashMap.Reachable m m3 →
        ((m3.pool.nodes 0).used = true ∧
          ((m3.pool.nodes 0).data.invalid = COLLECTING ∨
            (m3.pool.nodes 0).data.invalid = WAITING_DELETE)) ∨
        ∃ ma, ShmHashMap.Reachable m ma ∧ ShmHashMap.Reachable ma m3 ∧
          (ma.pool.nodes 0).used = false := by
  have h1 : ((scenarioMap.Insert 5 7 7 1 0).bind (fun p => p.2.GC 19 10)).isSome = true := by
    decide
  obtain ⟨q, hq⟩ := Option.isSome_iff_exists.mp h1
  obtain ⟨p, hp, hq1⟩ := Option.bind_eq_some.mp hq
  have h2 : ((scenarioMap.Insert 5 7 7 1 0).bind (fun p => p.2.GC 19 10)).map
      (fun q => ((q.pool.nodes 0).used, (q.pool.nodes 0).data.invalid))
      = some (true, COLLECTING) := by decide
  rw [hq] at h2
  simp only [Option.map_some', Option.some.injEq, Prod.mk.injEq] at h2
  have hreach : ShmHashMap.Reachable scenarioMap q :=
    ShmHashMap.Reachable.gc p.2 q 19 10
      (ShmHashMap.Reachable.insert scenarioMap p.2 5 7 7 1 0 p.1 ShmHashMap.Reachable.init hp)
      hq1
  obtain ⟨_, _, _, _, c5⟩ :=
    state_transitions (fun k => k) 16 40 8
      { next := 0, key := 0, value := 0, expire := 0, invalid := 0, del_next := 0 } 4 0
      (by norm_num) (by norm_num) (by norm_num) q hreach
  exact ⟨q, hreach, h2.1, h2.2, fun m3 h3 => c5 0 m3 h3 h2.1 (Or.inl h2.2)⟩

end ShmMap
namespace ShmMap

/-- C24, the code under an interleaving: the node holds value `7` and `_expire = 2`;
the writer runs `Insert(key, 8, ttl 0)` at time `2` and finds the node live, the
reclaimer runs `Scan` at time `3` and finds it expired.  After the two tests the
reclaimer's exchange `VALID -> COLLECTING` succeeds.  The writer's exchange fails
and reloads `COLLECTING`, the writer appends a node and, the loop of
`ShmHashMap::Insert` having no `return` there, exchanges again, now
`COLLECTING -> WRITING`, with success: both threads hold the node.  The reclaimer
puts the node on the garbage list while its state is `WRITING`, and the writer
stores the value `8`, the expiry `0` and the state `VALID`.  With the statements of
`SinHashMap::Insert`, which returns after the append, the same schedule leaves the
node with value `7`, `_expire = 2` and state `COLLECTING`. -/
theorem race_both_hold :
    ((race 8 0 2 3 [Thread.writer, Thread.reclaimer, Thread.reclaimer] (raceInit 7 2 4)).invalid
        = COLLECTING ∧
      (race 8 0 2 3 [Thread.writer, Thread.reclaimer, Thread.reclaimer] (raceInit 7 2 4)).rpc
        = ReclaimerPc.enlist ∧
      (race 8 0 2 3 [Thread.writer, Thread.reclaimer, Thread.reclaimer] (raceInit 7 2 4)).wpc
        = WriterPc.cas) ∧
    race 8 0 2 3 [Thread.writer, Thread.reclaimer, Thread.reclaimer, Thread.writer,
        Thread.writer, Thread.writer, Thread.writer] (raceInit 7 2 4)
      = { invalid := WRITING, value := 7, expire := 2, expected := COLLECTING,
          wpc := WriterPc.value, rpc := ReclaimerPc.enlist, free := 3, appended := 1,
          enlisted := 0, unlinked := false } ∧
    race 8 0 2 3 [Thread.writer, Thread.reclaimer, Thread.reclaimer, Thread.writer,
        Thread.writer, Thread.writer, Thread.writer, Thread.reclaimer] (raceInit 7 2 4)
      = { invalid := WRITING, value := 7, expire := 2, expected := COLLECTING,
          wpc := WriterPc.value, rpc := ReclaimerPc.unlink, free := 3, appended := 1,
          enlisted := 1, unlinked := false } ∧
    race 8 0 2 3 [Thread.writer, Thread.reclaimer, Thread.reclaimer, Thread.writer,
        Thread.writer, Thread.writer, Thread.writer, Thread.reclaimer, Thread.writer,
        Thread.writer, Thread.writer, Thread.reclaimer] (raceInit 7 2 4)
      = { invalid := VALID, value := 8, expire := 0, expected := COLLECTING,
          wpc := WriterPc.done, rpc := ReclaimerPc.done, free := 3, appended := 1,
          enlisted := 1, unlinked := true } ∧
    SinMap.race 8 0 2 3 [Thread.writer, Thread.reclaimer, Thread.reclaimer, Thread.writer,
        Thread.writer, Thread.writer, Thread.writer, Thread.reclaimer, Thread.writer,
        Thread.writer, Thread.writer, Thread.reclaimer] (raceInit 7 2 4)
      = { invalid := SinMap.COLLECTING, value := 7, expire := 2,
          expected := SinMap.COLLECTING, wpc := WriterPc.done, rpc := ReclaimerPc.done,
          free := 4, appended := 1, enlisted := 1, unlinked := true } := by
  refine ⟨⟨?_, ?_, ?_⟩, ?_, ?_, ?_, ?_⟩ <;> decide

end ShmMap
namespace ShmPool

variable {Obj : Type}

theorem RingAligned_construct (N S D : Nat) (zero : Obj) (hS : 2 ≤ S) :
    (MemoryPool.construct N S D zero).RingAligned := by
  intro j _ _
  have hS0 : 0 < S := by omega
  simp only [MemoryPool.construct, MemoryPool.GetOffsetByNode]
  rw [Nat.mul_div_cancel_left j hS0, Nat.mul_comm]

theorem RingAligned_Allocate (p : MemoryPool Obj) (hp : p.RingAligned) :
    p.Allocate.2.RingAligned := by
  by_cases h : p.free_queue (p.read_index % p.node_size) = OFFSET_NULL
  · rw [Allocate_fail p h]
    exact hp
  · rw [Allocate_success p h]
    intro j hj hne
    simp only [MemoryPool.GetOffsetByNode] at hj hne ⊢
    by_cases hji : j = p.read_index % p.node_size
    · subst hji
      simp at hne
    · rw [setAt_ne _ _ hji] at hne ⊢
      exact hp j hj hne

theorem RingAligned_Free (p p1 : MemoryPool Obj) (ptr : Nat) (hS : 2 ≤ p.NodeSize)
    (hp : p.RingAligned) (h : p.Free ptr = some p1) : p1.RingAligned := by
  by_cases hu : (p.nodes (ptr / p.NodeSize)).used = false
  · rw [Free_unused p ptr hu] at h
    cases h
    exact hp
  · have hu1 : (p.nodes (ptr / p.NodeSize)).used = true := by simpa using hu
    rw [Free_used p ptr hu1] at h
    split at h
    · cases h
      have hS0 : 0 < p.NodeSize := by omega
      intro j hj hne
      simp only [MemoryPool.GetOffsetByNode] at hj hne ⊢
      by_cases hji : j = p.write_index % p.node_size
      · subst hji
        rw [setAt_same, Nat.mul_div_cancel _ hS0]
      · rw [setAt_ne _ _ hji] at hne ⊢
        exact hp j hj hne
    · cases h

theorem RingAligned_syncLoop (obj_set free_set : List Nat) :
    ∀ (is : List Nat) (q q1 : MemoryPool Obj), 2 ≤ q.NodeSize → q.RingAligned →
      is.foldlM (MemoryPool.syncSlot obj_set free_set) q = some q1 → q1.RingAligned := by
  intro is
  induction is with
  | nil =>
    intro q q1 _ hq h
    cases h
    exact hq
  | cons i is ih =>
    intro q q1 hS hq h
    simp only [List.foldlM_cons] at h
    cases hs : MemoryPool.syncSlot obj_set free_set q i with
    | none => rw [hs] at h; cases h
    | some q2 =>
      rw [hs] at h
      have h' : is.foldlM (MemoryPool.syncSlot obj_set free_set) q2 = some q1 := h
      have hq2 : q2.RingAligned ∧ q2.NodeSize = q.NodeSize := by
        unfold MemoryPool.syncSlot at hs
        split at hs
        · split at hs
          · cases hs
            exact ⟨hq, rfl⟩
          · exact ⟨RingAligned_Free q q2 _ hS hq hs, (Free_frame q q2 _ hs).1⟩
        · split at hs
          · cases hs
            exact ⟨hq, rfl⟩
          · exact ⟨RingAligned_Free q q2 _ hS hq hs, (Free_frame q q2 _ hs).1⟩
      exact ih q2 q1 (by rw [hq2.2]; exact hS) hq2.1 h'

/-- Every reachable pool state has its queue entries on slot offsets. -/
theorem Reachable_RingAligned (p0 p : MemoryPool Obj) (h0 : p0.RingInv) (ha : p0.RingAligned)
    (h : MemoryPool.Reachable p0 p) : p.RingAligned := by
  induction h with
  | init => exact ha
  | allocate p _ ih => exact RingAligned_Allocate p ih
  | free p p1 slot hr _ hf ih =>
    exact RingAligned_Free p p1 _ (Reachable_RingInv p0 p h0 hr).size_ge ih hf
  | sync p p1 obj_set hr hs ih =>
    unfold MemoryPool.SyncMemory at hs
    exact RingAligned_syncLoop obj_set _ _ p p1 (Reachable_RingInv p0 p h0 hr).size_ge ih hs

/-- A run of calls is a sequence of reachability steps. -/
theorem run_Reachable (p0 : MemoryPool Obj) :
    ∀ (ops : List PoolOp) (p q : MemoryPool Obj), MemoryPool.Reachable p0 p →
      p.run ops = some q → MemoryPool.Reachable p0 q := by
  intro ops
  induction ops with
  | nil =>
    intro p q hp h
    cases h
    exact hp
  | cons op ops ih =>
    intro p q hp h
    unfold MemoryPool.run at h
    simp only [List.foldlM_cons] at h
    cases hs : p.step op with
    | none => rw [hs] at h; cases h
    | some p1 =>
      rw [hs] at h
      have h' : p1.run ops = some q := h
      refine ih p1 q ?_ h'
      cases op with
      | allocate =>
        simp only [MemoryPool.step, Option.some.injEq] at hs
        subst hs
        exact MemoryPool.Reachable.allocate p hp
      | free slot =>
        simp only [MemoryPool.step] at hs
        split at hs
        · rename_i hlt
          exact MemoryPool.Reachable.free p p1 slot hp hlt hs
        · cases hs

/-- A run without a `Free` of the object of slot `node` frees nothing in that slot. -/
theorem run_NotFreed (node : Nat) (p0 : MemoryPool Obj) (hD : p0.dataOff < p0.NodeSize) :
    ∀ (ops : List PoolOp) (p q : MemoryPool Obj), MemoryPool.NotFreed node p0 p →
      PoolOp.free node ∉ ops → p.run ops = some q → MemoryPool.NotFreed node p0 q := by
  intro ops
  induction ops with
  | nil =>
    intro p q hp _ h
    cases h
    exact hp
  | cons op ops ih =>
    intro p q hp hnot h
    unfold MemoryPool.run at h
    simp only [List.foldlM_cons] at h
    cases hs : p.step op with
    | none => rw [hs] at h; cases h
    | some p1 =>
      rw [hs] at h
      have h' : p1.run ops = some q := h
      refine ih p1 q ?_ (fun hc => hnot (List.mem_cons_of_mem _ hc)) h'
      cases op with
      | allocate =>
        simp only [MemoryPool.step, Option.some.injEq] at hs
        subst hs
        exact MemoryPool.NotFreed.allocate p hp
      | free slot =>
        simp only [MemoryPool.step] at hs
        split at hs
        · obtain ⟨k1, k2, _⟩ := NotFreed_inv node p0 p hp
          refine MemoryPool.NotFreed.free p p1 _ hp ?_ hs
          rw [GetNodeByObj_eq, dataPtr_div p (by rw [k1, k2]; exact hD)]
          intro he
          subst he
          exact hnot (List.mem_cons_self _ _)
        · cases hs

/-- On a consistent pool a successful `Allocate` returns the object of a slot that
was unused and marks it used. -/
theorem Allocate_unused (p p1 : MemoryPool Obj) (ptr : Nat) (hp : p.RingInv)
    (h : p.Allocate = (some ptr, p1)) :
    ∃ s, s < p.node_size ∧ ptr = p.dataPtr s ∧ (p.nodes s).used = false ∧
      (p1.nodes s).used = true := by
  by_cases hq : p.free_queue (p.read_index % p.node_size) = OFFSET_NULL
  · rw [Allocate_fail p hq] at h
    cases h
  · obtain ⟨h1, h2⟩ := hp.ring_free _ (Nat.mod_lt _ hp.slots_pos) hq
    rw [Allocate_success p hq] at h
    have e1 := Option.some.inj (Prod.mk.inj h).1
    have e2 := (Prod.mk.inj h).2
    subst e2
    refine ⟨_, h1, e1.symm, h2, ?_⟩
    simp

/-- C31: in every pool state reachable from a fresh pool by calls of `Allocate`, of
`Free` on objects of the pool and of `SyncMemory`: every queue entry other than
`OFFSET_NULL` is the offset of an unused slot of the pool; no two positions of the
queue hold the same such entry; a successful `Allocate` returns the object of a
slot that was unused and marks it used; and after a successful `Allocate`, when
the calls that follow contain no `Free` of the object returned, a later successful
`Allocate` returns a different object. -/
theorem ring_entries_distinct_unused (N S D : Nat) (zero : Obj) (hN : N + 2 < 4294967296)
    (hS : 2 ≤ S) (hD : D < S) (p : MemoryPool Obj)
    (h : MemoryPool.Reachable (MemoryPool.construct N S D zero) p) :
    (∀ j, j < p.node_size → p.free_queue j ≠ OFFSET_NULL →
      ∃ s, s < p.node_size ∧ p.free_queue j = p.GetOffsetByNode s ∧
        (p.nodes s).used = false) ∧
    (∀ j j', j < p.node_size → j' < p.node_size → p.free_queue j ≠ OFFSET_NULL →
      p.free_queue j = p.free_queue j' → j = j') ∧
    (∀ (ptr : Nat) (p1 : MemoryPool Obj), p.Allocate = (some ptr, p1) →
      ∃ s, s < p.node_size ∧ ptr = p.dataPtr s ∧ (p.nodes s).used = false ∧
        (p1.nodes s).used = true) ∧
    (∀ (ptr ptr2 : Nat) (p1 q q1 : MemoryPool Obj) (ops : List PoolOp),
      p.Allocate = (some ptr, p1) → PoolOp.free (p.GetNodeByObj ptr) ∉ ops →
      p1.run ops = some q → q.Allocate = (some ptr2, q1) → ptr2 ≠ ptr) := by
  have h0 := RingInv_construct N S D zero hN hS hD
  have hp := Reachable_RingInv _ p h0 h
  have ha := Reachable_RingAligned _ p h0 (RingAligned_construct N S D zero hS) h
  refine ⟨?_, ?_, ?_, ?_⟩
  · intro j hj hne
    obtain ⟨h1, h2⟩ := hp.ring_free j hj hne
    exact ⟨_, h1, ha j hj hne, h2⟩
  · intro j j' hj hj' hne he
    exact hp.ring_inj j j' hj hj' hne (by rw [← he]; exact hne) (by rw [he])
  · intro ptr p1 hal
    exact Allocate_unused p p1 ptr hp hal
  · intro ptr ptr2 p1 q q1 ops hal hnot hrun hal2
    obtain ⟨e, hu, hS1, hD1⟩ := Allocate_some p p1 ptr hp.data_lt hal
    rw [GetNodeByObj_eq] at hnot
    have hr1 : MemoryPool.Reachable (MemoryPool.construct N S D zero) p1 := by
      have := MemoryPool.Reachable.allocate p h
      rw [hal] at this
      exact this
    have hq := Reachable_RingInv _ q h0 (run_Reachable _ ops p1 q hr1 hrun)
    have hnf := run_NotFreed (ptr / p.NodeSize) p1 (by rw [hS1, hD1]; exact hp.data_lt) ops p1 q
      MemoryPool.NotFreed.refl hnot hrun
    obtain ⟨k1, k2, k3⟩ := NotFreed_inv _ p1 q hnf
    obtain ⟨s, _, e2, hu2, _⟩ := Allocate_unused q q1 ptr2 hq hal2
    intro hc
    have hs : s = ptr / p.NodeSize := by
      have := dataPtr_div q hq.data_lt s
      rw [← e2, hc, k1, hS1] at this
      exact this.symm
    rw [hs, k3 hu] at hu2
    cases hu2

theorem ring_entries_distinct_unused_witness :
    ∃ s, s < (MemoryPool.construct 1 16 8 ()).node_size ∧
      8 = (MemoryPool.construct 1 16 8 ()).dataPtr s ∧
      ((MemoryPool.construct 1 16 8 ()).nodes s).used = false ∧
      ((MemoryPool.construct 1 16 8 ()).Allocate.2.nodes s).used = true :=
  (ring_entries_distinct_unused 1 16 8 () (by norm_num) (by norm_num) (by norm_num) _
    MemoryPool.Reachable.init).2.2.1 8 _ (Prod.ext (by decide) rfl)

end ShmPool

namespace ShmMap

open ShmPool

variable {K V : Type}

theorem ptrOf_NULL (φ : Nat → Nat) : ptrOf φ OFFSET_NULL = 0 := by
  simp [ptrOf]

theorem ptrOf_ne (φ : Nat → Nat) (x : Nat) (h : x ≠ OFFSET_NULL) : ptrOf φ x = φ x := by
  simp [ptrOf, h]

theorem Listed_chain (B : Nat) (chains : Nat → List Nat) (g : List Nat) (b x : Nat)
    (hb : b < B) (hx : x ∈ chains b) : Listed B chains g x :=
  Or.inl ⟨b, hb, hx⟩

theorem Listed_garbage (B : Nat) (chains : Nat → List Nat) (g : List Nat) (x : Nat)
    (hx : x ∈ g) : Listed B chains g x :=
  Or.inr hx

/-- The item of the `SinHashMap` that stands for a listed item. -/
theorem Related_heap (φ : Nat → Nat) (chains : Nat → List Nat) (g : List Nat)
    (m : ShmHashMap K V) (s : SinMap.SinHashMap K V) (hR : Related φ chains g m s) (x : Nat)
    (hx : Listed m.bucket_size chains g x) :
    ∃ nx, s.heap (φ x) = some { itemOf φ (m.item x) with next := nx } := by
  rcases hx with ⟨b, hb, hx⟩ | hx
  · exact ⟨_, hR.chain_item b hb x hx⟩
  · exact hR.garbage_item x hx

theorem Related_ptrOf (φ : Nat → Nat) (chains : Nat → List Nat) (g : List Nat)
    (m : ShmHashMap K V) (s : SinMap.SinHashMap K V) (hR : Related φ chains g m s) (x : Nat)
    (hx : Listed m.bucket_size chains g x) : ptrOf φ x = φ x :=
  ptrOf_ne φ x (hR.ne_null x hx)

/-- Loading through the pointer that stands for a chained item. -/
theorem Related_load_chain (φ : Nat → Nat) (chains : Nat → List Nat) (g : List Nat)
    (m : ShmHashMap K V) (s : SinMap.SinHashMap K V) (hR : Related φ chains g m s) (b x : Nat)
    (hb : b < m.bucket_size) (hx : x ∈ chains b) :
    s.load (φ x) = some (itemOf φ (m.item x)) := by
  unfold SinMap.SinHashMap.load
  rw [if_neg (hR.nonzero x (Listed_chain _ _ _ b x hb hx))]
  exact hR.chain_item b hb x hx

/-- Storing through the pointer that stands for a listed item. -/
theorem Related_store_eq (φ : Nat → Nat) (chains : Nat → List Nat) (g : List Nat)
    (m : ShmHashMap K V) (s : SinMap.SinHashMap K V) (hR : Related φ chains g m s) (x : Nat)
    (hx : Listed m.bucket_size chains g x) (it : SinMap.ItemNode K V)
    (hit : s.heap (φ x) = some it) (f : SinMap.ItemNode K V → SinMap.ItemNode K V) :
    s.store (φ x) f = some { s with heap := setAt s.heap (φ x) (some (f it)) } := by
  unfold SinMap.SinHashMap.store SinMap.SinHashMap.load
  rw [if_neg (hR.nonzero x hx), hit]

/-- A store to a listed item on both maps. -/
theorem Related_store (φ : Nat → Nat) (chains : Nat → List Nat) (g : List Nat)
    (m : ShmHashMap K V) (s : SinMap.SinHashMap K V) (hR : Related φ chains g m s) (x : Nat)
    (hx : Listed m.bucket_size chains g x) (it : ItemNode K V) (it1 : SinMap.ItemNode K V)
    (hc : ∀ b, b < m.bucket_size → x ∈ chains b → it1 = itemOf φ it)
    (hg : x ∈ g → ∃ nx, it1 = { itemOf φ it with next := nx }) :
    Related φ chains g (m.setItem x it)
      ({ s with heap := setAt s.heap (φ x) (some it1) } : SinMap.SinHashMap K V) := by
  refine ⟨hR.bucket_size_eq, hR.hash_eq, hR.gc_eq, hR.bucket, hR.ghead, hR.gtail, ?_, ?_,
    hR.ne_null, hR.nonzero, hR.inj, hR.slot_inj⟩
  · intro b hb y hy
    by_cases hyx : y = x
    · subst hyx
      rw [item_setItem_same]
      simp only [setAt_same]
      rw [hc b hb hy]
    · have hs : m.slot y ≠ m.slot x := fun h =>
        hyx (hR.slot_inj y x (Listed_chain _ _ _ b y hb hy) hx h)
      have hp : φ y ≠ φ x := fun h => hyx (hR.inj y x (Listed_chain _ _ _ b y hb hy) hx h)
      rw [item_setItem_ne m x it y hs]
      simp only [setAt_ne _ _ hp]
      exact hR.chain_item b hb y hy
  · intro y hy
    by_cases hyx : y = x
    · subst hyx
      obtain ⟨nx, e⟩ := hg hy
      rw [item_setItem_same]
      simp only [setAt_same]
      exact ⟨nx, by rw [e]⟩
    · have hs : m.slot y ≠ m.slot x := fun h =>
        hyx (hR.slot_inj y x (Listed_garbage _ _ _ y hy) hx h)
      have hp : φ y ≠ φ x := fun h => hyx (hR.inj y x (Listed_garbage _ _ _ y hy) hx h)
      rw [item_setItem_ne m x it y hs]
      simp only [setAt_ne _ _ hp]
      exact hR.garbage_item y hy

/-- An assignment to a bucket on both maps. -/
theorem Related_setBucket (φ : Nat → Nat) (chains : Nat → List Nat) (g : List Nat)
    (m : ShmHashMap K V) (s : SinMap.SinHashMap K V) (hR : Related φ chains g m s)
    (index : Nat) (bk : BucketItem) (bk1 : SinMap.BucketItem)
    (h1 : bk1.count = wrapInt32 bk.count) (h2 : bk1.head = ptrOf φ bk.head)
    (h3 : bk1.tail = ptrOf φ bk.tail) :
    Related φ chains g (m.setBucket index bk) (s.setBucket index bk1) := by
  refine ⟨hR.bucket_size_eq, hR.hash_eq, hR.gc_eq, ?_, hR.ghead, hR.gtail, hR.chain_item,
    hR.garbage_item, hR.ne_null, hR.nonzero, hR.inj, hR.slot_inj⟩
  intro b hb
  by_cases hbi : b = index
  · subst hbi
    simp only [SinMap.SinHashMap.setBucket, ShmHashMap.setBucket, setAt_same]
    cases bk1
    simp only at h1 h2 h3
    rw [h1, h2, h3]
  · simp only [SinMap.SinHashMap.setBucket, ShmHashMap.setBucket, setAt_ne _ _ hbi]
    exact hR.bucket b hb

/-- A change of the lists: items leave a chain or pass from a chain to the garbage
list. -/
theorem Related_layout (φ : Nat → Nat) (chains chains1 : Nat → List Nat) (g g1 : List Nat)
    (m : ShmHashMap K V) (s : SinMap.SinHashMap K V) (hR : Related φ chains g m s)
    (hc : ∀ b, b < m.bucket_size → ∀ x, x ∈ chains1 b → x ∈ chains b)
    (hg : ∀ x, x ∈ g1 → Listed m.bucket_size chains g x)
    (ht : g1 ≠ [] → s.garbage_list_tail = ptrOf φ m.garbage_list_tail_offset) :
    Related φ chains1 g1 m s := by
  have hL : ∀ x, Listed m.bucket_size chains1 g1 x → Listed m.bucket_size chains g x := by
    intro x hx
    rcases hx with ⟨b, hb, hx⟩ | hx
    · exact Or.inl ⟨b, hb, hc b hb x hx⟩
    · exact hg x hx
  refine ⟨hR.bucket_size_eq, hR.hash_eq, hR.gc_eq, hR.bucket, hR.ghead, ht, ?_, ?_, ?_, ?_, ?_,
    ?_⟩
  · intro b hb x hx
    exact hR.chain_item b hb x (hc b hb x hx)
  · intro x hx
    exact Related_heap φ chains g m s hR x (hg x hx)
  · intro x hx
    exact hR.ne_null x (hL x hx)
  · intro x hx
    exact hR.nonzero x (hL x hx)
  · intro x y hx hy
    exact hR.inj x y (hL x hx) (hL y hy)
  · intro x y hx hy
    exact hR.slot_inj x y (hL x hx) (hL y hy)

/-- An assignment to the anchors of the garbage list on both maps. -/
theorem Related_setGarbage (φ : Nat → Nat) (chains : Nat → List Nat) (g : List Nat)
    (m : ShmHashMap K V) (s : SinMap.SinHashMap K V) (hR : Related φ chains g m s)
    (a b a1 b1 : Nat) (ha : a1 = ptrOf φ a) (hb : b1 = ptrOf φ b) :
    Related φ chains g (m.setGarbage a b)
      ({ s with garbage_list_head := a1, garbage_list_tail := b1 } :
        SinMap.SinHashMap K V) :=
  ⟨hR.bucket_size_eq, hR.hash_eq, hR.gc_eq, hR.bucket, ha, fun _ => hb, hR.chain_item,
    hR.garbage_item, hR.ne_null, hR.nonzero, hR.inj, hR.slot_inj⟩

/-- A change of the heap of the `SinHashMap` at an address that stands for no
listed item. -/
theorem Related_heap_other (φ : Nat → Nat) (chains : Nat → List Nat) (g : List Nat)
    (m : ShmHashMap K V) (s : SinMap.SinHashMap K V) (hR : Related φ chains g m s)
    (q : Nat) (v : Option (SinMap.ItemNode K V))
    (hq : ∀ x, Listed m.bucket_size chains g x → φ x ≠ q) :
    Related φ chains g m ({ s with heap := setAt s.heap q v } : SinMap.SinHashMap K V) := by
  refine ⟨hR.bucket_size_eq, hR.hash_eq, hR.gc_eq, hR.bucket, hR.ghead, hR.gtail, ?_, ?_,
    hR.ne_null, hR.nonzero, hR.inj, hR.slot_inj⟩
  · intro b hb x hx
    simp only [setAt_ne _ _ (hq x (Listed_chain _ _ _ b x hb hx))]
    exact hR.chain_item b hb x hx
  · intro x hx
    simp only [setAt_ne _ _ (hq x (Listed_garbage _ _ _ x hx))]
    exact hR.garbage_item x hx

/-- A change of the pool that keeps the layout and the items. -/
theorem Related_pool (φ : Nat → Nat) (chains : Nat → List Nat) (g : List Nat)
    (m : ShmHashMap K V) (s : SinMap.SinHashMap K V) (hR : Related φ chains g m s)
    (pool1 : MemoryPool (ItemNode K V)) (hS : pool1.NodeSize = m.pool.NodeSize)
    (hd : ∀ i, (pool1.nodes i).data = (m.pool.nodes i).data) :
    Related φ chains g ({ m with pool := pool1 } : ShmHashMap K V) s := by
  have hslot : ∀ x, ShmHashMap.slot ({ m with pool := pool1 } : ShmHashMap K V) x = m.slot x :=
    fun x => by simp only [ShmHashMap.slot, hS]
  have hitem : ∀ x, ShmHashMap.item ({ m with pool := pool1 } : ShmHashMap K V) x = m.item x := by
    intro x
    rw [item_eq_nodes, item_eq_nodes, hslot]
    exact hd _
  refine ⟨hR.bucket_size_eq, hR.hash_eq, hR.gc_eq, hR.bucket, hR.ghead, hR.gtail, ?_, ?_,
    hR.ne_null, hR.nonzero, hR.inj, ?_⟩
  · intro b hb x hx
    rw [hitem]
    exact hR.chain_item b hb x hx
  · intro x hx
    rw [hitem]
    exact hR.garbage_item x hx
  · intro x y hx hy h
    rw [hslot, hslot] at h
    exact hR.slot_inj x y hx hy h

/-- A change of the time stamp on both maps. -/
theorem Related_gc_timestamp (φ : Nat → Nat) (chains : Nat → List Nat) (g : List Nat)
    (m : ShmHashMap K V) (s : SinMap.SinHashMap K V) (hR : Related φ chains g m s) (t : Nat) :
    Related φ chains g ({ m with gc_timestamp := t } : ShmHashMap K V)
      ({ s with gc_timestamp := t } : SinMap.SinHashMap K V) :=
  ⟨hR.bucket_size_eq, hR.hash_eq, rfl, hR.bucket, hR.ghead, hR.gtail, hR.chain_item,
    hR.garbage_item, hR.ne_null, hR.nonzero, hR.inj, hR.slot_inj⟩

end ShmMap

namespace ShmMap

open ShmPool

variable {K V : Type}

theorem setAt_self {α : Type} (f : Nat → α) (i : Nat) : setAt f i (f i) = f := by
  funext j
  simp only [setAt]
  split
  · rename_i h; rw [h]
  · rfl

theorem wrapInt32_add_left (a b : Int) : wrapInt32 (wrapInt32 a + b) = wrapInt32 (a + b) := by
  unfold wrapInt32
  omega

theorem wrapInt32_add_right (a b : Int) : wrapInt32 (a + wrapInt32 b) = wrapInt32 (a + b) := by
  unfold wrapInt32
  omega

theorem wrapInt32_succ (c : Nat) :
    wrapInt32 (((c + 1) % 4294967296 : Nat) : Int) = wrapInt32 (wrapInt32 (c : Int) + 1) := by
  rw [wrapInt32_add_left]
  unfold wrapInt32
  omega

theorem wrapInt32_pred (c : Nat) :
    wrapInt32 (((c + 4294967295) % 4294967296 : Nat) : Int)
      = wrapInt32 (wrapInt32 (c : Int) - 1) := by
  rw [sub_eq_add_neg, wrapInt32_add_left]
  unfold wrapInt32
  omega

theorem wrapInt32_sum (f : Nat → Nat) (c : Nat → Int) :
    ∀ (l : List Nat), (∀ i, i ∈ l → c i = wrapInt32 (f i)) →
      wrapInt32 (((l.map f).sum : Nat) : Int) = wrapInt32 ((l.map c).sum) := by
  intro l
  induction l with
  | nil =>
    intro _
    rw [List.map_nil, List.map_nil, List.sum_nil, List.sum_nil, Nat.cast_zero]
  | cons i l ih =>
    intro h
    have h1 := ih (fun j hj => h j (List.mem_cons_of_mem _ hj))
    have h2 := h i (List.mem_cons_self _ _)
    rw [List.map_cons, List.sum_cons, List.map_cons, List.sum_cons, Nat.cast_add, h2,
      wrapInt32_add_left, ← wrapInt32_add_right (f i : Int) ((l.map f).sum : Nat), h1,
      wrapInt32_add_right]

/-- The two maps have the same `GetCount`. -/
theorem Related_GetCount (φ : Nat → Nat) (chains : Nat → List Nat) (g : List Nat)
    (m : ShmHashMap K V) (s : SinMap.SinHashMap K V) (hR : Related φ chains g m s) :
    s.GetCount = m.GetCount := by
  unfold SinMap.SinHashMap.GetCount ShmHashMap.GetCount
  rw [hR.bucket_size_eq]
  exact (wrapInt32_sum (fun i => (m.buckets i).count) (fun i => (s.buckets i).count)
    (List.range m.bucket_size) (fun i hi => by
      show (s.buckets i).count = wrapInt32 ((m.buckets i).count : Nat)
      rw [hR.bucket i (List.mem_range.mp hi)])).symm

theorem isExpired_itemOf (φ : Nat → Nat) (it : ItemNode K V) (now : Int) :
    SinMap.isExpired (itemOf φ it) now = isExpired it now := rfl

theorem itemOf_reading_valid (φ : Nat → Nat) (it : ItemNode K V) (hv : it.invalid = VALID) :
    ({ ({ itemOf φ it with invalid := SinMap.READING } : SinMap.ItemNode K V) with
      invalid := SinMap.VALID } : SinMap.ItemNode K V) = itemOf φ it := by
  simp only [itemOf, hv]
  rfl

variable [DecidableEq K]

theorem Computes_map {α β : Type} (f : Nat → Option α) (r : α) (c : β) (n : Nat)
    (hf : Computes f n r) : Computes (fun fuel => (f fuel).map (fun _ => c)) n c := by
  intro fuel
  constructor
  · intro h
    simp only [(hf fuel).1 h, Option.map_some']
  · intro r1 h
    cases hx : f fuel with
    | none => simp only [hx, Option.map_none'] at h; cases h
    | some x =>
      simp only [hx, Option.map_some'] at h
      exact (Option.some.inj h).symm

/-- The loop of `GetNode` of the `SinHashMap` on the pointers that stand for a
chain of the `ShmHashMap`: it returns the pointer that stands for the first item
with the key, or `NULL`. -/
theorem GetNodeLoop_related (φ : Nat → Nat) (chains : Nat → List Nat) (g : List Nat)
    (m : ShmHashMap K V) (s : SinMap.SinHashMap K V) (hR : Related φ chains g m s) (b : Nat)
    (hb : b < m.bucket_size) (key : K) :
    ∀ (l : List Nat) (start : Nat), m.Chain (fun it => it.next) start l →
      (∀ x, x ∈ l → x ∈ chains b) →
      Computes (fun fuel => s.GetNodeLoop key fuel (ptrOf φ start)) l.length
        (match l.find? (fun x => decide ((m.item x).key = key)) with
          | none => 0
          | some x => φ x) := by
  intro l
  induction l with
  | nil =>
    intro start hc _
    have hs : start = OFFSET_NULL := hc
    rw [hs, ptrOf_NULL]
    exact Computes_const _ _ _ rfl (fun k => by simp [SinMap.SinHashMap.GetNodeLoop])
  | cons x l ih =>
    intro start hc hsub
    obtain ⟨h1, _, h3⟩ := hc
    subst h1
    have hx := hsub start (List.mem_cons_self _ _)
    have hL := Listed_chain m.bucket_size chains g b start hb hx
    have hnz := hR.nonzero start hL
    have hld := Related_load_chain φ chains g m s hR b start hb hx
    rw [Related_ptrOf φ chains g m s hR start hL]
    by_cases hk : (m.item start).key = key
    · have hf : (start :: l).find? (fun x => decide ((m.item x).key = key)) = some start := by
        simp [List.find?_cons, hk]
      rw [hf]
      refine Computes_const _ _ _ rfl (fun k => ?_)
      simp only [SinMap.SinHashMap.GetNodeLoop, if_neg hnz, hld]
      simp [itemOf, hk]
    · have hf : (start :: l).find? (fun x => decide ((m.item x).key = key))
          = l.find? (fun x => decide ((m.item x).key = key)) := by
        simp [List.find?_cons, hk]
      rw [hf]
      have hi := ih _ h3 (fun y hy => hsub y (List.mem_cons_of_mem _ hy))
      refine Computes_step _ _ _ _ rfl (fun k => ?_) hi
      simp only [SinMap.SinHashMap.GetNodeLoop, if_neg hnz, hld]
      simp [itemOf, hk]

/-- `Get` on the two maps: each returns for enough fuel, with the same code and
value whatever the fuel, and the `SinHashMap` is left as it was. -/
theorem Get_related (φ : Nat → Nat) (chains : Nat → List Nat) (g : List Nat)
    (m : ShmHashMap K V) (s : SinMap.SinHashMap K V) (hR : Related φ chains g m s)
    (hwf : ∀ b, b < m.bucket_size → m.BucketWF b (chains b)) (hB : 0 < m.bucket_size)
    (key : K) (now : Int) :
    ∃ (r : SinHashRet) (r1 : SinMap.SinHashRet) (v : Option V),
      SinMap.retCode r1 = retCode r ∧
      Computes (fun fuel => m.Get fuel key now)
        (chains (m.HashCode key % m.bucket_size)).length (r, v) ∧
      Computes (fun fuel => s.Get fuel key now)
        (chains (m.HashCode key % m.bucket_size)).length (r1, v, s) := by
  have hi : m.HashCode key % m.bucket_size < m.bucket_size := Nat.mod_lt _ hB
  have hb := hwf _ hi
  have hgn := GetNodeLoop_related φ chains g m s hR _ hi key _ _ hb.chain (fun x hx => hx)
  have hidx : s.HashCode key % s.bucket_size = m.HashCode key % m.bucket_size := by
    rw [hR.hash_eq, hR.bucket_size_eq]
  have hhead : (s.buckets (m.HashCode key % m.bucket_size)).head
      = ptrOf φ (m.buckets (m.HashCode key % m.bucket_size)).head := by
    rw [hR.bucket _ hi]
  have hzero : ∀ p, s.GetNodeLoop key 0 p = none := fun p => rfl
  have hgm : Computes (fun fuel => m.GetNode fuel (m.HashCode key % m.bucket_size) key)
      (chains (m.HashCode key % m.bucket_size)).length
      ((chains (m.HashCode key % m.bucket_size)).find?
        (fun x => decide ((m.item x).key = key))) :=
    fun fuel => ⟨(GetNode_bucket m _ key _ hb fuel).2, (GetNode_bucket m _ key _ hb fuel).1⟩
  cases hfind : (chains (m.HashCode key % m.bucket_size)).find?
      (fun x => decide ((m.item x).key = key)) with
  | none =>
    rw [hfind] at hgn hgm
    refine ⟨SinHashRet.RET_NOT_FOUND, SinMap.SinHashRet.RET_NOT_FOUND, none, rfl, ?_, ?_⟩
    · have hG : (fun fuel => m.Get fuel key now) = (fun fuel =>
          (m.GetNode fuel (m.HashCode key % m.bucket_size) key).map
            (fun _ => (SinHashRet.RET_NOT_FOUND, (none : Option V)))) := by
        funext fuel
        unfold ShmHashMap.Get
        simp only
        cases hq : m.GetNode fuel (m.HashCode key % m.bucket_size) key with
        | none => rfl
        | some item =>
          have := (hgm fuel).2 item hq
          subst this
          rfl
      rw [hG]
      exact Computes_map _ _ _ _ hgm
    · have hG : (fun fuel => s.Get fuel key now) = (fun fuel =>
          (s.GetNodeLoop key fuel
            (ptrOf φ (m.buckets (m.HashCode key % m.bucket_size)).head)).map
            (fun _ => (SinMap.SinHashRet.RET_NOT_FOUND, (none : Option V), s))) := by
        funext fuel
        unfold SinMap.SinHashMap.Get SinMap.SinHashMap.GetNode
        simp only [hidx, hhead]
        cases hq : s.GetNodeLoop key fuel
            (ptrOf φ (m.buckets (m.HashCode key % m.bucket_size)).head) with
        | none => rfl
        | some item =>
          have := (hgn fuel).2 item hq
          subst this
          simp
      rw [hG]
      exact Computes_map _ _ _ _ hgn
  | some x =>
    rw [hfind] at hgn hgm
    obtain ⟨hxl, _⟩ := find?_mem_key m key _ x hfind
    have hL := Listed_chain m.bucket_size chains g _ x hi hxl
    have hnz := hR.nonzero x hL
    have hld := Related_load_chain φ chains g m s hR _ x hi hxl
    have hheap := hR.chain_item _ hi x hxl
    have hv : (m.item x).invalid = VALID := (hb.nodes x hxl).2.1
    cases hexp : isExpired (m.item x) now with
    | true =>
      have hexp1 : SinMap.isExpired (itemOf φ (m.item x)) now = true := by
        rw [isExpired_itemOf]
        exact hexp
      refine ⟨SinHashRet.RET_NOT_FOUND, SinMap.SinHashRet.RET_NOT_FOUND, none, rfl, ?_, ?_⟩
      · have hG : (fun fuel => m.Get fuel key now) = (fun fuel =>
            (m.GetNode fuel (m.HashCode key % m.bucket_size) key).map
              (fun _ => (SinHashRet.RET_NOT_FOUND, (none : Option V)))) := by
          funext fuel
          unfold ShmHashMap.Get
          simp only
          cases hq : m.GetNode fuel (m.HashCode key % m.bucket_size) key with
          | none => rfl
          | some item =>
            have := (hgm fuel).2 item hq
            subst this
            simp only [hexp, if_true, Option.map_some']
        rw [hG]
        exact Computes_map _ _ _ _ hgm
      · have hG : (fun fuel => s.Get fuel key now) = (fun fuel =>
            (s.GetNodeLoop key fuel
              (ptrOf φ (m.buckets (m.HashCode key % m.bucket_size)).head)).map
              (fun _ => (SinMap.SinHashRet.RET_NOT_FOUND, (none : Option V), s))) := by
          funext fuel
          unfold SinMap.SinHashMap.Get SinMap.SinHashMap.GetNode
          simp only [hidx, hhead]
          cases hq : s.GetNodeLoop key fuel
              (ptrOf φ (m.buckets (m.HashCode key % m.bucket_size)).head) with
          | none => rfl
          | some item =>
            have := (hgn fuel).2 item hq
            subst this
            simp only [if_neg hnz, hld, hexp1, if_true, Option.map_some']
        rw [hG]
        exact Computes_map _ _ _ _ hgn
    | false =>
      have hexp1 : SinMap.isExpired (itemOf φ (m.item x)) now = false := by
        rw [isExpired_itemOf]
        exact hexp
      have hst1 := Related_store_eq φ chains g m s hR x hL _ hheap
        (fun i => { i with invalid := SinMap.READING })
      have hloop : ∀ k, s.GetLoop (φ x) (k + 1) SinMap.VALID
          = some ({ s with heap := (setAt s.heap (φ x)
              (some { itemOf φ (m.item x) with invalid := SinMap.READING })) } :
                SinMap.SinHashMap K V) := by
        intro k
        simp only [SinMap.SinHashMap.GetLoop, hld]
        have : (itemOf φ (m.item x)).invalid = SinMap.VALID := hv
        rw [if_pos this]
        exact hst1
      have e1 := itemOf_reading_valid φ (m.item x) hv
      refine ⟨SinHashRet.RET_OK, SinMap.SinHashRet.RET_OK, some (m.item x).value, rfl, ?_, ?_⟩
      · have hG : (fun fuel => m.Get fuel key now) = (fun fuel =>
            (m.GetNode fuel (m.HashCode key % m.bucket_size) key).map
              (fun _ => (SinHashRet.RET_OK, some (m.item x).value))) := by
          funext fuel
          unfold ShmHashMap.Get
          simp only
          cases hq : m.GetNode fuel (m.HashCode key % m.bucket_size) key with
          | none => rfl
          | some item =>
            have := (hgm fuel).2 item hq
            subst this
            simp only [hexp, Bool.false_eq_true, if_false, Option.map_some']
        rw [hG]
        exact Computes_map _ _ _ _ hgm
      · have hG : (fun fuel => s.Get fuel key now) = (fun fuel =>
            (s.GetNodeLoop key fuel
              (ptrOf φ (m.buckets (m.HashCode key % m.bucket_size)).head)).map
              (fun _ => (SinMap.SinHashRet.RET_OK, some (m.item x).value, s))) := by
          funext fuel
          cases fuel with
          | zero =>
            unfold SinMap.SinHashMap.Get SinMap.SinHashMap.GetNode
            simp only [hidx, hhead, hzero]
            rfl
          | succ k =>
            unfold SinMap.SinHashMap.Get SinMap.SinHashMap.GetNode
            simp only [hidx, hhead]
            cases hq : s.GetNodeLoop key (k + 1)
                (ptrOf φ (m.buckets (m.HashCode key % m.bucket_size)).head) with
            | none => rfl
            | some item =>
              have := (hgn (k + 1)).2 item hq
              subst this
              simp only [if_neg hnz, hld, hexp1, Bool.false_eq_true, if_false, hloop k,
                Option.map_some']
              simp only [SinMap.SinHashMap.load, if_neg hnz, setAt_same,
                SinMap.SinHashMap.store, Option.map_some', e1, setAt_setAt]
              rw [← hheap, setAt_self]
              rfl
        rw [hG]
        exact Computes_map _ _ _ _ hgn

end ShmMap

namespace ShmMap

open ShmPool

variable {K V : Type}

theorem Chain_head_cases (m : ShmHashMap K V) (link : ItemNode K V → Nat) (l : List Nat)
    (s : Nat) (h : m.Chain link s l) : s = OFFSET_NULL ∨ s ∈ l := by
  cases l with
  | nil => exact Or.inl h
  | cons x l => exact Or.inr (by rw [h.1]; exact List.mem_cons_self _ _)

theorem Chain_link_cases (m : ShmHashMap K V) (link : ItemNode K V → Nat) :
    ∀ (l : List Nat) (s : Nat), m.Chain link s l → ∀ x, x ∈ l →
      link (m.item x) = OFFSET_NULL ∨ link (m.item x) ∈ l := by
  intro l
  induction l with
  | nil => intro s _ x hx; cases hx
  | cons y l ih =>
    intro s h x hx
    obtain ⟨_, _, h3⟩ := h
    rcases List.mem_cons.mp hx with e | e
    · subst e
      rcases Chain_head_cases m link l _ h3 with h0 | h0
      · exact Or.inl h0
      · exact Or.inr (List.mem_cons_of_mem _ h0)
    · rcases ih _ h3 x e with h0 | h0
      · exact Or.inl h0
      · exact Or.inr (List.mem_cons_of_mem _ h0)

/-- On a well-formed state no anchor and no link of a listed item holds the offset
of an item in an unused slot. -/
theorem WF_avoids (chains : Nat → List Nat) (g : List Nat) (m : ShmHashMap K V)
    (hwf : ∀ b, b < m.bucket_size → m.BucketWF b (chains b)) (hg : m.GarbageWF g) (a : Nat)
    (ha : a ≠ OFFSET_NULL) (hu : (m.pool.nodes (m.slot a)).used = false) :
    (∀ y, Listed m.bucket_size chains g y → m.slot y ≠ m.slot a) ∧
    (∀ b, b < m.bucket_size → (m.buckets b).head ≠ a ∧ (m.buckets b).tail ≠ a) ∧
    m.garbage_list_head_offset ≠ a ∧ (g ≠ [] → m.garbage_list_tail_offset ≠ a) ∧
    (∀ b, b < m.bucket_size → ∀ y, y ∈ chains b →
      (m.item y).next ≠ a ∧ (m.item y).del_next ≠ a) ∧
    (∀ y, y ∈ g → (m.item y).del_next ≠ a) := by
  have hused : ∀ y, Listed m.bucket_size chains g y →
      (m.pool.nodes (m.slot y)).used = true := by
    intro y hy
    rcases hy with ⟨b, hb, hy⟩ | hy
    · exact (Chain_mem_used m _ _ _ (hwf b hb).chain y hy).1
    · exact (Chain_mem_used m _ _ _ hg.chain y hy).1
  have hne : ∀ y, Listed m.bucket_size chains g y → y ≠ a := by
    intro y hy e
    have := hused y hy
    rw [e, hu] at this
    cases this
  have hp : ∀ p, (p = OFFSET_NULL ∨ Listed m.bucket_size chains g p) → p ≠ a := by
    intro p h
    rcases h with h | h
    · rw [h]; exact fun e => ha e.symm
    · exact hne p h
  refine ⟨?_, ?_, ?_, ?_, ?_, ?_⟩
  · intro y hy e
    have := hused y hy
    rw [e, hu] at this
    cases this
  · intro b hb
    constructor
    · apply hp
      rcases Chain_head_cases m _ _ _ (hwf b hb).chain with h | h
      · exact Or.inl h
      · exact Or.inr (Or.inl ⟨b, hb, h⟩)
    · apply hp
      cases hl : (chains b).getLast? with
      | none =>
        have : chains b = [] := List.getLast?_eq_none_iff.mp hl
        exact Or.inl ((hwf b hb).tail_nil this)
      | some t =>
        rw [(hwf b hb).tail_last t hl]
        exact Or.inr (Or.inl ⟨b, hb, getLast?_mem _ t hl⟩)
  · apply hp
    rcases Chain_head_cases m _ _ _ hg.chain with h | h
    · exact Or.inl h
    · exact Or.inr (Or.inr h)
  · intro hne0
    apply hp
    cases hl : g.getLast? with
    | none => exact absurd (List.getLast?_eq_none_iff.mp hl) hne0
    | some t =>
      rw [hg.tail_last t hl]
      exact Or.inr (Or.inr (getLast?_mem _ t hl))
  · intro b hb y hy
    constructor
    · apply hp
      rcases Chain_link_cases m _ _ _ (hwf b hb).chain y hy with h | h
      · exact Or.inl h
      · exact Or.inr (Or.inl ⟨b, hb, h⟩)
    · rw [((hwf b hb).nodes y hy).2.2.1]
      exact fun e => ha e.symm
  · intro y hy
    apply hp
    rcases Chain_link_cases m _ _ _ hg.chain y hy with h | h
    · exact Or.inl h
    · exact Or.inr (Or.inr h)

theorem ptrOf_setAt_ne (φ : Nat → Nat) (a fresh p : Nat) (h : p ≠ a) :
    ptrOf (setAt φ a fresh) p = ptrOf φ p := by
  unfold ptrOf
  rw [setAt_ne _ _ h]

theorem itemOf_setAt_ne (φ : Nat → Nat) (a fresh : Nat) (it : ItemNode K V)
    (h1 : it.next ≠ a) (h2 : it.del_next ≠ a) :
    itemOf (setAt φ a fresh) it = itemOf φ it := by
  unfold itemOf
  rw [ptrOf_setAt_ne φ a fresh _ h1, ptrOf_setAt_ne φ a fresh _ h2]

theorem mem_setAt_append (chains : Nat → List Nat) (index a b y : Nat)
    (h : y ∈ setAt chains index (chains index ++ [a]) b) :
    (b = index ∧ y = a) ∨ y ∈ chains b := by
  by_cases hb : b = index
  · subst hb
    rw [setAt_same] at h
    rcases List.mem_append.mp h with h | h
    · exact Or.inr h
    · exact Or.inl ⟨rfl, by simpa using h⟩
  · rw [setAt_ne _ _ hb] at h
    exact Or.inr h

/-- The allocation of a new item on both maps: the pool hands out the unused slot
of the offset `a`, the allocator of the `SinHashMap` hands out the unused storage
`fresh`, the constructed item `it` is stored in both, and `a` joins the chain of
the bucket `index`. -/
theorem Related_fresh (φ : Nat → Nat) (chains : Nat → List Nat) (g : List Nat)
    (m : ShmHashMap K V) (s : SinMap.SinHashMap K V) (hR : Related φ chains g m s)
    (pool1 : MemoryPool (ItemNode K V)) (hS : pool1.NodeSize = m.pool.NodeSize)
    (hd : ∀ i, (pool1.nodes i).data = (m.pool.nodes i).data) (a fresh index : Nat)
    (it : ItemNode K V) (ha : a ≠ OFFSET_NULL)
    (hf0 : fresh ≠ 0) (hfn : s.heap fresh = none)
    (hslot : ∀ y, Listed m.bucket_size chains g y → m.slot y ≠ m.slot a)
    (hanch : ∀ b, b < m.bucket_size → (m.buckets b).head ≠ a ∧ (m.buckets b).tail ≠ a)
    (hgh : m.garbage_list_head_offset ≠ a) (hgt : g ≠ [] → m.garbage_list_tail_offset ≠ a)
    (hnext : ∀ b, b < m.bucket_size → ∀ y, y ∈ chains b →
      (m.item y).next ≠ a ∧ (m.item y).del_next ≠ a)
    (hdel : ∀ y, y ∈ g → (m.item y).del_next ≠ a) :
    Related (setAt φ a fresh) (setAt chains index (chains index ++ [a])) g
      (({ m with pool := pool1 } : ShmHashMap K V).setItem a it)
      ({ s with heap := setAt s.heap fresh (some (itemOf (setAt φ a fresh) it)) } :
        SinMap.SinHashMap K V) := by
  have hne : ∀ y, Listed m.bucket_size chains g y → y ≠ a := fun y hy e =>
    hslot y hy (by rw [e])
  have hlive : ∀ y, Listed m.bucket_size chains g y → φ y ≠ fresh := by
    intro y hy e
    obtain ⟨nx, h⟩ := Related_heap φ chains g m s hR y hy
    rw [e, hfn] at h
    cases h
  have hslot1 : ∀ x, ShmHashMap.slot
      (({ m with pool := pool1 } : ShmHashMap K V).setItem a it) x = m.slot x :=
    fun x => by simp only [ShmHashMap.slot, setItem_NodeSize, hS]
  have hitem : ∀ y, m.slot y ≠ m.slot a → ShmHashMap.item
      (({ m with pool := pool1 } : ShmHashMap K V).setItem a it) y = m.item y := by
    intro y hy
    rw [item_setItem_ne _ a it y (by
      simp only [ShmHashMap.slot, hS]
      exact hy)]
    rw [item_eq_nodes, item_eq_nodes]
    simp only [ShmHashMap.slot, hS]
    exact hd _
  have hL : ∀ y, Listed m.bucket_size (setAt chains index (chains index ++ [a])) g y →
      y = a ∨ Listed m.bucket_size chains g y := by
    intro y hy
    rcases hy with ⟨b, hb, hy⟩ | hy
    · rcases mem_setAt_append chains index a b y hy with h | h
      · exact Or.inl h.2
      · exact Or.inr (Or.inl ⟨b, hb, h⟩)
    · exact Or.inr (Or.inr hy)
  have hφ : ∀ y, Listed m.bucket_size chains g y → setAt φ a fresh y = φ y :=
    fun y hy => setAt_ne _ _ (hne y hy)
  refine ⟨hR.bucket_size_eq, hR.hash_eq, hR.gc_eq, ?_, ?_, ?_, ?_, ?_, ?_, ?_, ?_, ?_⟩
  · intro b hb
    simp only [setItem_buckets]
    rw [ptrOf_setAt_ne φ a fresh _ (hanch b hb).1, ptrOf_setAt_ne φ a fresh _ (hanch b hb).2]
    exact hR.bucket b hb
  · simp only [setItem_garbage_head]
    rw [ptrOf_setAt_ne φ a fresh _ hgh]
    exact hR.ghead
  · intro hg0
    simp only [setItem_garbage_tail]
    rw [ptrOf_setAt_ne φ a fresh _ (hgt hg0)]
    exact hR.gtail hg0
  · intro b hb y hy
    rcases mem_setAt_append chains index a b y hy with h | h
    · rw [h.2, item_setItem_same]
      simp only [setAt_same]
    · have hyL := Listed_chain m.bucket_size chains g b y hb h
      rw [hitem y (hslot y hyL), hφ y hyL]
      simp only [setAt_ne _ _ (hlive y hyL)]
      rw [itemOf_setAt_ne φ a fresh _ (hnext b hb y h).1 (hnext b hb y h).2]
      exact hR.chain_item b hb y h
  · intro y hy
    have hyL := Listed_garbage m.bucket_size chains g y hy
    obtain ⟨nx, e⟩ := hR.garbage_item y hy
    rw [hitem y (hslot y hyL), hφ y hyL]
    simp only [setAt_ne _ _ (hlive y hyL)]
    refine ⟨nx, ?_⟩
    rw [e]
    simp only [itemOf, ptrOf_setAt_ne φ a fresh _ (hdel y hy)]
  · intro y hy
    rcases hL y hy with h | h
    · rw [h]; exact ha
    · exact hR.ne_null y h
  · intro y hy
    rcases hL y hy with h | h
    · rw [h, setAt_same]; exact hf0
    · rw [hφ y h]; exact hR.nonzero y h
  · intro x y hx hy e
    rcases hL x hx with h1 | h1 <;> rcases hL y hy with h2 | h2
    · rw [h1, h2]
    · rw [h1, setAt_same, hφ y h2] at e
      exact absurd e.symm (hlive y h2)
    · rw [h2, setAt_same, hφ x h1] at e
      exact absurd e (hlive x h1)
    · rw [hφ x h1, hφ y h2] at e
      exact hR.inj x y h1 h2 e
  · intro x y hx hy e
    rw [hslot1, hslot1] at e
    rcases hL x hx with h1 | h1 <;> rcases hL y hy with h2 | h2
    · rw [h1, h2]
    · rw [h1] at e
      exact absurd e.symm (hslot y h2)
    · rw [h2] at e
      exact absurd e (hslot x h1)
    · exact hR.slot_inj x y h1 h2 e

end ShmMap

namespace ShmMap

open ShmPool

variable {K V : Type}

theorem sin_setBucket_heap (s : SinMap.SinHashMap K V) (index : Nat) (bk : SinMap.BucketItem) :
    (s.setBucket index bk).heap = s.heap := rfl

theorem sin_setBucket_same (s : SinMap.SinHashMap K V) (index : Nat) (bk : SinMap.BucketItem) :
    (s.setBucket index bk).buckets index = bk := by
  simp [SinMap.SinHashMap.setBucket]

/-- `AddNodeItem` on both maps, when the pool has a slot to hand out and the
allocator of the `SinHashMap` hands out unused storage. -/
theorem AddNodeItem_related (φ : Nat → Nat) (chains : Nat → List Nat) (g : List Nat)
    (m : ShmHashMap K V) (s : SinMap.SinHashMap K V) (hR : Related φ chains g m s)
    (hm : m.WF) (hwf : ∀ b, b < m.bucket_size → m.BucketWF b (chains b))
    (hg : m.GarbageWF g) (index : Nat) (hi : index < m.bucket_size) (key : K) (value : V)
    (expire now : Int)
    (hq : m.pool.free_queue (m.pool.read_index % m.pool.node_size) ≠ OFFSET_NULL)
    (fresh : Nat) (hf0 : fresh ≠ 0) (hfn : s.heap fresh = none) :
    ∃ s1, s.AddNodeItem fresh index key value expire now = some s1 ∧
      Related
        (setAt φ (m.pool.dataPtr
          (m.pool.free_queue (m.pool.read_index % m.pool.node_size) / m.pool.NodeSize)) fresh)
        (setAt chains index (chains index ++ [m.pool.dataPtr
          (m.pool.free_queue (m.pool.read_index % m.pool.node_size) / m.pool.NodeSize)])) g
        (m.AddNodeItem index key value expire now).2 s1 := by
  obtain ⟨mA, _, hA⟩ := AddNodeItem_appended m index key value expire now (chains index)
    hm.pool hm.data_gt (hwf index hi) hq
  generalize ha0 : m.pool.dataPtr
    (m.pool.free_queue (m.pool.read_index % m.pool.node_size) / m.pool.NodeSize) = a at hA ⊢
  have ha : a ≠ OFFSET_NULL := hA.new_ne
  obtain ⟨v1, v2, v3, v4, v5, v6⟩ := WF_avoids chains g m hwf hg a ha hA.new_unused
  obtain ⟨f1, f2, _, _, _, _, f7⟩ := Allocate_success_fields m.pool hq
  have hd : ∀ i, (m.pool.Allocate.2.nodes i).data = (m.pool.nodes i).data := by
    intro i
    rw [f7]
    simp only [setAt_apply]
    split
    · rename_i h; rw [h]
    · rfl
  have hu : ∀ i, (m.pool.nodes i).used = true → (m.pool.Allocate.2.nodes i).used = true := by
    intro i h
    rw [f7]
    simp only [setAt_apply]
    split
    · rfl
    · exact h
  have R2 := Related_fresh φ chains g m s hR m.pool.Allocate.2 f2 hd a fresh index
    ({ invalid := 0, key := key, value := value, next := OFFSET_NULL,
       expire := expireAt expire now, del_next := OFFSET_NULL } : ItemNode K V)
    ha hf0 hfn v1 v2 v3 v4 v5 v6
  have hpa : ptrOf (setAt φ a fresh) a = fresh := by
    rw [ptrOf_ne _ _ ha, setAt_same]
  have hnew : itemOf (setAt φ a fresh)
      ({ invalid := 0, key := key, value := value, next := OFFSET_NULL,
         expire := expireAt expire now, del_next := OFFSET_NULL } : ItemNode K V)
      = ({ invalid := 0, key := key, value := value, next := 0,
           expire := expireAt expire now, del_next := 0 } : SinMap.ItemNode K V) := by
    simp only [itemOf, ptrOf_NULL]
  rw [hnew] at R2
  have hbk := R2.bucket index hi
  simp only [setItem_buckets] at hbk
  have R3 := Related_setBucket _ _ g _ _ R2 index
    { m.buckets index with tail := a }
    { s.buckets index with tail := fresh }
    (by rw [hR.bucket index hi]) (by rw [hbk]) (by rw [hpa])
  rw [AddNodeItem_success m index key value expire now hq, ha0]
  have hsin : s.AddNodeItem fresh index key value expire now
      = (if (s.buckets index).tail = 0 then
          some ((({ s with heap := (setAt s.heap fresh
            (some { invalid := 0, key := key, value := value, next := 0,
                    expire := expireAt expire now, del_next := 0 })) } :
              SinMap.SinHashMap K V).setBucket index
                { s.buckets index with tail := fresh }).setBucket index
                { s.buckets index with tail := fresh, head := fresh })
        else
          (({ s with heap := (setAt s.heap fresh
            (some { invalid := 0, key := key, value := value, next := 0,
                    expire := expireAt expire now, del_next := 0 })) } :
              SinMap.SinHashMap K V).setBucket index
                { s.buckets index with tail := fresh }).store (s.buckets index).tail
                  (fun o => { o with next := fresh })).map
          (fun m4 => m4.setBucket index
            { m4.buckets index with
              count := wrapInt32 ((m4.buckets index).count + 1) }) := by
    unfold SinMap.SinHashMap.AddNodeItem
    rw [if_neg (by simp [hf0, hfn])]
    simp only [SinMap.SinHashMap.setBucket, setAt_same]
  rw [hsin]
  cases hl : (chains index).getLast? with
  | none =>
    have hnil : chains index = [] := List.getLast?_eq_none_iff.mp hl
    have htail : (m.buckets index).tail = OFFSET_NULL := (hwf index hi).tail_nil hnil
    have hst : (s.buckets index).tail = 0 := by
      rw [hR.bucket index hi]
      simp only [htail, ptrOf_NULL]
    rw [if_pos hst]
    simp only [Option.map_some']
    refine ⟨_, rfl, ?_⟩
    simp only [htail, OffsetToNode_NULL, setBucket_buckets_same]
    have R4 := Related_setBucket _ _ g _ _ R3 index
      { m.buckets index with tail := a, head := a }
      { s.buckets index with tail := fresh, head := fresh }
      (by rw [hR.bucket index hi]) (by rw [hpa]) (by rw [hpa])
    have R5 := Related_setBucket _ _ g _ _ R4 index
      { m.buckets index with
        tail := a, head := a, count := ((m.buckets index).count + 1) % 4294967296 }
      { s.buckets index with
        tail := fresh, head := fresh, count := wrapInt32 ((s.buckets index).count + 1) }
      (by
        rw [hR.bucket index hi]
        exact (wrapInt32_succ _).symm) (by rw [hpa]) (by rw [hpa])
    simp only [sin_setBucket_same]
    exact R5
  | some t =>
    have htl : t ∈ chains index := getLast?_mem _ t hl
    have htail : (m.buckets index).tail = t := (hwf index hi).tail_last t hl
    have htu := Chain_mem_used m _ _ _ (hwf index hi).chain t htl
    have htL : Listed m.bucket_size chains g t := Listed_chain _ _ _ index t hi htl
    have hta : t ≠ a := fun e => v1 t htL (by rw [e])
    have hst : (s.buckets index).tail = φ t := by
      rw [hR.bucket index hi]
      simp only [htail, ptrOf_ne φ t htu.2]
    have hφt : setAt φ a fresh t = φ t := setAt_ne _ _ hta
    have htL2 : Listed m.bucket_size (setAt chains index (chains index ++ [a])) g t := by
      refine Or.inl ⟨index, hi, ?_⟩
      rw [setAt_same]
      exact List.mem_append_left _ htl
    rw [if_neg (by rw [hst]; exact hR.nonzero t htL), hst, ← hφt]
    have hheap3 := R3.chain_item index hi t (by
      rw [setAt_same]
      exact List.mem_append_left _ htl)
    rw [Related_store_eq _ _ g _ _ R3 t htL2 _ hheap3]
    simp only [Option.map_some']
    refine ⟨_, rfl, ?_⟩
    have hot : ShmHashMap.OffsetToNode
        ((({ m with pool := m.pool.Allocate.2 } : ShmHashMap K V).setItem a
          { invalid := 0, key := key, value := value, next := OFFSET_NULL,
            expire := expireAt expire now, del_next := OFFSET_NULL }).setBucket index
          { m.buckets index with tail := a }) t = some t := by
      rw [setBucket_OffsetToNode, OffsetToNode_setItem, OffsetToNode_some_iff]
      refine ⟨rfl, ?_, htu.2⟩
      simp only [ShmHashMap.slot, f2]
      exact hu _ htu.1
    simp only [setItem_buckets, htail, hot, setBucket_buckets_same]
    have R4 := Related_store _ _ g _ _ R3 t htL2
      { ShmHashMap.item
        ((({ m with pool := m.pool.Allocate.2 } : ShmHashMap K V).setItem a
          { invalid := 0, key := key, value := value, next := OFFSET_NULL,
            expire := expireAt expire now, del_next := OFFSET_NULL }).setBucket index
          { m.buckets index with tail := a }) t with next := a }
      { itemOf (setAt φ a fresh) (ShmHashMap.item
        ((({ m with pool := m.pool.Allocate.2 } : ShmHashMap K V).setItem a
          { invalid := 0, key := key, value := value, next := OFFSET_NULL,
            expire := expireAt expire now, del_next := OFFSET_NULL }).setBucket index
          { m.buckets index with tail := a }) t) with next := fresh }
      (by
        intro b hb _
        simp only [itemOf, hpa])
      (by
        intro _
        exact ⟨fresh, by simp only [itemOf, hpa]⟩)
    have R5 := Related_setBucket _ _ g _ _ R4 index
      { m.buckets index with
        tail := a, count := ((m.buckets index).count + 1) % 4294967296 }
      { s.buckets index with
        tail := fresh, count := wrapInt32 ((s.buckets index).count + 1) }
      (by
        rw [hR.bucket index hi]
        exact (wrapInt32_succ _).symm) (by rw [hbk]) (by rw [hpa])
    simp only [setItem_buckets, setBucket_buckets_same, SinMap.SinHashMap.setBucket,
      setAt_same] at R5 ⊢
    exact R5

end ShmMap

namespace ShmMap

open ShmPool

variable {K V : Type}

/-- The flags, links, keys and states after an in-place store that keeps them. -/
theorem setItem_keeps (m : ShmHashMap K V) (x : Nat) (it : ItemNode K V)
    (h1 : it.next = (m.item x).next) (h2 : it.key = (m.item x).key)
    (h3 : it.invalid = (m.item x).invalid) (h4 : it.del_next = (m.item x).del_next) (y : Nat) :
    ((m.setItem x it).pool.nodes (m.slot y)).used = (m.pool.nodes (m.slot y)).used ∧
      ((m.setItem x it).item y).next = (m.item y).next ∧
      ((m.setItem x it).item y).key = (m.item y).key ∧
      ((m.setItem x it).item y).invalid = (m.item y).invalid ∧
      ((m.setItem x it).item y).del_next = (m.item y).del_next := by
  refine ⟨setItem_used m x it _, ?_⟩
  rw [item_setItem]
  by_cases hs : m.slot y = m.slot x
  · have e : m.item y = m.item x := by rw [item_eq_nodes, item_eq_nodes, hs]
    simp only [hs, if_true, e]
    exact ⟨h1, h2, h3, h4⟩
  · simp [hs]

/-- The invariant after an in-place store to a chain item that keeps its links,
key and state. -/
theorem Sim_setItem (φ : Nat → Nat) (chains : Nat → List Nat) (g : List Nat)
    (m : ShmHashMap K V) (s : SinMap.SinHashMap K V) (hS : Sim φ chains g m s)
    (x : Nat) (hx : Listed m.bucket_size chains g x) (it : ItemNode K V)
    (h1 : it.next = (m.item x).next) (h2 : it.key = (m.item x).key)
    (h3 : it.invalid = (m.item x).invalid) (h4 : it.del_next = (m.item x).del_next)
    (hng : x ∉ g) :
    Sim φ chains g (m.setItem x it)
      ({ s with heap := setAt s.heap (φ x) (some (itemOf φ it)) } : SinMap.SinHashMap K V) := by
  have hfr := setItem_keeps m x it h1 h2 h3 h4
  refine ⟨WF_setItem m x it hS.wf h1 h2 h3 h4, ?_, ?_, ?_⟩
  · intro b hb
    exact BucketWF_congr m _ b _ rfl rfl rfl rfl rfl (fun y _ => hfr y) (hS.buckets b hb)
  · exact GarbageWF_congr m _ g rfl rfl rfl rfl
      (fun y _ => ⟨(hfr y).1, (hfr y).2.2.2.1, (hfr y).2.2.2.2⟩) hS.garbage
  · exact Related_store φ chains g m s hS.related x hx it _ (fun _ _ _ => rfl)
      (fun h => absurd h hng)

/-- Items of a chain are not on the garbage list. -/
theorem chain_not_garbage (m : ShmHashMap K V) (b : Nat) (l g : List Nat)
    (hb : m.BucketWF b l) (hg : m.GarbageWF g) (x : Nat) (hx : x ∈ l) : x ∉ g := by
  intro h
  have h1 := (hb.nodes x hx).2.1
  rcases (hg.nodes x h).2 with h2 | h2
  · rw [h1] at h2
    exact absurd h2 (by decide)
  · rw [h1] at h2
    exact absurd h2 (by decide)

/-- The loop of `Insert` of the `SinHashMap` on a `VALID` item. -/
theorem sin_InsertLoop_valid (s : SinMap.SinHashMap K V) (fresh index : Nat) (key : K)
    (value : V) (expire now : Int) (p : Nat) (it : SinMap.ItemNode K V) (hp : p ≠ 0)
    (hh : s.heap p = some it) (hv : it.invalid = SinMap.VALID) (k : Nat) :
    s.InsertLoop fresh index key value expire now p (k + 1)
      = some ({ s with heap := (setAt s.heap p
          (some { it with
            value := value, expire := expireAt expire now, invalid := SinMap.VALID })) } :
            SinMap.SinHashMap K V) := by
  simp only [SinMap.SinHashMap.InsertLoop, SinMap.SinHashMap.load, if_neg hp, hh, hv, if_true,
    SinMap.SinHashMap.store, Option.some_bind, setAt_same, setAt_setAt]

/-- `AddNodeItem` on both maps keeps the invariant. -/
theorem AddNodeItem_sim (φ : Nat → Nat) (chains : Nat → List Nat) (g : List Nat)
    (m : ShmHashMap K V) (s : SinMap.SinHashMap K V) (hS : Sim φ chains g m s)
    (key : K) (value : V) (expire now : Int) (m1 : ShmHashMap K V)
    (hA : m.AddNodeItem (m.HashCode key % m.bucket_size) key value expire now
      = (SinHashRet.RET_OK, m1))
    (fresh : Nat) (hf0 : fresh ≠ 0) (hfn : s.heap fresh = none) :
    ∃ φ1 chains1 s1,
      s.AddNodeItem fresh (m.HashCode key % m.bucket_size) key value expire now = some s1 ∧
      Sim φ1 chains1 g m1 s1 := by
  have hi : m.HashCode key % m.bucket_size < m.bucket_size := Nat.mod_lt _ hS.wf.bucket_pos
  have hq : m.pool.free_queue (m.pool.read_index % m.pool.node_size) ≠ OFFSET_NULL := by
    intro h
    rw [AddNodeItem_fail m _ key value expire now h] at hA
    cases hA
  obtain ⟨s1, hs1, hR1⟩ := AddNodeItem_related φ chains g m s hS.related hS.wf hS.buckets
    hS.garbage _ hi key value expire now hq fresh hf0 hfn
  obtain ⟨mA, hmA, hApp⟩ := AddNodeItem_appended m _ key value expire now _
    hS.wf.pool hS.wf.data_gt (hS.buckets _ hi) hq
  have e : mA = m1 := by
    rw [hmA] at hA
    exact (Prod.mk.inj hA).2
  subst e
  rw [hmA] at hR1
  refine ⟨_, _, s1, hs1, ?_, ?_, ?_, hR1⟩
  · exact AppendedTo_WF m mA _ _ _ _ hApp (hS.buckets _ hi) hS.wf hi rfl rfl rfl rfl
  · intro b hb
    rw [hApp.bucket_size_eq] at hb
    by_cases hbi : b = m.HashCode key % m.bucket_size
    · rw [hbi, setAt_same]
      exact AppendedTo_BucketWF_index m mA _ _ _ _ hApp (hS.buckets _ hi) hS.wf.slots_lt
        rfl rfl rfl rfl
    · rw [setAt_ne _ _ hbi]
      exact AppendedTo_BucketWF_other m mA _ _ _ _ hApp (hS.buckets _ hi) b _ hbi
        (hS.buckets b hb)
  · exact AppendedTo_GarbageWF m mA _ _ _ _ hApp (hS.buckets _ hi) g hS.garbage

variable [DecidableEq K]

/-- `Insert` on both maps, when the pool has a slot to hand out: whatever the
`SinHashMap` returns stands in the invariant with the state of the `ShmHashMap`,
and it returns for enough fuel when its allocator hands out unused storage. -/
theorem Insert_sim (φ : Nat → Nat) (chains : Nat → List Nat) (g : List Nat)
    (m : ShmHashMap K V) (s : SinMap.SinHashMap K V) (hS : Sim φ chains g m s)
    (key : K) (value : V) (expire now : Int) (fuel : Nat) (m1 : ShmHashMap K V)
    (hI : m.Insert fuel key value expire now = some (SinHashRet.RET_OK, m1)) (fresh : Nat) :
    (∀ fuel1 s1, s.Insert fuel1 fresh key value expire now = some s1 →
      ∃ φ1 chains1, Sim φ1 chains1 g m1 s1) ∧
    (fresh ≠ 0 → s.heap fresh = none → ∀ fuel1,
      (chains (m.HashCode key % m.bucket_size)).length < fuel1 →
      ∃ s1, s.Insert fuel1 fresh key value expire now = some s1) := by
  have hi : m.HashCode key % m.bucket_size < m.bucket_size := Nat.mod_lt _ hS.wf.bucket_pos
  have hR := hS.related
  have hb := hS.buckets _ hi
  have hgn := GetNodeLoop_related φ chains g m s hR _ hi key _ _ hb.chain (fun x hx => hx)
  have hidx : s.HashCode key % s.bucket_size = m.HashCode key % m.bucket_size := by
    rw [hR.hash_eq, hR.bucket_size_eq]
  have hhead : (s.buckets (m.HashCode key % m.bucket_size)).head
      = ptrOf φ (m.buckets (m.HashCode key % m.bucket_size)).head := by
    rw [hR.bucket _ hi]
  have hf : m.GetNode fuel (m.HashCode key % m.bucket_size) key ≠ none := by
    intro h
    simp only [ShmHashMap.Insert, h] at hI
    cases hI
  obtain ⟨c1, c2, c3⟩ := Insert_cases m key value expire now _ hb fuel hf
  have hadd : m.Insert fuel key value expire now
      = some (m.AddNodeItem (m.HashCode key % m.bucket_size) key value expire now) →
      (∀ it, (∀ fuel1, s.GetNodeLoop key fuel1
          (ptrOf φ (m.buckets (m.HashCode key % m.bucket_size)).head) = some it →
        s.Insert fuel1 fresh key value expire now
          = s.AddNodeItem fresh (m.HashCode key % m.bucket_size) key value expire now) →
        Computes (fun fuel1 => s.GetNodeLoop key fuel1
          (ptrOf φ (m.buckets (m.HashCode key % m.bucket_size)).head))
          (chains (m.HashCode key % m.bucket_size)).length it →
      (∀ fuel1 s1, s.Insert fuel1 fresh key value expire now = some s1 →
        ∃ φ1 chains1, Sim φ1 chains1 g m1 s1) ∧
      (fresh ≠ 0 → s.heap fresh = none → ∀ fuel1,
        (chains (m.HashCode key % m.bucket_size)).length < fuel1 →
        ∃ s1, s.Insert fuel1 fresh key value expire now = some s1)) := by
    intro hins it hstep hcomp
    rw [hins] at hI
    have hA : m.AddNodeItem (m.HashCode key % m.bucket_size) key value expire now
        = (SinHashRet.RET_OK, m1) := Option.some.inj hI
    constructor
    · intro fuel1 s1 h1
      cases hq : s.GetNodeLoop key fuel1
          (ptrOf φ (m.buckets (m.HashCode key % m.bucket_size)).head) with
      | none =>
        unfold SinMap.SinHashMap.Insert SinMap.SinHashMap.GetNode at h1
        simp only [hidx, hhead, hq] at h1
        cases h1
      | some it1 =>
        have e := (hcomp fuel1).2 it1 hq
        subst e
        rw [hstep fuel1 hq] at h1
        have hv : fresh ≠ 0 ∧ s.heap fresh = none := by
          by_contra hc
          have : fresh = 0 ∨ (s.heap fresh).isSome = true := by
            by_cases h0 : fresh = 0
            · exact Or.inl h0
            · right
              cases hh : s.heap fresh with
              | none => exact absurd ⟨h0, hh⟩ hc
              | some _ => rfl
          unfold SinMap.SinHashMap.AddNodeItem at h1
          rw [if_pos this] at h1
          cases h1
        obtain ⟨φ1, chains1, s2, hs2, hS2⟩ := AddNodeItem_sim φ chains g m s hS key value
          expire now m1 hA fresh hv.1 hv.2
        rw [hs2] at h1
        cases h1
        exact ⟨φ1, chains1, hS2⟩
    · intro hf0 hfn fuel1 hlt
      obtain ⟨φ1, chains1, s2, hs2, _⟩ := AddNodeItem_sim φ chains g m s hS key value
        expire now m1 hA fresh hf0 hfn
      exact ⟨s2, by rw [hstep fuel1 ((hcomp fuel1).1 hlt), hs2]⟩
  cases hfind : (chains (m.HashCode key % m.bucket_size)).find?
      (fun x => decide ((m.item x).key = key)) with
  | none =>
    rw [hfind] at hgn
    refine hadd (c1 hfind) 0 ?_ hgn
    intro fuel1 hq
    unfold SinMap.SinHashMap.Insert SinMap.SinHashMap.GetNode
    simp only [hidx, hhead, hq, if_true]
  | some x =>
    rw [hfind] at hgn
    obtain ⟨hxl, _⟩ := find?_mem_key m key _ x hfind
    have hL := Listed_chain m.bucket_size chains g _ x hi hxl
    have hnz := hR.nonzero x hL
    have hld := Related_load_chain φ chains g m s hR _ x hi hxl
    have hheap := hR.chain_item _ hi x hxl
    have hv : (m.item x).invalid = VALID := (hb.nodes x hxl).2.1
    cases hexp : isExpired (m.item x) now with
    | true =>
      have hexp1 : SinMap.isExpired (itemOf φ (m.item x)) now = true := by
        rw [isExpired_itemOf]
        exact hexp
      refine hadd (c2 x hfind hexp) (φ x) ?_ hgn
      intro fuel1 hq
      unfold SinMap.SinHashMap.Insert SinMap.SinHashMap.GetNode
      simp only [hidx, hhead, hq, if_neg hnz, hld, hexp1, if_true]
    | false =>
      have hexp1 : SinMap.isExpired (itemOf φ (m.item x)) now = false := by
        rw [isExpired_itemOf]
        exact hexp
      rw [c3 x hfind hexp] at hI
      have e : m1 = m.setItem x { m.item x with
          value := value, expire := expireAt expire now, invalid := VALID } :=
        ((Prod.mk.inj (Option.some.inj hI)).2).symm
      have hstep : ∀ fuel1, s.GetNodeLoop key fuel1
          (ptrOf φ (m.buckets (m.HashCode key % m.bucket_size)).head) = some (φ x) →
          s.Insert fuel1 fresh key value expire now
            = some ({ s with heap := (setAt s.heap (φ x) (some (itemOf φ
                { m.item x with
                  value := value, expire := expireAt expire now, invalid := VALID }))) } :
                SinMap.SinHashMap K V) := by
        intro fuel1 hq
        cases fuel1 with
        | zero => cases hq
        | succ k =>
          unfold SinMap.SinHashMap.Insert SinMap.SinHashMap.GetNode
          simp only [hidx, hhead, hq, if_neg hnz, hld, hexp1, Bool.false_eq_true, if_false]
          rw [sin_InsertLoop_valid s fresh _ key value expire now (φ x) _ hnz hheap hv k]
          rfl
      constructor
      · intro fuel1 s1 h1
        cases hq : s.GetNodeLoop key fuel1
            (ptrOf φ (m.buckets (m.HashCode key % m.bucket_size)).head) with
        | none =>
          unfold SinMap.SinHashMap.Insert SinMap.SinHashMap.GetNode at h1
          simp only [hidx, hhead, hq] at h1
          cases h1
        | some it1 =>
          have e1 := (hgn fuel1).2 it1 hq
          subst e1
          rw [hstep fuel1 hq] at h1
          cases h1
          rw [e]
          exact ⟨φ, chains, Sim_setItem φ chains g m s hS x hL _ rfl rfl hv.symm rfl
            (chain_not_garbage m _ _ g hb hS.garbage x hxl)⟩
      · intro _ _ fuel1 hlt
        exact ⟨_, hstep fuel1 ((hgn fuel1).1 hlt)⟩

end ShmMap

namespace ShmMap

open ShmPool

variable {K V : Type}

/-- The exchange of the state of a chained item and `RemoveExpireNode` on both
maps: the item is on the garbage list as well afterwards. -/
theorem enlist_related (φ : Nat → Nat) (chains : Nat → List Nat) (g : List Nat)
    (m : ShmHashMap K V) (s : SinMap.SinHashMap K V) (hS : Sim φ chains g m s) (index : Nat)
    (hi : index < m.bucket_size) (x : Nat) (hx : x ∈ chains index) :
    ∃ mE sE,
      (m.setItem x { m.item x with invalid := COLLECTING }).RemoveExpireNode x index = some mE ∧
      m.EnlistedFrom mE index x g ∧
      (s.store (φ x) (fun i => { i with invalid := SinMap.COLLECTING })).bind
        (fun s1 => s1.RemoveExpireNode (φ x) index) = some sE ∧
      Related φ chains (g ++ [x]) mE sE := by
  have hR := hS.related
  have hb := hS.buckets index hi
  obtain ⟨mE, hE1, hE⟩ := enlist_spec m index _ g x hS.wf hb hS.garbage hx
  have hL := Listed_chain m.bucket_size chains g index x hi hx
  have hxn := hR.ne_null x hL
  have hpx := ptrOf_ne φ x hxn
  have hheap := hR.chain_item index hi x hx
  have hst := Related_store_eq φ chains g m s hR x hL _ hheap
    (fun i => { i with invalid := SinMap.COLLECTING })
  have hxg : x ∉ g := chain_not_garbage m index _ g hb hS.garbage x hx
  have R1 := Related_store φ chains g m s hR x hL { m.item x with invalid := COLLECTING }
    { itemOf φ (m.item x) with invalid := SinMap.COLLECTING } (fun _ _ _ => rfl)
    (fun h => absurd h hxg)
  have hcount : wrapInt32 ((s.buckets index).count - 1)
      = wrapInt32 ((((m.buckets index).count + 4294967295) % 4294967296 : Nat) : Int) := by
    rw [hR.bucket index hi]
    exact (wrapInt32_pred _).symm
  have hlist : ∀ y, y ∈ g ++ [x] → Listed m.bucket_size chains g y := by
    intro y hy
    rcases List.mem_append.mp hy with h | h
    · exact Listed_garbage _ _ _ y h
    · rw [List.mem_singleton.mp h]
      exact hL
  rw [hst]
  simp only [Option.some_bind, SinMap.SinHashMap.RemoveExpireNode,
    SinMap.SinHashMap.AddGarbageList]
  rcases List.eq_nil_or_concat g with hgl | ⟨g0, t, hgl⟩
  · subst hgl
    have hh : m.garbage_list_head_offset = OFFSET_NULL := hS.garbage.chain
    have hex : (m.setItem x { m.item x with invalid := COLLECTING }).RemoveExpireNode x index
        = some (((m.setItem x { m.item x with invalid := COLLECTING }).setGarbage x x).setBucket
            index { m.buckets index with
              count := ((m.buckets index).count + 4294967295) % 4294967296 }) := by
      unfold ShmHashMap.RemoveExpireNode
      rw [AddGarbageList_eq]
      simp only [setItem_garbage_head, hh, if_true]
      rfl
    rw [hex] at hE1
    have e := Option.some.inj hE1
    subst e
    have hsh : s.garbage_list_head = 0 := by
      rw [hR.ghead, hh, ptrOf_NULL]
    have R2 := Related_setGarbage _ _ _ _ _ R1 x x (φ x) (φ x) hpx.symm hpx.symm
    have R3 := Related_setBucket _ _ _ _ _ R2 index
      { m.buckets index with count := ((m.buckets index).count + 4294967295) % 4294967296 }
      { s.buckets index with count := wrapInt32 ((s.buckets index).count - 1) }
      hcount (by rw [hR.bucket index hi]) (by rw [hR.bucket index hi])
    have R4 := Related_layout _ chains chains [] ([] ++ [x]) _ _ R3 (fun _ _ _ h => h) hlist
      (fun _ => hpx.symm)
    refine ⟨_, _, hex, hE, ?_, R4⟩
    simp only [hsh, if_true, Option.map_some']
  · rw [List.concat_eq_append] at hgl
    subst hgl
    have hlast : (g0 ++ [t]).getLast? = some t := by simp
    have htin : t ∈ g0 ++ [t] := by simp
    have hne : g0 ++ [t] ≠ [] := by simp
    have hh : m.garbage_list_head_offset ≠ OFFSET_NULL :=
      Chain_head_ne m _ _ _ hS.garbage.chain hne
    have htail := hS.garbage.tail_last t hlast
    have hlive := Chain_mem_live m _ _ _ hS.garbage.chain t htin
    have htL := Listed_garbage m.bucket_size chains (g0 ++ [t]) t htin
    have htx : t ≠ x := fun h => hxg (h ▸ htin)
    have hex : (m.setItem x { m.item x with invalid := COLLECTING }).RemoveExpireNode x index
        = some ((((m.setItem x { m.item x with invalid := COLLECTING }).setItem t
            { (m.setItem x { m.item x with invalid := COLLECTING }).item t with
              del_next := x }).setGarbage m.garbage_list_head_offset x).setBucket
            index { m.buckets index with
              count := ((m.buckets index).count + 4294967295) % 4294967296 }) := by
      unfold ShmHashMap.RemoveExpireNode
      rw [AddGarbageList_eq]
      simp only [setItem_garbage_head, setItem_garbage_tail, OffsetToNode_setItem, hh, if_false,
        htail, hlive]
      rfl
    rw [hex] at hE1
    have e := Option.some.inj hE1
    subst e
    have hsh : s.garbage_list_head ≠ 0 := by
      rw [hR.ghead, ptrOf_ne φ _ hh]
      cases hg0 : g0 ++ [t] with
      | nil => exact absurd hg0 hne
      | cons y r =>
        have hc := hS.garbage.chain
        rw [hg0] at hc
        rw [hc.1]
        exact hR.nonzero y (Listed_garbage _ _ _ y (by rw [hg0]; exact List.mem_cons_self _ _))
    have hst2 : s.garbage_list_tail = φ t := by
      rw [hR.gtail hne, htail, ptrOf_ne φ t (hR.ne_null t htL)]
    obtain ⟨nx, hnx⟩ := hR.garbage_item t htin
    have hφ : φ t ≠ φ x := fun h => htx (hR.inj t x htL hL h)
    have hsl : m.slot t ≠ m.slot x := fun h => htx (hR.slot_inj t x htL hL h)
    have hit : (m.setItem x { m.item x with invalid := COLLECTING }).item t = m.item t :=
      item_setItem_ne m x _ t hsl
    have R2 := Related_store _ _ _ _ _ R1 t htL
      { (m.setItem x { m.item x with invalid := COLLECTING }).item t with del_next := x }
      { ({ itemOf φ (m.item t) with next := nx } : SinMap.ItemNode K V) with del_next := φ x }
      (fun b hb1 h => absurd htin
        (chain_not_garbage m b _ _ (hS.buckets b hb1) hS.garbage t h))
      (fun _ => ⟨nx, by rw [hit]; simp only [itemOf, hpx]⟩)
    have R3 := Related_setGarbage _ _ _ _ _ R2 m.garbage_list_head_offset x
      s.garbage_list_head (φ x) hR.ghead hpx.symm
    have R4 := Related_setBucket _ _ _ _ _ R3 index
      { m.buckets index with count := ((m.buckets index).count + 4294967295) % 4294967296 }
      { s.buckets index with count := wrapInt32 ((s.buckets index).count - 1) }
      hcount (by rw [hR.bucket index hi]) (by rw [hR.bucket index hi])
    have R5 := Related_layout _ chains chains _ (g0 ++ [t] ++ [x]) _ _ R4 (fun _ _ _ h => h)
      hlist (fun _ => hpx.symm)
    refine ⟨_, _, hex, hE, ?_, R5⟩
    simp only [if_neg hsh, hst2, SinMap.SinHashMap.store, SinMap.SinHashMap.load,
      if_neg (hR.nonzero t htL), setAt_ne _ _ hφ, hnx, Option.map_some']

end ShmMap

namespace ShmMap

open ShmPool

variable {K V : Type}

theorem sin_ScanLoop_null (now : Int) (index : Nat) (k p0 : Nat) (s : SinMap.SinHashMap K V) :
    SinMap.SinHashMap.ScanLoop now index (k + 1) p0 0 s = some s := by
  rw [SinMap.SinHashMap.ScanLoop, if_pos rfl]

theorem sin_ScanLoop_last (now : Int) (index : Nat) (k p0 p1 : Nat)
    (s : SinMap.SinHashMap K V) (it1 : SinMap.ItemNode K V) (hp : p1 ≠ 0)
    (hl : s.load p1 = some it1) (hn : it1.next = 0) :
    SinMap.SinHashMap.ScanLoop now index (k + 1) p0 p1 s = some s := by
  rw [SinMap.SinHashMap.ScanLoop, if_neg hp]
  simp only [hl, hn, if_true]

theorem sin_ScanLoop_advance (now : Int) (index : Nat) (k p0 p1 : Nat)
    (s : SinMap.SinHashMap K V) (it1 : SinMap.ItemNode K V) (hp : p1 ≠ 0)
    (hl : s.load p1 = some it1) (hn : it1.next ≠ 0) (he : SinMap.isExpired it1 now = false) :
    SinMap.SinHashMap.ScanLoop now index (k + 1) p0 p1 s
      = SinMap.SinHashMap.ScanLoop now index k p1 it1.next s := by
  rw [SinMap.SinHashMap.ScanLoop, if_neg hp]
  simp only [hl, if_neg hn, he, Bool.false_eq_true, if_false]

theorem sin_ScanLoop_remove (now : Int) (index : Nat) (k p0 p1 : Nat)
    (s sE s3 : SinMap.SinHashMap K V) (it1 it2 : SinMap.ItemNode K V) (hp : p1 ≠ 0)
    (hl : s.load p1 = some it1) (hn : it1.next ≠ 0) (he : SinMap.isExpired it1 now = true)
    (hv : it1.invalid = SinMap.VALID)
    (hE : (s.store p1 (fun i => { i with invalid := SinMap.COLLECTING })).bind
      (fun s1 => s1.RemoveExpireNode p1 index) = some sE)
    (hl2 : sE.load p1 = some it2)
    (hs3 : sE.store p0 (fun i => { i with next := it2.next }) = some s3) :
    SinMap.SinHashMap.ScanLoop now index (k + 1) p0 p1 s
      = SinMap.SinHashMap.ScanLoop now index k p0 it2.next s3 := by
  rw [SinMap.SinHashMap.ScanLoop, if_neg hp]
  simp only [hl, if_neg hn, he, hv, if_true]
  cases hst : s.store p1 (fun i => { i with invalid := SinMap.COLLECTING }) with
  | none =>
    rw [hst] at hE
    cases hE
  | some s1 =>
    rw [hst] at hE
    simp only [Option.some_bind] at hE ⊢
    rw [hE]
    simp only [Option.some_bind, hl2, hs3]

/-- The invariant after an item is unlinked from its chain, given the relation
of the two states. -/
theorem Sim_removed (φ : Nat → Nat) (chains : Nat → List Nat) (g : List Nat)
    (m m1 : ShmHashMap K V) (s s1 : SinMap.SinHashMap K V) (hS : Sim φ chains g m s)
    (index : Nat) (hi : index < m.bucket_size) (l1 : List Nat) (x : Nat) (l2 : List Nat)
    (hc : chains index = l1 ++ x :: l2) (hR : m.RemovedFrom m1 index l1 x l2 g)
    (hshape : l2 = [] → l1 = [])
    (hrel : Related φ (setAt chains index (l1 ++ l2)) (g ++ [x]) m1 s1) :
    Sim φ (setAt chains index (l1 ++ l2)) (g ++ [x]) m1 s1 := by
  have hb := hS.buckets index hi
  rw [hc] at hb
  refine ⟨RemovedFrom_WF m m1 index l1 x l2 g hR hS.wf hb hS.garbage hshape, ?_,
    RemovedFrom_GarbageWF m m1 index l1 x l2 g hR hb hS.garbage, hrel⟩
  intro b hbB
  rw [hR.bucket_size_eq] at hbB
  by_cases hbi : b = index
  · rw [hbi, setAt_same]
    exact RemovedFrom_BucketWF_index m m1 index l1 x l2 g hR hb hS.garbage hS.wf.slots_lt hshape
  · rw [setAt_ne _ _ hbi]
    exact RemovedFrom_BucketWF_other m m1 index l1 x l2 g hR hb hS.garbage b _ hbi
      (hS.buckets b hbB)

/-- One iteration of the interior loop of `Scan` on both maps that removes the
item `p1`. -/
theorem scan_remove_sim (φ : Nat → Nat) (chains : Nat → List Nat) (g : List Nat)
    (m : ShmHashMap K V) (s : SinMap.SinHashMap K V) (hS : Sim φ chains g m s)
    (index : Nat) (now : Int) (hi : index < m.bucket_size) (pre : List Nat) (p0 p1 y : Nat)
    (r : List Nat) (hc : chains index = pre ++ p0 :: p1 :: y :: r)
    (hexp : isExpired (m.item p1) now = true) :
    ∃ m2 s2,
      (∀ k, ShmHashMap.ScanLoop index now (k + 1) m p0 (some p1)
        = ShmHashMap.ScanLoop index now k m2 p0 (m2.OffsetToNode (m2.item p0).next)) ∧
      (∀ k, SinMap.SinHashMap.ScanLoop now index (k + 1) (φ p0) (φ p1) s
        = SinMap.SinHashMap.ScanLoop now index k (φ p0) (ptrOf φ (m2.item p0).next) s2) ∧
      (m2.bucket_size = m.bucket_size ∧ m2.pool.node_size = m.pool.node_size) ∧
      Sim φ (setAt chains index (pre ++ p0 :: y :: r)) (g ++ [p1]) m2 s2 := by
  have hR := hS.related
  have hb := hS.buckets index hi
  have hp1in : p1 ∈ chains index := by rw [hc]; simp
  have hp0in : p0 ∈ chains index := by rw [hc]; simp
  have hyin : y ∈ chains index := by rw [hc]; simp
  have hL1 := Listed_chain m.bucket_size chains g index p1 hi hp1in
  have hLy := Listed_chain m.bucket_size chains g index y hi hyin
  rw [hc] at hb
  have hb' : m.BucketWF index ((pre ++ [p0]) ++ p1 :: y :: r) := by simpa using hb
  have hv := (hb.nodes p1 (by simp)).2.1
  have hnxt : (m.item p1).next = y :=
    (Chain_suffix m (fun it => it.next) p1 (y :: r) (pre ++ [p0]) _ hb'.chain).1
  have hnx : (m.item p1).next ≠ OFFSET_NULL := by
    rw [hnxt]
    exact hR.ne_null y hLy
  obtain ⟨mE, sE, hE1, hE, hsE, RE⟩ := enlist_related φ chains g m s hS index hi p1 hp1in
  have hRm := unlink_interior m mE index pre p0 p1 (y :: r) g hE hb hS.garbage
  have hL0 : Listed mE.bucket_size chains (g ++ [p1]) p0 := by
    rw [hE.bucket_size_eq]
    exact Listed_chain _ _ _ index p0 hi hp0in
  have hiE : index < mE.bucket_size := by rw [hE.bucket_size_eq]; exact hi
  have hld1 := Related_load_chain φ chains g m s hR index p1 hi hp1in
  have hld2 := Related_load_chain φ chains _ mE sE RE index p1 hiE hp1in
  have hheap0 := RE.chain_item index hiE p0 hp0in
  have hst3 := Related_store_eq φ chains _ mE sE RE p0 hL0 _ hheap0
    (fun i => { i with next := (itemOf φ (mE.item p1)).next })
  have R3 := Related_store φ chains _ mE sE RE p0 hL0
    { mE.item p0 with next := (mE.item p1).next }
    { itemOf φ (mE.item p0) with next := (itemOf φ (mE.item p1)).next }
    (fun _ _ _ => rfl) (fun _ => ⟨_, rfl⟩)
  have R4 := Related_layout φ chains (setAt chains index (pre ++ p0 :: y :: r)) _
    (g ++ [p1]) _ _ R3
    (by
      intro b _ z hz
      by_cases hbi : b = index
      · rw [hbi, setAt_same] at hz
        rw [hbi, hc]
        simp only [List.mem_append, List.mem_cons] at hz ⊢
        tauto
      · rw [setAt_ne _ _ hbi] at hz
        exact hz)
    (fun z hz => Listed_garbage _ _ _ z hz)
    (fun _ => R3.gtail (by simp))
  have hnext2 : ((mE.unlinkNext p0 p1).item p0).next = (mE.item p1).next := by
    unfold ShmHashMap.unlinkNext
    rw [item_setItem_same]
  have key : ∃ s2, sE.store (φ p0) (fun i => { i with next := (itemOf φ (mE.item p1)).next })
      = some s2 ∧ Related φ (setAt chains index (pre ++ p0 :: y :: r)) (g ++ [p1])
        (mE.unlinkNext p0 p1) s2 := ⟨_, hst3, R4⟩
  obtain ⟨s2, hst3, R4⟩ := key
  refine ⟨mE.unlinkNext p0 p1, s2, ?_, ?_, ⟨hE.bucket_size_eq, hE.node_size_eq⟩, ?_⟩
  · intro k
    exact ScanLoop_remove index now k m mE p0 p1 hnx hexp hv hE1
  · intro k
    rw [hnext2]
    exact sin_ScanLoop_remove now index k (φ p0) (φ p1) s sE s2 _ _ (hR.nonzero p1 hL1) hld1
      (by
        show ptrOf φ (m.item p1).next ≠ 0
        rw [hnxt, ptrOf_ne φ y (hR.ne_null y hLy)]
        exact hR.nonzero y hLy)
      hexp hv hsE hld2 hst3
  · have := Sim_removed φ chains g m (mE.unlinkNext p0 p1) s s2 hS index hi (pre ++ [p0]) p1
      (y :: r) (by rw [hc]; simp) hRm (fun h => by cases h)
      (by
        rw [List.append_assoc, List.singleton_append]
        exact R4)
    rw [List.append_assoc, List.singleton_append] at this
    exact this

/-- The interior loop of `Scan` on both maps: both return for enough fuel, in
states that stand in the invariant. -/
theorem ScanLoop_sim (φ : Nat → Nat) (index : Nat) (now : Int) :
    ∀ (rem pre : List Nat) (p0 : Nat) (chains : Nat → List Nat) (g : List Nat)
      (m : ShmHashMap K V) (s : SinMap.SinHashMap K V), Sim φ chains g m s →
      index < m.bucket_size → chains index = pre ++ p0 :: rem →
      ∃ m1 s1 chains1 g1 rem1, Sim φ chains1 g1 m1 s1 ∧
        (m1.bucket_size = m.bucket_size ∧ m1.pool.node_size = m.pool.node_size) ∧
        chains1 index = pre ++ p0 :: rem1 ∧
        Computes (fun fuel =>
          ShmHashMap.ScanLoop index now fuel m p0 (m.OffsetToNode (m.item p0).next))
          rem.length m1 ∧
        Computes (fun fuel =>
          SinMap.SinHashMap.ScanLoop now index fuel (φ p0) (ptrOf φ (m.item p0).next) s)
          rem.length s1 := by
  intro rem
  induction rem with
  | nil =>
    intro pre p0 chains g m s hS hi hc
    have hb := hS.buckets index hi
    rw [hc] at hb
    have hlast := Chain_last_link m _ _ _ p0 hb.chain (by simp)
    simp only at hlast
    refine ⟨m, s, chains, g, [], hS, ⟨rfl, rfl⟩, hc, ?_, ?_⟩
    · rw [hlast, OffsetToNode_NULL]
      exact Computes_const _ m _ rfl (fun _ => rfl)
    · rw [hlast, ptrOf_NULL]
      exact Computes_const _ s _ rfl (fun k => sin_ScanLoop_null now index k _ s)
  | cons p1 rem ih =>
    intro pre p0 chains g m s hS hi hc
    have hR := hS.related
    have hb := hS.buckets index hi
    rw [hc] at hb
    obtain ⟨e1, e2, _⟩ := Chain_suffix m (fun it => it.next) p0 (p1 :: rem) pre _ hb.chain
    have e3 : (m.item p0).next = p1 := e1
    rw [e3, e2]
    have hp1in : p1 ∈ chains index := by rw [hc]; simp
    have hL1 := Listed_chain m.bucket_size chains g index p1 hi hp1in
    have hld1 := Related_load_chain φ chains g m s hR index p1 hi hp1in
    rw [ptrOf_ne φ p1 (hR.ne_null p1 hL1)]
    cases rem with
    | nil =>
      have hlast := Chain_last_link m _ _ _ p1 hb.chain (by simp)
      simp only at hlast
      refine ⟨m, s, chains, g, [p1], hS, ⟨rfl, rfl⟩, hc, ?_, ?_⟩
      · exact Computes_const _ m _ rfl (fun k => ScanLoop_last index now k m p0 p1 hlast)
      · exact Computes_const _ s _ rfl (fun k =>
          sin_ScanLoop_last now index k (φ p0) (φ p1) s _ (hR.nonzero p1 hL1) hld1
            (by
              show ptrOf φ (m.item p1).next = 0
              rw [hlast, ptrOf_NULL]))
    | cons y r =>
      have hyin : y ∈ chains index := by rw [hc]; simp
      have hLy := Listed_chain m.bucket_size chains g index y hi hyin
      have hb' : m.BucketWF index ((pre ++ [p0]) ++ p1 :: y :: r) := by simpa using hb
      have hnxt : (m.item p1).next = y :=
        (Chain_suffix m (fun it => it.next) p1 (y :: r) (pre ++ [p0]) _ hb'.chain).1
      have hnx : (m.item p1).next ≠ OFFSET_NULL := by
        rw [hnxt]
        exact hR.ne_null y hLy
      by_cases hexp : isExpired (m.item p1) now = true
      · obtain ⟨m2, s2, h1, h2, hB2, hS2⟩ :=
          scan_remove_sim φ chains g m s hS index now hi pre p0 p1 y r hc hexp
        obtain ⟨m1, s1, chains1, g1, rem1, k1, k2, k3, k4, k5⟩ :=
          ih pre p0 _ _ m2 s2 hS2 (by rw [hB2.1]; exact hi) (by rw [setAt_same])
        exact ⟨m1, s1, chains1, g1, rem1, k1, ⟨k2.1.trans hB2.1, k2.2.trans hB2.2⟩, k3,
          Computes_step _ _ m1 _ rfl h1 k4, Computes_step _ _ s1 _ rfl h2 k5⟩
      · have hexp' : isExpired (m.item p1) now = false := by simpa using hexp
        obtain ⟨m1, s1, chains1, g1, rem1, k1, k2, k3, k4, k5⟩ :=
          ih (pre ++ [p0]) p1 chains g m s hS hi (by rw [hc]; simp)
        refine ⟨m1, s1, chains1, g1, p1 :: rem1, k1, k2, by rw [k3]; simp, ?_, ?_⟩
        · exact Computes_step _ _ m1 _ rfl
            (fun k => ScanLoop_advance index now k m p0 p1 hnx hexp') k4
        · exact Computes_step _ _ s1 _ rfl
            (fun k => sin_ScanLoop_advance now index k (φ p0) (φ p1) s _
              (hR.nonzero p1 hL1) hld1
              (by
                show ptrOf φ (m.item p1).next ≠ 0
                rw [hnxt, ptrOf_ne φ y (hR.ne_null y hLy)]
                exact hR.nonzero y hLy)
              hexp') k5

end ShmMap

namespace ShmMap

open ShmPool

variable {K V : Type}

theorem sin_ScanHead_remove (now : Int) (index : Nat) (s sE : SinMap.SinHashMap K V)
    (it0 : SinMap.ItemNode K V) (hl : s.load (s.buckets index).head = some it0)
    (he : SinMap.isExpired it0 now = true) (hv : it0.invalid = SinMap.VALID)
    (hE : (s.store (s.buckets index).head
        (fun i => { i with invalid := SinMap.COLLECTING })).bind
      (fun s1 => s1.RemoveExpireNode (s.buckets index).head index) = some sE) :
    SinMap.SinHashMap.ScanHead now index s
      = if (s.buckets index).head = (sE.buckets index).tail then
          some (sE.setBucket index { sE.buckets index with tail := 0, head := 0 })
        else
          match sE.load (s.buckets index).head with
          | none => none
          | some it => some (sE.setBucket index { sE.buckets index with head := it.next }) := by
  unfold SinMap.SinHashMap.ScanHead
  simp only [hl, he, hv, if_true]
  cases hst : s.store (s.buckets index).head
      (fun i => { i with invalid := SinMap.COLLECTING }) with
  | none =>
    rw [hst] at hE
    cases hE
  | some s1 =>
    rw [hst] at hE
    simp only [Option.some_bind] at hE ⊢
    rw [hE]
    simp only [Option.some_bind]

theorem sin_ScanHead_keep (now : Int) (index : Nat) (s : SinMap.SinHashMap K V)
    (it0 : SinMap.ItemNode K V) (hl : s.load (s.buckets index).head = some it0)
    (he : SinMap.isExpired it0 now = false) :
    SinMap.SinHashMap.ScanHead now index s = some s := by
  unfold SinMap.SinHashMap.ScanHead
  simp only [hl, he, Bool.false_eq_true, if_false]

/-- The head check of `Scan` on both maps. -/
theorem ScanHead_sim (φ : Nat → Nat) (chains : Nat → List Nat) (g : List Nat)
    (m : ShmHashMap K V) (s : SinMap.SinHashMap K V) (hS : Sim φ chains g m s)
    (index : Nat) (now : Int) (hi : index < m.bucket_size) (h : Nat) (rest : List Nat)
    (hc : chains index = h :: rest) :
    ∃ m1 s1 chains1 g1, ShmHashMap.ScanHead index now m = some m1 ∧
      SinMap.SinHashMap.ScanHead now index s = some s1 ∧ Sim φ chains1 g1 m1 s1 ∧
      (m1.bucket_size = m.bucket_size ∧ m1.pool.node_size = m.pool.node_size) := by
  have hR := hS.related
  have hb := hS.buckets index hi
  rw [hc] at hb
  obtain ⟨e1, e2, _⟩ := hb.chain
  have hhin : h ∈ chains index := by rw [hc]; simp
  have hL := Listed_chain m.bucket_size chains g index h hi hhin
  have hv := (hb.nodes h (List.mem_cons_self _ _)).2.1
  have hph := ptrOf_ne φ h (hR.ne_null h hL)
  have hsh : (s.buckets index).head = φ h := by
    rw [hR.bucket index hi]
    simp only [e1, hph]
  have hld : s.load (s.buckets index).head = some (itemOf φ (m.item h)) := by
    rw [hsh]
    exact Related_load_chain φ chains g m s hR index h hi hhin
  by_cases hexp : isExpired (m.item h) now = true
  · obtain ⟨mE, sE, hE1, hE, hsE, RE⟩ := enlist_related φ chains g m s hS index hi h hhin
    have hRm := unlink_head m mE index h rest g hE hb
    have hiE : index < mE.bucket_size := by rw [hE.bucket_size_eq]; exact hi
    have hres : ShmHashMap.ScanHead index now m =
        some (if (mE.buckets index).head = (mE.buckets index).tail then
          mE.setBucket index { mE.buckets index with tail := OFFSET_NULL, head := OFFSET_NULL }
        else mE.setBucket index { mE.buckets index with head := (mE.item h).next }) := by
      unfold ShmHashMap.ScanHead
      rw [e1, e2]
      simp only [hexp, hv, and_self, if_true, hE1]
      split <;> rfl
    have hsres := sin_ScanHead_remove now index s sE _ hld hexp hv (by rw [hsh]; exact hsE)
    rw [hsh] at hsres
    have hEh : (mE.buckets index).head = h := by rw [hE.bucket]; exact e1
    have hEt : (mE.buckets index).tail = (m.buckets index).tail := by rw [hE.bucket]
    have hsEb := RE.bucket index hiE
    have hlayout : ∀ (m1 : ShmHashMap K V) (s1 : SinMap.SinHashMap K V),
        Related φ chains (g ++ [h]) m1 s1 → m1.bucket_size = m.bucket_size →
        Related φ (setAt chains index rest) (g ++ [h]) m1 s1 := by
      intro m1 s1 hrel hB
      refine Related_layout φ chains _ _ (g ++ [h]) m1 s1 hrel ?_
        (fun z hz => Listed_garbage _ _ _ z hz) (fun _ => hrel.gtail (by simp))
      intro b _ z hz
      by_cases hbi : b = index
      · rw [hbi, setAt_same] at hz
        rw [hbi, hc]
        exact List.mem_cons_of_mem _ hz
      · rw [setAt_ne _ _ hbi] at hz
        exact hz
    cases hgl : (h :: rest).getLast? with
    | none => simp at hgl
    | some t =>
      have htl := hb.tail_last t hgl
      have htin : t ∈ chains index := by
        rw [hc]
        exact getLast?_mem _ t hgl
      have hLt := Listed_chain m.bucket_size chains g index t hi htin
      have hpt := ptrOf_ne φ t (hR.ne_null t hLt)
      have hsEt : (sE.buckets index).tail = φ t := by
        rw [hsEb]
        simp only [hEt, htl, hpt]
      by_cases hht : (mE.buckets index).head = (mE.buckets index).tail
      · rw [if_pos hht] at hres hRm
        have hth : φ h = (sE.buckets index).tail := by
          rw [hsEt, ← htl, ← hEt, ← hht, hEh]
        rw [if_pos hth] at hsres
        have R2 := Related_setBucket _ _ _ _ _ RE index
          { mE.buckets index with tail := OFFSET_NULL, head := OFFSET_NULL }
          { sE.buckets index with tail := 0, head := 0 }
          (by rw [hsEb]) (ptrOf_NULL φ).symm (ptrOf_NULL φ).symm
        have R3 := hlayout _ _ R2 hE.bucket_size_eq
        have hS1 := Sim_removed φ chains g m _ s _ hS index hi [] h rest
          (by rw [hc]; rfl) hRm (fun _ => rfl) (by rw [List.nil_append]; exact R3)
        exact ⟨_, _, _, _, hres, hsres, hS1, hE.bucket_size_eq, hE.node_size_eq⟩
      · rw [if_neg hht] at hres hRm
        have hth : φ h ≠ (sE.buckets index).tail := by
          rw [hsEt]
          intro hp
          apply hht
          rw [hEh, hEt, htl]
          exact hR.inj h t hL hLt hp
        rw [if_neg hth] at hsres
        have hld2 := Related_load_chain φ chains _ mE sE RE index h hiE hhin
        rw [hld2] at hsres
        have R2 := Related_setBucket _ _ _ _ _ RE index
          { mE.buckets index with head := (mE.item h).next }
          { sE.buckets index with head := (itemOf φ (mE.item h)).next }
          (by rw [hsEb]) rfl (by rw [hsEb])
        have R3 := hlayout _ _ R2 hE.bucket_size_eq
        have hS1 := Sim_removed φ chains g m _ s _ hS index hi [] h rest
          (by rw [hc]; rfl) hRm (fun _ => rfl) (by rw [List.nil_append]; exact R3)
        exact ⟨_, _, _, _, hres, hsres, hS1, hE.bucket_size_eq, hE.node_size_eq⟩
  · have hexp' : isExpired (m.item h) now = false := by simpa using hexp
    have hres : ShmHashMap.ScanHead index now m = some m := by
      unfold ShmHashMap.ScanHead
      rw [e1, e2]
      simp [hexp]
    exact ⟨m, s, chains, g, hres, sin_ScanHead_keep now index s _ hld hexp', hS, rfl, rfl⟩

/-- The body of the loop of `Scan` for one bucket on both maps. -/
theorem ScanBucket_sim (φ : Nat → Nat) (chains : Nat → List Nat) (g : List Nat)
    (m : ShmHashMap K V) (s : SinMap.SinHashMap K V) (hS : Sim φ chains g m s)
    (index : Nat) (now : Int) (hi : index < m.bucket_size) :
    ∃ m1 s1 chains1 g1, Sim φ chains1 g1 m1 s1 ∧
      (m1.bucket_size = m.bucket_size ∧ m1.pool.node_size = m.pool.node_size) ∧
      Computes (fun fuel => ShmHashMap.ScanBucket fuel now m index) (chains index).length m1 ∧
      Computes (fun fuel => SinMap.SinHashMap.ScanBucket fuel now s index)
        (chains index).length s1 := by
  have hR := hS.related
  have hb := hS.buckets index hi
  cases hc : chains index with
  | nil =>
    rw [hc] at hb
    have hh : (m.buckets index).head = OFFSET_NULL := hb.chain
    have hsh : (s.buckets index).head = 0 := by
      rw [hR.bucket index hi]
      simp only [hh, ptrOf_NULL]
    refine ⟨m, s, chains, g, hS, ⟨rfl, rfl⟩, ?_, ?_⟩
    · intro fuel
      have hres : ShmHashMap.ScanBucket fuel now m index = some m := by
        unfold ShmHashMap.ScanBucket
        rw [hh, OffsetToNode_NULL]
      show (_ < fuel → ShmHashMap.ScanBucket fuel now m index = some m) ∧
        ∀ r1, ShmHashMap.ScanBucket fuel now m index = some r1 → r1 = m
      rw [hres]
      exact ⟨fun _ => rfl, fun r1 h1 => (Option.some.inj h1).symm⟩
    · intro fuel
      have hres : SinMap.SinHashMap.ScanBucket fuel now s index = some s := by
        unfold SinMap.SinHashMap.ScanBucket
        simp only [hsh, if_true]
      show (_ < fuel → SinMap.SinHashMap.ScanBucket fuel now s index = some s) ∧
        ∀ r1, SinMap.SinHashMap.ScanBucket fuel now s index = some r1 → r1 = s
      rw [hres]
      exact ⟨fun _ => rfl, fun r1 h1 => (Option.some.inj h1).symm⟩
  | cons h rest =>
    rw [hc] at hb
    obtain ⟨e1, e2, _⟩ := hb.chain
    have hhin : h ∈ chains index := by rw [hc]; simp
    have hL := Listed_chain m.bucket_size chains g index h hi hhin
    have hph := ptrOf_ne φ h (hR.ne_null h hL)
    have hsh : (s.buckets index).head = φ h := by
      rw [hR.bucket index hi]
      simp only [e1, hph]
    have hld := Related_load_chain φ chains g m s hR index h hi hhin
    obtain ⟨m2, s2, chains2, g2, rem2, a1, a2, a3, a4, a5⟩ :=
      ScanLoop_sim φ index now rest [] h chains g m s hS hi (by rw [hc]; rfl)
    rw [List.nil_append] at a3
    obtain ⟨m1, s1, chains1, g1, b1, b2, b3, b4⟩ :=
      ScanHead_sim φ chains2 g2 m2 s2 a1 index now (by rw [a2.1]; exact hi) h rem2 a3
    refine ⟨m1, s1, chains1, g1, b3, ⟨b4.1.trans a2.1, b4.2.trans a2.2⟩, ?_, ?_⟩
    · have hfun : (fun fuel => ShmHashMap.ScanBucket fuel now m index)
          = (fun fuel => (ShmHashMap.ScanLoop index now fuel m h
              (m.OffsetToNode (m.item h).next)).bind
                (fun x => (fun y (_ : Nat) => ShmHashMap.ScanHead index now y) x fuel)) := by
        funext fuel
        unfold ShmHashMap.ScanBucket
        rw [e1, e2]
        simp only
        cases ShmHashMap.ScanLoop index now fuel m h (m.OffsetToNode (m.item h).next) <;> rfl
      rw [hfun]
      refine Computes_bind _ _ m2 m1 _ (Computes_mono _ _ _ _ (by simp) a4) ?_
      intro fuel
      show (_ < fuel → ShmHashMap.ScanHead index now m2 = some m1) ∧
        ∀ r1, ShmHashMap.ScanHead index now m2 = some r1 → r1 = m1
      rw [b1]
      exact ⟨fun _ => rfl, fun r1 h1 => (Option.some.inj h1).symm⟩
    · have hfun : (fun fuel => SinMap.SinHashMap.ScanBucket fuel now s index)
          = (fun fuel => (SinMap.SinHashMap.ScanLoop now index fuel (φ h)
              (ptrOf φ (m.item h).next) s).bind
                (fun x => (fun y (_ : Nat) => SinMap.SinHashMap.ScanHead now index y) x
                  fuel)) := by
        funext fuel
        unfold SinMap.SinHashMap.ScanBucket
        simp only [hsh, if_neg (hR.nonzero h hL), hld]
        rfl
      rw [hfun]
      refine Computes_bind _ _ s2 s1 _ (Computes_mono _ _ _ _ (by simp) a5) ?_
      intro fuel
      show (_ < fuel → SinMap.SinHashMap.ScanHead now index s2 = some s1) ∧
        ∀ r1, SinMap.SinHashMap.ScanHead now index s2 = some r1 → r1 = s1
      rw [b2]
      exact ⟨fun _ => rfl, fun r1 h1 => (Option.some.inj h1).symm⟩

/-- The loop of `Scan` over the buckets `is` on both maps. -/
theorem ScanFold_sim (φ : Nat → Nat) (now : Int) :
    ∀ (is : List Nat) (chains : Nat → List Nat) (g : List Nat) (m : ShmHashMap K V)
      (s : SinMap.SinHashMap K V), Sim φ chains g m s → (∀ i, i ∈ is → i < m.bucket_size) →
      ∃ m1 s1 chains1 g1, Sim φ chains1 g1 m1 s1 ∧
        (m1.bucket_size = m.bucket_size ∧ m1.pool.node_size = m.pool.node_size) ∧
        Computes (fun fuel => is.foldlM (ShmHashMap.ScanBucket fuel now) m)
          m.pool.node_size m1 ∧
        Computes (fun fuel => is.foldlM (SinMap.SinHashMap.ScanBucket fuel now) s)
          m.pool.node_size s1 := by
  intro is
  induction is with
  | nil =>
    intro chains g m s hS _
    refine ⟨m, s, chains, g, hS, ⟨rfl, rfl⟩, ?_, ?_⟩
    · intro fuel
      exact ⟨fun _ => rfl, fun r1 h1 => (Option.some.inj h1).symm⟩
    · intro fuel
      exact ⟨fun _ => rfl, fun r1 h1 => (Option.some.inj h1).symm⟩
  | cons i is ih =>
    intro chains g m s hS hlt
    have hi := hlt i (List.mem_cons_self _ _)
    obtain ⟨m2, s2, chains2, g2, a1, a2, a3, a4⟩ := ScanBucket_sim φ chains g m s hS i now hi
    obtain ⟨m1, s1, chains1, g1, b1, b2, b3, b4⟩ := ih chains2 g2 m2 s2 a1
      (fun j hj => by rw [a2.1]; exact hlt j (List.mem_cons_of_mem _ hj))
    have hlen := BucketWF_length_le m i _ (hS.buckets i hi)
    rw [a2.2] at b3 b4
    refine ⟨m1, s1, chains1, g1, b1, ⟨b2.1.trans a2.1, b2.2.trans a2.2⟩, ?_, ?_⟩
    · have hfun : (fun fuel => (i :: is).foldlM (ShmHashMap.ScanBucket fuel now) m)
          = (fun fuel => (ShmHashMap.ScanBucket fuel now m i).bind
              (fun x => (fun y fuel => is.foldlM (ShmHashMap.ScanBucket fuel now) y) x fuel)) := by
        funext fuel
        simp only [List.foldlM_cons]
        rfl
      rw [hfun]
      exact Computes_bind _ _ m2 m1 _ (Computes_mono _ _ _ _ hlen a3) b3
    · have hfun : (fun fuel => (i :: is).foldlM (SinMap.SinHashMap.ScanBucket fuel now) s)
          = (fun fuel => (SinMap.SinHashMap.ScanBucket fuel now s i).bind
              (fun x => (fun y fuel =>
                is.foldlM (SinMap.SinHashMap.ScanBucket fuel now) y) x fuel)) := by
        funext fuel
        simp only [List.foldlM_cons]
        rfl
      rw [hfun]
      exact Computes_bind _ _ s2 s1 _ (Computes_mono _ _ _ _ hlen a4) b4

/-- `Scan` on both maps. -/
theorem Scan_sim (φ : Nat → Nat) (chains : Nat → List Nat) (g : List Nat)
    (m : ShmHashMap K V) (s : SinMap.SinHashMap K V) (hS : Sim φ chains g m s) (now : Int) :
    ∃ m1 s1 chains1 g1, Sim φ chains1 g1 m1 s1 ∧
      (m1.bucket_size = m.bucket_size ∧ m1.pool.node_size = m.pool.node_size) ∧
      Computes (fun fuel => ShmHashMap.Scan fuel now m) m.pool.node_size m1 ∧
      Computes (fun fuel => SinMap.SinHashMap.Scan fuel now s) m.pool.node_size s1 := by
  obtain ⟨m1, s1, chains1, g1, a1, a2, a3, a4⟩ :=
    ScanFold_sim φ now (List.range m.bucket_size) chains g m s hS
      (fun i hi => List.mem_range.mp hi)
  refine ⟨m1, s1, chains1, g1, a1, a2, a3, ?_⟩
  unfold SinMap.SinHashMap.Scan
  rw [hS.related.bucket_size_eq]
  exact a4

end ShmMap

namespace ShmMap

open ShmPool

variable {K V : Type}

theorem sin_SafeFreeLoop_null (k p0 : Nat) (s : SinMap.SinHashMap K V) :
    SinMap.SinHashMap.SafeFreeLoop (k + 1) p0 0 s
      = some ({ s with garbage_list_tail := p0 } : SinMap.SinHashMap K V) := by
  rw [SinMap.SinHashMap.SafeFreeLoop, if_pos rfl]

theorem sin_SafeFreeLoop_advance (k p0 p1 : Nat) (s s1 : SinMap.SinHashMap K V)
    (it1 : SinMap.ItemNode K V) (hp : p1 ≠ 0) (hl : s.load p1 = some it1)
    (hne : it1.invalid ≠ 2)
    (hst : s.store p1 (fun i => { i with invalid := wrapInt32 (i.invalid + 1) }) = some s1) :
    SinMap.SinHashMap.SafeFreeLoop (k + 1) p0 p1 s
      = SinMap.SinHashMap.SafeFreeLoop k p1 it1.del_next s1 := by
  rw [SinMap.SinHashMap.SafeFreeLoop, if_neg hp]
  simp only [hl, hst, Option.some_bind, if_neg hne]

theorem sin_SafeFreeLoop_free (k p0 p1 : Nat) (s s1 s2 : SinMap.SinHashMap K V)
    (it1 : SinMap.ItemNode K V) (hp : p1 ≠ 0) (hl : s.load p1 = some it1)
    (h2 : it1.invalid = 2)
    (hst : s.store p1 (fun i => { i with invalid := wrapInt32 (i.invalid + 1) }) = some s1)
    (hst2 : s1.store p0 (fun i => { i with del_next := it1.del_next }) = some s2) :
    SinMap.SinHashMap.SafeFreeLoop (k + 1) p0 p1 s
      = SinMap.SinHashMap.SafeFreeLoop k p0 it1.del_next (s2.free p1) := by
  rw [SinMap.SinHashMap.SafeFreeLoop, if_neg hp]
  simp only [hl, hst, Option.some_bind, h2, if_true, hst2]

/-- One iteration of the loop of `SafeFree` on both maps, on an item in state
`COLLECTING`. -/
theorem sweep_advance_sim (φ : Nat → Nat) (chains : Nat → List Nat) (m : ShmHashMap K V)
    (s : SinMap.SinHashMap K V) (kept : List Nat) (p0 p1 : Nat) (rem : List Nat)
    (hI : m.SweepInv (kept ++ p0 :: p1 :: rem))
    (hR : Related φ chains (kept ++ p0 :: p1 :: rem) m s)
    (hdisj : ∀ b, b < m.bucket_size → ∀ x, x ∈ chains b → x ∉ kept ++ p0 :: p1 :: rem)
    (hinv : (m.item p1).invalid = COLLECTING) :
    ∃ mA sA,
      (∀ k, ShmHashMap.SafeFreeLoop (k + 1) m p0 (some p1)
        = ShmHashMap.SafeFreeLoop k mA p1 (mA.OffsetToNode (mA.item p1).del_next)) ∧
      (∀ k, SinMap.SinHashMap.SafeFreeLoop (k + 1) (φ p0) (φ p1) s
        = SinMap.SinHashMap.SafeFreeLoop k (φ p1) (ptrOf φ (mA.item p1).del_next) sA) ∧
      mA.bucket_size = m.bucket_size ∧
      mA.SweepInv ((kept ++ [p0]) ++ p1 :: rem) ∧
      Related φ chains ((kept ++ [p0]) ++ p1 :: rem) mA sA := by
  have hne2 : (m.item p1).invalid ≠ 2 := by rw [hinv]; decide
  have hw : wrapInt32 ((m.item p1).invalid + 1) = WAITING_DELETE := by rw [hinv]; decide
  have hp1in : p1 ∈ kept ++ p0 :: p1 :: rem := by simp
  have hL1 := Listed_garbage m.bucket_size chains _ p1 hp1in
  obtain ⟨nx1, hh1⟩ := hR.garbage_item p1 hp1in
  have hI2 := SweepInv_advance m _ p1
    { m.item p1 with invalid := wrapInt32 ((m.item p1).invalid + 1) } hI hp1in rfl (Or.inr hw)
  have hst := Related_store_eq φ chains _ m s hR p1 hL1 _ hh1
    (fun i => { i with invalid := wrapInt32 (i.invalid + 1) })
  have R1 := Related_store φ chains _ m s hR p1 hL1
    { m.item p1 with invalid := wrapInt32 ((m.item p1).invalid + 1) }
    { ({ itemOf φ (m.item p1) with next := nx1 } : SinMap.ItemNode K V) with
      invalid := wrapInt32 ((m.item p1).invalid + 1) }
    (fun b hb h => absurd hp1in (hdisj b hb p1 h)) (fun _ => ⟨nx1, rfl⟩)
  have hld : s.load (φ p1) = some { itemOf φ (m.item p1) with next := nx1 } := by
    unfold SinMap.SinHashMap.load
    rw [if_neg (hR.nonzero p1 hL1), hh1]
  have heq : kept ++ p0 :: p1 :: rem = (kept ++ [p0]) ++ p1 :: rem := by simp
  have key : ∃ sA, s.store (φ p1) (fun i => { i with invalid := wrapInt32 (i.invalid + 1) })
      = some sA ∧ Related φ chains (kept ++ p0 :: p1 :: rem)
        (m.setItem p1 { m.item p1 with invalid := wrapInt32 ((m.item p1).invalid + 1) }) sA :=
    ⟨_, hst, R1⟩
  obtain ⟨sA, hst, R1⟩ := key
  refine ⟨_, sA, fun k => SafeFreeLoop_advance k m p0 p1 hne2, ?_, rfl, ?_, ?_⟩
  · intro k
    rw [item_setItem_same]
    exact sin_SafeFreeLoop_advance k (φ p0) (φ p1) s sA _ (hR.nonzero p1 hL1) hld hne2 hst
  · rw [← heq]
    exact hI2
  · rw [← heq]
    exact R1

/-- One iteration of the loop of `SafeFree` on both maps, on an item in state
`WAITING_DELETE`: it leaves the garbage list and its storage is returned. -/
theorem sweep_free_sim (φ : Nat → Nat) (chains : Nat → List Nat) (m : ShmHashMap K V)
    (s : SinMap.SinHashMap K V) (kept : List Nat) (p0 p1 : Nat) (rem : List Nat)
    (hI : m.SweepInv (kept ++ p0 :: p1 :: rem))
    (hR : Related φ chains (kept ++ p0 :: p1 :: rem) m s)
    (hdisj : ∀ b, b < m.bucket_size → ∀ x, x ∈ chains b → x ∉ kept ++ p0 :: p1 :: rem)
    (hinv : (m.item p1).invalid = WAITING_DELETE) :
    ∃ m3 s3,
      (∀ k, ShmHashMap.SafeFreeLoop (k + 1) m p0 (some p1)
        = ShmHashMap.SafeFreeLoop k m3 p0 (m3.OffsetToNode (m3.item p0).del_next)) ∧
      (∀ k, SinMap.SinHashMap.SafeFreeLoop (k + 1) (φ p0) (φ p1) s
        = SinMap.SinHashMap.SafeFreeLoop k (φ p0) (ptrOf φ (m3.item p0).del_next) s3) ∧
      m3.bucket_size = m.bucket_size ∧
      m3.SweepInv (kept ++ p0 :: rem) ∧
      Related φ chains (kept ++ p0 :: rem) m3 s3 := by
  have hp1in : p1 ∈ kept ++ p0 :: p1 :: rem := by simp
  have hp0in : p0 ∈ kept ++ p0 :: p1 :: rem := by simp
  have hL1 := Listed_garbage m.bucket_size chains _ p1 hp1in
  have hL0 := Listed_garbage m.bucket_size chains _ p0 hp0in
  have hne : m.slot p0 ≠ m.slot p1 :=
    nodup_slot_ne m (kept ++ [p0]) p1 rem (by simpa using hI.nodup) p0 (by simp)
  have hnd1 : ∀ y, y ∈ (kept ++ [p0]) ++ rem → m.slot y ≠ m.slot p1 :=
    nodup_slot_ne m (kept ++ [p0]) p1 rem (by simpa using hI.nodup)
  have hRing : ((m.setItem p1
        { m.item p1 with invalid := wrapInt32 ((m.item p1).invalid + 1) }).setItem p0
      { (m.setItem p1
          { m.item p1 with invalid := wrapInt32 ((m.item p1).invalid + 1) }).item p0 with
        del_next := ((m.setItem p1
          { m.item p1 with invalid := wrapInt32 ((m.item p1).invalid + 1) }).item
            p1).del_next }).pool.RingInv := by
    rw [setItem_pool, setItem_pool]
    exact RingInv_write _ _ _ (RingInv_write _ _ _ hI.pool)
  obtain ⟨pool1, hfree, _⟩ := Free_total _ p1 hRing (hI.nodes p1 hp1in).1
  have h0 : ({ (m.setItem p1
          { m.item p1 with invalid := wrapInt32 ((m.item p1).invalid + 1) }).item p0 with
        del_next := ((m.setItem p1
          { m.item p1 with invalid := wrapInt32 ((m.item p1).invalid + 1) }).item
            p1).del_next } : ItemNode K V)
      = { m.item p0 with del_next := (m.item p1).del_next } := by
    rw [item_setItem_ne m p1 _ p0 hne, item_setItem_same]
  obtain ⟨f1, f2, _, _⟩ := free_step_facts m p0 p1 _ _ pool1 hfree
  obtain ⟨a1, _, _, _, a5, _, _, _⟩ := Free_frame _ pool1 p1 hfree
  have hI3 := SweepInv_free m kept p0 p1 rem _ _ pool1 hI h0 hfree
  obtain ⟨nx1, hh1⟩ := hR.garbage_item p1 hp1in
  have hst := Related_store_eq φ chains _ m s hR p1 hL1 _ hh1
    (fun i => { i with invalid := wrapInt32 (i.invalid + 1) })
  have R1 := Related_store φ chains _ m s hR p1 hL1
    { m.item p1 with invalid := wrapInt32 ((m.item p1).invalid + 1) }
    { ({ itemOf φ (m.item p1) with next := nx1 } : SinMap.ItemNode K V) with
      invalid := wrapInt32 ((m.item p1).invalid + 1) }
    (fun b hb h => absurd hp1in (hdisj b hb p1 h)) (fun _ => ⟨nx1, rfl⟩)
  have hld : s.load (φ p1) = some { itemOf φ (m.item p1) with next := nx1 } := by
    unfold SinMap.SinHashMap.load
    rw [if_neg (hR.nonzero p1 hL1), hh1]
  obtain ⟨nx0, hh0⟩ := R1.garbage_item p0 hp0in
  rw [item_setItem_ne m p1 _ p0 hne] at hh0
  have hst2 := Related_store_eq φ chains _ _ _ R1 p0 hL0 _ hh0
    (fun i => { i with del_next := ptrOf φ (m.item p1).del_next })
  have R2 := Related_store φ chains _ _ _ R1 p0 hL0
    { (m.setItem p1
          { m.item p1 with invalid := wrapInt32 ((m.item p1).invalid + 1) }).item p0 with
        del_next := ((m.setItem p1
          { m.item p1 with invalid := wrapInt32 ((m.item p1).invalid + 1) }).item
            p1).del_next }
    { ({ itemOf φ (m.item p0) with next := nx0 } : SinMap.ItemNode K V) with
      del_next := ptrOf φ (m.item p1).del_next }
    (fun b hb h => absurd hp0in (hdisj b hb p0 h))
    (fun _ => ⟨nx0, by rw [h0]; rfl⟩)
  have hsub : ∀ y, y ∈ kept ++ p0 :: rem → y ∈ kept ++ p0 :: p1 :: rem := by
    intro y hy
    simp only [List.mem_append, List.mem_cons] at hy ⊢
    tauto
  have R3 := Related_layout φ chains chains _ (kept ++ p0 :: rem) _ _ R2 (fun _ _ _ h => h)
    (fun y hy => Listed_garbage _ _ _ y (hsub y hy)) (fun _ => R2.gtail (by simp))
  have R4 := Related_pool φ chains _ _ _ R3 pool1 a1 a5
  have R5 := Related_heap_other φ chains _ _ _ R4 (φ p1) none (by
    intro x hx hφ
    rcases hx with ⟨b, hb, hxb⟩ | hxg
    · have hxL := Listed_chain m.bucket_size chains (kept ++ p0 :: p1 :: rem) b x hb hxb
      have := hR.inj x p1 hxL hL1 hφ
      rw [this] at hxb
      exact hdisj b hb p1 hxb hp1in
    · have hxL := Listed_garbage m.bucket_size chains _ x (hsub x hxg)
      have := hR.inj x p1 hxL hL1 hφ
      exact hnd1 x (by simpa using hxg) (by rw [this]))
  have hdel : (ShmHashMap.item ({ (m.setItem p1
          { m.item p1 with invalid := wrapInt32 ((m.item p1).invalid + 1) }).setItem p0
        { (m.setItem p1
            { m.item p1 with invalid := wrapInt32 ((m.item p1).invalid + 1) }).item p0 with
          del_next := ((m.setItem p1
            { m.item p1 with invalid := wrapInt32 ((m.item p1).invalid + 1) }).item
              p1).del_next } with pool := pool1 } : ShmHashMap K V) p0).del_next
      = (m.item p1).del_next := by
    rw [f2 p0, if_pos rfl, h0]
  have key : ∃ s1 s2, s.store (φ p1) (fun i => { i with invalid := wrapInt32 (i.invalid + 1) })
      = some s1 ∧
      s1.store (φ p0) (fun i => { i with del_next := ptrOf φ (m.item p1).del_next }) = some s2 ∧
      Related φ chains (kept ++ p0 :: rem)
        ({ (m.setItem p1
            { m.item p1 with invalid := wrapInt32 ((m.item p1).invalid + 1) }).setItem p0
          { (m.setItem p1
              { m.item p1 with invalid := wrapInt32 ((m.item p1).invalid + 1) }).item p0 with
            del_next := ((m.setItem p1
              { m.item p1 with invalid := wrapInt32 ((m.item p1).invalid + 1) }).item
                p1).del_next } with pool := pool1 } : ShmHashMap K V) (s2.free (φ p1)) :=
    ⟨_, _, hst, hst2, R5⟩
  obtain ⟨s1, s2, hst, hst2, R5⟩ := key
  refine ⟨_, s2.free (φ p1), fun k => SafeFreeLoop_free k m p0 p1 pool1 hinv hfree, ?_, rfl,
    hI3, R5⟩
  · intro k
    rw [hdel]
    exact sin_SafeFreeLoop_free k (φ p0) (φ p1) s s1 s2 _ (hR.nonzero p1 hL1) hld hinv hst hst2

/-- The loop of `SafeFree` on both maps: both return for enough fuel, in states
that stand in the relation. -/
theorem SafeFreeLoop_sim (φ : Nat → Nat) (chains : Nat → List Nat) :
    ∀ (rem kept : List Nat) (p0 : Nat) (m : ShmHashMap K V) (s : SinMap.SinHashMap K V),
      m.SweepInv (kept ++ p0 :: rem) → Related φ chains (kept ++ p0 :: rem) m s →
      (∀ b, b < m.bucket_size → ∀ x, x ∈ chains b → x ∉ kept ++ p0 :: rem) →
      ∃ m1 s1 g1, m1.GarbageWF g1 ∧ Related φ chains g1 m1 s1 ∧
        Computes (fun fuel =>
          ShmHashMap.SafeFreeLoop fuel m p0 (m.OffsetToNode (m.item p0).del_next))
          rem.length m1 ∧
        Computes (fun fuel =>
          SinMap.SinHashMap.SafeFreeLoop fuel (φ p0) (ptrOf φ (m.item p0).del_next) s)
          rem.length s1 := by
  intro rem
  induction rem with
  | nil =>
    intro kept p0 m s hI hR _
    have hlast := Chain_last_link m _ _ _ p0 hI.chain (by simp)
    have hlast1 : (m.item p0).del_next = OFFSET_NULL := hlast
    have hp0in : p0 ∈ kept ++ [p0] := by simp
    have hL0 := Listed_garbage m.bucket_size chains _ p0 hp0in
    have R1 := Related_setGarbage φ chains _ m s hR m.garbage_list_head_offset p0
      s.garbage_list_head (φ p0) hR.ghead (ptrOf_ne φ p0 (hR.ne_null p0 hL0)).symm
    refine ⟨_, _, kept ++ [p0], SweepInv_finish_garbage m kept p0 hI, R1, ?_, ?_⟩
    · rw [hlast1, OffsetToNode_NULL]
      exact Computes_const _ _ _ rfl (fun _ => rfl)
    · rw [hlast1, ptrOf_NULL]
      exact Computes_const _ _ _ rfl (fun k => sin_SafeFreeLoop_null k _ s)
  | cons p1 rem ih =>
    intro kept p0 m s hI hR hdisj
    obtain ⟨e1, e2, _⟩ :=
      Chain_suffix m (fun it => it.del_next) p0 (p1 :: rem) kept _ hI.chain
    have e3 : (m.item p0).del_next = p1 := e1
    rw [e3, e2]
    have hp1in : p1 ∈ kept ++ p0 :: p1 :: rem := by simp
    have hL1 := Listed_garbage m.bucket_size chains _ p1 hp1in
    rw [ptrOf_ne φ p1 (hR.ne_null p1 hL1)]
    rcases (hI.nodes p1 hp1in).2 with hinv | hinv
    · obtain ⟨mA, sA, s1, s2, s3, s4, s5⟩ :=
        sweep_advance_sim φ chains m s kept p0 p1 rem hI hR hdisj hinv
      obtain ⟨m1, s1', g1, k1, k2, k3, k4⟩ := ih (kept ++ [p0]) p1 mA sA s4 s5 (by
        intro b hb x hx
        rw [s3] at hb
        have := hdisj b hb x hx
        simpa using this)
      exact ⟨m1, s1', g1, k1, k2, Computes_step _ _ m1 _ rfl s1 k3,
        Computes_step _ _ s1' _ rfl s2 k4⟩
    · obtain ⟨m3, s3, s1, s2, s3', s4, s5⟩ :=
        sweep_free_sim φ chains m s kept p0 p1 rem hI hR hdisj hinv
      obtain ⟨m1, s1', g1, k1, k2, k3, k4⟩ := ih kept p0 m3 s3 s4 s5 (by
        intro b hb x hx
        rw [s3'] at hb
        have := hdisj b hb x hx
        simp only [List.mem_append, List.mem_cons, not_or] at this ⊢
        tauto)
      exact ⟨m1, s1', g1, k1, k2, Computes_step _ _ m1 _ rfl s1 k3,
        Computes_step _ _ s1' _ rfl s2 k4⟩

/-- `SafeFree` on both maps keeps the invariant. -/
theorem SafeFree_sim (φ : Nat → Nat) (chains : Nat → List Nat) (g : List Nat)
    (m : ShmHashMap K V) (s : SinMap.SinHashMap K V) (hS : Sim φ chains g m s) :
    ∃ m1 s1 g1, Sim φ chains g1 m1 s1 ∧
      (m1.bucket_size = m.bucket_size ∧ m1.pool.node_size = m.pool.node_size) ∧
      Computes (fun fuel => ShmHashMap.SafeFree fuel m) g.length m1 ∧
      Computes (fun fuel => SinMap.SinHashMap.SafeFree fuel s) g.length s1 := by
  have hR := hS.related
  obtain ⟨m1, w1, _, w3, _, _, _, wF, _, wC⟩ := SafeFree_spec m g hS.wf hS.garbage
  cases hgl : g with
  | nil =>
    have hg := hS.garbage
    rw [hgl] at hg
    have hh : m.garbage_list_head_offset = OFFSET_NULL := hg.chain
    have hsh : s.garbage_list_head = 0 := by rw [hR.ghead, hh, ptrOf_NULL]
    refine ⟨m, s, [], by rw [← hgl]; exact hS, ⟨rfl, rfl⟩, ?_, ?_⟩
    · intro fuel
      have hres : ShmHashMap.SafeFree fuel m = some m := by
        unfold ShmHashMap.SafeFree
        rw [hh, OffsetToNode_NULL]
      show (_ < fuel → ShmHashMap.SafeFree fuel m = some m) ∧
        ∀ r1, ShmHashMap.SafeFree fuel m = some r1 → r1 = m
      rw [hres]
      exact ⟨fun _ => rfl, fun r1 h1 => (Option.some.inj h1).symm⟩
    · intro fuel
      have hres : SinMap.SinHashMap.SafeFree fuel s = some s := by
        unfold SinMap.SinHashMap.SafeFree
        rw [if_pos hsh]
      show (_ < fuel → SinMap.SinHashMap.SafeFree fuel s = some s) ∧
        ∀ r1, SinMap.SinHashMap.SafeFree fuel s = some r1 → r1 = s
      rw [hres]
      exact ⟨fun _ => rfl, fun r1 h1 => (Option.some.inj h1).symm⟩
  | cons h t =>
    rw [hgl] at wC
    have hg := hS.garbage
    rw [hgl] at hg hR
    obtain ⟨e1, e2, _⟩ := hg.chain
    have hI := SweepInv_of_WF m _ hS.wf hg
    have hhin : h ∈ h :: t := List.mem_cons_self _ _
    have hL := Listed_garbage m.bucket_size chains (h :: t) h hhin
    have hph := ptrOf_ne φ h (hR.ne_null h hL)
    have hsh : s.garbage_list_head = φ h := by rw [hR.ghead, e1, hph]
    obtain ⟨nx, hheap⟩ := hR.garbage_item h hhin
    obtain ⟨m1', s1, g1, k1, k2, k3, k4⟩ := SafeFreeLoop_sim φ chains t [] h m s hI hR (by
      intro b hb x hx hxg
      rw [List.nil_append, ← hgl] at hxg
      exact chain_not_garbage m b _ g (hS.buckets b hb) hS.garbage x hx hxg)
    have hfun : (fun fuel => ShmHashMap.SafeFree fuel m)
        = (fun fuel => ShmHashMap.SafeFreeLoop fuel m h (m.OffsetToNode (m.item h).del_next)) := by
      funext fuel
      unfold ShmHashMap.SafeFree
      rw [e1, e2]
    have hsfun : (fun fuel => SinMap.SinHashMap.SafeFree fuel s)
        = (fun fuel => SinMap.SinHashMap.SafeFreeLoop fuel (φ h)
            (ptrOf φ (m.item h).del_next) s) := by
      funext fuel
      unfold SinMap.SinHashMap.SafeFree SinMap.SinHashMap.load
      rw [hsh, if_neg (hR.nonzero h hL), if_neg (hR.nonzero h hL), hheap]
      rfl
    have hC : Computes (fun fuel => ShmHashMap.SafeFree fuel m) (h :: t).length m1' := by
      rw [hfun]
      exact Computes_mono _ _ _ _ (by simp) k3
    have hCs : Computes (fun fuel => SinMap.SinHashMap.SafeFree fuel s) (h :: t).length s1 := by
      rw [hsfun]
      exact Computes_mono _ _ _ _ (by simp) k4
    have e : m1' = m1 := (wC ((h :: t).length + 1)).2 m1'
      ((hC ((h :: t).length + 1)).1 (Nat.lt_succ_self _))
    subst e
    refine ⟨m1', s1, g1, ⟨w1, ?_, k1, k2⟩, ⟨wF.bucket_size_eq, wF.node_size_eq⟩, hC, hCs⟩
    intro b hb
    rw [wF.bucket_size_eq] at hb
    exact w3 b _ (hS.buckets b hb)

end ShmMap

namespace ShmMap

open ShmPool

variable {K V : Type}

/-- The invariant after the store to `_gc_timestamp` on both maps. -/
theorem Sim_gc_timestamp (φ : Nat → Nat) (chains : Nat → List Nat) (g : List Nat)
    (m : ShmHashMap K V) (s : SinMap.SinHashMap K V) (hS : Sim φ chains g m s) (t : Nat) :
    Sim φ chains g ({ m with gc_timestamp := t } : ShmHashMap K V)
      ({ s with gc_timestamp := t } : SinMap.SinHashMap K V) :=
  ⟨WF_gc_timestamp m t hS.wf,
    fun b hb => BucketWF_congr m ({ m with gc_timestamp := t } : ShmHashMap K V) b _
      rfl rfl rfl rfl rfl (fun _ _ => ⟨rfl, rfl, rfl, rfl, rfl⟩) (hS.buckets b hb),
    GarbageWF_congr m ({ m with gc_timestamp := t } : ShmHashMap K V) g
      rfl rfl rfl rfl (fun _ _ => ⟨rfl, rfl, rfl⟩) hS.garbage,
    Related_gc_timestamp φ chains g m s hS.related t⟩

/-- `GC` on both maps: both return for enough fuel, in states that stand in the
invariant. -/
theorem GC_sim (φ : Nat → Nat) (chains : Nat → List Nat) (g : List Nat)
    (m : ShmHashMap K V) (s : SinMap.SinHashMap K V) (hS : Sim φ chains g m s) (now : Int) :
    ∃ m1 s1 chains1 g1, Sim φ chains1 g1 m1 s1 ∧
      Computes (fun fuel => m.GC fuel now) m.pool.node_size m1 ∧
      Computes (fun fuel => s.GC fuel now) m.pool.node_size s1 := by
  by_cases hgate : (((m.gc_timestamp + 2) % 4294967296 : Nat) : Int) < now
  · have hsgate : (((s.gc_timestamp + 2) % 4294967296 : Nat) : Int) < now := by
      rw [hS.related.gc_eq]
      exact hgate
    obtain ⟨m1, s1, chains1, g1, a1, a2, a3, a4⟩ :=
      Scan_sim φ chains g _ _ (Sim_gc_timestamp φ chains g m s hS (now % 4294967296).toNat) now
    obtain ⟨m2, s2, g2, b1, _, b3, b4⟩ := SafeFree_sim φ chains1 g1 m1 s1 a1
    have hle := GarbageWF_length_le m1 _ a1.garbage
    rw [a2.2] at hle
    refine ⟨m2, s2, chains1, g2, b1, ?_, ?_⟩
    · have hfun : (fun fuel => m.GC fuel now)
          = (fun fuel => (ShmHashMap.Scan fuel now
              ({ m with gc_timestamp := (now % 4294967296).toNat } : ShmHashMap K V)).bind
                (fun x => (fun y fuel => ShmHashMap.SafeFree fuel y) x fuel)) := by
        funext fuel
        unfold ShmHashMap.GC
        simp only [hgate, if_true]
        cases ShmHashMap.Scan fuel now
          ({ m with gc_timestamp := (now % 4294967296).toNat } : ShmHashMap K V) <;> rfl
      rw [hfun]
      exact Computes_bind _ _ m1 m2 _ a3 (Computes_mono _ _ _ _ hle b3)
    · have hfun : (fun fuel => s.GC fuel now)
          = (fun fuel => (SinMap.SinHashMap.Scan fuel now
              ({ s with gc_timestamp := (now % 4294967296).toNat } :
                SinMap.SinHashMap K V)).bind
                (fun x => (fun y fuel => SinMap.SinHashMap.SafeFree fuel y) x fuel)) := by
        funext fuel
        unfold SinMap.SinHashMap.GC
        simp only [hsgate, if_true]
      rw [hfun]
      exact Computes_bind _ _ s1 s2 _ a4 (Computes_mono _ _ _ _ hle b4)
  · have hsgate : ¬ (((s.gc_timestamp + 2) % 4294967296 : Nat) : Int) < now := by
      rw [hS.related.gc_eq]
      exact hgate
    refine ⟨m, s, chains, g, hS, ?_, ?_⟩
    · intro fuel
      have hres : m.GC fuel now = some m := by
        unfold ShmHashMap.GC
        simp only [hgate, if_false]
      show (_ < fuel → m.GC fuel now = some m) ∧ ∀ r1, m.GC fuel now = some r1 → r1 = m
      rw [hres]
      exact ⟨fun _ => rfl, fun r1 h1 => (Option.some.inj h1).symm⟩
    · intro fuel
      have hres : s.GC fuel now = some s := by
        unfold SinMap.SinHashMap.GC
        simp only [hsgate, if_false]
      show (_ < fuel → s.GC fuel now = some s) ∧ ∀ r1, s.GC fuel now = some r1 → r1 = s
      rw [hres]
      exact ⟨fun _ => rfl, fun r1 h1 => (Option.some.inj h1).symm⟩

/-- The two maps stand in the invariant when they are constructed with the same
hash function, bucket count and content of `_gc_timestamp`. -/
theorem Sim_construct (HashCode : K → Nat) (N S D : Nat) (zero : ItemNode K V)
    (B ts : Nat) (hN : N + 2 < 4294967296) (hD1 : 1 < D) (hD2 : D < S) :
    Sim (fun _ => 0) (fun _ => []) []
      (ShmHashMap.construct HashCode (MemoryPool.construct N S D zero) B ts)
      (SinMap.SinHashMap.construct HashCode (B : Int) ts) := by
  refine ⟨WF_construct HashCode N S D zero B ts hN hD1 hD2,
    fun b _ => BucketWF_construct _ _ _ _ b, GarbageWF_construct _ _ _ _, ?_⟩
  have hL : ∀ (n : Nat) (x : Nat), ¬ Listed n (fun _ => ([] : List Nat)) [] x := by
    intro n x h
    rcases h with ⟨b, _, hx⟩ | hx
    · cases hx
    · cases hx
  refine ⟨?_, rfl, rfl, ?_, ?_, fun h => absurd rfl h, ?_, ?_, ?_, ?_, ?_, ?_⟩
  · show (if (B : Int) ≤ 0 then 1024 else (B : Int).toNat)
      = (if B = 0 then DEBFAULT_BUCKET_SIZE else B)
    by_cases h0 : B = 0
    · subst h0
      rfl
    · rw [if_neg h0, if_neg (by omega)]
      exact Int.toNat_ofNat B
  · intro b _
    show ({ count := 0, head := 0, tail := 0 } : SinMap.BucketItem)
      = { count := wrapInt32 ((0 : Nat) : Int), head := ptrOf (fun _ => 0) OFFSET_NULL,
          tail := ptrOf (fun _ => 0) OFFSET_NULL }
    rw [ptrOf_NULL]
    rfl
  · show (0 : Nat) = ptrOf (fun _ => 0) OFFSET_NULL
    rw [ptrOf_NULL]
  · intro b _ x hx
    cases hx
  · intro x hx
    cases hx
  · intro x hx
    exact absurd hx (hL _ x)
  · intro x hx
    exact absurd hx (hL _ x)
  · intro x y hx
    exact absurd hx (hL _ x)
  · intro x y hx
    exact absurd hx (hL _ x)

variable [DecidableEq K]

/-- Every pair of states of a lockstep run of the two maps stands in the
invariant. -/
theorem PairRun_Sim (m0 m : ShmHashMap K V) (s0 s : SinMap.SinHashMap K V)
    (φ0 : Nat → Nat) (chains0 : Nat → List Nat) (g0 : List Nat)
    (h0 : Sim φ0 chains0 g0 m0 s0) (h : PairRun m0 s0 m s) :
    ∃ φ chains g, Sim φ chains g m s := by
  induction h with
  | init => exact ⟨φ0, chains0, g0, h0⟩
  | insert m m1 s s1 fuel fuel1 fresh key value expire now _ hI hIs ih =>
    obtain ⟨φ, chains, g, hS⟩ := ih
    obtain ⟨φ1, chains1, hS1⟩ :=
      (Insert_sim φ chains g m s hS key value expire now fuel m1 hI fresh).1 fuel1 s1 hIs
    exact ⟨φ1, chains1, g, hS1⟩
  | get m s s1 fuel fuel1 key now r r1 v1 _ _ hGs ih =>
    obtain ⟨φ, chains, g, hS⟩ := ih
    obtain ⟨_, r2, v, _, _, hc⟩ :=
      Get_related φ chains g m s hS.related hS.buckets hS.wf.bucket_pos key now
    have e := (hc fuel1).2 _ hGs
    have e1 : s1 = s := (Prod.mk.inj (Prod.mk.inj e).2).2
    rw [e1]
    exact ⟨φ, chains, g, hS⟩
  | gc m m1 s s1 fuel fuel1 now _ hG hGs ih =>
    obtain ⟨φ, chains, g, hS⟩ := ih
    obtain ⟨m2, s2, chains1, g1, hS1, c1, c2⟩ := GC_sim φ chains g m s hS now
    have e1 : m1 = m2 := (c1 fuel).2 m1 hG
    have e2 : s1 = s2 := (c2 fuel1).2 s1 hGs
    rw [e1, e2]
    exact ⟨φ, chains1, g1, hS1⟩

end ShmMap

namespace ShmMap

open ShmPool

/-- C32: run a fresh `ShmHashMap` and a fresh `SinHashMap` side by side, built with
the same hash function, bucket count and content of `_gc_timestamp`, through any
sequence of sequential `Insert`, `Get` and `GC` calls with the same arguments at
the same times, in which every `Insert` of the `ShmHashMap` returns `RET_OK` (its
pool never returns `NULL`). Then in the pair of states reached: `GetCount` returns
the same number on both maps; for every key and time, `Get` returns on both maps
for enough fuel, with the same result code and the same value whatever the fuel,
and leaves the `SinHashMap` as it was; an `Insert` that returns `RET_OK` on the
`ShmHashMap` returns on the `SinHashMap` as well, whenever `Allocate` hands out
storage that is not in use; and `GC` returns on both maps. -/
theorem sin_shm_same_results {K V : Type} [DecidableEq K] (HashCode : K → Nat) (N S D : Nat)
    (zero : ItemNode K V) (B ts : Nat) (hN : N + 2 < 4294967296) (hD1 : 1 < D) (hD2 : D < S)
    (m : ShmHashMap K V) (s : SinMap.SinHashMap K V)
    (h : PairRun (ShmHashMap.construct HashCode (MemoryPool.construct N S D zero) B ts)
      (SinMap.SinHashMap.construct HashCode (B : Int) ts) m s) :
    s.GetCount = m.GetCount ∧
    (∀ (key : K) (now : Int),
      ∃ (r : SinHashRet) (r1 : SinMap.SinHashRet) (v : Option V) (n : Nat),
        SinMap.retCode r1 = retCode r ∧
        Computes (fun fuel => m.Get fuel key now) n (r, v) ∧
        Computes (fun fuel => s.Get fuel key now) n (r1, v, s)) ∧
    (∀ (key : K) (value : V) (expire now : Int) (fuel : Nat) (m1 : ShmHashMap K V),
      m.Insert fuel key value expire now = some (SinHashRet.RET_OK, m1) →
      ∀ fresh, fresh ≠ 0 → s.heap fresh = none →
        ∃ n, ∀ fuel1, n < fuel1 →
          ∃ s1, s.Insert fuel1 fresh key value expire now = some s1) ∧
    (∀ (now : Int), ∃ (m1 : ShmHashMap K V) (s1 : SinMap.SinHashMap K V) (n : Nat),
      Computes (fun fuel => m.GC fuel now) n m1 ∧
      Computes (fun fuel => s.GC fuel now) n s1) := by
  obtain ⟨φ, chains, g, hS⟩ := PairRun_Sim _ m _ s _ _ _
    (Sim_construct HashCode N S D zero B ts hN hD1 hD2) h
  refine ⟨Related_GetCount φ chains g m s hS.related, ?_, ?_, ?_⟩
  · intro key now
    obtain ⟨r, r1, v, e, c1, c2⟩ :=
      Get_related φ chains g m s hS.related hS.buckets hS.wf.bucket_pos key now
    exact ⟨r, r1, v, _, e, c1, c2⟩
  · intro key value expire now fuel m1 hI fresh hf0 hfn
    exact ⟨_, (Insert_sim φ chains g m s hS key value expire now fuel m1 hI fresh).2 hf0 hfn⟩
  · intro now
    obtain ⟨m1, s1, _, _, _, c1, c2⟩ := GC_sim φ chains g m s hS now
    exact ⟨m1, s1, _, c1, c2⟩

theorem sin_shm_same_results_witness :
    ∃ (m : ShmHashMap Nat Nat) (s : SinMap.SinHashMap Nat Nat),
      PairRun scenarioMap (SinMap.SinHashMap.construct (fun k => k) 4 0) m s ∧
      m.GetCount = 1 ∧ s.GetCount = 1 ∧
      m.Get 5 7 5 = some (SinHashRet.RET_OK, some 7) ∧
      s.Get 5 7 5 = some (SinMap.SinHashRet.RET_OK, some 7, s) := by
  have h1 : (scenarioMap.Insert 5 7 7 0 0).isSome = true := by decide
  obtain ⟨p, hp⟩ := Option.isSome_iff_exists.mp h1
  have h2 : (scenarioMap.Insert 5 7 7 0 0).map (fun p => p.1) = some SinHashRet.RET_OK := by
    decide
  have h3 : (scenarioMap.Insert 5 7 7 0 0).bind (fun p => p.2.Get 5 7 5)
      = some (SinHashRet.RET_OK, some 7) := by decide
  have h4 : (scenarioMap.Insert 5 7 7 0 0).map (fun p => p.2.GetCount) = some 1 := by decide
  rw [hp] at h2 h3 h4
  simp only [Option.map_some', Option.some.injEq, Option.some_bind] at h2 h3 h4
  have hp1 : scenarioMap.Insert 5 7 7 0 0 = some (SinHashRet.RET_OK, p.2) := by
    rw [hp, ← h2]
  have k1 : ((SinMap.SinHashMap.construct (fun k => k) 4 0 :
      SinMap.SinHashMap Nat Nat).Insert 5 100 7 7 0 0).isSome = true := by decide
  obtain ⟨s, hs⟩ := Option.isSome_iff_exists.mp k1
  have k3 : (((SinMap.SinHashMap.construct (fun k => k) 4 0 :
      SinMap.SinHashMap Nat Nat).Insert 5 100 7 7 0 0).bind (fun m => m.Get 5 7 5)).isSome
        = true := by decide
  rw [hs] at k3
  simp only [Option.some_bind] at k3
  obtain ⟨q, hq⟩ := Option.isSome_iff_exists.mp k3
  have hrun : PairRun scenarioMap (SinMap.SinHashMap.construct (fun k => k) 4 0) p.2 s :=
    PairRun.insert scenarioMap p.2 _ s 5 5 100 7 7 0 0 PairRun.init hp1 hs
  have hthm := @sin_shm_same_results Nat Nat _ (fun k => k) 16 40 8
    { next := 0, key := 0, value := 0, expire := 0, invalid := 0, del_next := 0 } 4 0
    (by norm_num) (by norm_num) (by norm_num) p.2 s hrun
  obtain ⟨r, r1, v, n, e, c1, c2⟩ := hthm.2.1 7 5
  have e1 := (c1 5).2 _ h3
  have e2 := (c2 5).2 _ hq
  cases e1
  have hr1 : r1 = SinMap.SinHashRet.RET_OK := by
    cases r1
    · rfl
    · exact absurd e (by decide)
  refine ⟨p.2, s, hrun, h4, ?_, h3, ?_⟩
  · rw [hthm.1]
    exact h4
  · rw [hq, e2, hr1]

end ShmMap
